import Mathlib

/-! # The device-mapper report engine (`libdm/libdm-report.c`)

A shallow embedding of the field-list and sort-key resolution, the row builder, the row
comparator and the output path of `libdm-report.c`, followed by the properties proved of them.

Conventions of the embedding.

* A C string is the list of its characters up to, not including, the terminating NUL.
* A pointer into a C string is the list of the characters from that position on.
* Pointers to objects (`void *object`, the result of `data_fn`, `private`) are addresses,
  `0` being `NULL`.
* The intrusive lists `dm_list` are lists: `dm_list_add` appends at the tail, `dm_list_add_h`
  inserts at the head.
* A function that returns `int 0` / `NULL` on failure and mutates the handle on the way returns
  an `Option` of the new handle.
* Where a run can leave defined behaviour (a `NULL` pointer is dereferenced, an array is
  indexed out of bounds) the result is wrapped in one more `Option`, `none` standing for
  such a run.
* Pool allocations succeed.
-/

namespace DmReport

/-- A NUL-terminated C string: the characters before the terminator. -/
abbrev cstr := List Char

/-! ## Constants -/

/-- Constants of the public header `libdevmapper.h`. The header is not part of the sources at
hand, so the values are parameters of every function that uses one of them. -/
structure libdevmapper_h where
  DM_REPORT_FIELD_MASK : Nat
  DM_REPORT_FIELD_ALIGN_MASK : Nat
  DM_REPORT_FIELD_ALIGN_LEFT : Nat
  DM_REPORT_FIELD_ALIGN_RIGHT : Nat
  DM_REPORT_FIELD_TYPE_NUMBER : Nat
  DM_REPORT_FIELD_TYPE_SIZE : Nat
  DM_REPORT_OUTPUT_MASK : Nat
  DM_REPORT_OUTPUT_ALIGNED : Nat
  DM_REPORT_OUTPUT_BUFFERED : Nat
  DM_REPORT_OUTPUT_HEADINGS : Nat
  DM_REPORT_OUTPUT_FIELD_NAME_PREFIX : Nat
  DM_REPORT_OUTPUT_FIELD_UNQUOTED : Nat
  DM_REPORT_OUTPUT_COLUMNS_AS_ROWS : Nat
  DM_REPORT_FIELD_TYPE_MASK : Nat
  DM_REPORT_FIELD_TYPE_STRING : Nat
  DM_REPORT_FIELD_RESERVED_NAME_HELP : cstr
  DM_REPORT_FIELD_RESERVED_NAME_HELP_ALT : cstr

def RH_SORT_REQUIRED : Nat := 0x00000100
def RH_HEADINGS_PRINTED : Nat := 0x00000200

def REPORT_TYPES_ALL : Nat := 4294967295

def FLD_HIDDEN : Nat := 0x00000100
def FLD_SORT_KEY : Nat := 0x00000200
def FLD_ASCENDING : Nat := 0x00000400
def FLD_DESCENDING : Nat := 0x00000800

/-! ## Registry and session -/

/-- The `struct dm_report_object_type` of one registry entry. `pfx` is the member `prefix`;
`data_fn` maps the address of the reported object to the base address of the data of this
type, `0` when the object has none. -/
structure dm_report_object_type where
  id : Nat
  desc : cstr
  pfx : cstr
  data_fn : Nat → Nat

/-- The raw sort value a render function leaves behind `sort_value`: a 64-bit unsigned
magnitude or a string. -/
inductive sort_value_t where
  | num (n : Nat)
  | str (s : cstr)
  deriving DecidableEq

/-- The `struct dm_report_field_type` of one registry entry. `report_fn` receives the address of
the located data and the caller's private pointer; `none` is the return value `0`, otherwise
it yields the `report_string` and the `sort_value` it stored in the field. -/
structure dm_report_field_type where
  type : Nat
  flags : Nat
  offset : Nat
  width : Int
  id : cstr
  heading : cstr
  report_fn : Nat → Nat → Option (cstr × sort_value_t)
  desc : cstr

/-- The `struct field_properties` of one selection; `type` is `none` while the pointer is
`NULL`. -/
structure field_properties where
  field_num : Nat
  sort_posn : Nat
  width : Int
  type : Option dm_report_object_type
  flags : Nat

/-- The `struct dm_report_field` of one cell; `props` is the position of the selection it points
to in the list `field_props` of the handle. -/
structure dm_report_field where
  props : Nat
  report_string : cstr
  sort_value : sort_value_t
  deriving DecidableEq

/-- The `struct row`. `sort_fields` is `none` while the array is not allocated; an entry of
the array is `none` while it is `NULL`. -/
structure row where
  fields : List dm_report_field
  sort_fields : Option (List (Option dm_report_field))
  deriving DecidableEq

/-- The `struct dm_report`. The arrays `fields` and `types` are held without their terminating
entry. -/
structure dm_report where
  report_types : Nat
  output_field_name_prefix : Option cstr
  field_prefix : cstr
  flags : Nat
  separator : cstr
  keys_count : Nat
  field_props : List field_properties
  rows : List row
  fields : List dm_report_field_type
  types : List dm_report_object_type
  private_data : Nat

/-! ## C library -/

/-- The function `tolower` of the C locale, on the value of the character. -/
def c_tolower (c : Char) : Int := (Char.toLower c).toNat

/-- The function `strncasecmp`. -/
def strncasecmp : cstr → cstr → Nat → Int
  | _, _, 0 => 0
  | [], [], _ + 1 => 0
  | [], b :: _, _ + 1 => 0 - c_tolower b
  | a :: _, [], _ + 1 => c_tolower a
  | a :: s1, b :: s2, n + 1 =>
    if c_tolower a = c_tolower b then strncasecmp s1 s2 n else c_tolower a - c_tolower b

/-- The function `strcmp`: the difference of the first two characters that differ. -/
def strcmp : cstr → cstr → Int
  | [], [] => 0
  | [], b :: _ => 0 - (b.toNat : Int)
  | a :: _, [] => (a.toNat : Int)
  | a :: s1, b :: s2 => if a = b then strcmp s1 s2 else (a.toNat : Int) - (b.toNat : Int)

/-- The conversion `(int)` of a `size_t`. -/
def int_of_size (n : Nat) : Int :=
  if n % 4294967296 < 2147483648 then (n % 4294967296 : Nat) else (n % 4294967296 : Nat) - 4294967296

/-! ## Initialise report handle -/

def _find_type (rh : dm_report) (report_type : Nat) : Option dm_report_object_type :=
  rh.types.find? (fun t => t.id == report_type)

def _copy_field (H : libdevmapper_h) (rh : dm_report) (dest : field_properties)
    (field_num : Nat) : Option field_properties :=
  match rh.fields[field_num]? with
  | none => none
  | some ft =>
    match _find_type rh ft.type with
    | none => none
    | some t =>
      some { dest with
        field_num := field_num
        width := ft.width
        flags := ft.flags &&& H.DM_REPORT_FIELD_MASK
        type := some t }

/-- The function `_add_field`: the new handle and the position of the new selection, `none`
for `NULL`. -/
def _add_field (H : libdevmapper_h) (rh : dm_report) (field_num : Nat) (flags : Nat) :
    Option (dm_report × Nat) :=
  match _copy_field H rh ⟨0, 0, 0, none, 0⟩ field_num with
  | none => none
  | some fp0 =>
    let fp : field_properties := { fp0 with flags := fp0.flags ||| flags }
    if fp.flags &&& FLD_HIDDEN ≠ 0 then
      some ({ rh with field_props := fp :: rh.field_props }, 0)
    else
      some ({ rh with field_props := rh.field_props ++ [fp] }, rh.field_props.length)

/-- The function `_is_same_field`: `name1` against `name2` or the report's field name start plus
`name2`; `name2` is a pointer into the list being parsed and `len2` the length of the
name. -/
def _is_same_field (name1 name2 : cstr) (len2 : Nat) (pfx : cstr) : Bool :=
  if strncasecmp name1 name2 len2 == 0 && name1.length == len2 then true
  else
    strncasecmp pfx name1 pfx.length == 0 &&
      strncasecmp (name1.drop pfx.length) name2 len2 == 0 &&
      name1.length == pfx.length + len2

/-- The condition under which the loop of `_all_match` adds the id of the type `t`. -/
def _all_match_type (t : dm_report_object_type) (field : cstr) (flen : Nat)
    (unprefixed_all_matched : Bool) : Bool :=
  strncasecmp t.pfx field t.pfx.length == 0 &&
    ((unprefixed_all_matched && flen == t.pfx.length) ||
      (strncasecmp (field.drop t.pfx.length) ['a', 'l', 'l'] 3 == 0 &&
        flen == t.pfx.length + 3))

/-- The loop of `_all_match` over the object types. -/
def _all_match_loop (field : cstr) (flen : Nat) (unprefixed_all_matched : Bool) :
    List dm_report_object_type → Nat → Nat
  | [], report_types => report_types
  | t :: ts, report_types =>
    _all_match_loop field flen unprefixed_all_matched ts
      (if _all_match_type t field flen unprefixed_all_matched then report_types ||| t.id
       else report_types)

def _all_match (rh : dm_report) (field : cstr) (flen : Nat) : Nat :=
  if strncasecmp field ['a', 'l', 'l'] 3 == 0 && flen == 3 then
    if rh.field_prefix.length = 0 then
      (if rh.report_types ≠ 0 then rh.report_types else REPORT_TYPES_ALL)
    else
      _all_match_loop rh.field_prefix rh.field_prefix.length true rh.types rh.report_types
  else
    _all_match_loop field flen false rh.types 0

/-- The loop of `_add_all_fields`, from field number `f` on. -/
def _add_all_fields_loop (H : libdevmapper_h) (type : Nat) :
    List dm_report_field_type → Nat → dm_report → Option dm_report
  | [], _, rh => some rh
  | ft :: fts, f, rh =>
    if ft.type &&& type ≠ 0 then
      match _add_field H rh f 0 with
      | none => none
      | some (rh1, _) => _add_all_fields_loop H type fts (f + 1) rh1
    else _add_all_fields_loop H type fts (f + 1) rh

def _add_all_fields (H : libdevmapper_h) (rh : dm_report) (type : Nat) : Option dm_report :=
  _add_all_fields_loop H type rh.fields 0 rh

/-- The loop `for (f = 0; rh->fields[f].report_fn; f++) if (_is_same_field(...))` of
`_field_match` and `_key_match`: the first field number whose id is the name. -/
def _same_field_loop (field : cstr) (flen : Nat) (pfx : cstr) :
    List dm_report_field_type → Nat → Option Nat
  | [], _ => none
  | ft :: fts, f =>
    if _is_same_field ft.id field flen pfx then some f
    else _same_field_loop field flen pfx fts (f + 1)

def _field_match (H : libdevmapper_h) (rh : dm_report) (field : cstr) (flen : Nat)
    (report_type_only : Bool) : Option dm_report :=
  if flen = 0 then none
  else
    match _same_field_loop field flen rh.field_prefix rh.fields 0 with
    | some f =>
      if report_type_only then
        match rh.fields[f]? with
        | none => none
        | some ft => some { rh with report_types := rh.report_types ||| ft.type }
      else
        match _add_field H rh f 0 with
        | none => none
        | some (rh1, _) => some rh1
    | none =>
      if _all_match rh field flen ≠ 0 then
        if report_type_only then
          some { rh with report_types := rh.report_types ||| _all_match rh field flen }
        else _add_all_fields H rh (_all_match rh field flen)
      else none

/-- The tail of `_add_sort_key` once `found` is not `NULL`: `found` is the position of the
selection. -/
def _add_sort_key_found (rh : dm_report) (found : Nat) (flags : Nat) : Option dm_report :=
  match rh.field_props[found]? with
  | none => none
  | some fp =>
    if fp.flags &&& FLD_SORT_KEY ≠ 0 then some rh
    else
      some { rh with
        field_props := rh.field_props.set found
          { fp with
            flags := (fp.flags ||| FLD_SORT_KEY) ||| flags
            sort_posn := rh.keys_count }
        keys_count := rh.keys_count + 1 }

def _add_sort_key (H : libdevmapper_h) (rh : dm_report) (field_num : Nat) (flags : Nat)
    (report_type_only : Bool) : Option dm_report :=
  match rh.field_props.findIdx? (fun fp => fp.field_num == field_num) with
  | none =>
    if report_type_only then
      match rh.fields[field_num]? with
      | none => none
      | some ft => some { rh with report_types := rh.report_types ||| ft.type }
    else
      match _add_field H rh field_num FLD_HIDDEN with
      | none => none
      | some (rh1, found) => _add_sort_key_found rh1 found flags
  | some found =>
    if report_type_only then some rh else _add_sort_key_found rh found flags

def _key_match (H : libdevmapper_h) (rh : dm_report) (key : cstr) (len : Nat)
    (report_type_only : Bool) : Option dm_report :=
  if len = 0 then none
  else
    let stripped : cstr × Nat × Nat :=
      if key.head? = some '+' then (key.tail, len - 1, FLD_ASCENDING)
      else if key.head? = some '-' then (key.tail, len - 1, FLD_DESCENDING)
      else (key, len, FLD_ASCENDING)
    if stripped.2.1 = 0 then none
    else
      match _same_field_loop stripped.1 stripped.2.1 rh.field_prefix rh.fields 0 with
      | some f => _add_sort_key H rh f stripped.2.2 report_type_only
      | none => none

/-- The loop over the fields in `_display_fields`, which writes the catalog of the fields
through `log_warn`. The text is not followed, only whether the run stays defined: `none`
stands for a run that leaves defined behaviour. For every field the function looks the object
type up with `_find_type`. For a field whose type is not registered `type` is `NULL` and
`desc` points to the literal `" "`, unlike `last_desc`, which points to the literal `""` or
to the `desc` of a registry type, so the heading of a section is written and `type->prefix`
is read through `NULL`. (`desc` of a registry type is held as a string, never `NULL`.) -/
def _display_fields_loop (rh : dm_report) : List dm_report_field_type → Option Unit
  | [] => some ()
  | ft :: rest =>
    match _find_type rh ft.type with
    | none => none
    | some _ => _display_fields_loop rh rest

/-- The function `_display_fields`, as far as `_display_fields_loop` follows it. -/
def _display_fields (rh : dm_report) : Option Unit :=
  _display_fields_loop rh rh.fields

/-- The loop of `_parse_fields`, `we` being the word end. Every round consumes a character, so
a fuel above the length of `we` is never used up. The outer `none` stands for a run that
leaves defined behaviour, in `_display_fields`; `some none` is the return value 0, after the
catalog of the fields is displayed; `some (some rh)` is the return value 1, with the handle
as the function leaves it. The lines the function hands to the log are followed in
`_parse_fields_log_loop`. -/
def _parse_fields_loop (H : libdevmapper_h) (report_type_only : Bool) :
    Nat → dm_report → cstr → Option (Option dm_report)
  | 0, _, _ => none
  | fuel + 1, rh, we =>
    if we = [] then some (some rh)
    else
      let ws := we.dropWhile (fun c => c == ',')
      let we1 := ws.dropWhile (fun c => c != ',')
      match _field_match H rh ws (ws.length - we1.length) report_type_only with
      | none =>
        match _display_fields rh with
        | none => none
        | some _ => some none
      | some rh1 => _parse_fields_loop H report_type_only fuel rh1 we1

/-- The function `_parse_fields`, with the results of `_parse_fields_loop`. -/
def _parse_fields (H : libdevmapper_h) (rh : dm_report) (format : cstr)
    (report_type_only : Bool) : Option (Option dm_report) :=
  _parse_fields_loop H report_type_only (format.length + 1) rh format

/-- The loop of `_parse_keys`, as `_parse_fields_loop`; its log lines are followed in
`_parse_keys_log_loop`. -/
def _parse_keys_loop (H : libdevmapper_h) (report_type_only : Bool) :
    Nat → dm_report → cstr → Option (Option dm_report)
  | 0, _, _ => none
  | fuel + 1, rh, we =>
    if we = [] then some (some rh)
    else
      let ws := we.dropWhile (fun c => c == ',')
      let we1 := ws.dropWhile (fun c => c != ',')
      match _key_match H rh ws (ws.length - we1.length) report_type_only with
      | none =>
        match _display_fields rh with
        | none => none
        | some _ => some none
      | some rh1 => _parse_keys_loop H report_type_only fuel rh1 we1

/-- The function `_parse_keys`, with the results of `_parse_keys_loop`; `keys` is `none` for
`NULL`. -/
def _parse_keys (H : libdevmapper_h) (rh : dm_report) (keys : Option cstr)
    (report_type_only : Bool) : Option (Option dm_report) :=
  match keys with
  | none => some (some rh)
  | some k => _parse_keys_loop H report_type_only (k.length + 1) rh k

/-- The flags of the handle that `dm_report_init` derives from `output_flags`. -/
def init_flags (H : libdevmapper_h) (output_flags : Nat) : Nat :=
  let f0 := output_flags &&& H.DM_REPORT_OUTPUT_MASK
  let f1 :=
    if output_flags &&& H.DM_REPORT_OUTPUT_COLUMNS_AS_ROWS ≠ 0 then
      let g := if output_flags &&& H.DM_REPORT_OUTPUT_BUFFERED = 0 then
        f0 ||| H.DM_REPORT_OUTPUT_BUFFERED else f0
      if output_flags &&& H.DM_REPORT_OUTPUT_ALIGNED ≠ 0 then
        g &&& (4294967295 ^^^ H.DM_REPORT_OUTPUT_ALIGNED) else g
    else f0
  if output_flags &&& H.DM_REPORT_OUTPUT_BUFFERED ≠ 0 then f1 ||| RH_SORT_REQUIRED else f1

/-- The handle of `dm_report_init` right before the field lists are parsed. `report_types` is
`none` when the caller passes `NULL`. -/
def init_handle (H : libdevmapper_h) (report_types : Option Nat)
    (types : List dm_report_object_type) (fields : List dm_report_field_type)
    (output_separator : cstr) (output_flags : Nat) (private_data : Nat) : dm_report :=
  let rh0 : dm_report :=
    { report_types := report_types.getD 0
      output_field_name_prefix := none
      field_prefix := []
      flags := init_flags H output_flags
      separator := output_separator
      keys_count := 0
      field_props := []
      rows := []
      fields := fields
      types := types
      private_data := private_data }
  match _find_type rh0 rh0.report_types with
  | some t => { rh0 with field_prefix := t.pfx }
  | none => rh0

/-- The function `dm_report_init`. The outer `none` stands for a run that leaves defined
behaviour, in `_display_fields`; `some none` is the return value `NULL`; `some (some rh)` is
the handle returned. The value written back through `report_types` is the `report_types` of
the handle returned. -/
def dm_report_init (H : libdevmapper_h) (report_types : Option Nat)
    (types : List dm_report_object_type) (fields : List dm_report_field_type)
    (output_fields : cstr) (output_separator : cstr) (output_flags : Nat)
    (sort_keys : Option cstr) (private_data : Nat) : Option (Option dm_report) :=
  let rh := init_handle H report_types types fields output_separator output_flags private_data
  match _parse_fields H rh output_fields true with
  | none => none
  | some none => some none
  | some (some rh1) =>
    match _parse_keys H rh1 sort_keys true with
    | none => none
    | some none => some none
    | some (some rh2) =>
      match _parse_fields H rh2 output_fields false with
      | none => none
      | some none => some none
      | some (some rh3) => _parse_keys H rh3 sort_keys false

/-! ## Create a row of data for an object

From here on a result is wrapped in `Option`: `none` stands for a run that leaves defined
behaviour (a `NULL` pointer is dereferenced, an array is indexed out of bounds), which the
embedding does not follow any further. -/

/-- What a call leaves behind: the `int` it returns, the lines it handed to `log_print`, and
the handle (`none` for `NULL`). -/
structure outcome where
  ret : Int
  printed : List cstr
  rh : Option dm_report

/-- The function `_report_get_field_data`: the address of the located data, `0` for `NULL`. -/
def _report_get_field_data (rh : dm_report) (fp : field_properties) (object : Nat) :
    Option Nat :=
  match fp.type with
  | none => none
  | some t =>
    if t.data_fn object = 0 then some 0
    else
      match rh.fields[fp.field_num]? with
      | none => none
      | some ft => some (t.data_fn object + ft.offset)

/-- The statement `if ((int) strlen(field->report_string) > field->props->width)
field->props->width = (int) strlen(field->report_string);` of `dm_report_object`. -/
def fold_width (fp : field_properties) (report_string : cstr) : field_properties :=
  if int_of_size report_string.length > fp.width then
    { fp with width := int_of_size report_string.length }
  else fp

/-- The loop of `dm_report_object` over the selections: `done` are the selections already
visited, the second list those still to visit, `r` the row under construction. It yields the
selections, the row and whether the loop ran to its end (`false`: the function returns 0). -/
def dm_report_object_loop (rh : dm_report) (object : Nat) :
    List field_properties → List field_properties → row →
      Option (List field_properties × row × Bool)
  | done, [], r => some (done, r, true)
  | done, fp :: todo, r =>
    match _report_get_field_data rh fp object with
    | none => none
    | some data =>
      if data = 0 then some (done ++ fp :: todo, r, false)
      else
        match rh.fields[fp.field_num]? with
        | none => none
        | some ft =>
          match ft.report_fn data rh.private_data with
          | none => some (done ++ fp :: todo, r, false)
          | some (report_string, sort_value) =>
            let field : dm_report_field := ⟨done.length, report_string, sort_value⟩
            let fp1 : field_properties := fold_width fp report_string
            if rh.flags &&& RH_SORT_REQUIRED ≠ 0 ∧ fp1.flags &&& FLD_SORT_KEY ≠ 0 then
              match r.sort_fields with
              | none => none
              | some arr =>
                if fp1.sort_posn < arr.length then
                  dm_report_object_loop rh object (done ++ [fp1]) todo
                    { fields := r.fields ++ [field]
                      sort_fields := some (arr.set fp1.sort_posn (some field)) }
                else none
            else
              dm_report_object_loop rh object (done ++ [fp1]) todo
                { r with fields := r.fields ++ [field] }

/-! ## Sort rows of data -/

/-- The loop of `_row_compare` over the key positions still to visit. -/
def _row_compare_loop (H : libdevmapper_h) (rh : dm_report) (rowa rowb : row) :
    List Nat → Option Int
  | [] => some 0
  | cnt :: rest =>
    match rowa.sort_fields, rowb.sort_fields with
    | some sa, some sb =>
      match sa[cnt]?, sb[cnt]? with
      | some (some sfa), some (some sfb) =>
        match rh.field_props[sfa.props]? with
        | none => none
        | some props =>
          if props.flags &&& H.DM_REPORT_FIELD_TYPE_NUMBER ≠ 0 ∨
              props.flags &&& H.DM_REPORT_FIELD_TYPE_SIZE ≠ 0 then
            match sfa.sort_value, sfb.sort_value with
            | sort_value_t.num numa, sort_value_t.num numb =>
              if numa = numb then _row_compare_loop H rh rowa rowb rest
              else if props.flags &&& FLD_ASCENDING ≠ 0 then
                some (if numa > numb then 1 else -1)
              else some (if numa < numb then 1 else -1)
            | _, _ => none
          else
            match sfa.sort_value, sfb.sort_value with
            | sort_value_t.str stra, sort_value_t.str strb =>
              if strcmp stra strb = 0 then _row_compare_loop H rh rowa rowb rest
              else if props.flags &&& FLD_ASCENDING ≠ 0 then
                some (if strcmp stra strb > 0 then 1 else -1)
              else some (if strcmp stra strb < 0 then 1 else -1)
            | _, _ => none
      | _, _ => none
    | _, _ => none

/-- The function `_row_compare`; the handle is the `rh` both rows point to. -/
def _row_compare (H : libdevmapper_h) (rh : dm_report) (rowa rowb : row) : Option Int :=
  _row_compare_loop H rh rowa rowb (List.range rh.keys_count)

/-- The function `_sort_rows`: the rows are copied to an array in list order, the array is
sorted by the C library's `qsort` (a parameter) with `_row_compare`, and the list is rebuilt in
the order of the array. The call is followed when every comparison `qsort` can ask for is
defined. -/
def _sort_rows (H : libdevmapper_h) (qsort : (row → row → Int) → List row → List row)
    (rh : dm_report) : Option dm_report :=
  if rh.rows.all (fun a => rh.rows.all (fun b => (_row_compare H rh a b).isSome)) then
    some { rh with rows := qsort (fun a b => (_row_compare H rh a b).getD 0) rh.rows }
  else none

/-! ## Produce report output -/

def _toupperstr (str : cstr) : cstr := str.map Char.toUpper

/-- The text of `snprintf "%-*.*s"` with width and precision `width`. -/
def snprintf_left (width : Nat) (s : cstr) : cstr :=
  s.take width ++ List.replicate (width - (s.take width).length) ' '

/-- The text of `snprintf "%*.*s"` with width and precision `width`. -/
def snprintf_right (width : Nat) (s : cstr) : cstr :=
  List.replicate (width - (s.take width).length) ' ' ++ s.take width

/-- The function `_output_field`: the text it appends to the output line. -/
def _output_field (H : libdevmapper_h) (rh : dm_report) (field : dm_report_field) :
    Option cstr :=
  match rh.field_props[field.props]? with
  | none => none
  | some props =>
    let named : Bool := rh.flags &&& H.DM_REPORT_OUTPUT_FIELD_NAME_PREFIX != 0
    let quoted : Bool := named && rh.flags &&& H.DM_REPORT_OUTPUT_FIELD_UNQUOTED == 0
    let quote : cstr := if quoted then [Char.ofNat 39] else []
    let head : Option cstr :=
      if named then
        match rh.fields[props.field_num]?, rh.output_field_name_prefix with
        | some ft, some p => some (p ++ _toupperstr ft.id ++ ['='] ++ quote)
        | _, _ => none
      else some []
    let body : Option cstr :=
      if rh.flags &&& H.DM_REPORT_OUTPUT_ALIGNED = 0 then some field.report_string
      else if props.width < 0 then none
      else
        let align0 := props.flags &&& H.DM_REPORT_FIELD_ALIGN_MASK
        let align :=
          if align0 = 0 then
            (if props.flags &&& H.DM_REPORT_FIELD_TYPE_NUMBER ≠ 0 ∨
                props.flags &&& H.DM_REPORT_FIELD_TYPE_SIZE ≠ 0 then
              H.DM_REPORT_FIELD_ALIGN_RIGHT else H.DM_REPORT_FIELD_ALIGN_LEFT)
          else align0
        if align &&& H.DM_REPORT_FIELD_ALIGN_LEFT ≠ 0 then
          some (snprintf_left props.width.toNat field.report_string)
        else if align &&& H.DM_REPORT_FIELD_ALIGN_RIGHT ≠ 0 then
          some (snprintf_right props.width.toNat field.report_string)
        else some []
    match head, body with
    | some h, some b => some (h ++ b ++ quote)
    | _, _ => none

/-- The loop of `_report_headings` that builds the heading line. -/
def _report_headings_loop (H : libdevmapper_h) (rh : dm_report) :
    List field_properties → Option cstr
  | [] => some []
  | fp :: rest =>
    if fp.flags &&& FLD_HIDDEN ≠ 0 then _report_headings_loop H rh rest
    else
      match rh.fields[fp.field_num]? with
      | none => none
      | some ft =>
        let cell : Option cstr :=
          if rh.flags &&& H.DM_REPORT_OUTPUT_ALIGNED ≠ 0 then
            (if fp.width < 0 then none else some (snprintf_left fp.width.toNat ft.heading))
          else some ft.heading
        match cell, _report_headings_loop H rh rest with
        | some c, some l => some (c ++ (if rest.isEmpty then [] else rh.separator) ++ l)
        | _, _ => none

/-- The function `_report_headings`: the handle and the lines printed. -/
def _report_headings (H : libdevmapper_h) (rh : dm_report) : Option (dm_report × List cstr) :=
  if rh.flags &&& RH_HEADINGS_PRINTED ≠ 0 then some (rh, [])
  else
    let rh1 : dm_report := { rh with flags := rh.flags ||| RH_HEADINGS_PRINTED }
    if rh1.flags &&& H.DM_REPORT_OUTPUT_HEADINGS = 0 then some (rh1, [])
    else
      match _report_headings_loop H rh1 rh1.field_props with
      | none => none
      | some line => some (rh1, [line])

/-- The inner loop of `_output_as_columns`: the line of one row. -/
def _output_as_columns_line (H : libdevmapper_h) (rh : dm_report) :
    List dm_report_field → Option cstr
  | [] => some []
  | field :: rest =>
    match rh.field_props[field.props]? with
    | none => none
    | some props =>
      if props.flags &&& FLD_HIDDEN ≠ 0 then _output_as_columns_line H rh rest
      else
        match _output_field H rh field, _output_as_columns_line H rh rest with
        | some c, some l => some (c ++ (if rest.isEmpty then [] else rh.separator) ++ l)
        | _, _ => none

/-- The outer loop of `_output_as_columns`: one line per row. -/
def _output_as_columns_rows (H : libdevmapper_h) (rh : dm_report) : List row → Option (List cstr)
  | [] => some []
  | r :: rest =>
    match _output_as_columns_line H rh r.fields, _output_as_columns_rows H rh rest with
    | some l, some ls => some (l :: ls)
    | _, _ => none

def _output_as_columns (H : libdevmapper_h) (rh : dm_report) : Option outcome :=
  match (if rh.flags &&& RH_HEADINGS_PRINTED = 0 then _report_headings H rh else some (rh, [])) with
  | none => none
  | some (rh1, heading) =>
    match _output_as_columns_rows H rh1 rh1.rows with
    | none => none
    | some lines => some ⟨1, heading ++ lines, some { rh1 with rows := [] }⟩

/-- The loop of `_output_as_rows` over the rows for one visible selection: the text and the
rows with the field that was printed unlinked. -/
def _output_as_rows_line (H : libdevmapper_h) (rh : dm_report) :
    List row → Option (cstr × List row)
  | [] => some ([], [])
  | r :: rest =>
    let cell : Option (cstr × row) :=
      match r.fields with
      | [] => some ([], r)
      | field :: fs =>
        match _output_field H rh field with
        | none => none
        | some c => some (c, { r with fields := fs })
    match cell, _output_as_rows_line H rh rest with
    | some (c, r1), some (l, rs) =>
      some (c ++ (if rest.isEmpty then [] else rh.separator) ++ l, r1 :: rs)
    | _, _ => none

/-- The loop of `_output_as_rows` over the selections. -/
def _output_as_rows_loop (H : libdevmapper_h) (rh : dm_report) :
    List field_properties → List row → Option (List cstr × List row)
  | [], rows => some ([], rows)
  | fp :: fps, rows =>
    if fp.flags &&& FLD_HIDDEN ≠ 0 then
      if rows.all (fun r => !r.fields.isEmpty) then
        _output_as_rows_loop H rh fps (rows.map (fun r => { r with fields := r.fields.tail }))
      else none
    else
      let head : Option cstr :=
        if rh.flags &&& H.DM_REPORT_OUTPUT_HEADINGS ≠ 0 then
          match rh.fields[fp.field_num]? with
          | none => none
          | some ft => some (ft.heading ++ rh.separator)
        else some []
      match head, _output_as_rows_line H rh rows with
      | some h, some (l, rows1) =>
        match _output_as_rows_loop H rh fps rows1 with
        | none => none
        | some (ls, rows2) => some ((h ++ l) :: ls, rows2)
      | _, _ => none

def _output_as_rows (H : libdevmapper_h) (rh : dm_report) : Option outcome :=
  match _output_as_rows_loop H rh rh.field_props rh.rows with
  | none => none
  | some (lines, rows) => some ⟨1, lines, some { rh with rows := rows }⟩

def dm_report_output (H : libdevmapper_h) (qsort : (row → row → Int) → List row → List row)
    (rh : dm_report) : Option outcome :=
  if rh.rows.isEmpty then some ⟨1, [], some rh⟩
  else
    match (if rh.flags &&& RH_SORT_REQUIRED ≠ 0 then _sort_rows H qsort rh else some rh) with
    | none => none
    | some rh1 =>
      if rh1.flags &&& H.DM_REPORT_OUTPUT_COLUMNS_AS_ROWS ≠ 0 then _output_as_rows H rh1
      else _output_as_columns H rh1

/-- The function `dm_report_object`; `rh` is `none` for `NULL`. -/
def dm_report_object (H : libdevmapper_h) (qsort : (row → row → Int) → List row → List row)
    (rh : Option dm_report) (object : Nat) : Option outcome :=
  match rh with
  | none => some ⟨0, [], none⟩
  | some rh =>
    let r : row :=
      { fields := []
        sort_fields :=
          if rh.flags &&& RH_SORT_REQUIRED ≠ 0 then some (List.replicate rh.keys_count none)
          else none }
    match dm_report_object_loop rh object [] rh.field_props r with
    | none => none
    | some (props, r1, ok) =>
      let rh1 : dm_report := { rh with field_props := props, rows := rh.rows ++ [r1] }
      if ok = false then some ⟨0, [], some rh1⟩
      else if rh1.flags &&& H.DM_REPORT_OUTPUT_BUFFERED = 0 then dm_report_output H qsort rh1
      else some ⟨1, [], some rh1⟩

/-! ## Words of a field list

The comma-separated lists are described independently of the parsing loops. -/

/-- The pieces of a list between its commas, empty pieces included. -/
def split_commas : cstr → List cstr
  | [] => [[]]
  | c :: s =>
    if c = ',' then [] :: split_commas s
    else
      match split_commas s with
      | [] => [[c]]
      | w :: ws => (c :: w) :: ws

/-- The words of a list: its maximal runs of characters other than the comma. -/
def words (s : cstr) : List cstr := (split_commas s).filter (fun w => !w.isEmpty)

/-- Resolution of a list of words, one after the other, by `step`. -/
def resolve_words (step : dm_report → cstr → Option dm_report) :
    List cstr → dm_report → Option dm_report
  | [], rh => some rh
  | w :: ws, rh =>
    match step rh w with
    | none => none
    | some rh1 => resolve_words step ws rh1

/-- What a parse function makes of the resolution of its list at the handle `rh`: the handle
when every word resolved; otherwise the catalog of the fields is displayed and 0 is
returned. -/
def after_display (rh : dm_report) (r : Option dm_report) : Option (Option dm_report) :=
  match r with
  | some rh1 => some (some rh1)
  | none =>
    match _display_fields rh with
    | none => none
    | some _ => some none

/-- The common shape of the loops of `_parse_fields` and `_parse_keys`, with the function
called on every word as `step`. -/
def parse_loop (step : dm_report → cstr → Nat → Option dm_report) :
    Nat → dm_report → cstr → Option (Option dm_report)
  | 0, _, _ => none
  | fuel + 1, rh, we =>
    if we = [] then some (some rh)
    else
      let ws := we.dropWhile (fun c => c == ',')
      let we1 := ws.dropWhile (fun c => c != ',')
      match step rh ws (ws.length - we1.length) with
      | none =>
        match _display_fields rh with
        | none => none
        | some _ => some none
      | some rh1 => parse_loop step fuel rh1 we1

/-- Resolution in the first pass changes `report_types` only. -/
def frame1 (rh rh1 : dm_report) : Prop :=
  rh1 = { rh with report_types := rh1.report_types }

/-- Resolution in the second pass changes `field_props` and `keys_count` only. -/
def frame2 (rh rh1 : dm_report) : Prop :=
  rh1 = { rh with field_props := rh1.field_props, keys_count := rh1.keys_count }

/-- Hidden selections precede visible ones. -/
def hidden_first (l : List field_properties) : Prop :=
  l.Pairwise (fun a b => b.flags &&& FLD_HIDDEN ≠ 0 → a.flags &&& FLD_HIDDEN ≠ 0)

/-- The name in a sort key word: the word without its sign. -/
def key_name (w : cstr) : cstr :=
  if w.head? = some '+' ∨ w.head? = some '-' then w.tail else w

/-- The direction flag a sort key word asks for. -/
def key_flags (w : cstr) : Nat :=
  if w.head? = some '-' then FLD_DESCENDING else FLD_ASCENDING

/-- The number of the first registry field that a name stands for in the handle. -/
def field_of (rh : dm_report) (name : cstr) : Option Nat :=
  _same_field_loop name name.length rh.field_prefix rh.fields 0

/-- One selection before and after a row is built: only the width changes, and it does not
decrease. -/
def selection_grows (a b : field_properties) : Prop :=
  b.field_num = a.field_num ∧ b.sort_posn = a.sort_posn ∧ b.type = a.type ∧
    b.flags = a.flags ∧ a.width ≤ b.width

/-- The elementary changes resolution makes to a handle: it widens `report_types`, it adds a
selection, or it marks a selection as a sort key. -/
inductive prim (H : libdevmapper_h) : dm_report → dm_report → Prop
  | types (rh : dm_report) (t : Nat) : prim H rh { rh with report_types := t }
  | add (rh rh1 : dm_report) (f flags i : Nat) :
      _add_field H rh f flags = some (rh1, i) → prim H rh rh1
  | mark (rh rh1 : dm_report) (found flags : Nat) :
      flags = FLD_ASCENDING ∨ flags = FLD_DESCENDING →
      _add_sort_key_found rh found flags = some rh1 → prim H rh rh1

/-- The states of a session: what `dm_report_init` returns, and what calls of
`dm_report_object` and `dm_report_output` make of it. -/
inductive reachable (H : libdevmapper_h) (qsort : (row → row → Int) → List row → List row) :
    dm_report → Prop
  | init (report_types : Option Nat) (types : List dm_report_object_type)
      (fields : List dm_report_field_type) (output_fields output_separator : cstr)
      (output_flags : Nat) (sort_keys : Option cstr) (private_data : Nat) (rh : dm_report) :
      dm_report_init H report_types types fields output_fields output_separator output_flags
        sort_keys private_data = some (some rh) → reachable H qsort rh
  | object (rh rh1 : dm_report) (object : Nat) (out : outcome) :
      reachable H qsort rh → dm_report_object H qsort (some rh) object = some out →
      out.rh = some rh1 → reachable H qsort rh1
  | output (rh rh1 : dm_report) (out : outcome) :
      reachable H qsort rh → dm_report_output H qsort rh = some out →
      out.rh = some rh1 → reachable H qsort rh1

/-- A choice of the header constants, each flag a bit of its own and the field mask below the
internal `FLD_` flags, for the evaluations at concrete inputs. -/
def sample_h : libdevmapper_h :=
  { DM_REPORT_FIELD_MASK := 0x000000FF
    DM_REPORT_FIELD_ALIGN_MASK := 0x0000000F
    DM_REPORT_FIELD_ALIGN_LEFT := 0x00000001
    DM_REPORT_FIELD_ALIGN_RIGHT := 0x00000002
    DM_REPORT_FIELD_TYPE_NUMBER := 0x00000020
    DM_REPORT_FIELD_TYPE_SIZE := 0x00000040
    DM_REPORT_OUTPUT_MASK := 0x000000FF
    DM_REPORT_OUTPUT_ALIGNED := 0x00000001
    DM_REPORT_OUTPUT_BUFFERED := 0x00000002
    DM_REPORT_OUTPUT_HEADINGS := 0x00000004
    DM_REPORT_OUTPUT_FIELD_NAME_PREFIX := 0x00000008
    DM_REPORT_OUTPUT_FIELD_UNQUOTED := 0x00000010
    DM_REPORT_OUTPUT_COLUMNS_AS_ROWS := 0x00000020
    DM_REPORT_FIELD_TYPE_MASK := 0x000000F0
    DM_REPORT_FIELD_TYPE_STRING := 0x00000010
    DM_REPORT_FIELD_RESERVED_NAME_HELP := ['h', 'e', 'l', 'p']
    DM_REPORT_FIELD_RESERVED_NAME_HELP_ALT := ['?'] }

/-- The names stored at the addresses of the three sample objects. -/
def sample_name (p : Nat) : cstr := if p = 16 then ['x'] else if p = 32 then ['y'] else ['z']

/-- The sizes stored at the addresses of the three sample objects. -/
def sample_size (p : Nat) : Nat := if p = 24 then 10 else if p = 40 then 30 else 10

/-- The sample object type of physical volumes. -/
def sample_pv : dm_report_object_type :=
  ⟨2, "Physical Volume".toList, "pv_".toList, fun o => o⟩

/-- A registry of three object types, two of which share the name start `pv_`. -/
def sample_types : List dm_report_object_type :=
  [ ⟨1, "Logical Volume".toList, "lv_".toList, fun o => o⟩,
    sample_pv,
    ⟨4, "Physical Volume Label".toList, "pv_".toList, fun o => o⟩ ]

/-- A registry of four fields over `sample_types`. -/
def sample_fields : List dm_report_field_type :=
  [ ⟨1, 0x10, 0, 4, "lv_name".toList, "LV".toList,
      fun p _ => some (sample_name p, sort_value_t.str (sample_name p)), "Name".toList⟩,
    ⟨1, 0x20, 8, 1, "lv_size".toList, "LSize".toList,
      fun p _ => some (Nat.toDigits 10 (sample_size p), sort_value_t.num (sample_size p)),
      "Size".toList⟩,
    ⟨2, 0x20, 8, 5, "pv_size".toList, "PSize".toList,
      fun p _ => some (Nat.toDigits 10 (sample_size p), sort_value_t.num (sample_size p)),
      "Size".toList⟩,
    ⟨4, 0x10, 0, 4, "pv_name".toList, "PV".toList,
      fun p _ => some (sample_name p, sort_value_t.str (sample_name p)), "Name".toList⟩ ]

/-- A stand-in for the C library's `qsort` in the evaluations: insertion sort, which sorts and
keeps elements that compare equal in their order. -/
def stable_qsort (cmp : row → row → Int) (l : List row) : List row :=
  l.insertionSort (fun a b => cmp a b ≤ 0)

/-- The session of the fields `name,size` sorted by `-size`, buffered. -/
def sample_init : Option dm_report :=
  (dm_report_init sample_h (some 1) sample_types sample_fields "name,size".toList " ".toList 2
    (some "-size".toList) 0).join

/-- Output changes the flags and the rows of a handle only. -/
def frame_out (rh rh1 : dm_report) : Prop :=
  rh1 = { rh with flags := rh1.flags, rows := rh1.rows }

/-- The handle of the field list `name` sorted by `-size`, buffered: `size` is selected as a
hidden sort key. -/
def sample_hidden : dm_report :=
  (dm_report_init sample_h (some 1) sample_types sample_fields "name".toList " ".toList 2
    (some "-size".toList) 0).join.get (by decide)

/-- The handle `sample_hidden` after the object at address 16 is reported. -/
def sample_hidden_row : dm_report :=
  (((dm_report_object sample_h stable_qsort (some sample_hidden) 16).get (by decide)).rh).get
    (by decide)

/-- Every selection has the default width of its registry field. -/
def default_widths (rh : dm_report) : Prop :=
  ∀ fp ∈ rh.field_props, ∃ ft, rh.fields[fp.field_num]? = some ft ∧ fp.width = ft.width

/-- The visible selections of a list, in order: the field number and the width of each. -/
def visible (l : List field_properties) : List (Nat × Int) :=
  l.filterMap (fun fp => if fp.flags &&& FLD_HIDDEN ≠ 0 then none else some (fp.field_num, fp.width))

/-- Every field of the registry belongs to an object type of the registry. -/
def registry_ok (types : List dm_report_object_type) (fields : List dm_report_field_type) :
    Prop :=
  ∀ ft ∈ fields, ∃ t ∈ types, t.id = ft.type

/-- A handle works on the registry `types`, `fields` under the name start `pfx`. -/
def on_registry (types : List dm_report_object_type) (fields : List dm_report_field_type)
    (pfx : cstr) (rh : dm_report) : Prop :=
  rh.fields = fields ∧ rh.types = types ∧ rh.field_prefix = pfx

/-- Two names are the same up to the case of their letters. -/
def ci_eq (a b : cstr) : Prop := a.map c_tolower = b.map c_tolower

instance ci_eq_decidable (a b : cstr) : Decidable (ci_eq a b) :=
  inferInstanceAs (Decidable (a.map c_tolower = b.map c_tolower))

/-- A word is the pattern `all`, or the name start of a registered type followed by `all`. -/
def all_pattern (types : List dm_report_object_type) (w : cstr) : Prop :=
  ci_eq w ['a', 'l', 'l'] ∨ ∃ t ∈ types, ci_eq w (t.pfx ++ ['a', 'l', 'l'])

/-- The numbers of the registry fields whose type has a bit in `mask`, in the order of the
registry. -/
def fields_matching (fields : List dm_report_field_type) (mask : Nat) : List Nat :=
  (fields.enum.filter (fun p => p.2.type &&& mask != 0)).map Prod.fst

/-- The ids, or-ed together, of the registered types whose name start is `p` up to the case
of the letters. -/
def shared_mask (types : List dm_report_object_type) (p : cstr) : Nat :=
  (types.filter (fun t => decide (ci_eq t.pfx p))).foldl (fun acc t => acc ||| t.id) 0

/-- The handle of the field list `name` without sort keys, buffered. -/
def sample_plain : dm_report :=
  (dm_report_init sample_h (some 1) sample_types sample_fields "name".toList " ".toList 2
    none 0).join.get (by decide)

/-- The field a sort key word names: the first registry field with the name of the word, when
the word has a name. -/
def key_field (rh : dm_report) (w : cstr) : Option Nat :=
  if key_name w = [] then none else field_of rh (key_name w)

/-- The selection at position `i` of `l` is the first selection of the field `f`. -/
def first_sel (l : List field_properties) (f i : Nat) (fp : field_properties) : Prop :=
  l[i]? = some fp ∧ fp.field_num = f ∧
    ∀ j, j < i → ∀ fq, l[j]? = some fq → fq.field_num ≠ f

/-- The selection `fp` marked as sort key at the position `posn` with the direction
`flags`. -/
def mark_key (fp : field_properties) (flags posn : Nat) : field_properties :=
  { fp with flags := (fp.flags ||| FLD_SORT_KEY) ||| flags, sort_posn := posn }

/-- The key words of a list without the words that name a field which an earlier word of the
list names; `seen` are the fields named so far. -/
def drop_repeated_keys (rh : dm_report) : List cstr → List Nat → List cstr
  | [], _ => []
  | w :: ws, seen =>
    match key_field rh w with
    | none => w :: drop_repeated_keys rh ws seen
    | some f =>
      if f ∈ seen then drop_repeated_keys rh ws seen
      else w :: drop_repeated_keys rh ws (f :: seen)

/-- In the first pass a key of the field `f` changes nothing any more. -/
def key_done1 (f : Nat) (rh : dm_report) : Prop :=
  (∃ fp ∈ rh.field_props, fp.field_num = f) ∨
    ∃ ft, rh.fields[f]? = some ft ∧ rh.report_types ||| ft.type = rh.report_types

/-- In the second pass a key of the field `f` changes nothing any more: the first selection
of `f` is a sort key. -/
def key_done2 (f : Nat) (rh : dm_report) : Prop :=
  ∃ i fp, first_sel rh.field_props f i fp ∧ fp.flags &&& FLD_SORT_KEY ≠ 0

/-- The direction bits of the flags of a selection. -/
def dir_bits (flags : Nat) : Nat := flags &&& (FLD_ASCENDING ||| FLD_DESCENDING)

/-- The sort keys so far with one more key: a field that is among them already changes
nothing. -/
def add_key (D : List (Nat × Nat)) (f d : Nat) : List (Nat × Nat) :=
  if f ∈ D.map Prod.fst then D else D ++ [(f, d)]

/-- The sort keys a list of key words asks for, from the keys `D` on: the field and the
direction flag of each, in the order in which the fields are first named. -/
def key_list (rh : dm_report) : List cstr → List (Nat × Nat) → List (Nat × Nat)
  | [], D => D
  | w :: ws, D =>
    match key_field rh w with
    | none => key_list rh ws D
    | some f => key_list rh ws (add_key D f (key_flags w))

/-- The selections `l` carry the sort keys `D`: the first selection of the field of the key
number `i` is marked, at position `i` with the direction of the key; a marked selection is
the first selection of its field, which is among the keys; and a selection that is not marked
has no direction. -/
def keys_ok (l : List field_properties) (D : List (Nat × Nat)) : Prop :=
  (∀ i f d, D[i]? = some (f, d) →
    ∃ j fp, first_sel l f j fp ∧ fp.flags &&& FLD_SORT_KEY ≠ 0 ∧ fp.sort_posn = i ∧
      dir_bits fp.flags = d) ∧
  (∀ j fp, l[j]? = some fp → fp.flags &&& FLD_SORT_KEY ≠ 0 →
    first_sel l fp.field_num j fp ∧ fp.field_num ∈ D.map Prod.fst) ∧
  (∀ fp ∈ l, fp.flags &&& FLD_SORT_KEY = 0 → dir_bits fp.flags = 0)

/-- No selection of the handle is a sort key or has a direction, and no key is counted. -/
def no_keys (rh : dm_report) : Prop :=
  rh.keys_count = 0 ∧
    ∀ fp ∈ rh.field_props, fp.flags &&& FLD_SORT_KEY = 0 ∧ dir_bits fp.flags = 0

/-- The sort keys that the list `sort_keys` asks for on the registry of the handle `rh`: the
field and the direction flag of each key, in the order in which the fields are first named,
each with the direction of the word that names it first. -/
def init_keys (rh : dm_report) (sort_keys : Option cstr) : List (Nat × Nat) :=
  key_list rh
    (match sort_keys with
      | some k => words k
      | none => []) []

/-- The handle of the field list `name` with the sort keys `-size,name,+size`, buffered. -/
def sample_keyed : dm_report :=
  (dm_report_init sample_h (some 1) sample_types sample_fields "name".toList " ".toList 2
    (some "-size,name,+size".toList) 0).join.get (by decide)

/-! ## The order of rows, by the words of the specification -/

/-- The sort value a row records for the sort key at position `cnt`. -/
def row_value (r : row) (cnt : Nat) : Option sort_value_t :=
  match r.sort_fields with
  | none => none
  | some sa =>
    match sa[cnt]? with
    | some (some sf) => some sf.sort_value
    | _ => none

/-- The flags of the selection behind the field a row records at key position `cnt`. -/
def row_flags (rh : dm_report) (r : row) (cnt : Nat) : Option Nat :=
  match r.sort_fields with
  | none => none
  | some sa =>
    match sa[cnt]? with
    | some (some sf) => (rh.field_props[sf.props]?).map (fun p => p.flags)
    | _ => none

/-- A key is numeric when its selection carries the number or the size type. -/
def is_numeric (H : libdevmapper_h) (flags : Nat) : Prop :=
  flags &&& H.DM_REPORT_FIELD_TYPE_NUMBER ≠ 0 ∨ flags &&& H.DM_REPORT_FIELD_TYPE_SIZE ≠ 0

/-- A sort value fits its key: a number under a numeric key, a C string (no NUL inside)
under any other key. -/
def value_typed (H : libdevmapper_h) (flags : Nat) : sort_value_t → Prop
  | sort_value_t.num _ => is_numeric H flags
  | sort_value_t.str s => ¬ is_numeric H flags ∧ ∀ c ∈ s, c.toNat ≠ 0

/-- A key carries exactly one of the two direction flags. -/
def one_direction (flags : Nat) : Prop :=
  (flags &&& FLD_ASCENDING ≠ 0 ∧ flags &&& FLD_DESCENDING = 0) ∨
  (flags &&& FLD_ASCENDING = 0 ∧ flags &&& FLD_DESCENDING ≠ 0)

/-- By the words of the specification: numeric keys compare as unsigned magnitudes, string
keys bytewise with `strcmp`, the result is one of -1, 0, 1. -/
def spec_value_order : sort_value_t → sort_value_t → Int
  | sort_value_t.num x, sort_value_t.num y => if x < y then -1 else if x = y then 0 else 1
  | sort_value_t.str x, sort_value_t.str y =>
    if strcmp x y < 0 then -1 else if strcmp x y = 0 then 0 else 1
  | _, _ => 0

/-- By the words of the specification: the order of two values under one key, the sign
reversed when the key is descending. -/
def spec_key_order (flags : Nat) (a b : sort_value_t) : Int :=
  if flags &&& FLD_DESCENDING ≠ 0 then - spec_value_order a b else spec_value_order a b

/-- By the words of the specification: the result of the first key, in position order, on
which the two rows differ, and 0 when they differ on none. A key is given by its flags and
the two rows' values. -/
def spec_row_order : List (Nat × sort_value_t × sort_value_t) → Int
  | [] => 0
  | (flags, a, b) :: ks =>
    if a = b then spec_row_order ks else spec_key_order flags a b

/-- The key at position `cnt` as two rows record it: the flags of its selection, the value of
either row, each value fitting the key, and one direction flag. -/
def key_view (H : libdevmapper_h) (rh : dm_report) (rowa rowb : row) (cnt : Nat)
    (k : Nat × sort_value_t × sort_value_t) : Prop :=
  row_flags rh rowa cnt = some k.1 ∧ row_value rowa cnt = some k.2.1 ∧
  row_value rowb cnt = some k.2.2 ∧ value_typed H k.1 k.2.1 ∧ value_typed H k.1 k.2.2 ∧
  one_direction k.1

/-- The handle after the objects of a list are reported in order, each with success. -/
def report_objects (H : libdevmapper_h) (qsort : (row → row → Int) → List row → List row) :
    dm_report → List Nat → Option dm_report
  | rh, [] => some rh
  | rh, object :: rest =>
    match dm_report_object H qsort (some rh) object with
    | none => none
    | some out =>
      if out.ret = 1 then
        match out.rh with
        | none => none
        | some rh1 => report_objects H qsort rh1 rest
      else none

/-- The session `sample_init` after the objects `x` of size 10, `y` of size 30 and `z` of
size 10 are reported in this order. -/
def sample_session : dm_report :=
  (sample_init.bind (fun rh => report_objects sample_h stable_qsort rh [16, 32, 48])).get
    (by decide)

/-- The row of the object `x` in `sample_session`. -/
def sample_x : row := (sample_session.rows[0]?).get (by decide)

/-- The row of the object `y` in `sample_session`. -/
def sample_y : row := (sample_session.rows[1]?).get (by decide)

/-- The row of the object `z` in `sample_session`. -/
def sample_z : row := (sample_session.rows[2]?).get (by decide)

/-! ## The C library's `qsort` -/

/-- A comparator is consistent on the elements of an array, as `qsort` requires: any two
elements are comparable and the order is transitive. -/
def cmp_consistent (cmp : row → row → Int) (l : List row) : Prop :=
  (∀ a ∈ l, ∀ b ∈ l, cmp a b ≤ 0 ∨ cmp b a ≤ 0) ∧
  (∀ a ∈ l, ∀ b ∈ l, ∀ c ∈ l, cmp a b ≤ 0 → cmp b c ≤ 0 → cmp a c ≤ 0)

/-- What the C standard asks of `qsort`: under a consistent comparator the array keeps its
elements and ends in ascending order. The order of elements that compare equal is left
open. -/
def qsort_conforms (qsort : (row → row → Int) → List row → List row) : Prop :=
  ∀ cmp l, cmp_consistent cmp l →
    (qsort cmp l).Perm l ∧ (qsort cmp l).Pairwise (fun a b => cmp a b ≤ 0)

/-- A `qsort` is stable when two elements that compare equal keep their order. -/
def qsort_stable (qsort : (row → row → Int) → List row → List row) : Prop :=
  ∀ cmp l a b, cmp a b = 0 → [a, b].Sublist l → [a, b].Sublist (qsort cmp l)

/-- Every row records, at every key position, a field of one and the same selection flags
with one direction, and a value of the type of the key. -/
def rows_keyed (H : libdevmapper_h) (rh : dm_report) (rows : List row) : Prop :=
  ∀ cnt, cnt < rh.keys_count → ∃ flags, one_direction flags ∧
    ∀ r ∈ rows, row_flags rh r cnt = some flags ∧
      ∃ v, row_value r cnt = some v ∧ value_typed H flags v

/-- The lines `dm_report_output` prints for a handle, `none` when it fails. -/
def output_lines (H : libdevmapper_h) (qsort : (row → row → Int) → List row → List row)
    (rh : dm_report) : Option (List cstr) :=
  match dm_report_output H qsort rh with
  | some out => if out.ret = 1 then some out.printed else none
  | none => none

/-- The lines printed by the session of the fields `name,size` sorted by `-size`, buffered,
after the objects `x` of size 10, `y` of size 30 and `z` of size 10 are reported in this
order, under a given `qsort`. -/
def scenario_lines (qsort : (row → row → Int) → List row → List row) : Option (List cstr) :=
  (sample_init.bind (fun rh => report_objects sample_h qsort rh [16, 32, 48])).bind
    (output_lines sample_h qsort)

/-! ## Data-munging functions for numbers

The functions read the number behind `data`; here they receive the number itself. -/

/-- The text of `printf "%u"` and of `printf "%" PRIu64`: the decimal digits of the number. -/
def fmt_u (n : Nat) : cstr := Nat.toDigits 10 n

/-- The text of `printf "%d"`: a minus sign in front of the digits of a negative number. -/
def fmt_d (v : Int) : cstr :=
  if v < 0 then '-' :: Nat.toDigits 10 v.natAbs else Nat.toDigits 10 v.toNat

/-- Modelled from the spec: `dm_snprintf` (libdm-string.c, not among the sources) fails, with
a negative return value, when the text and its terminating NUL overflow the fixed-width
buffer of `bufsize` bytes; otherwise the buffer holds the text and the length is returned. -/
def dm_snprintf (bufsize : Nat) (text : cstr) : Int :=
  if text.length + 1 > bufsize then -1 else text.length

/-- The conversion `(uint64_t)` of a signed number. -/
def uint64_of_int (v : Int) : Nat := (v % 18446744073709551616).toNat

/-- The function `dm_report_field_int` at the number `*data`: the `report_string` and the
`sort_value` it stores, `none` for the return value 0. -/
def dm_report_field_int (value : Int) : Option (cstr × sort_value_t) :=
  if dm_snprintf 12 (fmt_d value) < 0 then none
  else some (fmt_d value, sort_value_t.num (uint64_of_int value))

/-- The function `dm_report_field_uint32` at the number `*data`. -/
def dm_report_field_uint32 (value : Nat) : Option (cstr × sort_value_t) :=
  if dm_snprintf 11 (fmt_u value) < 0 then none
  else some (fmt_u value, sort_value_t.num (value % 18446744073709551616))

/-- The function `dm_report_field_int32` at the number `*data`. -/
def dm_report_field_int32 (value : Int) : Option (cstr × sort_value_t) :=
  if dm_snprintf 12 (fmt_d value) < 0 then none
  else some (fmt_d value, sort_value_t.num (uint64_of_int value))

/-- The function `dm_report_field_uint64` at the number `*data`. -/
def dm_report_field_uint64 (value : Nat) : Option (cstr × sort_value_t) :=
  if dm_snprintf 21 (fmt_u value) < 0 then none
  else some (fmt_u value, sort_value_t.num value)

/-- Reading decimal digits from the left, `acc` being the number read so far; `none` when a
character is no digit. -/
def parse_digits (acc : Nat) : cstr → Option Nat
  | [] => some acc
  | c :: s =>
    if '0' ≤ c ∧ c ≤ '9' then parse_digits (acc * 10 + (c.toNat - 48)) s else none

/-- By the words of the specification: the number a display string parses back to, a
decimal numeral with or without a minus sign. -/
def parse_decimal (s : cstr) : Option Int :=
  match s with
  | [] => none
  | c :: t =>
    if c = '-' then (if t = [] then none else (parse_digits 0 t).map (fun n => - (n : Int)))
    else (parse_digits 0 s).map (fun n => (n : Int))

/-! ## Rows as `dm_report_object` builds them -/

/-- The accessor of the selection's type signals "not applicable" for the object, or the
render function of its field fails on the located data. -/
def selection_fails (rh : dm_report) (object : Nat) (fp : field_properties) : Prop :=
  _report_get_field_data rh fp object = some 0 ∨
  ∃ data ft, data ≠ 0 ∧ _report_get_field_data rh fp object = some data ∧
    rh.fields[fp.field_num]? = some ft ∧ ft.report_fn data rh.private_data = none

/-- The selection is located for the object and its field is rendered to the display string
`s` and the sort value `v`. -/
def selection_renders (rh : dm_report) (object : Nat) (fp : field_properties) (s : cstr)
    (v : sort_value_t) : Prop :=
  ∃ data ft, data ≠ 0 ∧ _report_get_field_data rh fp object = some data ∧
    rh.fields[fp.field_num]? = some ft ∧ ft.report_fn data rh.private_data = some (s, v)

/-- One pass of the loop of `dm_report_object` from the rendered field on: the field joins
the row, and the sort array at the position of its selection when the selection is a sort
key of a handle that sorts. -/
def add_cell (rh : dm_report) (fp1 : field_properties) (field : dm_report_field) (r : row) :
    Option row :=
  if rh.flags &&& RH_SORT_REQUIRED ≠ 0 ∧ fp1.flags &&& FLD_SORT_KEY ≠ 0 then
    match r.sort_fields with
    | none => none
    | some arr =>
      if fp1.sort_posn < arr.length then
        some { fields := r.fields ++ [field]
               sort_fields := some (arr.set fp1.sort_posn (some field)) }
      else none
  else some { r with fields := r.fields ++ [field] }

/-- The row `dm_report_object` starts from. -/
def new_row (rh : dm_report) : row :=
  { fields := []
    sort_fields :=
      if rh.flags &&& RH_SORT_REQUIRED ≠ 0 then some (List.replicate rh.keys_count none)
      else none }

/-- Every selection of the handle has its object type and its registry field, and a sort key
of a handle that sorts has its position inside the sort array. -/
def selections_ok (rh : dm_report) : Prop :=
  ∀ fp ∈ rh.field_props, (∃ t, fp.type = some t) ∧ (∃ ft, rh.fields[fp.field_num]? = some ft) ∧
    (rh.flags &&& RH_SORT_REQUIRED ≠ 0 → fp.flags &&& FLD_SORT_KEY ≠ 0 →
      fp.sort_posn < rh.keys_count)

/-- What `dm_report_object` returns for the handle `sample_hidden` and an object whose type
has no data (the accessor returns `NULL`). -/
def sample_refused : outcome :=
  (dm_report_object sample_h stable_qsort (some sample_hidden) 0).get (by decide)

/-- A registry of two fields of the first sample type; the render function of the size fails
on the data at address 72. -/
def sparse_fields : List dm_report_field_type :=
  [ ⟨1, 0x10, 0, 4, "lv_name".toList, "LV".toList,
      fun p _ => some (sample_name p, sort_value_t.str (sample_name p)), "Name".toList⟩,
    ⟨1, 0x20, 8, 1, "lv_size".toList, "LSize".toList,
      fun p _ => if p = 72 then none
        else some (Nat.toDigits 10 (sample_size p), sort_value_t.num (sample_size p)),
      "Size".toList⟩ ]

/-- The buffered session of the fields `name,size` over `sparse_fields`, after the object at
address 16 is reported. -/
def sample_sparse : dm_report :=
  ((dm_report_init sample_h (some 1) sample_types sparse_fields "name,size".toList " ".toList 2
    none 0).join.bind (fun rh => report_objects sample_h stable_qsort rh [16])).get (by decide)

/-- What `dm_report_object` returns for `sample_sparse` and the object at address 64, whose
size is not rendered. -/
def sample_sparse_failed : outcome :=
  (dm_report_object sample_h stable_qsort (some sample_sparse) 64).get (by decide)

/-- The row `r` holds the cells of the selections `sel` for an object: one field for each
selection, in order, pointing to it and holding what the render function stored; and, in a
handle that sorts, the sort array holds at the position of every sort key the field of that
selection. -/
def row_built (rh : dm_report) (object : Nat) (sel : List field_properties) (r : row) : Prop :=
  r.fields.length = sel.length ∧
  (∀ (j : Nat) (fp : field_properties), sel[j]? = some fp →
    ∃ (s : cstr) (v : sort_value_t),
      r.fields[j]? = some ⟨j, s, v⟩ ∧ selection_renders rh object fp s v) ∧
  (rh.flags &&& RH_SORT_REQUIRED ≠ 0 →
    ∃ arr, r.sort_fields = some arr ∧ arr.length = rh.keys_count ∧
      ∀ (j : Nat) (fp : field_properties), sel[j]? = some fp →
        fp.flags &&& FLD_SORT_KEY ≠ 0 → arr[fp.sort_posn]? = some (r.fields[j]?))

/-- No two sort keys among the selections share a position. -/
def posn_inj (l : List field_properties) : Prop :=
  ∀ (j1 j2 : Nat) (fp1 fp2 : field_properties), l[j1]? = some fp1 → l[j2]? = some fp2 →
    fp1.flags &&& FLD_SORT_KEY ≠ 0 → fp2.flags &&& FLD_SORT_KEY ≠ 0 →
    fp1.sort_posn = fp2.sort_posn → j1 = j2

/-- The states of the session that starts in `rh0`: what calls of `dm_report_object` and
`dm_report_output` make of it. -/
inductive session (H : libdevmapper_h) (qsort : (row → row → Int) → List row → List row)
    (rh0 : dm_report) : dm_report → Prop
  | start : session H qsort rh0 rh0
  | object (rh rh1 : dm_report) (object : Nat) (out : outcome) :
      session H qsort rh0 rh → dm_report_object H qsort (some rh) object = some out →
      out.rh = some rh1 → session H qsort rh0 rh1
  | output (rh rh1 : dm_report) (out : outcome) :
      session H qsort rh0 rh → dm_report_output H qsort rh = some out →
      out.rh = some rh1 → session H qsort rh0 rh1

/-- What the calls on a session leave of its handle: the registry, the counters and the
texts stay, the selections keep all but their widths, which do not decrease, and the flags
stay but for `RH_HEADINGS_PRINTED`, which may be added. -/
def same_session (a b : dm_report) : Prop :=
  b.fields = a.fields ∧ b.types = a.types ∧ b.keys_count = a.keys_count ∧
  b.separator = a.separator ∧ b.private_data = a.private_data ∧
  b.output_field_name_prefix = a.output_field_name_prefix ∧
  List.Forall₂ selection_grows a.field_props b.field_props ∧
  (b.flags = a.flags ∨ b.flags = a.flags ||| RH_HEADINGS_PRINTED)

/-- The session of the field list `name` with the sort key `-size`, not buffered: no flag is
passed. -/
def sample_unbuffered : dm_report :=
  (dm_report_init sample_h (some 1) sample_types sample_fields "name".toList " ".toList 0
    (some "-size".toList) 0).join.get (by decide)

/-- The handle of the field list `name` with the sort key `-size` in the layout
`DM_REPORT_OUTPUT_COLUMNS_AS_ROWS`, passed without `DM_REPORT_OUTPUT_BUFFERED`. -/
def sample_rows_start : dm_report :=
  (dm_report_init sample_h (some 1) sample_types sample_fields "name".toList " ".toList 0x20
    (some "-size".toList) 0).join.get (by decide)

/-- The session of the field list `name` with the sort key `-size` in the layout
`DM_REPORT_OUTPUT_COLUMNS_AS_ROWS`, passed without `DM_REPORT_OUTPUT_BUFFERED`, after the
object at address 16 is reported. -/
def sample_by_rows : dm_report :=
  ((dm_report_init sample_h (some 1) sample_types sample_fields "name".toList " ".toList 0x20
    (some "-size".toList) 0).join.bind
      (fun rh => report_objects sample_h stable_qsort rh [16])).get (by decide)

/-- The session of the fields `name,size` with the flags `DM_REPORT_OUTPUT_COLUMNS_AS_ROWS`,
`DM_REPORT_OUTPUT_HEADINGS` and `DM_REPORT_OUTPUT_ALIGNED`, without
`DM_REPORT_OUTPUT_BUFFERED`. -/
def sample_rows_layout : dm_report :=
  (dm_report_init sample_h (some 1) sample_types sample_fields "name,size".toList " ".toList
    0x25 none 0).join.get (by decide)

/-- The function `dm_report_set_output_field_name_prefix`: the handle with the upper-cased
copy of the text, and the return value 1. -/
def dm_report_set_output_field_name_prefix (rh : dm_report)
    ( output_field_name_prefix : cstr) : dm_report × Int :=
  ({ rh with output_field_name_prefix := some (_toupperstr output_field_name_prefix) }, 1)

/-- The session `sample_session` with the flags `DM_REPORT_OUTPUT_FIELD_NAME_PREFIX` and
`DM_REPORT_OUTPUT_ALIGNED` added and the output prefix `lvm2_` set. -/
def sample_named : dm_report :=
  ( dm_report_set_output_field_name_prefix
    { sample_session with flags := sample_session.flags ||| 0x09 } "lvm2_".toList).1

/-- The session `sample_session` with `DM_REPORT_OUTPUT_ALIGNED` added. -/
def sample_aligned : dm_report := { sample_session with flags := sample_session.flags ||| 1 }

/-- The field of the name in the row of `x`. -/
def sample_x_name : dm_report_field := (sample_x.fields[0]?).get (by decide)

/-- The field of the size in the row of `x`. -/
def sample_x_size : dm_report_field := (sample_x.fields[1]?).get (by decide)

/-- The selection of the name in `sample_session`, of width 4. -/
def sample_name_props : field_properties := (sample_session.field_props[0]?).get (by decide)

/-- The selection of the size in `sample_session`, of width 2. -/
def sample_size_props : field_properties := (sample_session.field_props[1]?).get (by decide)

/-- The quote `_output_field` puts on either side of a value: a single quote in the mode of
field name prefixes unless quotes are switched off. -/
def output_quote (H : libdevmapper_h) (rh : dm_report) : cstr :=
  if (rh.flags &&& H.DM_REPORT_OUTPUT_FIELD_NAME_PREFIX != 0 &&
      rh.flags &&& H.DM_REPORT_OUTPUT_FIELD_UNQUOTED == 0) = true then [Char.ofNat 39] else []

/-- The text `_output_field` emits in front of a value. -/
def output_head (H : libdevmapper_h) (rh : dm_report) (props : field_properties) :
    Option cstr :=
  if (rh.flags &&& H.DM_REPORT_OUTPUT_FIELD_NAME_PREFIX != 0) = true then
    match rh.fields[props.field_num]?, rh.output_field_name_prefix with
    | some ft, some p => some (p ++ _toupperstr ft.id ++ ['='] ++ output_quote H rh)
    | _, _ => none
  else some []

/-- The value `_output_field` emits: the report string, put into the width of the selection
when the handle aligns. -/
def field_value (H : libdevmapper_h) (rh : dm_report) (props : field_properties)
    (field : dm_report_field) : Option cstr :=
  if rh.flags &&& H.DM_REPORT_OUTPUT_ALIGNED = 0 then some field.report_string
  else if props.width < 0 then none
  else
    let align0 := props.flags &&& H.DM_REPORT_FIELD_ALIGN_MASK
    let align :=
      if align0 = 0 then
        (if props.flags &&& H.DM_REPORT_FIELD_TYPE_NUMBER ≠ 0 ∨
            props.flags &&& H.DM_REPORT_FIELD_TYPE_SIZE ≠ 0 then
          H.DM_REPORT_FIELD_ALIGN_RIGHT else H.DM_REPORT_FIELD_ALIGN_LEFT)
      else align0
    if align &&& H.DM_REPORT_FIELD_ALIGN_LEFT ≠ 0 then
      some (snprintf_left props.width.toNat field.report_string)
    else if align &&& H.DM_REPORT_FIELD_ALIGN_RIGHT ≠ 0 then
      some (snprintf_right props.width.toNat field.report_string)
    else some []

/-- The registry field `lv_size` of `sample_fields`. -/
def sample_size_field : dm_report_field_type := (sample_fields[1]?).get (by decide)

/-! ## Output lines, by the words of the specification -/

/-- Texts joined by a separator. -/
def join_with (sep : cstr) : List cstr → cstr
  | [] => []
  | s :: rest => s ++ (if rest.isEmpty then [] else sep) ++ join_with sep rest

/-- The field belongs to a selection of the handle that is not hidden. -/
def cell_visible (rh : dm_report) (f : dm_report_field) : Bool :=
  match rh.field_props[f.props]? with
  | some p => decide (p.flags &&& FLD_HIDDEN = 0)
  | none => false

/-- By the words of the specification: the line of a row in the column layout without
alignment and field name prefixes, the report strings of its visible fields in order, joined
by the separator. -/
def spec_column_line (rh : dm_report) (r : row) : cstr :=
  join_with rh.separator ((r.fields.filter (cell_visible rh)).map (fun f => f.report_string))

/-- The fields of a row point to the selections in order: the field at index `j` to the
selection at index `j`. -/
def row_indexed (rh : dm_report) (r : row) : Prop :=
  ∀ (j : Nat) (f : dm_report_field), r.fields[j]? = some f →
    f.props = j ∧ j < rh.field_props.length

/-- A `qsort` only rearranges the array. -/
def qsort_rearranges (qsort : (row → row → Int) → List row → List row) : Prop :=
  ∀ cmp l, (qsort cmp l).Perm l

/-! ## Heading lines and row lines

The lines a call hands to `log_print`, apart: those printed by `_report_headings` and those
printed by the loops over the rows. -/

/-- The lines of `_output_as_columns`: the heading lines of `_report_headings`, the lines of
the rows, and the handle afterwards. -/
def column_parts (H : libdevmapper_h) (rh : dm_report) :
    Option (List cstr × List cstr × dm_report) :=
  match (if rh.flags &&& RH_HEADINGS_PRINTED = 0 then _report_headings H rh else some (rh, [])) with
  | none => none
  | some (rh1, heading) =>
    match _output_as_columns_rows H rh1 rh1.rows with
    | none => none
    | some lines => some (heading, lines, { rh1 with rows := [] })

/-- The lines of `dm_report_output`: heading lines, row lines and the handle afterwards. The
layout of columns as rows has no heading line. -/
def output_parts (H : libdevmapper_h) (qsort : (row → row → Int) → List row → List row)
    (rh : dm_report) : Option (List cstr × List cstr × dm_report) :=
  if rh.rows.isEmpty then some ([], [], rh)
  else
    match (if rh.flags &&& RH_SORT_REQUIRED ≠ 0 then _sort_rows H qsort rh else some rh) with
    | none => none
    | some rh1 =>
      if rh1.flags &&& H.DM_REPORT_OUTPUT_COLUMNS_AS_ROWS ≠ 0 then
        match _output_as_rows_loop H rh1 rh1.field_props rh1.rows with
        | none => none
        | some (lines, rows) => some ([], lines, { rh1 with rows := rows })
      else column_parts H rh1

/-- The lines of `dm_report_object` on a handle: heading lines, row lines and the handle
afterwards. -/
def object_parts (H : libdevmapper_h) (qsort : (row → row → Int) → List row → List row)
    (rh : dm_report) (object : Nat) : Option (List cstr × List cstr × dm_report) :=
  match dm_report_object_loop rh object [] rh.field_props (new_row rh) with
  | none => none
  | some (props, r1, ok) =>
    if ok = false then some ([], [], { rh with field_props := props, rows := rh.rows ++ [r1] })
    else if rh.flags &&& H.DM_REPORT_OUTPUT_BUFFERED = 0 then
      output_parts H qsort { rh with field_props := props, rows := rh.rows ++ [r1] }
    else some ([], [], { rh with field_props := props, rows := rh.rows ++ [r1] })

/-- In the column layout every row of the handle has its fields pointing to the selections
in order. -/
def rows_indexed (H : libdevmapper_h) (rh : dm_report) : Prop :=
  rh.flags &&& H.DM_REPORT_OUTPUT_COLUMNS_AS_ROWS = 0 → ∀ r ∈ rh.rows, row_indexed rh r

/-- What `dm_report_output` returns for the handle `sample_hidden_row`. -/
def sample_flushed : outcome :=
  (dm_report_output sample_h stable_qsort sample_hidden_row).get (by decide)

/-- The rendered value of the field at index `j` of a row: the text `_output_field` emits for
it. -/
def cell_text (H : libdevmapper_h) (rh : dm_report) (r : row) (j : Nat) : cstr :=
  match r.fields[j]? with
  | some f => (_output_field H rh f).getD []
  | none => []

/-- By the words of the specification: the line of the selection at index `j` in the layout
of columns as rows, the heading of the field and the separator when headings are enabled,
followed by the rendered value of the field of every row, in the order of the rows, joined
by the separator. -/
def spec_field_line (H : libdevmapper_h) (rh : dm_report) (rows : List row) (j : Nat)
    (fp : field_properties) : cstr :=
  (if rh.flags &&& H.DM_REPORT_OUTPUT_HEADINGS ≠ 0 then
      ((rh.fields[fp.field_num]?).map (fun ft => ft.heading)).getD [] ++ rh.separator
    else []) ++
    join_with rh.separator (rows.map (fun r => cell_text H rh r j))

/-- By the words of the specification: the lines of the layout of columns as rows, one for
each visible selection, in the order of the selections; `j` is the index of the first
selection of the list. -/
def spec_rows_lines (H : libdevmapper_h) (rh : dm_report) (rows : List row) :
    Nat → List field_properties → List cstr
  | _, [] => []
  | j, fp :: fps =>
    if fp.flags &&& FLD_HIDDEN ≠ 0 then spec_rows_lines H rh rows (j + 1) fps
    else spec_field_line H rh rows j fp :: spec_rows_lines H rh rows (j + 1) fps

/-- The row without its first `k` fields. -/
def drop_fields (k : Nat) (r : row) : row := { r with fields := r.fields.drop k }

/-- The row holds one field for every selection of the handle, in order. -/
def row_complete (rh : dm_report) (r : row) : Prop :=
  r.fields.length = rh.field_props.length ∧ row_indexed rh r

/-- The session `sample_rows_layout` after the objects at the addresses 16 and 32 are
reported. -/
def sample_two_rows : dm_report :=
  (report_objects sample_h stable_qsort sample_rows_layout [16, 32]).get (by decide)

/-- What `dm_report_output` returns for the handle `sample_two_rows`. -/
def sample_two_rows_out : outcome :=
  (dm_report_output sample_h stable_qsort sample_two_rows).get (by decide)

/-! ## Sequences of calls -/

/-- A call on a session: `dm_report_object` for an object, or `dm_report_output`. -/
inductive call where
  | object (o : Nat)
  | output

/-- What a call returns. -/
def run_call (H : libdevmapper_h) (qsort : (row → row → Int) → List row → List row)
    (rh : dm_report) : call → Option outcome
  | call.object o => dm_report_object H qsort (some rh) o
  | call.output => dm_report_output H qsort rh

/-- The heading lines and the row lines a call prints, and the handle afterwards. -/
def call_parts (H : libdevmapper_h) (qsort : (row → row → Int) → List row → List row)
    (rh : dm_report) : call → Option (List cstr × List cstr × dm_report)
  | call.object o => object_parts H qsort rh o
  | call.output => output_parts H qsort rh

/-- The lines each call of a sequence prints, call by call. -/
def run_calls (H : libdevmapper_h) (qsort : (row → row → Int) → List row → List row) :
    dm_report → List call → Option (List (List cstr))
  | _, [] => some []
  | rh, c :: cs =>
    match run_call H qsort rh c with
    | none => none
    | some out =>
      match out.rh with
      | none => none
      | some rh1 => (run_calls H qsort rh1 cs).map (fun t => out.printed :: t)

/-- The heading lines and the row lines each call of a sequence prints, call by call. -/
def trace_parts (H : libdevmapper_h) (qsort : (row → row → Int) → List row → List row) :
    dm_report → List call → Option (List (List cstr × List cstr))
  | _, [] => some []
  | rh, c :: cs =>
    match call_parts H qsort rh c with
    | none => none
    | some (hs, ls, rh1) => (trace_parts H qsort rh1 cs).map (fun t => (hs, ls) :: t)

/-- The session of the fields `name,size` with the flag `DM_REPORT_OUTPUT_HEADINGS` alone:
the column layout, not buffered and not aligned. -/
def sample_headed : dm_report :=
  (dm_report_init sample_h (some 1) sample_types sample_fields "name,size".toList " ".toList 4
    none 0).join.get (by decide)

/-- A sequence of calls on `sample_headed`: an output with no row, the objects at the
addresses 16 and 32, and a last output. -/
def sample_headed_calls : List call :=
  [call.output, call.object 16, call.object 32, call.output]

/-! ## Selection parsing -/

def FLD_CMP_MASK : Nat := 0x000FF000
def FLD_CMP_EQUAL : Nat := 0x00001000
def FLD_CMP_NOT : Nat := 0x00002000
def FLD_CMP_GT : Nat := 0x00004000
def FLD_CMP_LT : Nat := 0x00008000
def FLD_CMP_REGEX : Nat := 0x00010000
def FLD_CMP_NUMBER : Nat := 0x00020000

def SEL_MASK : Nat := 0x000000FF
def SEL_ITEM : Nat := 0x00000001
def SEL_AND : Nat := 0x00000002
def SEL_OR : Nat := 0x00000004
def SEL_MODIFIER_MASK : Nat := 0x00000F00
def SEL_MODIFIER_NOT : Nat := 0x00000100
def SEL_PRECEDENCE_MASK : Nat := 0x0000F000
def SEL_PRECEDENCE_PS : Nat := 0x00001000
def SEL_PRECEDENCE_PE : Nat := 0x00002000

/-- The `struct op_def` of one operator, without its description; the tables are held without
their terminating entry. -/
structure op_def where
  string : cstr
  flags : Nat
  deriving DecidableEq

/-- The table `_op_cmp` of the comparison operators. -/
def _op_cmp : List op_def :=
  [ ⟨['=', '~'], FLD_CMP_REGEX⟩,
    ⟨['!', '~'], FLD_CMP_REGEX ||| FLD_CMP_NOT⟩,
    ⟨['='], FLD_CMP_EQUAL⟩,
    ⟨['!', '='], FLD_CMP_NOT ||| FLD_CMP_EQUAL⟩,
    ⟨['>', '='], (FLD_CMP_NUMBER ||| FLD_CMP_GT) ||| FLD_CMP_EQUAL⟩,
    ⟨['>'], FLD_CMP_NUMBER ||| FLD_CMP_GT⟩,
    ⟨['<', '='], (FLD_CMP_NUMBER ||| FLD_CMP_LT) ||| FLD_CMP_EQUAL⟩,
    ⟨['<'], FLD_CMP_NUMBER ||| FLD_CMP_LT⟩ ]

/-- The table `_op_log` of the logical operators. -/
def _op_log : List op_def :=
  [ ⟨['&', '&'], SEL_AND⟩,
    ⟨[','], SEL_AND⟩,
    ⟨['|', '|'], SEL_OR⟩,
    ⟨['/'], SEL_OR⟩,
    ⟨['!'], SEL_MODIFIER_NOT⟩,
    ⟨['('], SEL_PRECEDENCE_PS⟩,
    ⟨[')'], SEL_PRECEDENCE_PE⟩ ]

/-- The function `isspace` of the C locale: space, tab, line feed, vertical tab, form feed and
carriage return. -/
def c_isspace (c : Char) : Bool :=
  c == ' ' || c == Char.ofNat 9 || c == Char.ofNat 10 || c == Char.ofNat 11 ||
    c == Char.ofNat 12 || c == Char.ofNat 13

/-- The function `isdigit`. -/
def c_isdigit (c : Char) : Bool := c.isDigit

/-- The function `isalnum` of the C locale. -/
def c_isalnum (c : Char) : Bool := c.isAlphanum

/-- The function `strncmp`: the difference of the first two characters that differ within
the first `n`. -/
def strncmp : cstr → cstr → Nat → Int
  | _, _, 0 => 0
  | [], [], _ + 1 => 0
  | [], b :: _, _ + 1 => 0 - (b.toNat : Int)
  | a :: _, [], _ + 1 => (a.toNat : Int)
  | a :: s1, b :: s2, n + 1 =>
    if a = b then strncmp s1 s2 n else (a.toNat : Int) - (b.toNat : Int)

/-- The function `_skip_space`: the string from its first character that is no space on. -/
def _skip_space : cstr → cstr
  | [] => []
  | c :: s => if c_isspace c then _skip_space s else c :: s

/-- The loop of `_tok_op` over the table, `s` being past the spaces: the flags returned and
the position stored in `end`. -/
def _tok_op_loop (s : cstr) (expect : Nat) : List op_def → Nat × cstr
  | [] => (0, s)
  | t :: ts =>
    if expect ≠ 0 ∧ t.flags &&& expect = 0 then _tok_op_loop s expect ts
    else if strncmp s t.string t.string.length = 0 then (t.flags, s.drop t.string.length)
    else _tok_op_loop s expect ts

/-- The function `_tok_op`: the flags returned and the position it stores in `end` when `end`
is not `NULL`. -/
def _tok_op (t : List op_def) (s : cstr) (expect : Nat) : Nat × cstr :=
  _tok_op_loop (_skip_space s) expect t

def _tok_op_log (s : cstr) (expect : Nat) : Nat × cstr := _tok_op _op_log s expect

def _tok_op_cmp (s : cstr) : Nat × cstr := _tok_op _op_cmp s 0

/-- The pointers a token function hands back: `tbegin` and `tend` are the strings from
`*begin` and from `*end` on, `next` the string from the returned pointer on. -/
structure tok where
  tbegin : cstr
  tend : cstr
  next : cstr
  deriving DecidableEq

/-- The text of a token: the characters from `*begin` up to `*end`. -/
def tok.text (t : tok) : cstr := t.tbegin.take (t.tbegin.length - t.tend.length)

/-- The loop of `_tok_value_number`: the string from the first character on that is neither a
digit nor the first dot. -/
def _tok_value_number_loop : Bool → cstr → cstr
  | _, [] => []
  | is_float, c :: s =>
    if !is_float && c == '.' then _tok_value_number_loop true s
    else if c_isdigit c then _tok_value_number_loop is_float s
    else c :: s

/-- The function `_tok_value_number`; `none` is `NULL`. -/
def _tok_value_number (s : cstr) : Option tok :=
  let e := _tok_value_number_loop false s
  if s.length = e.length then none else some ⟨s, e, e⟩

/-- The loop of `_tok_value_string` up to the end character. -/
def _tok_value_string_quoted (endchar : Char) : cstr → cstr
  | [] => []
  | c :: s => if c ≠ endchar then _tok_value_string_quoted endchar s else c :: s

/-- The loop of `_tok_value_string` without an end character: the position it stops at and
the last value of `flag_hit`. -/
def _tok_value_string_scan (end_op_flags : Nat) : cstr → cstr × Nat
  | [] => ([], 0)
  | c :: s =>
    if (_tok_op _op_log (c :: s) end_op_flags).1 ≠ 0 ∨ c = ' ' then
      (c :: s, (_tok_op _op_log (c :: s) end_op_flags).1)
    else _tok_value_string_scan end_op_flags s

/-- The function `_tok_value_string`; `none` is `NULL`. The end character is the character
of value `0` when there is none. The second component is what is stored in
`end_op_flag_hit` when the pointer is given: `none` when nothing is stored. -/
def _tok_value_string (s : cstr) (endchar : Char) (end_op_flags : Nat) :
    Option (tok × Option Nat) :=
  if endchar ≠ Char.ofNat 0 then
    match _tok_value_string_quoted endchar s with
    | [] => none
    | _ :: r => some (⟨s, _tok_value_string_quoted endchar s, r⟩, none)
  else
    some (⟨s, (_tok_value_string_scan end_op_flags s).1,
        (_tok_value_string_scan end_op_flags s).1⟩,
      some (_tok_value_string_scan end_op_flags s).2)

/-- The loop of `_tok_field_name`: the string from the first character on that is neither a
letter, a digit, `_` nor `-`. -/
def _tok_field_name_loop : cstr → cstr
  | [] => []
  | c :: s =>
    if c_isalnum c || c == '_' || c == '-' then _tok_field_name_loop s else c :: s

/-- The function `_tok_field_name`; `none` is `NULL`. -/
def _tok_field_name (s : cstr) : Option tok :=
  if (_skip_space s).length = (_tok_field_name_loop (_skip_space s)).length then none
  else
    some ⟨_skip_space s, _tok_field_name_loop (_skip_space s),
      _tok_field_name_loop (_skip_space s)⟩

/-- By the words of the specification: a character of the class `[A-Za-z0-9_-]`. -/
def spec_field_char (c : Char) : Bool :=
  decide (('A' ≤ c ∧ c ≤ 'Z') ∨ ('a' ≤ c ∧ c ≤ 'z') ∨ ('0' ≤ c ∧ c ≤ '9') ∨ c = '_' ∨ c = '-')

/-- The double quote. -/
def c_dquote : Char := Char.ofNat 34

/-- The single quote. -/
def c_squote : Char := Char.ofNat 39

/-- The opening brace. -/
def c_lbrace : Char := Char.ofNat 123

/-- The closing brace. -/
def c_rbrace : Char := Char.ofNat 125

/-- The operators that end a value without quotes: `SEL_AND | SEL_OR | SEL_PRECEDENCE_PE`. -/
def value_end_flags : Nat := (SEL_AND ||| SEL_OR) ||| SEL_PRECEDENCE_PE

/-- The end character `_tok_value_regex` picks in its `switch` for the first character of
the value; the character of value `0` when there is none. -/
def regex_endchar (c0 : Char) : Char :=
  if c0 = '(' then ')'
  else if c0 = c_lbrace then c_rbrace
  else if c0 = '[' then ']'
  else if c0 = c_dquote ∨ c0 = c_squote then c0
  else Char.ofNat 0

/-- The function `_tok_value_regex`; `none` is `NULL`. The result holds the token and the new
value of `*flags`. The field type `ft` is left out: the function names it in its log lines
only. -/
def _tok_value_regex (H : libdevmapper_h) (s : cstr) (flags : Nat) : Option (tok × Nat) :=
  match _skip_space s with
  | [] => none
  | c0 :: r =>
    match _tok_value_string (if regex_endchar c0 ≠ Char.ofNat 0 then r else c0 :: r)
        (regex_endchar c0) value_end_flags with
    | none => none
    | some (t, _) => some (t, flags ||| H.DM_REPORT_FIELD_TYPE_STRING)

/-- What `_tok_value` leaves behind when it does not return `NULL`: the token, `none` when
`*begin` and `*end` are not stored; the returned pointer; the new value of `*flags`; and the
factor stored through `custom`, `none` when nothing is stored. -/
structure value_tok where
  token : Option tok
  next : cstr
  flags : Nat
  factor : Option Nat
  deriving DecidableEq

/-- The function `_tok_value`. The outer `none` is a run that leaves defined behaviour (the
factor is stored through a `NULL` pointer), the inner `none` is the return value `NULL`.
`custom` is the address passed, `0` for `NULL`. The function `dm_units_to_factor` is not part
of the sources at hand and is a parameter: it yields the factor it returns and the position
it stores in `endptr`. -/
def _tok_value (H : libdevmapper_h) (dm_units_to_factor : cstr → Nat × cstr)
    (ft : dm_report_field_type) (s : cstr) (flags : Nat) (custom : Nat) :
    Option (Option value_tok) :=
  if ft.flags &&& H.DM_REPORT_FIELD_TYPE_MASK = H.DM_REPORT_FIELD_TYPE_STRING then
    match
      (if (_skip_space s).head? = some c_dquote ∨ (_skip_space s).head? = some c_squote then
        _tok_value_string (_skip_space s).tail (((_skip_space s).head?).getD (Char.ofNat 0))
          value_end_flags
      else _tok_value_string (_skip_space s) (Char.ofNat 0) value_end_flags) with
    | none => some none
    | some (t, _) =>
      some (some ⟨some t, t.next, flags ||| H.DM_REPORT_FIELD_TYPE_STRING, none⟩)
  else if ft.flags &&& H.DM_REPORT_FIELD_TYPE_MASK = H.DM_REPORT_FIELD_TYPE_NUMBER ∨
      ft.flags &&& H.DM_REPORT_FIELD_TYPE_MASK = H.DM_REPORT_FIELD_TYPE_SIZE then
    match _tok_value_number (_skip_space s) with
    | none => some none
    | some t =>
      if custom = 0 then none
      else if ft.flags &&& H.DM_REPORT_FIELD_TYPE_MASK = H.DM_REPORT_FIELD_TYPE_NUMBER then
        (if custom ≠ 0 then some none
         else
          some (some ⟨some t, t.next, flags ||| H.DM_REPORT_FIELD_TYPE_NUMBER,
            some (dm_units_to_factor t.next).1⟩))
      else
        some (some ⟨some t, (dm_units_to_factor t.next).2,
          flags ||| H.DM_REPORT_FIELD_TYPE_SIZE, some (dm_units_to_factor t.next).1⟩)
  else some (some ⟨none, _skip_space s, flags, none⟩)

/-- By the words of the specification: the character that closes a value opened by `o`. -/
def spec_closer (o : Char) : Char :=
  if o = '(' then ')' else if o = c_lbrace then c_rbrace else if o = '[' then ']' else o

/-- The string field `lv_name` of the sample registry. -/
def sample_name_field : dm_report_field_type := (sample_fields[0]?).get (by decide)

/-- The tokens after the first of a list, each behind one comma and `p.1` more. -/
def join_more : List (Nat × cstr) → cstr
  | [] => []
  | p :: rest => List.replicate (p.1 + 1) ',' ++ (p.2 ++ join_more rest)

/-- By the words of the specification: the tokens `t1` and those of `rest` joined with one or
more commas between neighbours, the number beyond one given with each token, and `lead`
commas before `t1`. -/
def join_loose (lead : Nat) (t1 : cstr) (rest : List (Nat × cstr)) : cstr :=
  List.replicate lead ',' ++ (t1 ++ join_more rest)

/-- By the words of the specification: the tokens joined with single commas. -/
def join_single (t1 : cstr) (rest : List cstr) : cstr :=
  join_loose 0 t1 (rest.map (fun t => (0, t)))

/-! ## The log of the parse functions -/

/-- The function `strcasecmp`. -/
def strcasecmp : cstr → cstr → Int
  | [], [] => 0
  | [], b :: _ => 0 - c_tolower b
  | a :: _, [] => c_tolower a
  | a :: s1, b :: s2 =>
    if c_tolower a = c_tolower b then strcasecmp s1 s2 else c_tolower a - c_tolower b

/-- What `_parse_fields` and `_parse_keys` themselves hand to the log: the call of
`_display_fields`, which writes the catalog of the fields, held as one entry; a line of
`log_warn`; a line of `log_error`. -/
inductive log_entry where
  | display_fields
  | warn (text : cstr)
  | error (text : cstr)
  deriving DecidableEq

/-- The log lines of `_parse_fields` once `_field_match` has returned 0 for the word that
starts at `ws` and has `len` characters, and `_display_fields` has returned. -/
def unmatched_log (H : libdevmapper_h) (msg : cstr) (ws : cstr) (len : Nat) :
    List log_entry :=
  [log_entry.display_fields, log_entry.warn [' ']] ++
    (if strcasecmp ws H.DM_REPORT_FIELD_RESERVED_NAME_HELP ≠ 0 ∧
        strcmp ws H.DM_REPORT_FIELD_RESERVED_NAME_HELP_ALT ≠ 0 then
      [log_entry.error (msg ++ ws.take len)]
    else [])

/-- The loop of `_parse_fields` as `_parse_fields_loop`, yielding the log lines of the
function itself. When `_display_fields` leaves defined behaviour the log ends with the entry
of this call. -/
def _parse_fields_log_loop (H : libdevmapper_h) (report_type_only : Bool) :
    Nat → dm_report → cstr → List log_entry
  | 0, _, _ => []
  | fuel + 1, rh, we =>
    if we = [] then []
    else
      let ws := we.dropWhile (fun c => c == ',')
      let we1 := ws.dropWhile (fun c => c != ',')
      match _field_match H rh ws (ws.length - we1.length) report_type_only with
      | none =>
        match _display_fields rh with
        | none => [log_entry.display_fields]
        | some _ => unmatched_log H "Unrecognised field: ".toList ws (ws.length - we1.length)
      | some rh1 => _parse_fields_log_loop H report_type_only fuel rh1 we1

/-- The log lines of `_parse_fields` itself. -/
def _parse_fields_log (H : libdevmapper_h) (rh : dm_report) (format : cstr)
    (report_type_only : Bool) : List log_entry :=
  _parse_fields_log_loop H report_type_only (format.length + 1) rh format

/-- The loop of `_parse_keys` as `_parse_keys_loop`, yielding the log lines of the function
itself. -/
def _parse_keys_log_loop (H : libdevmapper_h) (report_type_only : Bool) :
    Nat → dm_report → cstr → List log_entry
  | 0, _, _ => []
  | fuel + 1, rh, we =>
    if we = [] then []
    else
      let ws := we.dropWhile (fun c => c == ',')
      let we1 := ws.dropWhile (fun c => c != ',')
      match _key_match H rh ws (ws.length - we1.length) report_type_only with
      | none =>
        match _display_fields rh with
        | none => [log_entry.display_fields]
        | some _ =>
          unmatched_log H "dm_report: Unrecognised field: ".toList ws (ws.length - we1.length)
      | some rh1 => _parse_keys_log_loop H report_type_only fuel rh1 we1

/-- The log lines of `_parse_keys` itself. -/
def _parse_keys_log (H : libdevmapper_h) (rh : dm_report) (keys : Option cstr)
    (report_type_only : Bool) : List log_entry :=
  match keys with
  | none => []
  | some k => _parse_keys_log_loop H report_type_only (k.length + 1) rh k

/-- The log lines the parse functions hand over in the course of `dm_report_init`. -/
def dm_report_init_log (H : libdevmapper_h) (report_types : Option Nat)
    (types : List dm_report_object_type) (fields : List dm_report_field_type)
    (output_fields : cstr) (output_separator : cstr) (output_flags : Nat)
    (sort_keys : Option cstr) (private_data : Nat) : List log_entry :=
  let rh := init_handle H report_types types fields output_separator output_flags private_data
  match _parse_fields H rh output_fields true with
  | some (some rh1) =>
    match _parse_keys H rh1 sort_keys true with
    | some (some rh2) =>
      match _parse_fields H rh2 output_fields false with
      | some (some rh3) => _parse_keys_log H rh3 sort_keys false
      | _ => _parse_fields_log H rh2 output_fields false
    | _ => _parse_keys_log H rh1 sort_keys true
  | _ => _parse_fields_log H rh output_fields true

/-- The log of `dm_report_init` on the sample registry for a field list and a key list. -/
def sample_log (output_fields : cstr) (sort_keys : Option cstr) : List log_entry :=
  dm_report_init_log sample_h (some 1) sample_types sample_fields output_fields " ".toList 2
    sort_keys 0

/-- What `dm_report_object` returns for the object at the address 16 on `sample_headed`. -/
def sample_headed_x : outcome :=
  (dm_report_object sample_h stable_qsort (some sample_headed) 16).get (by decide)

/-- The handle `sample_headed` after the object at the address 16 is reported. -/
def sample_headed_after : dm_report := (sample_headed_x.rh).get (by decide)

/-! ## Selection expressions

The sources compile and evaluate no selection expression; the expressions below follow the
specification. -/

/-- By the words of the specification: a selection expression, built from comparisons of
the field at position `j` of a row with a value by `=`, combined by `&&`, `||` and `!`. -/
inductive spec_selection where
  | eq (j : Nat) (v : sort_value_t)
  | conj (a b : spec_selection)
  | disj (a b : spec_selection)
  | neg (a : spec_selection)

/-- By the words of the specification: the expression evaluates true on the field values of
the row. -/
def spec_selected (r : row) : spec_selection → Bool
  | spec_selection.eq j v => decide ((r.fields[j]?).map (fun f => f.sort_value) = some v)
  | spec_selection.conj a b => spec_selected r a && spec_selected r b
  | spec_selection.disj a b => spec_selected r a || spec_selected r b
  | spec_selection.neg a => !spec_selected r a

/-- What `dm_report_object` returns for the object at the address 16 on `sample_plain`. -/
def sample_plain_x : outcome :=
  (dm_report_object sample_h stable_qsort (some sample_plain) 16).get (by decide)

/-! ## The report types of a session -/

/-- The type bits the first pass adds to `report_types` for a word of the field list: the
type of the field the word names, or what `_all_match` returns for the word. -/
def field_word_types (rh : dm_report) (w : cstr) : Nat :=
  match field_of rh w with
  | some f => ((rh.fields[f]?).map (fun ft => ft.type)).getD 0
  | none => _all_match rh w w.length

/-- The type bits the first pass adds to `report_types` for a word of the sort key list: the
type of the field the word names. -/
def key_word_types (rh : dm_report) (w : cstr) : Nat :=
  match key_field rh w with
  | some f => ((rh.fields[f]?).map (fun ft => ft.type)).getD 0
  | none => 0

/-- By the words of the specification: the mask of the caller with the type bits of every
word of the field list and then of every word of the sort key list or-ed in, in order. -/
def spec_report_types (rh0 : dm_report) (fs ks : List cstr) : Nat :=
  ks.foldl (fun m w => m ||| key_word_types { rh0 with report_types := m } w)
    (fs.foldl (fun m w => m ||| field_word_types { rh0 with report_types := m } w)
      rh0.report_types)

/-- By the words of the specification: the fields a word of the field list stands for in the
session built. A field name stands for its field; `all` stands for the fields whose type
intersects the final mask `report_types`, in the order of the registry; any other pattern
stands for the fields of the types it matches. -/
def spec_expansion (rh : dm_report) (w : cstr) : List Nat :=
  match field_of rh w with
  | some f => [f]
  | none =>
    if ci_eq w ['a', 'l', 'l'] then fields_matching rh.fields rh.report_types
    else fields_matching rh.fields (_all_match_loop w w.length false rh.types 0)

/-- The fields the second pass adds for a word of the field list on the handle `rh`: the
field the word names, or the fields whose type has a bit in what `_all_match` returns. -/
def word_fields (rh : dm_report) (w : cstr) : List Nat :=
  match field_of rh w with
  | some f => [f]
  | none => fields_matching rh.fields (_all_match rh w w.length)

/-- The session of the field list `all,pv_size` over the sample registry with the initial
mask 1: `pv_size`, of type 2, comes after `all`. -/
def sample_all : dm_report :=
  (dm_report_init sample_h (some 1) sample_types sample_fields "all,pv_size".toList
    " ".toList 2 none 0).join.get (by decide)

/-- The handle of the empty field list without a sort key list. -/
def sample_empty : dm_report :=
  (dm_report_init sample_h (some 1) sample_types sample_fields [] " ".toList 2 none 0).join.get
    (by decide)

/-! ## Sessions in which every submission succeeded -/

/-- The states of a session in which every call of `dm_report_object` returned 1: the handle
`rh0` itself, and the handle after a successful `dm_report_object` or after a
`dm_report_output` on such a state. -/
inductive clean_session (H : libdevmapper_h) (qsort : (row → row → Int) → List row → List row)
    (rh0 : dm_report) : dm_report → Prop
  | start : clean_session H qsort rh0 rh0
  | object (rh rh1 : dm_report) (object : Nat) (out : outcome) :
      clean_session H qsort rh0 rh → dm_report_object H qsort (some rh) object = some out →
      out.ret = 1 → out.rh = some rh1 → clean_session H qsort rh0 rh1
  | output (rh rh1 : dm_report) (out : outcome) :
      clean_session H qsort rh0 rh → dm_report_output H qsort rh = some out →
      out.rh = some rh1 → clean_session H qsort rh0 rh1

/-- What output leaves of a row: the same sort array, and the fields that were not unlinked
from the front. -/
def row_left (r r1 : row) : Prop :=
  r1.sort_fields = r.sort_fields ∧ r1.fields <:+ r.fields

/-- Every sort value that a render function of a selection marked as a sort key gives
satisfies `P` with the flags of the selection. -/
def renders_sat (P : Nat → sort_value_t → Prop) (rh : dm_report) : Prop :=
  ∀ fp ∈ rh.field_props, fp.flags &&& FLD_SORT_KEY ≠ 0 →
    ∀ ft, rh.fields[fp.field_num]? = some ft →
      ∀ data s v, ft.report_fn data rh.private_data = some (s, v) → P fp.flags v

/-- The sort array of the row has `keys_count` slots, and the slot of every selection marked
as a sort key holds a field of this selection, the sort value of which satisfies `P`. -/
def row_keyed (P : Nat → sort_value_t → Prop) (rh : dm_report) (r : row) : Prop :=
  ∃ arr, r.sort_fields = some arr ∧ arr.length = rh.keys_count ∧
    ∀ (j : Nat) (fp : field_properties), rh.field_props[j]? = some fp →
      fp.flags &&& FLD_SORT_KEY ≠ 0 →
      ∃ sf, arr[fp.sort_posn]? = some (some sf) ∧ sf.props = j ∧ P fp.flags sf.sort_value

/-- Every position below `keys_count` is the sort position of a selection marked as a sort
key, with one direction. -/
def keys_selected (rh : dm_report) : Prop :=
  ∀ cnt, cnt < rh.keys_count → ∃ (j : Nat) (fp : field_properties),
    rh.field_props[j]? = some fp ∧ fp.flags &&& FLD_SORT_KEY ≠ 0 ∧ fp.sort_posn = cnt ∧
      one_direction fp.flags

/-- The state of a handle that sorts in which every row has its sort array filled. -/
def keyed (P : Nat → sort_value_t → Prop) (rh : dm_report) : Prop :=
  rh.flags &&& RH_SORT_REQUIRED ≠ 0 ∧ posn_inj rh.field_props ∧ keys_selected rh ∧
    renders_sat P rh ∧ ∀ r ∈ rh.rows, row_keyed P rh r

/-! ## Widths and report strings -/

/-- Every report string that a render function of the registry gives is shorter than 2^31
characters, so that its length is an `int`. -/
def renders_short (rh : dm_report) : Prop :=
  ∀ ft ∈ rh.fields, ∀ data s v, ft.report_fn data rh.private_data = some (s, v) →
    s.length < 2147483648

/-- Every field of every row the handle holds belongs to a selection that is at least as wide
as the report string of the field. -/
def widths_cover (rh : dm_report) : Prop :=
  ∀ r ∈ rh.rows, ∀ f ∈ r.fields, ∃ fp, rh.field_props[f.props]? = some fp ∧
    (f.report_string.length : Int) ≤ fp.width

/-! ## The same submissions with and without the caller's buffered flag -/

/-- The lines printed by the session of the fields `name,size` with the sort key `-size` and
the given output flags, after the objects `x` of size 10, `y` of size 30 and `z` of size 10
are reported in this order. -/
def sample_flag_lines (output_flags : Nat) : Option (List cstr) :=
  ((dm_report_init sample_h (some 1) sample_types sample_fields "name,size".toList
      " ".toList output_flags (some "-size".toList) 0).join.bind
    (fun rh => report_objects sample_h stable_qsort rh [16, 32, 48])).bind
      (output_lines sample_h stable_qsort)

/-! # Properties -/

/-! ## Strings -/

theorem strncasecmp_append_right (n : Nat) :
    ∀ (a b r : cstr), n ≤ b.length → strncasecmp a (b ++ r) n = strncasecmp a b n := by
  induction n with
  | zero => intro a b r _; simp [strncasecmp]
  | succ n ih =>
    intro a b r h
    cases b with
    | nil => simp at h
    | cons c b =>
      cases a with
      | nil => simp [strncasecmp]
      | cons x a =>
        rw [List.cons_append]
        simp only [strncasecmp]
        rw [ih a b r (by simpa using h)]

theorem strncasecmp_append_left (n : Nat) :
    ∀ (a b r : cstr), n ≤ b.length → strncasecmp (b ++ r) a n = strncasecmp b a n := by
  induction n with
  | zero => intro a b r _; simp [strncasecmp]
  | succ n ih =>
    intro a b r h
    cases b with
    | nil => simp at h
    | cons c b =>
      cases a with
      | nil => simp [strncasecmp]
      | cons x a =>
        rw [List.cons_append]
        simp only [strncasecmp]
        rw [ih a b r (by simpa using h)]

theorem is_same_field_append (name1 tok rest pfx : cstr) :
    _is_same_field name1 (tok ++ rest) tok.length pfx = _is_same_field name1 tok tok.length pfx := by
  unfold _is_same_field
  rw [strncasecmp_append_right _ _ _ _ (Nat.le_refl _),
    strncasecmp_append_right _ _ _ _ (Nat.le_refl _)]

theorem same_field_loop_append (tok rest pfx : cstr) :
    ∀ (fields : List dm_report_field_type) (f : Nat),
      _same_field_loop (tok ++ rest) tok.length pfx fields f =
        _same_field_loop tok tok.length pfx fields f := by
  intro fields
  induction fields with
  | nil => intro f; rfl
  | cons ft fts ih =>
    intro f
    simp only [_same_field_loop, is_same_field_append, ih]

theorem all_match_type_append (t : dm_report_object_type) (tok rest : cstr) :
    _all_match_type t (tok ++ rest) tok.length false = _all_match_type t tok tok.length false := by
  unfold _all_match_type
  by_cases h : tok.length = t.pfx.length + 3
  · have h1 : t.pfx.length ≤ tok.length := by omega
    have h2 : 3 ≤ (tok.drop t.pfx.length).length := by simp; omega
    rw [strncasecmp_append_right _ _ _ _ h1, List.drop_append_of_le_length h1,
      strncasecmp_append_left _ _ _ _ h2]
  · have hf : (tok.length == t.pfx.length + 3) = false := by simpa using h
    simp [hf]

theorem all_match_loop_append (tok rest : cstr) :
    ∀ (types : List dm_report_object_type) (acc : Nat),
      _all_match_loop (tok ++ rest) tok.length false types acc =
        _all_match_loop tok tok.length false types acc := by
  intro types
  induction types with
  | nil => intro acc; rfl
  | cons t ts ih =>
    intro acc
    simp only [_all_match_loop, all_match_type_append, ih]

theorem all_match_append (rh : dm_report) (tok rest : cstr) :
    _all_match rh (tok ++ rest) tok.length = _all_match rh tok tok.length := by
  unfold _all_match
  rw [all_match_loop_append]
  by_cases h : tok.length = 3
  · have h3 : 3 ≤ tok.length := by omega
    rw [strncasecmp_append_left _ _ _ _ h3]
  · have hf : (tok.length == 3) = false := by simpa using h
    simp [hf]

theorem field_match_append (H : libdevmapper_h) (rh : dm_report) (tok rest : cstr) (b : Bool) :
    _field_match H rh (tok ++ rest) tok.length b = _field_match H rh tok tok.length b := by
  unfold _field_match
  rw [same_field_loop_append, all_match_append]

theorem key_match_append (H : libdevmapper_h) (rh : dm_report) (tok rest : cstr) (b : Bool) :
    _key_match H rh (tok ++ rest) tok.length b = _key_match H rh tok tok.length b := by
  cases tok with
  | nil => simp [_key_match]
  | cons c tok =>
    unfold _key_match
    simp only [List.cons_append, List.head?_cons, List.tail_cons, List.length_cons,
      Nat.add_sub_cancel]
    by_cases h1 : c = '+'
    · simp only [h1, if_true]
      rw [same_field_loop_append]
    · by_cases h2 : c = '-'
      · have h3 : ¬ (some '-' = some '+') := by decide
        simp only [h2, h3, if_true, if_false]
        rw [same_field_loop_append]
      · simp only [Option.some.injEq, h1, h2, if_false]
        have := same_field_loop_append (c :: tok) rest rh.field_prefix rh.fields 0
        simp only [List.cons_append, List.length_cons] at this
        rw [this]

/-! ## Words and the parsing loops -/

theorem split_commas_ne_nil (s : cstr) : split_commas s ≠ [] := by
  cases s with
  | nil => simp [split_commas]
  | cons c s =>
    unfold split_commas
    by_cases h : c = ','
    · simp [h]
    · simp only [h, if_false]
      cases split_commas s <;> simp

theorem split_commas_eq (s : cstr) :
    split_commas s = s.takeWhile (fun c => c != ',') ::
      (match s.dropWhile (fun c => c != ',') with
        | [] => []
        | _ :: r => split_commas r) := by
  induction s with
  | nil => simp [split_commas]
  | cons c s ih =>
    by_cases h : c = ','
    · subst h
      simp [split_commas]
    · have hp : (c != ',') = true := by simpa using h
      simp only [List.takeWhile_cons, List.dropWhile_cons, hp, if_true]
      have e : split_commas (c :: s) =
          (match split_commas s with
            | [] => [[c]]
            | w :: ws => (c :: w) :: ws) := by
        simp [split_commas, h]
      rw [e, ih]

theorem words_nil : words [] = [] := by simp [words, split_commas]

theorem words_comma (s : cstr) : words (',' :: s) = words s := by
  simp [words, split_commas]

theorem words_dropWhile_comma (s : cstr) :
    words (s.dropWhile (fun c => c == ',')) = words s := by
  induction s with
  | nil => rfl
  | cons c s ih =>
    by_cases h : c = ','
    · subst h
      simp only [List.dropWhile_cons, beq_self_eq_true, if_true]
      rw [ih, words_comma]
    · have hq : (c == ',') = false := by simpa using h
      simp only [List.dropWhile_cons, hq]
      rfl

theorem dropWhile_ne_comma_head (s : cstr) :
    s.dropWhile (fun c => c != ',') = [] ∨
      ∃ r, s.dropWhile (fun c => c != ',') = ',' :: r := by
  induction s with
  | nil => left; rfl
  | cons c s ih =>
    by_cases h : c = ','
    · subst h
      right
      exact ⟨s, by simp⟩
    · have hp : (c != ',') = true := by simpa using h
      simp only [List.dropWhile_cons, hp, if_true]
      exact ih

theorem words_eq (s : cstr) :
    words s =
      (if s.takeWhile (fun c => c != ',') = [] then []
        else [s.takeWhile (fun c => c != ',')]) ++
      words (s.dropWhile (fun c => c != ',')) := by
  have h1 := split_commas_eq s
  rcases dropWhile_ne_comma_head s with h | ⟨r, h⟩
  · rw [h] at h1
    simp only at h1
    rw [h, words_nil]
    unfold words
    rw [h1]
    by_cases ht : s.takeWhile (fun c => c != ',') = []
    · simp [ht]
    · simp [ht, List.filter_cons]
  · rw [h] at h1
    simp only at h1
    rw [h, words_comma]
    unfold words
    rw [h1]
    by_cases ht : s.takeWhile (fun c => c != ',') = []
    · simp [ht]
    · simp [ht, List.filter_cons]

theorem getLast?_cons_of_ne_nil (a : Char) (s : cstr) (hs : s ≠ []) :
    (a :: s).getLast? = s.getLast? := by
  cases s with
  | nil => exact absurd rfl hs
  | cons b s => simp

theorem dropWhile_comma_last (s : cstr) (hs : s ≠ []) :
    (s.dropWhile (fun c => c == ',') = [] → s.getLast? = some ',') ∧
      (s.dropWhile (fun c => c == ',') ≠ [] →
        s.getLast? = (s.dropWhile (fun c => c == ',')).getLast?) := by
  induction s with
  | nil => exact absurd rfl hs
  | cons c s ih =>
    by_cases h : c = ','
    · subst h
      simp only [List.dropWhile_cons, beq_self_eq_true, if_true]
      by_cases hs' : s = []
      · subst hs'
        simp
      · rw [getLast?_cons_of_ne_nil _ _ hs']
        exact ih hs'
    · have hq : (c == ',') = false := by simpa using h
      simp only [List.dropWhile_cons, hq]
      simp

theorem dropWhile_comma_length (s : cstr) :
    (s.dropWhile (fun c => c == ',')).length ≤ s.length := by
  induction s with
  | nil => simp
  | cons c s ih =>
    simp only [List.dropWhile_cons]
    split
    · simp only [List.length_cons]; omega
    · simp

theorem dropWhile_comma_takeWhile (s : cstr) (h : s.dropWhile (fun c => c == ',') ≠ []) :
    (s.dropWhile (fun c => c == ',')).takeWhile (fun c => c != ',') ≠ [] := by
  induction s with
  | nil => exact absurd rfl h
  | cons c s ih =>
    by_cases hc : c = ','
    · subst hc
      simp only [List.dropWhile_cons, beq_self_eq_true, if_true] at h ⊢
      exact ih h
    · have hq : (c == ',') = false := by simpa using hc
      have hp : (c != ',') = true := by simpa using hc
      simp [List.dropWhile_cons, hq, List.takeWhile_cons, hp]

theorem takeWhile_last_ne_comma (s : cstr) :
    (s.takeWhile (fun c => c != ',')).getLast? ≠ some ',' := by
  intro h
  have hm := List.mem_of_getLast?_eq_some h
  have := List.mem_takeWhile_imp hm
  simp at this

theorem token_last (ws : cstr) :
    (ws.getLast? = some ',' ↔ (ws.dropWhile (fun c => c != ',')).getLast? = some ',') := by
  have e := List.takeWhile_append_dropWhile (fun c => c != ',') ws
  by_cases hd : ws.dropWhile (fun c => c != ',') = []
  · rw [hd] at e ⊢
    rw [List.append_nil] at e
    constructor
    · intro hl
      rw [← e] at hl
      exact absurd hl (takeWhile_last_ne_comma ws)
    · intro hl; simp at hl
  · have : ws.getLast? = (ws.dropWhile (fun c => c != ',')).getLast? := by
      conv_lhs => rw [← e]
      rw [List.getLast?_append]
      cases hl : (ws.dropWhile (fun c => c != ',')).getLast? with
      | none => exact absurd (List.getLast?_eq_none_iff.mp hl) hd
      | some x => rfl
    rw [this]

theorem token_length (ws : cstr) :
    ws.length - (ws.dropWhile (fun c => c != ',')).length =
      (ws.takeWhile (fun c => c != ',')).length := by
  have e := List.takeWhile_append_dropWhile (fun c => c != ',') ws
  have := congrArg List.length e
  rw [List.length_append] at this
  omega

theorem join_some_get {α : Type} {x : Option (Option α)} (h : x.join.isSome = true) :
    x = some (some (x.join.get h)) := by
  cases x with
  | none => exact absurd h (by simp)
  | some y =>
    cases y with
    | none => exact absurd h (by simp)
    | some a => rfl

theorem display_fields_loop_congr {a b : dm_report} (ht : a.types = b.types) :
    ∀ l : List dm_report_field_type, _display_fields_loop a l = _display_fields_loop b l := by
  intro l
  induction l with
  | nil => rfl
  | cons ft rest ih =>
    simp only [_display_fields_loop, _find_type, ht, ih]

theorem display_fields_congr {a b : dm_report} (hf : a.fields = b.fields)
    (ht : a.types = b.types) : _display_fields a = _display_fields b := by
  unfold _display_fields
  rw [hf]
  exact display_fields_loop_congr ht _

theorem after_display_congr {a b : dm_report} (hf : a.fields = b.fields)
    (ht : a.types = b.types) (r : Option dm_report) :
    after_display a r = after_display b r := by
  unfold after_display
  rw [display_fields_congr hf ht]

theorem after_display_some {rh x : dm_report} {r : Option dm_report} :
    after_display rh r = some (some x) ↔ r = some x := by
  unfold after_display
  cases r with
  | none =>
    cases _display_fields rh <;> simp
  | some y => simp

theorem after_display_null {rh : dm_report} {r : Option dm_report} :
    after_display rh r = some none ↔ r = none ∧ _display_fields rh = some () := by
  unfold after_display
  cases r with
  | none =>
    cases _display_fields rh <;> simp
  | some y => simp

theorem after_display_of_some (rh x : dm_report) : after_display rh (some x) = some (some x) :=
  rfl

theorem display_fields_loop_defined (rh : dm_report) :
    ∀ l : List dm_report_field_type,
      _display_fields_loop rh l = some () ↔ ∀ ft ∈ l, ∃ t ∈ rh.types, t.id = ft.type := by
  intro l
  induction l with
  | nil => simp [_display_fields_loop]
  | cons ft rest ih =>
    simp only [_display_fields_loop, List.mem_cons, forall_eq_or_imp]
    cases hf : _find_type rh ft.type with
    | none =>
      constructor
      · intro h
        exact absurd h (by simp)
      · rintro ⟨⟨t, ht, e⟩, _⟩
        unfold _find_type at hf
        rw [List.find?_eq_none] at hf
        exact absurd (by simpa using e) (hf t ht)
    | some t =>
      simp only
      rw [ih]
      constructor
      · intro h
        unfold _find_type at hf
        exact ⟨⟨t, List.mem_of_find?_eq_some hf, by simpa using List.find?_some hf⟩, h⟩
      · intro h
        exact h.2

/-- The catalog of the fields is displayed without leaving defined behaviour exactly when
every field of the registry belongs to an object type of the registry. -/
theorem display_fields_defined (rh : dm_report) :
    _display_fields rh = some () ↔ registry_ok rh.types rh.fields :=
  display_fields_loop_defined rh rh.fields

theorem parse_loop_eq (step : dm_report → cstr → Nat → Option dm_report)
    (hs : ∀ rh tok rest, step rh (tok ++ rest) tok.length = step rh tok tok.length)
    (h0 : ∀ rh, step rh [] 0 = none)
    (hfr : ∀ rh w n rh1, step rh w n = some rh1 →
      rh1.fields = rh.fields ∧ rh1.types = rh.types) :
    ∀ (fuel : Nat) (rh : dm_report) (s : cstr), s.length < fuel →
      parse_loop step fuel rh s =
        after_display rh (if s.getLast? = some ',' then none
          else resolve_words (fun r w => step r w w.length) (words s) rh) := by
  intro fuel
  induction fuel with
  | zero => intro rh s h; omega
  | succ fuel ih =>
    intro rh s hlen
    by_cases hnil : s = []
    · subst hnil
      simp [parse_loop, words_nil, resolve_words, after_display]
    · simp only [parse_loop, hnil, if_false]
      have hl := dropWhile_comma_last s hnil
      have hle := dropWhile_comma_length s
      have hw := words_dropWhile_comma s
      have ht := dropWhile_comma_takeWhile s
      generalize s.dropWhile (fun c => c == ',') = ws at hl hle hw ht ⊢
      by_cases hws : ws = []
      · subst hws
        simp [h0, hl.1 rfl, after_display]
      · have htok := ht hws
        have e := List.takeWhile_append_dropWhile (fun c => c != ',') ws
        have hstep : step rh ws (ws.length - (ws.dropWhile (fun c => c != ',')).length) =
            step rh (ws.takeWhile (fun c => c != ',')) (ws.takeWhile (fun c => c != ',')).length := by
          rw [token_length]
          conv_lhs => arg 2; rw [← e]
          exact hs _ _ _
        have hlt : (ws.dropWhile (fun c => c != ',')).length < fuel := by
          have h1 := congrArg List.length e
          rw [List.length_append] at h1
          have h2 : 0 < (ws.takeWhile (fun c => c != ',')).length :=
            List.length_pos.mpr htok
          omega
        rw [hstep, hl.2 hws, ← hw, words_eq ws]
        simp only [htok, if_false, List.singleton_append, resolve_words]
        cases hres : step rh (ws.takeWhile (fun c => c != ',')) (ws.takeWhile (fun c => c != ',')).length with
        | none => simp [after_display]
        | some rh1 =>
          simp only
          obtain ⟨hf1, ht1⟩ := hfr _ _ _ _ hres
          rw [ih rh1 _ hlt, after_display_congr hf1 ht1]
          by_cases hc : ws.getLast? = some ','
          · simp [hc, (token_last ws).mp hc]
          · have hc' : ¬ (ws.dropWhile (fun c => c != ',')).getLast? = some ',' :=
              fun h => hc ((token_last ws).mpr h)
            simp [hc, hc']

theorem parse_fields_loop_eq (H : libdevmapper_h) (b : Bool) :
    ∀ (fuel : Nat) (rh : dm_report) (s : cstr),
      _parse_fields_loop H b fuel rh s =
        parse_loop (fun r ws n => _field_match H r ws n b) fuel rh s := by
  intro fuel
  induction fuel with
  | zero => intro rh s; rfl
  | succ fuel ih =>
    intro rh s
    simp only [_parse_fields_loop, parse_loop, ih]

theorem parse_keys_loop_eq (H : libdevmapper_h) (b : Bool) :
    ∀ (fuel : Nat) (rh : dm_report) (s : cstr),
      _parse_keys_loop H b fuel rh s =
        parse_loop (fun r ws n => _key_match H r ws n b) fuel rh s := by
  intro fuel
  induction fuel with
  | zero => intro rh s; rfl
  | succ fuel ih =>
    intro rh s
    simp only [_parse_keys_loop, parse_loop, ih]

/-! ## What resolution leaves untouched -/

theorem frame1_refl (rh : dm_report) : frame1 rh rh := rfl

theorem frame2_refl (rh : dm_report) : frame2 rh rh := rfl

theorem frame1_trans {a b c : dm_report} (h1 : frame1 a b) (h2 : frame1 b c) : frame1 a c := by
  unfold frame1 at *
  rw [h2, h1]

theorem frame2_trans {a b c : dm_report} (h1 : frame2 a b) (h2 : frame2 b c) : frame2 a c := by
  unfold frame2 at *
  rw [h2, h1]

theorem add_field_eq (H : libdevmapper_h) (rh : dm_report) (f flags : Nat) :
    _add_field H rh f flags =
      match rh.fields[f]? with
      | none => none
      | some ft =>
        match _find_type rh ft.type with
        | none => none
        | some t =>
          if ((ft.flags &&& H.DM_REPORT_FIELD_MASK) ||| flags) &&& FLD_HIDDEN ≠ 0 then
            some ({ rh with field_props :=
              ⟨f, 0, ft.width, some t, (ft.flags &&& H.DM_REPORT_FIELD_MASK) ||| flags⟩ ::
                rh.field_props }, 0)
          else
            some ({ rh with field_props := rh.field_props ++
              [⟨f, 0, ft.width, some t, (ft.flags &&& H.DM_REPORT_FIELD_MASK) ||| flags⟩] },
              rh.field_props.length) := by
  unfold _add_field _copy_field
  cases rh.fields[f]? with
  | none => rfl
  | some ft =>
    simp only
    cases _find_type rh ft.type with
    | none => rfl
    | some t => simp only [Nat.zero_or]

theorem add_field_frame2 {H : libdevmapper_h} {rh rh1 : dm_report} {f flags i : Nat}
    (h : _add_field H rh f flags = some (rh1, i)) :
    frame2 rh rh1 ∧ rh1.keys_count = rh.keys_count := by
  rw [add_field_eq] at h
  split at h
  · exact absurd h (by simp)
  · split at h
    · exact absurd h (by simp)
    · split at h <;>
      · simp only [Option.some.injEq, Prod.mk.injEq] at h
        rw [← h.1]
        exact ⟨rfl, rfl⟩

theorem add_all_fields_loop_frame2 (H : libdevmapper_h) (type : Nat) :
    ∀ (fts : List dm_report_field_type) (f : Nat) (rh rh1 : dm_report),
      _add_all_fields_loop H type fts f rh = some rh1 →
        frame2 rh rh1 ∧ rh1.keys_count = rh.keys_count := by
  intro fts
  induction fts with
  | nil =>
    intro f rh rh1 h
    simp only [_add_all_fields_loop, Option.some.injEq] at h
    subst h
    exact ⟨rfl, rfl⟩
  | cons ft fts ih =>
    intro f rh rh1 h
    simp only [_add_all_fields_loop] at h
    split at h
    · split at h
      · exact absurd h (by simp)
      · rename_i rh2 i hadd
        have h1 := add_field_frame2 hadd
        have h2 := ih _ _ _ h
        exact ⟨frame2_trans h1.1 h2.1, h2.2.trans h1.2⟩
    · exact ih _ _ _ h

theorem field_match_frame1 {H : libdevmapper_h} {rh rh1 : dm_report} {w : cstr} {n : Nat}
    (h : _field_match H rh w n true = some rh1) : frame1 rh rh1 := by
  unfold _field_match at h
  split at h
  · exact absurd h (by simp)
  · split at h
    · simp only [if_true] at h
      split at h
      · exact absurd h (by simp)
      · simp only [Option.some.injEq] at h
        rw [← h]; rfl
    · split at h
      · simp only [if_true, Option.some.injEq] at h
        rw [← h]; rfl
      · exact absurd h (by simp)

theorem field_match_frame2 {H : libdevmapper_h} {rh rh1 : dm_report} {w : cstr} {n : Nat}
    (h : _field_match H rh w n false = some rh1) :
    frame2 rh rh1 ∧ rh1.keys_count = rh.keys_count := by
  unfold _field_match at h
  split at h
  · exact absurd h (by simp)
  · split at h
    · simp only [Bool.false_eq_true, if_false] at h
      split at h
      · exact absurd h (by simp)
      · rename_i rh2 i hadd
        simp only [Option.some.injEq] at h
        subst h
        exact add_field_frame2 hadd
    · split at h
      · simp only [Bool.false_eq_true, if_false] at h
        exact add_all_fields_loop_frame2 H _ _ _ _ _ h
      · exact absurd h (by simp)

theorem add_sort_key_found_frame2 {rh rh1 : dm_report} {found flags : Nat}
    (h : _add_sort_key_found rh found flags = some rh1) : frame2 rh rh1 := by
  unfold _add_sort_key_found at h
  split at h
  · exact absurd h (by simp)
  · split at h <;>
    · simp only [Option.some.injEq] at h
      rw [← h]; rfl

theorem add_sort_key_frame1 {H : libdevmapper_h} {rh rh1 : dm_report} {f flags : Nat}
    (h : _add_sort_key H rh f flags true = some rh1) : frame1 rh rh1 := by
  unfold _add_sort_key at h
  split at h
  · simp only [if_true] at h
    split at h
    · exact absurd h (by simp)
    · simp only [Option.some.injEq] at h
      rw [← h]; rfl
  · simp only [if_true, Option.some.injEq] at h
    rw [← h]; rfl

theorem add_sort_key_frame2 {H : libdevmapper_h} {rh rh1 : dm_report} {f flags : Nat}
    (h : _add_sort_key H rh f flags false = some rh1) : frame2 rh rh1 := by
  unfold _add_sort_key at h
  split at h
  · simp only [Bool.false_eq_true, if_false] at h
    split at h
    · exact absurd h (by simp)
    · rename_i rh2 i hadd
      exact frame2_trans (add_field_frame2 hadd).1 (add_sort_key_found_frame2 h)
  · simp only [Bool.false_eq_true, if_false] at h
    exact add_sort_key_found_frame2 h

/-- The sign, the length and the name of a sort key word, as `_key_match` takes them apart. -/
theorem key_match_eq (H : libdevmapper_h) (rh : dm_report) (key : cstr) (len : Nat) (b : Bool) :
    _key_match H rh key len b =
      if len = 0 then none
      else if key.head? = some '+' then
        (if len - 1 = 0 then none
          else match _same_field_loop key.tail (len - 1) rh.field_prefix rh.fields 0 with
            | some f => _add_sort_key H rh f FLD_ASCENDING b
            | none => none)
      else if key.head? = some '-' then
        (if len - 1 = 0 then none
          else match _same_field_loop key.tail (len - 1) rh.field_prefix rh.fields 0 with
            | some f => _add_sort_key H rh f FLD_DESCENDING b
            | none => none)
      else
        match _same_field_loop key len rh.field_prefix rh.fields 0 with
        | some f => _add_sort_key H rh f FLD_ASCENDING b
        | none => none := by
  unfold _key_match
  by_cases h0 : len = 0
  · simp [h0]
  · simp only [h0, if_false]
    by_cases h1 : key.head? = some '+'
    · simp only [h1, if_true]
    · simp only [h1, if_false]
      by_cases h2 : key.head? = some '-'
      · simp only [h2, if_true]
      · simp only [h2, if_false, h0]

theorem key_match_some {H : libdevmapper_h} {rh rh1 : dm_report} {key : cstr} {len : Nat}
    {b : Bool} (h : _key_match H rh key len b = some rh1) :
    ∃ f flags, _add_sort_key H rh f flags b = some rh1 := by
  rw [key_match_eq] at h
  split at h
  · exact absurd h (by simp)
  · split at h
    · split at h
      · exact absurd h (by simp)
      · split at h
        · exact ⟨_, _, h⟩
        · exact absurd h (by simp)
    · split at h
      · split at h
        · exact absurd h (by simp)
        · split at h
          · exact ⟨_, _, h⟩
          · exact absurd h (by simp)
      · split at h
        · exact ⟨_, _, h⟩
        · exact absurd h (by simp)

theorem key_match_frame1 {H : libdevmapper_h} {rh rh1 : dm_report} {w : cstr} {n : Nat}
    (h : _key_match H rh w n true = some rh1) : frame1 rh rh1 := by
  obtain ⟨f, fl, h1⟩ := key_match_some h
  exact add_sort_key_frame1 h1

theorem key_match_frame2 {H : libdevmapper_h} {rh rh1 : dm_report} {w : cstr} {n : Nat}
    (h : _key_match H rh w n false = some rh1) : frame2 rh rh1 := by
  obtain ⟨f, fl, h1⟩ := key_match_some h
  exact add_sort_key_frame2 h1

/-- A relation that every step establishes holds between the ends of a resolution. -/
theorem resolve_words_rel (step : dm_report → cstr → Option dm_report)
    (R : dm_report → dm_report → Prop) (hrefl : ∀ r, R r r)
    (htrans : ∀ a b c, R a b → R b c → R a c)
    (hstep : ∀ r w r1, step r w = some r1 → R r r1) :
    ∀ (ws : List cstr) (rh rh1 : dm_report), resolve_words step ws rh = some rh1 → R rh rh1 := by
  intro ws
  induction ws with
  | nil =>
    intro rh rh1 h
    simp only [resolve_words, Option.some.injEq] at h
    subst h
    exact hrefl _
  | cons w ws ih =>
    intro rh rh1 h
    simp only [resolve_words] at h
    split at h
    · exact absurd h (by simp)
    · rename_i r2 hs
      exact htrans _ _ _ (hstep _ _ _ hs) (ih _ _ h)

theorem frame1_registry {a b : dm_report} (h : frame1 a b) :
    b.fields = a.fields ∧ b.types = a.types := by
  unfold frame1 at h
  rw [h]
  exact ⟨rfl, rfl⟩

theorem frame2_registry {a b : dm_report} (h : frame2 a b) :
    b.fields = a.fields ∧ b.types = a.types := by
  unfold frame2 at h
  rw [h]
  exact ⟨rfl, rfl⟩

theorem field_match_registry {H : libdevmapper_h} {rh rh1 : dm_report} {w : cstr} {n : Nat}
    {b : Bool} (h : _field_match H rh w n b = some rh1) :
    rh1.fields = rh.fields ∧ rh1.types = rh.types := by
  cases b with
  | true => exact frame1_registry (field_match_frame1 h)
  | false => exact frame2_registry (field_match_frame2 h).1

theorem key_match_registry {H : libdevmapper_h} {rh rh1 : dm_report} {w : cstr} {n : Nat}
    {b : Bool} (h : _key_match H rh w n b = some rh1) :
    rh1.fields = rh.fields ∧ rh1.types = rh.types := by
  cases b with
  | true => exact frame1_registry (key_match_frame1 h)
  | false => exact frame2_registry (key_match_frame2 h)

/-- The loop of `_parse_fields` resolves the words of the list one after the other, and fails
on a list that ends in a comma; when it fails the catalog of the fields is displayed. -/
theorem parse_fields_words (H : libdevmapper_h) (rh : dm_report) (s : cstr) (b : Bool) :
    _parse_fields H rh s b =
      after_display rh (if s.getLast? = some ',' then none
        else resolve_words (fun r w => _field_match H r w w.length b) (words s) rh) := by
  unfold _parse_fields
  rw [parse_fields_loop_eq]
  exact parse_loop_eq _ (fun r tok rest => field_match_append H r tok rest b)
    (fun r => by simp [_field_match]) (fun _ _ _ _ h => field_match_registry h) _ rh s
    (Nat.lt_succ_self _)

/-- The loop of `_parse_keys` resolves the words of the list one after the other, and fails
on a list that ends in a comma; when it fails the catalog of the fields is displayed. -/
theorem parse_keys_words (H : libdevmapper_h) (rh : dm_report) (s : cstr) (b : Bool) :
    _parse_keys H rh (some s) b =
      after_display rh (if s.getLast? = some ',' then none
        else resolve_words (fun r w => _key_match H r w w.length b) (words s) rh) := by
  unfold _parse_keys
  simp only
  rw [parse_keys_loop_eq]
  exact parse_loop_eq _ (fun r tok rest => key_match_append H r tok rest b)
    (fun r => by simp [_key_match]) (fun _ _ _ _ h => key_match_registry h) _ rh s
    (Nat.lt_succ_self _)

theorem parse_fields_some {H : libdevmapper_h} {rh rh1 : dm_report} {s : cstr} {b : Bool}
    (h : _parse_fields H rh s b = some (some rh1)) :
    s.getLast? ≠ some ',' ∧
      resolve_words (fun r w => _field_match H r w w.length b) (words s) rh = some rh1 := by
  rw [parse_fields_words, after_display_some] at h
  split at h
  · exact absurd h (by simp)
  · rename_i hc
    exact ⟨hc, h⟩

theorem parse_keys_some {H : libdevmapper_h} {rh rh1 : dm_report} {s : cstr} {b : Bool}
    (h : _parse_keys H rh (some s) b = some (some rh1)) :
    s.getLast? ≠ some ',' ∧
      resolve_words (fun r w => _key_match H r w w.length b) (words s) rh = some rh1 := by
  rw [parse_keys_words, after_display_some] at h
  split at h
  · exact absurd h (by simp)
  · rename_i hc
    exact ⟨hc, h⟩

theorem parse_keys_null {H : libdevmapper_h} {rh rh1 : dm_report} {b : Bool}
    (h : _parse_keys H rh none b = some (some rh1)) : rh1 = rh := by
  simp only [_parse_keys, Option.some.injEq] at h
  exact h.symm

/-- The four passes behind a handle that `dm_report_init` returns. -/
theorem init_some {H : libdevmapper_h}
    {report_types : Option Nat} {types : List dm_report_object_type}
    {fields : List dm_report_field_type} {output_fields output_separator : cstr}
    {output_flags : Nat} {sort_keys : Option cstr} {private_data : Nat} {rh : dm_report}
    (h : dm_report_init H report_types types fields output_fields output_separator output_flags
      sort_keys private_data = some (some rh)) :
    ∃ rh1 rh2 rh3,
      _parse_fields H (init_handle H report_types types fields output_separator
        output_flags private_data) output_fields true = some (some rh1) ∧
      _parse_keys H rh1 sort_keys true = some (some rh2) ∧
      _parse_fields H rh2 output_fields false = some (some rh3) ∧
      _parse_keys H rh3 sort_keys false = some (some rh) := by
  unfold dm_report_init at h
  simp only at h
  split at h
  · exact absurd h (by simp)
  · exact absurd h (by simp)
  · rename_i rh1 h1
    split at h
    · exact absurd h (by simp)
    · exact absurd h (by simp)
    · rename_i rh2 h2
      split at h
      · exact absurd h (by simp)
      · exact absurd h (by simp)
      · rename_i rh3 h3
        exact ⟨rh1, rh2, rh3, h1, h2, h3, h⟩

/-- The handle `dm_report_init` returns when the four passes succeed. -/
theorem init_of_passes {H : libdevmapper_h}
    {report_types : Option Nat} {types : List dm_report_object_type}
    {fields : List dm_report_field_type} {output_fields output_separator : cstr}
    {output_flags : Nat} {sort_keys : Option cstr} {private_data : Nat}
    {rh1 rh2 rh3 : dm_report} {r : Option (Option dm_report)}
    (h1 : _parse_fields H (init_handle H report_types types fields output_separator
      output_flags private_data) output_fields true = some (some rh1))
    (h2 : _parse_keys H rh1 sort_keys true = some (some rh2))
    (h3 : _parse_fields H rh2 output_fields false = some (some rh3))
    (h4 : _parse_keys H rh3 sort_keys false = r) :
    dm_report_init H report_types types fields output_fields output_separator output_flags
      sort_keys private_data = r := by
  unfold dm_report_init
  simp only [h1, h2, h3, h4]

/-- A relation that every word of the two lists establishes holds from the handle the two
passes of `dm_report_init` start from to the handle returned. -/
theorem init_rel (R : dm_report → dm_report → Prop) (hrefl : ∀ r, R r r)
    (htrans : ∀ a b c, R a b → R b c → R a c) (H : libdevmapper_h)
    (hf : ∀ b r w r1, _field_match H r w w.length b = some r1 → R r r1)
    (hk : ∀ b r w r1, _key_match H r w w.length b = some r1 → R r r1)
    {report_types : Option Nat} {types : List dm_report_object_type}
    {fields : List dm_report_field_type} {output_fields output_separator : cstr}
    {output_flags : Nat} {sort_keys : Option cstr} {private_data : Nat} {rh : dm_report}
    (h : dm_report_init H report_types types fields output_fields output_separator output_flags
      sort_keys private_data = some (some rh)) :
    R (init_handle H report_types types fields output_separator output_flags private_data) rh := by
  have hF : ∀ b r r1 s, _parse_fields H r s b = some (some r1) → R r r1 := fun b r r1 s hp =>
    resolve_words_rel _ R hrefl htrans (hf b) _ _ _ (parse_fields_some hp).2
  have hK : ∀ b r r1 k, _parse_keys H r k b = some (some r1) → R r r1 := by
    intro b r r1 k hp
    cases k with
    | none =>
      rw [parse_keys_null hp]
      exact hrefl _
    | some s => exact resolve_words_rel _ R hrefl htrans (hk b) _ _ _ (parse_keys_some hp).2
  obtain ⟨rh1, rh2, rh3, h1, h2, h3, h4⟩ := init_some h
  exact htrans _ _ _ (hF _ _ _ _ h1)
    (htrans _ _ _ (hK _ _ _ _ h2) (htrans _ _ _ (hF _ _ _ _ h3) (hK _ _ _ _ h4)))

/-! ## Flag bits -/

theorem and_two_pow_ne_zero (x k : Nat) : x &&& 2 ^ k ≠ 0 ↔ x.testBit k = true := by
  rw [Nat.and_two_pow]
  cases x.testBit k <;> simp

theorem test_hidden (x : Nat) : x &&& FLD_HIDDEN ≠ 0 ↔ x.testBit 8 = true :=
  and_two_pow_ne_zero x 8

theorem test_sort_key (x : Nat) : x &&& FLD_SORT_KEY ≠ 0 ↔ x.testBit 9 = true :=
  and_two_pow_ne_zero x 9

theorem test_ascending (x : Nat) : x &&& FLD_ASCENDING ≠ 0 ↔ x.testBit 10 = true :=
  and_two_pow_ne_zero x 10

theorem test_descending (x : Nat) : x &&& FLD_DESCENDING ≠ 0 ↔ x.testBit 11 = true :=
  and_two_pow_ne_zero x 11

theorem direction_cases {fl : Nat} (h : fl = FLD_ASCENDING ∨ fl = FLD_DESCENDING) :
    fl.testBit 8 = false ∧ fl.testBit 9 = false := by
  rcases h with h | h <;> subst h <;> exact ⟨by decide, by decide⟩

theorem sort_flags_hidden (x fl : Nat) (h : fl = FLD_ASCENDING ∨ fl = FLD_DESCENDING) :
    ((x ||| FLD_SORT_KEY) ||| fl) &&& FLD_HIDDEN ≠ 0 ↔ x &&& FLD_HIDDEN ≠ 0 := by
  rw [test_hidden, test_hidden, Nat.testBit_or, Nat.testBit_or, (direction_cases h).1]
  have : FLD_SORT_KEY.testBit 8 = false := by decide
  rw [this]
  simp

theorem or_hidden (x : Nat) : (x ||| FLD_HIDDEN) &&& FLD_HIDDEN ≠ 0 := by
  rw [test_hidden, Nat.testBit_or]
  have : FLD_HIDDEN.testBit 8 = true := by decide
  rw [this]
  simp

/-! ## Hidden selections come first -/

theorem map_set_same {α β : Type} (f : α → β) :
    ∀ (l : List α) (i : Nat) (x y : α), l[i]? = some y → f x = f y →
      (l.set i x).map f = l.map f := by
  intro l
  induction l with
  | nil => intro i x y h; simp at h
  | cons a l ih =>
    intro i x y h hf
    cases i with
    | zero =>
      simp only [List.getElem?_cons_zero, Option.some.injEq] at h
      subst h
      simp [hf]
    | succ i =>
      simp only [List.getElem?_cons_succ] at h
      simp only [List.set_cons_succ, List.map_cons, ih i x y h hf]

theorem hidden_first_iff (l : List field_properties) :
    hidden_first l ↔
      (l.map (fun fp => decide (fp.flags &&& FLD_HIDDEN ≠ 0))).Pairwise
        (fun a b => b = true → a = true) := by
  unfold hidden_first
  rw [List.pairwise_map]
  simp

theorem add_field_hidden_first {H : libdevmapper_h} {rh rh1 : dm_report} {f flags i : Nat}
    (h : _add_field H rh f flags = some (rh1, i)) (hi : hidden_first rh.field_props) :
    hidden_first rh1.field_props := by
  rw [add_field_eq] at h
  split at h
  · exact absurd h (by simp)
  · split at h
    · exact absurd h (by simp)
    · split at h
      · rename_i hh
        simp only [Option.some.injEq, Prod.mk.injEq] at h
        rw [← h.1]
        exact List.pairwise_cons.mpr ⟨fun _ _ _ => hh, hi⟩
      · rename_i hh
        simp only [Option.some.injEq, Prod.mk.injEq] at h
        rw [← h.1]
        refine List.pairwise_append.mpr ⟨hi, List.pairwise_singleton _ _, ?_⟩
        intro a _ b hb hbh
        simp only [List.mem_singleton] at hb
        subst hb
        exact absurd hbh hh

theorem add_sort_key_found_hidden_first {rh rh1 : dm_report} {found flags : Nat}
    (hfl : flags = FLD_ASCENDING ∨ flags = FLD_DESCENDING)
    (h : _add_sort_key_found rh found flags = some rh1) (hi : hidden_first rh.field_props) :
    hidden_first rh1.field_props := by
  unfold _add_sort_key_found at h
  split at h
  · exact absurd h (by simp)
  · rename_i fp hfp
    split at h
    · simp only [Option.some.injEq] at h
      subst h
      exact hi
    · simp only [Option.some.injEq] at h
      subst h
      rw [hidden_first_iff] at hi ⊢
      rw [map_set_same _ _ _ _ fp hfp]
      · exact hi
      · simp only [decide_eq_decide]
        exact sort_flags_hidden fp.flags flags hfl

theorem key_flags_cases (w : cstr) :
    key_flags w = FLD_ASCENDING ∨ key_flags w = FLD_DESCENDING := by
  unfold key_flags
  split
  · right; rfl
  · left; rfl

theorem key_match_word (H : libdevmapper_h) (rh : dm_report) (w : cstr) (b : Bool) :
    _key_match H rh w w.length b =
      if key_name w = [] then none
      else
        match field_of rh (key_name w) with
        | some f => _add_sort_key H rh f (key_flags w) b
        | none => none := by
  rw [key_match_eq]
  unfold key_name key_flags field_of
  cases w with
  | nil => simp
  | cons c t =>
    simp only [List.length_cons, Nat.add_sub_cancel, List.head?_cons, List.tail_cons,
      Option.some.injEq]
    by_cases h1 : c = '+'
    · subst h1
      have hne : ¬ ('+' = '-') := by decide
      simp only [true_or, if_true, hne, if_false]
      cases t with
      | nil => simp
      | cons d t => simp
    · by_cases h2 : c = '-'
      · subst h2
        simp only [h1, if_false, or_true, if_true]
        cases t with
        | nil => simp
        | cons d t => simp
      · simp [h1, h2]

theorem field_match_word (H : libdevmapper_h) (rh : dm_report) (w : cstr) (b : Bool) :
    _field_match H rh w w.length b =
      if w = [] then none
      else
        match field_of rh w with
        | some f =>
          if b then
            match rh.fields[f]? with
            | none => none
            | some ft => some { rh with report_types := rh.report_types ||| ft.type }
          else
            match _add_field H rh f 0 with
            | none => none
            | some (rh1, _) => some rh1
        | none =>
          if _all_match rh w w.length ≠ 0 then
            if b then
              some { rh with report_types := rh.report_types ||| _all_match rh w w.length }
            else _add_all_fields H rh (_all_match rh w w.length)
          else none := by
  unfold _field_match field_of
  cases w with
  | nil => simp
  | cons c t => simp

theorem init_handle_field_props (H : libdevmapper_h) (report_types : Option Nat)
    (types : List dm_report_object_type) (fields : List dm_report_field_type)
    (output_separator : cstr) (output_flags private_data : Nat) :
    (init_handle H report_types types fields output_separator output_flags
      private_data).field_props = [] ∧
    (init_handle H report_types types fields output_separator output_flags
      private_data).keys_count = 0 ∧
    (init_handle H report_types types fields output_separator output_flags
      private_data).fields = fields ∧
    (init_handle H report_types types fields output_separator output_flags
      private_data).types = types ∧
    (init_handle H report_types types fields output_separator output_flags
      private_data).rows = [] := by
  unfold init_handle
  simp only
  split <;> simp

theorem hidden_first_last {l : List field_properties} (hl : hidden_first l)
    (hv : ∃ fp ∈ l, fp.flags &&& FLD_HIDDEN = 0) :
    ∃ last, l.getLast? = some last ∧ last.flags &&& FLD_HIDDEN = 0 := by
  obtain ⟨fp, hmem, hfp⟩ := hv
  have hne : l ≠ [] := List.ne_nil_of_mem hmem
  refine ⟨l.getLast hne, List.getLast?_eq_getLast l hne, ?_⟩
  by_contra hlast
  have hd := List.dropLast_append_getLast hne
  rw [← hd] at hmem hl
  rcases List.mem_append.mp hmem with hm | hm
  · have := (List.pairwise_append.mp hl).2.2 fp hm (l.getLast hne) (by simp) hlast
    exact this hfp
  · simp only [List.mem_singleton] at hm
    rw [hm] at hfp
    exact hlast hfp

/-! ## Building a row changes widths only -/

theorem selection_grows_refl (a : field_properties) : selection_grows a a :=
  ⟨rfl, rfl, rfl, rfl, le_refl _⟩

theorem forall₂_grows_refl (l : List field_properties) : List.Forall₂ selection_grows l l :=
  List.forall₂_same.mpr (fun a _ => selection_grows_refl a)

theorem object_loop_grows (rh : dm_report) (object : Nat) :
    ∀ (todo done : List field_properties) (r r1 : row) (props : List field_properties)
      (ok : Bool),
      dm_report_object_loop rh object done todo r = some (props, r1, ok) →
        ∃ todo1, props = done ++ todo1 ∧ List.Forall₂ selection_grows todo todo1 := by
  intro todo
  induction todo with
  | nil =>
    intro done r r1 props ok h
    simp only [dm_report_object_loop, Option.some.injEq, Prod.mk.injEq] at h
    exact ⟨[], by simp [h.1], List.Forall₂.nil⟩
  | cons fp todo ih =>
    intro done r r1 props ok h
    simp only [dm_report_object_loop] at h
    split at h
    · exact absurd h (by simp)
    · split at h
      · simp only [Option.some.injEq, Prod.mk.injEq] at h
        exact ⟨fp :: todo, h.1.symm, forall₂_grows_refl _⟩
      · split at h
        · exact absurd h (by simp)
        · split at h
          · simp only [Option.some.injEq, Prod.mk.injEq] at h
            exact ⟨fp :: todo, h.1.symm, forall₂_grows_refl _⟩
          · rename_i report_string sort_value hrep
            have hg : selection_grows fp (fold_width fp report_string) := by
              unfold fold_width
              split
              · rename_i hgt
                exact ⟨rfl, rfl, rfl, rfl, le_of_lt hgt⟩
              · exact selection_grows_refl fp
            split at h
            · split at h
              · exact absurd h (by simp)
              · split at h
                · obtain ⟨todo1, hp, hf⟩ := ih _ _ _ _ _ h
                  refine ⟨_ :: todo1, ?_, List.Forall₂.cons hg hf⟩
                  rw [hp]; simp
                · exact absurd h (by simp)
            · obtain ⟨todo1, hp, hf⟩ := ih _ _ _ _ _ h
              refine ⟨_ :: todo1, ?_, List.Forall₂.cons hg hf⟩
              rw [hp]; simp

/-! ## Resolution as a chain of elementary changes -/

theorem add_all_fields_loop_chain (H : libdevmapper_h) (type : Nat) :
    ∀ (fts : List dm_report_field_type) (f : Nat) (rh rh1 : dm_report),
      _add_all_fields_loop H type fts f rh = some rh1 →
        Relation.ReflTransGen (prim H) rh rh1 := by
  intro fts
  induction fts with
  | nil =>
    intro f rh rh1 h
    simp only [_add_all_fields_loop, Option.some.injEq] at h
    subst h
    exact Relation.ReflTransGen.refl
  | cons ft fts ih =>
    intro f rh rh1 h
    simp only [_add_all_fields_loop] at h
    split at h
    · split at h
      · exact absurd h (by simp)
      · rename_i rh2 i hadd
        exact Relation.ReflTransGen.head (prim.add _ _ _ _ _ hadd) (ih _ _ _ h)
    · exact ih _ _ _ h

theorem field_match_chain {H : libdevmapper_h} {rh rh1 : dm_report} {w : cstr} {n : Nat}
    {b : Bool} (h : _field_match H rh w n b = some rh1) :
    Relation.ReflTransGen (prim H) rh rh1 := by
  cases b with
  | true =>
    have := field_match_frame1 h
    rw [this]
    exact Relation.ReflTransGen.single (prim.types _ _)
  | false =>
    unfold _field_match at h
    split at h
    · exact absurd h (by simp)
    · split at h
      · simp only [Bool.false_eq_true, if_false] at h
        split at h
        · exact absurd h (by simp)
        · rename_i rh2 i hadd
          simp only [Option.some.injEq] at h
          subst h
          exact Relation.ReflTransGen.single (prim.add _ _ _ _ _ hadd)
      · split at h
        · simp only [Bool.false_eq_true, if_false] at h
          exact add_all_fields_loop_chain H _ _ _ _ _ h
        · exact absurd h (by simp)

theorem add_sort_key_chain {H : libdevmapper_h} {rh rh1 : dm_report} {f flags : Nat}
    {b : Bool} (hfl : flags = FLD_ASCENDING ∨ flags = FLD_DESCENDING)
    (h : _add_sort_key H rh f flags b = some rh1) :
    Relation.ReflTransGen (prim H) rh rh1 := by
  cases b with
  | true =>
    have := add_sort_key_frame1 h
    rw [this]
    exact Relation.ReflTransGen.single (prim.types _ _)
  | false =>
    unfold _add_sort_key at h
    split at h
    · simp only [Bool.false_eq_true, if_false] at h
      split at h
      · exact absurd h (by simp)
      · rename_i rh2 i hadd
        exact Relation.ReflTransGen.head (prim.add _ _ _ _ _ hadd)
          (Relation.ReflTransGen.single (prim.mark _ _ _ _ hfl h))
    · simp only [Bool.false_eq_true, if_false] at h
      exact Relation.ReflTransGen.single (prim.mark _ _ _ _ hfl h)

theorem key_match_chain {H : libdevmapper_h} {rh rh1 : dm_report} {w : cstr}
    {b : Bool} (h : _key_match H rh w w.length b = some rh1) :
    Relation.ReflTransGen (prim H) rh rh1 := by
  rw [key_match_word] at h
  split at h
  · exact absurd h (by simp)
  · split at h
    · exact add_sort_key_chain (key_flags_cases w) h
    · exact absurd h (by simp)

theorem init_chain {H : libdevmapper_h}
    {report_types : Option Nat} {types : List dm_report_object_type}
    {fields : List dm_report_field_type} {output_fields output_separator : cstr}
    {output_flags : Nat} {sort_keys : Option cstr} {private_data : Nat} {rh : dm_report}
    (h : dm_report_init H report_types types fields output_fields output_separator output_flags
      sort_keys private_data = some (some rh)) :
    Relation.ReflTransGen (prim H)
      (init_handle H report_types types fields output_separator output_flags private_data) rh :=
  init_rel (Relation.ReflTransGen (prim H)) (fun _ => Relation.ReflTransGen.refl)
    (fun _ _ _ => Relation.ReflTransGen.trans) H
    (fun _ _ _ _ hs => field_match_chain hs) (fun _ _ _ _ hs => key_match_chain hs) h

/-- A property that every elementary change keeps holds at the end of a chain. -/
theorem chain_inv {H : libdevmapper_h} (P : dm_report → Prop)
    (hp : ∀ a b, prim H a b → P a → P b) {a b : dm_report}
    (h : Relation.ReflTransGen (prim H) a b) (ha : P a) : P b := by
  induction h with
  | refl => exact ha
  | tail _ hbc ih => exact hp _ _ hbc ih

theorem prim_hidden_first {H : libdevmapper_h} {a b : dm_report} (h : prim H a b)
    (hi : hidden_first a.field_props) : hidden_first b.field_props := by
  cases h
  · exact hi
  · rename_i hadd
    exact add_field_hidden_first hadd hi
  · rename_i hfl hm
    exact add_sort_key_found_hidden_first hfl hm hi

theorem init_hidden_first {H : libdevmapper_h}
    {report_types : Option Nat} {types : List dm_report_object_type}
    {fields : List dm_report_field_type} {output_fields output_separator : cstr}
    {output_flags : Nat} {sort_keys : Option cstr} {private_data : Nat} {rh : dm_report}
    (h : dm_report_init H report_types types fields output_fields output_separator output_flags
      sort_keys private_data = some (some rh)) : hidden_first rh.field_props := by
  apply chain_inv (fun r => hidden_first r.field_props) (fun _ _ => prim_hidden_first)
    (init_chain h)
  rw [(init_handle_field_props _ _ _ _ _ _ _).1]
  exact List.Pairwise.nil

/-! ## Output leaves the selections alone -/

theorem report_headings_frame {H : libdevmapper_h} {rh rh1 : dm_report} {l : List cstr}
    (h : _report_headings H rh = some (rh1, l)) : frame_out rh rh1 := by
  unfold _report_headings at h
  split at h
  · simp only [Option.some.injEq, Prod.mk.injEq] at h
    rw [← h.1]; rfl
  · simp only at h
    split at h
    · simp only [Option.some.injEq, Prod.mk.injEq] at h
      rw [← h.1]; rfl
    · split at h
      · exact absurd h (by simp)
      · simp only [Option.some.injEq, Prod.mk.injEq] at h
        rw [← h.1]; rfl

theorem output_as_columns_frame {H : libdevmapper_h} {rh : dm_report} {out : outcome}
    (h : _output_as_columns H rh = some out) : ∃ rh1, out.rh = some rh1 ∧ frame_out rh rh1 := by
  unfold _output_as_columns at h
  split at h
  · exact absurd h (by simp)
  · rename_i rh1 heading hh
    split at h
    · exact absurd h (by simp)
    · simp only [Option.some.injEq] at h
      rw [← h]
      refine ⟨_, rfl, ?_⟩
      split at hh
      · have := report_headings_frame hh
        unfold frame_out at this ⊢
        rw [this]
      · simp only [Option.some.injEq, Prod.mk.injEq] at hh
        rw [← hh.1]; rfl

theorem output_as_rows_frame {H : libdevmapper_h} {rh : dm_report} {out : outcome}
    (h : _output_as_rows H rh = some out) : ∃ rh1, out.rh = some rh1 ∧ frame_out rh rh1 := by
  unfold _output_as_rows at h
  split at h
  · exact absurd h (by simp)
  · simp only [Option.some.injEq] at h
    rw [← h]
    exact ⟨_, rfl, rfl⟩

theorem sort_rows_frame {H : libdevmapper_h} {qsort : (row → row → Int) → List row → List row}
    {rh rh1 : dm_report} (h : _sort_rows H qsort rh = some rh1) : frame_out rh rh1 := by
  unfold _sort_rows at h
  split at h
  · simp only [Option.some.injEq] at h
    rw [← h]; rfl
  · exact absurd h (by simp)

theorem frame_out_trans {a b c : dm_report} (h1 : frame_out a b) (h2 : frame_out b c) :
    frame_out a c := by
  unfold frame_out at *
  rw [h2, h1]

theorem report_output_frame {H : libdevmapper_h}
    {qsort : (row → row → Int) → List row → List row} {rh : dm_report} {out : outcome}
    (h : dm_report_output H qsort rh = some out) :
    ∃ rh1, out.rh = some rh1 ∧ frame_out rh rh1 := by
  unfold dm_report_output at h
  split at h
  · simp only [Option.some.injEq] at h
    rw [← h]
    exact ⟨_, rfl, rfl⟩
  · split at h
    · exact absurd h (by simp)
    · rename_i rh1 hs
      have h1 : frame_out rh rh1 := by
        split at hs
        · exact sort_rows_frame hs
        · simp only [Option.some.injEq] at hs
          rw [← hs]; rfl
      split at h
      · obtain ⟨rh2, ho, hf⟩ := output_as_rows_frame h
        exact ⟨rh2, ho, frame_out_trans h1 hf⟩
      · obtain ⟨rh2, ho, hf⟩ := output_as_columns_frame h
        exact ⟨rh2, ho, frame_out_trans h1 hf⟩

/-- A call of `dm_report_object` leaves every selection as it is but for its width, which
does not decrease. -/
theorem report_object_grows {H : libdevmapper_h}
    {qsort : (row → row → Int) → List row → List row} {rh : dm_report} {object : Nat}
    {out : outcome} (h : dm_report_object H qsort (some rh) object = some out) :
    ∃ rh1, out.rh = some rh1 ∧ List.Forall₂ selection_grows rh.field_props rh1.field_props ∧
      rh1.fields = rh.fields ∧ rh1.types = rh.types ∧ rh1.keys_count = rh.keys_count := by
  unfold dm_report_object at h
  simp only at h
  split at h
  · exact absurd h (by simp)
  · rename_i props r1 ok hl
    obtain ⟨todo1, hp, hf⟩ := object_loop_grows rh object _ _ _ _ _ _ hl
    simp only [List.nil_append] at hp
    subst hp
    split at h
    · simp only [Option.some.injEq] at h
      rw [← h]
      exact ⟨_, rfl, hf, rfl, rfl, rfl⟩
    · split at h
      · obtain ⟨rh2, ho, hfr⟩ := report_output_frame h
        refine ⟨rh2, ho, ?_⟩
        unfold frame_out at hfr
        rw [hfr]
        exact ⟨hf, rfl, rfl, rfl⟩
      · simp only [Option.some.injEq] at h
        rw [← h]
        exact ⟨_, rfl, hf, rfl, rfl, rfl⟩

theorem grows_map_flags {l l1 : List field_properties}
    (h : List.Forall₂ selection_grows l l1) :
    l1.map (fun fp => fp.flags) = l.map (fun fp => fp.flags) := by
  induction h with
  | nil => rfl
  | cons hab _ ih =>
    simp only [List.map_cons, ih, hab.2.2.2.1]

theorem hidden_first_of_flags {l l1 : List field_properties}
    (h : l1.map (fun fp => fp.flags) = l.map (fun fp => fp.flags)) (hl : hidden_first l) :
    hidden_first l1 := by
  unfold hidden_first at *
  have e : ∀ m : List field_properties,
      m.Pairwise (fun a b => b.flags &&& FLD_HIDDEN ≠ 0 → a.flags &&& FLD_HIDDEN ≠ 0) ↔
        (m.map (fun fp => fp.flags)).Pairwise
          (fun a b => b &&& FLD_HIDDEN ≠ 0 → a &&& FLD_HIDDEN ≠ 0) := by
    intro m
    rw [List.pairwise_map]
  rw [e] at hl ⊢
  rw [h]
  exact hl

theorem reachable_hidden_first {H : libdevmapper_h}
    {qsort : (row → row → Int) → List row → List row} {rh : dm_report}
    (h : reachable H qsort rh) : hidden_first rh.field_props := by
  induction h with
  | init _ _ _ _ _ _ _ _ _ hi => exact init_hidden_first hi
  | object _ _ _ _ _ ho hr ih =>
    obtain ⟨rh2, h2, hg, _⟩ := report_object_grows ho
    rw [hr] at h2
    simp only [Option.some.injEq] at h2
    subst h2
    exact hidden_first_of_flags (grows_map_flags hg) ih
  | output _ _ _ _ ho hr ih =>
    obtain ⟨rh2, h2, hf⟩ := report_output_frame ho
    rw [hr] at h2
    simp only [Option.some.injEq] at h2
    subst h2
    unfold frame_out at hf
    rw [hf]
    exact ih

/-- C9. In every state a session reaches from `dm_report_init`, through calls of
`dm_report_object` and `dm_report_output`, every hidden selection precedes every visible
selection of `field_props`; so when the list has a visible selection, its last element is
visible. -/
theorem hidden_selections_precede_visible (H : libdevmapper_h)
    (qsort : (row → row → Int) → List row → List row) (rh : dm_report)
    (h : reachable H qsort rh) :
    hidden_first rh.field_props ∧
      ((∃ fp ∈ rh.field_props, fp.flags &&& FLD_HIDDEN = 0) →
        ∃ last, rh.field_props.getLast? = some last ∧ last.flags &&& FLD_HIDDEN = 0) :=
  ⟨reachable_hidden_first h, hidden_first_last (reachable_hidden_first h)⟩

theorem sample_hidden_reachable : reachable sample_h stable_qsort sample_hidden :=
  reachable.init (some 1) sample_types sample_fields "name".toList " ".toList 2
    (some "-size".toList) 0 sample_hidden (join_some_get _)

theorem sample_hidden_row_reachable : reachable sample_h stable_qsort sample_hidden_row :=
  reachable.object sample_hidden sample_hidden_row 16
    ((dm_report_object sample_h stable_qsort (some sample_hidden) 16).get (by decide))
    sample_hidden_reachable (Option.some_get _).symm (Option.some_get _).symm

/-- C9 at the session of the field list `name` sorted by `-size`, after one row: the hidden
`size` comes first and the last selection is the visible `name`. -/
theorem hidden_selections_precede_visible_witness :
    reachable sample_h stable_qsort sample_hidden_row ∧
      sample_hidden_row.field_props.map
        (fun fp => (fp.field_num, decide (fp.flags &&& FLD_HIDDEN ≠ 0))) =
          [(1, true), (0, false)] ∧
      hidden_first sample_hidden_row.field_props ∧
      ∃ last, sample_hidden_row.field_props.getLast? = some last ∧
        last.flags &&& FLD_HIDDEN = 0 :=
  ⟨sample_hidden_row_reachable, by decide,
    (hidden_selections_precede_visible sample_h stable_qsort sample_hidden_row
      sample_hidden_row_reachable).1,
    (hidden_selections_precede_visible sample_h stable_qsort sample_hidden_row
      sample_hidden_row_reachable).2 (by decide)⟩

/-! ## Widths -/

theorem prim_default_widths {H : libdevmapper_h} {a b : dm_report} (h : prim H a b)
    (hi : default_widths a) : default_widths b := by
  cases h
  · exact hi
  · rename_i f flags i hadd
    rw [add_field_eq] at hadd
    split at hadd
    · exact absurd hadd (by simp)
    · rename_i ft hft
      split at hadd
      · exact absurd hadd (by simp)
      · split at hadd <;>
        · simp only [Option.some.injEq, Prod.mk.injEq] at hadd
          rw [← hadd.1]
          intro fp hfp
          simp only [List.mem_cons, List.mem_append, List.mem_singleton, List.not_mem_nil,
            or_false] at hfp
          rcases hfp with h1 | h1
          · first
              | exact hi fp h1
              | (subst h1; exact ⟨ft, hft, rfl⟩)
          · first
              | exact hi fp h1
              | (subst h1; exact ⟨ft, hft, rfl⟩)
  · rename_i found flags hfl hm
    unfold _add_sort_key_found at hm
    split at hm
    · exact absurd hm (by simp)
    · rename_i fp0 hfp0
      split at hm
      · simp only [Option.some.injEq] at hm
        subst hm
        exact hi
      · simp only [Option.some.injEq] at hm
        subst hm
        intro fp hfp
        rcases List.mem_or_eq_of_mem_set hfp with h1 | h1
        · exact hi fp h1
        · subst h1
          exact hi fp0 (List.getElem?_mem hfp0)

theorem init_default_widths {H : libdevmapper_h}
    {report_types : Option Nat} {types : List dm_report_object_type}
    {fields : List dm_report_field_type} {output_fields output_separator : cstr}
    {output_flags : Nat} {sort_keys : Option cstr} {private_data : Nat} {rh : dm_report}
    (h : dm_report_init H report_types types fields output_fields output_separator output_flags
      sort_keys private_data = some (some rh)) : default_widths rh := by
  apply chain_inv default_widths (fun _ _ => prim_default_widths) (init_chain h)
  intro fp hfp
  rw [(init_handle_field_props _ _ _ _ _ _ _).1] at hfp
  simp at hfp

/-- C10. A selection starts at the default width of its registry field: that is its width in
the handle `dm_report_init` returns. Every call of `dm_report_object`, whether it returns 1
or 0, leaves each selection in its place with a width greater than or equal to the width it
had before the call, and changes nothing else of it. -/
theorem width_never_decreases (H : libdevmapper_h)
    (qsort : (row → row → Int) → List row → List row) :
    (∀ (report_types : Option Nat) (types : List dm_report_object_type)
        (fields : List dm_report_field_type) (output_fields output_separator : cstr)
        (output_flags : Nat) (sort_keys : Option cstr) (private_data : Nat) (rh : dm_report),
        dm_report_init H report_types types fields output_fields output_separator output_flags
          sort_keys private_data = some (some rh) →
        rh.fields = fields ∧
          ∀ fp ∈ rh.field_props, ∃ ft, fields[fp.field_num]? = some ft ∧ fp.width = ft.width) ∧
    (∀ (rh : dm_report) (object : Nat) (out : outcome),
        dm_report_object H qsort (some rh) object = some out →
        ∃ rh1, out.rh = some rh1 ∧
          List.Forall₂ selection_grows rh.field_props rh1.field_props) := by
  constructor
  · intro report_types types fields output_fields output_separator output_flags sort_keys
      private_data rh h
    have hf : rh.fields = fields := by
      have := chain_inv (fun r => r.fields = fields)
        (fun a b hp ha => by
          cases hp
          · exact ha
          · rename_i hadd
            rw [(add_field_frame2 hadd).1]
            exact ha
          · rename_i hm
            rw [add_sort_key_found_frame2 hm]
            exact ha)
        (init_chain h)
      exact this (init_handle_field_props _ _ _ _ _ _ _).2.2.1
    refine ⟨hf, ?_⟩
    have := init_default_widths h
    unfold default_widths at this
    rw [hf] at this
    exact this
  · intro rh object out h
    obtain ⟨rh1, h1, h2, _⟩ := report_object_grows h
    exact ⟨rh1, h1, h2⟩

/-- C10 at the session of the field list `name` sorted by `-size`: reporting the object at
address 16, whose size prints as `10`, raises the width of `size` from its default 1 to 2
and leaves the width of `name` at 4. -/
theorem width_never_decreases_witness :
    sample_hidden.field_props.map (fun fp => fp.width) = [1, 4] ∧
      sample_hidden_row.field_props.map (fun fp => fp.width) = [2, 4] ∧
      List.Forall₂ selection_grows sample_hidden.field_props sample_hidden_row.field_props := by
  refine ⟨by decide, by decide, ?_⟩
  obtain ⟨rh1, h1, h2⟩ := (width_never_decreases sample_h stable_qsort).2 sample_hidden 16
    ((dm_report_object sample_h stable_qsort (some sample_hidden) 16).get (by decide))
    (Option.some_get _).symm
  have e : rh1 = sample_hidden_row :=
    Option.some.inj (h1.symm.trans (Option.some_get _).symm)
  rw [← e]
  exact h2

/-! ## The registry loop -/

theorem same_field_loop_some (w : cstr) (n : Nat) (pfx : cstr) :
    ∀ (fts : List dm_report_field_type) (k f : Nat),
      _same_field_loop w n pfx fts k = some f →
        k ≤ f ∧ ∃ ft, fts[f - k]? = some ft ∧ _is_same_field ft.id w n pfx = true := by
  intro fts
  induction fts with
  | nil => intro k f h; simp [_same_field_loop] at h
  | cons ft fts ih =>
    intro k f h
    simp only [_same_field_loop] at h
    split at h
    · rename_i hs
      simp only [Option.some.injEq] at h
      subst h
      exact ⟨le_refl _, ft, by simp, hs⟩
    · obtain ⟨hk, ft1, h1, h2⟩ := ih _ _ h
      refine ⟨by omega, ft1, ?_, h2⟩
      have : f - k = (f - (k + 1)) + 1 := by omega
      rw [this, List.getElem?_cons_succ]
      exact h1

theorem same_field_loop_isSome (w : cstr) (n : Nat) (pfx : cstr) :
    ∀ (fts : List dm_report_field_type) (k : Nat),
      (∃ ft ∈ fts, _is_same_field ft.id w n pfx = true) →
        ∃ f, _same_field_loop w n pfx fts k = some f := by
  intro fts
  induction fts with
  | nil => intro k h; simp at h
  | cons ft fts ih =>
    intro k h
    simp only [_same_field_loop]
    split
    · exact ⟨k, rfl⟩
    · rename_i hs
      obtain ⟨ft1, hm, h1⟩ := h
      simp only [List.mem_cons] at hm
      rcases hm with hm | hm
      · subst hm; exact absurd h1 hs
      · exact ih _ ⟨ft1, hm, h1⟩

theorem same_field_loop_none (w : cstr) (n : Nat) (pfx : cstr) :
    ∀ (fts : List dm_report_field_type) (k : Nat),
      (∀ ft ∈ fts, _is_same_field ft.id w n pfx = false) →
        _same_field_loop w n pfx fts k = none := by
  intro fts
  induction fts with
  | nil => intro k _; rfl
  | cons ft fts ih =>
    intro k h
    simp only [_same_field_loop, h ft (List.mem_cons_self _ _), Bool.false_eq_true, if_false]
    exact ih _ (fun ft1 hm => h ft1 (List.mem_cons_of_mem _ hm))

theorem field_of_some {rh : dm_report} {w : cstr} {f : Nat} (h : field_of rh w = some f) :
    ∃ ft, rh.fields[f]? = some ft ∧ _is_same_field ft.id w w.length rh.field_prefix = true := by
  obtain ⟨_, ft, h1, h2⟩ := same_field_loop_some _ _ _ _ _ _ h
  exact ⟨ft, h1, h2⟩

theorem find_type_some {rh : dm_report} {ft : dm_report_field_type}
    (hreg : registry_ok rh.types rh.fields) (hft : ft ∈ rh.fields) :
    ∃ t, _find_type rh ft.type = some t := by
  obtain ⟨t, ht, hid⟩ := hreg ft hft
  unfold _find_type
  cases hf : rh.types.find? (fun t => t.id == ft.type) with
  | some t1 => exact ⟨t1, rfl⟩
  | none =>
    rw [List.find?_eq_none] at hf
    have := hf t ht
    simp [hid] at this

/-! ## Resolution succeeds on lists of known names -/

theorem frame1_on_registry {types : List dm_report_object_type}
    {fields : List dm_report_field_type} {pfx : cstr} {a b : dm_report} (h : frame1 a b)
    (ha : on_registry types fields pfx a) : on_registry types fields pfx b := by
  unfold frame1 at h
  rw [h]
  exact ha

theorem frame2_on_registry {types : List dm_report_object_type}
    {fields : List dm_report_field_type} {pfx : cstr} {a b : dm_report} (h : frame2 a b)
    (ha : on_registry types fields pfx a) : on_registry types fields pfx b := by
  unfold frame2 at h
  rw [h]
  exact ha

theorem field_match_on_registry {H : libdevmapper_h} {types : List dm_report_object_type}
    {fields : List dm_report_field_type} {pfx : cstr} {a b : dm_report} {w : cstr} {n : Nat}
    {p : Bool} (h : _field_match H a w n p = some b) (ha : on_registry types fields pfx a) :
    on_registry types fields pfx b := by
  cases p with
  | true => exact frame1_on_registry (field_match_frame1 h) ha
  | false => exact frame2_on_registry (field_match_frame2 h).1 ha

theorem key_match_on_registry {H : libdevmapper_h} {types : List dm_report_object_type}
    {fields : List dm_report_field_type} {pfx : cstr} {a b : dm_report} {w : cstr} {n : Nat}
    {p : Bool} (h : _key_match H a w n p = some b) (ha : on_registry types fields pfx a) :
    on_registry types fields pfx b := by
  cases p with
  | true => exact frame1_on_registry (key_match_frame1 h) ha
  | false => exact frame2_on_registry (key_match_frame2 h) ha

theorem init_handle_on_registry (H : libdevmapper_h) (report_types : Option Nat)
    (types : List dm_report_object_type) (fields : List dm_report_field_type)
    (output_separator : cstr) (output_flags private_data : Nat) :
    on_registry types fields
      (dm_report.field_prefix (init_handle H report_types types fields output_separator output_flags
        private_data))
      (init_handle H report_types types fields output_separator output_flags private_data) :=
  ⟨(init_handle_field_props _ _ _ _ _ _ _).2.2.1, (init_handle_field_props _ _ _ _ _ _ _).2.2.2.1,
    rfl⟩

/-- A resolution whose every step succeeds on the handles of a class closed under the steps
succeeds. -/
theorem resolve_words_succeeds (step : dm_report → cstr → Option dm_report)
    (I : dm_report → Prop) :
    ∀ (ws : List cstr) (rh : dm_report),
      (∀ r w, I r → w ∈ ws → ∃ r1, step r w = some r1 ∧ I r1) → I rh →
        ∃ rh1, resolve_words step ws rh = some rh1 ∧ I rh1 := by
  intro ws
  induction ws with
  | nil => intro rh _ hi; exact ⟨rh, rfl, hi⟩
  | cons w ws ih =>
    intro rh hs hi
    obtain ⟨r1, h1, hi1⟩ := hs rh w hi (List.mem_cons_self _ _)
    obtain ⟨r2, h2, hi2⟩ := ih r1 (fun r v hr hv => hs r v hr (List.mem_cons_of_mem _ hv)) hi1
    exact ⟨r2, by simp only [resolve_words, h1, h2], hi2⟩

theorem add_field_succeeds {H : libdevmapper_h} {rh : dm_report} {f : Nat}
    {ft : dm_report_field_type} (flags : Nat) (hreg : registry_ok rh.types rh.fields)
    (hft : rh.fields[f]? = some ft) : ∃ rh1 i, _add_field H rh f flags = some (rh1, i) := by
  obtain ⟨t, ht⟩ := find_type_some hreg (List.getElem?_mem hft)
  rw [add_field_eq, hft]
  simp only [ht]
  split
  · exact ⟨_, _, rfl⟩
  · exact ⟨_, _, rfl⟩

theorem field_match_succeeds {H : libdevmapper_h} {rh : dm_report} {w : cstr} (p : Bool)
    (hreg : registry_ok rh.types rh.fields)
    (hw : ∃ ft ∈ rh.fields, _is_same_field ft.id w w.length rh.field_prefix = true)
    (hne : w ≠ []) : ∃ rh1, _field_match H rh w w.length p = some rh1 := by
  obtain ⟨f, hf⟩ := same_field_loop_isSome w w.length rh.field_prefix rh.fields 0 hw
  obtain ⟨ft, hft, _⟩ := field_of_some hf
  rw [field_match_word]
  simp only [hne, if_false]
  unfold field_of
  rw [hf]
  simp only
  cases p with
  | true => simp only [if_true, hft]; exact ⟨_, rfl⟩
  | false =>
    obtain ⟨rh1, i, hadd⟩ := add_field_succeeds (H := H) 0 hreg hft
    simp only [Bool.false_eq_true, if_false, hadd]
    exact ⟨_, rfl⟩

theorem add_sort_key_found_succeeds {rh : dm_report} {found : Nat} (flags : Nat)
    (h : found < rh.field_props.length) :
    ∃ rh1, _add_sort_key_found rh found flags = some rh1 := by
  unfold _add_sort_key_found
  rw [List.getElem?_eq_getElem h]
  simp only
  split
  · exact ⟨_, rfl⟩
  · exact ⟨_, rfl⟩

theorem add_sort_key_succeeds {H : libdevmapper_h} {rh : dm_report} {f : Nat}
    {ft : dm_report_field_type} (flags : Nat) (p : Bool)
    (hreg : registry_ok rh.types rh.fields) (hft : rh.fields[f]? = some ft) :
    ∃ rh1, _add_sort_key H rh f flags p = some rh1 := by
  unfold _add_sort_key
  cases hfi : rh.field_props.findIdx? (fun fp => fp.field_num == f) with
  | none =>
    simp only
    cases p with
    | true => simp only [if_true, hft]; exact ⟨_, rfl⟩
    | false =>
      obtain ⟨rh1, i, hadd⟩ := add_field_succeeds (H := H) FLD_HIDDEN hreg hft
      simp only [Bool.false_eq_true, if_false, hadd]
      apply add_sort_key_found_succeeds
      rw [add_field_eq, hft] at hadd
      simp only at hadd
      split at hadd
      · exact absurd hadd (by simp)
      · split at hadd <;>
        · simp only [Option.some.injEq, Prod.mk.injEq] at hadd
          rw [← hadd.1, ← hadd.2]
          simp
  | some found =>
    simp only
    cases p with
    | true => exact ⟨_, rfl⟩
    | false =>
      simp only [Bool.false_eq_true, if_false]
      apply add_sort_key_found_succeeds
      obtain ⟨hlt, _⟩ := List.findIdx?_eq_some_iff_getElem.mp hfi
      exact hlt

theorem key_match_succeeds {H : libdevmapper_h} {rh : dm_report} {w : cstr} (p : Bool)
    (hreg : registry_ok rh.types rh.fields)
    (hw : ∃ ft ∈ rh.fields,
      _is_same_field ft.id (key_name w) (key_name w).length rh.field_prefix = true)
    (hne : key_name w ≠ []) : ∃ rh1, _key_match H rh w w.length p = some rh1 := by
  obtain ⟨f, hf⟩ :=
    same_field_loop_isSome (key_name w) (key_name w).length rh.field_prefix rh.fields 0 hw
  obtain ⟨ft, hft, _⟩ := field_of_some hf
  rw [key_match_word]
  simp only [hne, if_false]
  unfold field_of
  rw [hf]
  exact add_sort_key_succeeds _ p hreg hft

theorem mem_words_ne_nil {s w : cstr} (h : w ∈ words s) : w ≠ [] := by
  unfold words at h
  have := (List.mem_filter.mp h).2
  intro hw
  subst hw
  simp at this

theorem parse_fields_succeeds {H : libdevmapper_h} {types : List dm_report_object_type}
    {fields : List dm_report_field_type} {pfx : cstr} {s : cstr} (p : Bool)
    (hreg : registry_ok types fields) (hs : s.getLast? ≠ some ',')
    (hw : ∀ w ∈ words s, ∃ ft ∈ fields, _is_same_field ft.id w w.length pfx = true)
    {rh : dm_report} (hi : on_registry types fields pfx rh) :
    ∃ rh1, _parse_fields H rh s p = some (some rh1) ∧ on_registry types fields pfx rh1 := by
  rw [parse_fields_words, if_neg hs]
  simp only [after_display_some]
  apply resolve_words_succeeds _ (on_registry types fields pfx) _ _ _ hi
  intro r w hr hmem
  have hreg1 : registry_ok r.types r.fields := by rw [hr.1, hr.2.1]; exact hreg
  have hw1 : ∃ ft ∈ r.fields, _is_same_field ft.id w w.length r.field_prefix = true := by
    rw [hr.1, hr.2.2]; exact hw w hmem
  obtain ⟨r1, h1⟩ := field_match_succeeds (H := H) p hreg1 hw1 (mem_words_ne_nil hmem)
  exact ⟨r1, h1, field_match_on_registry h1 hr⟩

theorem parse_keys_succeeds {H : libdevmapper_h} {types : List dm_report_object_type}
    {fields : List dm_report_field_type} {pfx : cstr} {keys : Option cstr} (p : Bool)
    (hreg : registry_ok types fields)
    (hk : ∀ k, keys = some k → k.getLast? ≠ some ',' ∧
      ∀ w ∈ words k, key_name w ≠ [] ∧
        ∃ ft ∈ fields, _is_same_field ft.id (key_name w) (key_name w).length pfx = true)
    {rh : dm_report} (hi : on_registry types fields pfx rh) :
    ∃ rh1, _parse_keys H rh keys p = some (some rh1) ∧ on_registry types fields pfx rh1 := by
  cases keys with
  | none => exact ⟨rh, rfl, hi⟩
  | some k =>
    obtain ⟨hs, hw⟩ := hk k rfl
    rw [parse_keys_words, if_neg hs]
    simp only [after_display_some]
    apply resolve_words_succeeds _ (on_registry types fields pfx) _ _ _ hi
    intro r w hr hmem
    have hreg1 : registry_ok r.types r.fields := by rw [hr.1, hr.2.1]; exact hreg
    have hw1 : ∃ ft ∈ r.fields,
        _is_same_field ft.id (key_name w) (key_name w).length r.field_prefix = true := by
      rw [hr.1, hr.2.2]; exact (hw w hmem).2
    obtain ⟨r1, h1⟩ := key_match_succeeds (H := H) p hreg1 hw1 (hw w hmem).1
    exact ⟨r1, h1, key_match_on_registry h1 hr⟩

/-- On a registry whose fields all belong to a registered type, `dm_report_init` returns a
handle when neither list ends in a comma and every word of them names a field. -/
theorem init_succeeds (H : libdevmapper_h) (report_types : Option Nat)
    (types : List dm_report_object_type) (fields : List dm_report_field_type)
    (output_fields output_separator : cstr) (output_flags : Nat) (sort_keys : Option cstr)
    (private_data : Nat) (hreg : registry_ok types fields)
    (hs : output_fields.getLast? ≠ some ',')
    (hw : ∀ w ∈ words output_fields, ∃ ft ∈ fields, _is_same_field ft.id w w.length
      (dm_report.field_prefix (init_handle H report_types types fields output_separator output_flags
        private_data)) = true)
    (hk : ∀ k, sort_keys = some k → k.getLast? ≠ some ',' ∧
      ∀ w ∈ words k, key_name w ≠ [] ∧
        ∃ ft ∈ fields, _is_same_field ft.id (key_name w) (key_name w).length
          (dm_report.field_prefix (init_handle H report_types types fields output_separator output_flags
            private_data)) = true) :
    ∃ rh, dm_report_init H report_types types fields output_fields output_separator
      output_flags sort_keys private_data = some (some rh) := by
  have h0 := init_handle_on_registry H report_types types fields output_separator output_flags
    private_data
  obtain ⟨r1, e1, h1⟩ := parse_fields_succeeds (H := H) true hreg hs hw h0
  obtain ⟨r2, e2, h2⟩ := parse_keys_succeeds (H := H) true hreg hk h1
  obtain ⟨r3, e3, h3⟩ := parse_fields_succeeds (H := H) false hreg hs hw h2
  obtain ⟨r4, e4, _⟩ := parse_keys_succeeds (H := H) false hreg hk h3
  exact ⟨r4, by simp only [dm_report_init, e1, e2, e3, e4]⟩

/-! ## The visible selections -/

theorem filterMap_set_same {α β : Type} (f : α → Option β) :
    ∀ (l : List α) (i : Nat) (x y : α), l[i]? = some y → f x = f y →
      (l.set i x).filterMap f = l.filterMap f := by
  intro l
  induction l with
  | nil => intro i x y h; simp at h
  | cons a l ih =>
    intro i x y h hf
    cases i with
    | zero =>
      simp only [List.getElem?_cons_zero, Option.some.injEq] at h
      subst h
      simp [List.filterMap_cons, hf]
    | succ i =>
      simp only [List.getElem?_cons_succ] at h
      simp only [List.set_cons_succ, List.filterMap_cons, ih i x y h hf]

theorem add_sort_key_found_visible {rh rh1 : dm_report} {found flags : Nat}
    (hfl : flags = FLD_ASCENDING ∨ flags = FLD_DESCENDING)
    (h : _add_sort_key_found rh found flags = some rh1) :
    visible rh1.field_props = visible rh.field_props := by
  unfold _add_sort_key_found at h
  split at h
  · exact absurd h (by simp)
  · rename_i fp hfp
    split at h
    · simp only [Option.some.injEq] at h
      subst h
      rfl
    · simp only [Option.some.injEq] at h
      subst h
      unfold visible
      apply filterMap_set_same _ _ _ _ fp hfp
      have := sort_flags_hidden fp.flags flags hfl
      by_cases hh : fp.flags &&& FLD_HIDDEN ≠ 0
      · rw [if_pos hh]
        exact if_pos (this.mpr hh)
      · have h2 : ¬ ((fp.flags ||| FLD_SORT_KEY) ||| flags) &&& FLD_HIDDEN ≠ 0 :=
          fun h3 => hh (this.mp h3)
        rw [if_neg hh]
        exact if_neg h2

theorem add_field_hidden_eq {H : libdevmapper_h} {rh rh1 : dm_report} {f i : Nat}
    (h : _add_field H rh f FLD_HIDDEN = some (rh1, i)) :
    i = 0 ∧ ∃ fp, rh1.field_props = fp :: rh.field_props ∧ fp.field_num = f ∧
      fp.flags &&& FLD_HIDDEN ≠ 0 ∧ fp.sort_posn = 0 ∧
      ∃ ft, rh.fields[f]? = some ft ∧ fp.flags = (ft.flags &&& H.DM_REPORT_FIELD_MASK) ||| FLD_HIDDEN := by
  rw [add_field_eq] at h
  split at h
  · exact absurd h (by simp)
  · rename_i ft hft
    split at h
    · exact absurd h (by simp)
    · split at h
      · simp only [Option.some.injEq, Prod.mk.injEq] at h
        rw [← h.1, ← h.2]
        exact ⟨rfl, _, rfl, rfl, or_hidden _, rfl, ft, hft, rfl⟩
      · rename_i hh
        exact absurd (or_hidden _) hh

theorem add_sort_key_visible {H : libdevmapper_h} {rh rh1 : dm_report} {f flags : Nat}
    (hfl : flags = FLD_ASCENDING ∨ flags = FLD_DESCENDING)
    (h : _add_sort_key H rh f flags false = some rh1) :
    visible rh1.field_props = visible rh.field_props := by
  unfold _add_sort_key at h
  split at h
  · simp only [Bool.false_eq_true, if_false] at h
    split at h
    · exact absurd h (by simp)
    · rename_i rh2 i hadd
      rw [add_sort_key_found_visible hfl h]
      obtain ⟨_, fp, hfp, _, hh, _⟩ := add_field_hidden_eq hadd
      rw [hfp]
      unfold visible
      rw [List.filterMap_cons, if_pos hh]
  · simp only [Bool.false_eq_true, if_false] at h
    exact add_sort_key_found_visible hfl h

theorem key_match_visible {H : libdevmapper_h} {rh rh1 : dm_report} {w : cstr}
    (h : _key_match H rh w w.length false = some rh1) :
    visible rh1.field_props = visible rh.field_props := by
  rw [key_match_word] at h
  split at h
  · exact absurd h (by simp)
  · split at h
    · exact add_sort_key_visible (key_flags_cases w) h
    · exact absurd h (by simp)

/-- Sort-key resolution leaves the visible selections as they are. -/
theorem parse_keys_visible {H : libdevmapper_h} {rh rh1 : dm_report} {keys : Option cstr}
    (h : _parse_keys H rh keys false = some (some rh1)) :
    visible rh1.field_props = visible rh.field_props := by
  cases keys with
  | none =>
    simp only [_parse_keys, Option.some.injEq] at h
    subst h
    rfl
  | some k =>
    exact resolve_words_rel _ (fun a b => visible b.field_props = visible a.field_props)
      (fun _ => rfl) (fun _ _ _ h1 h2 => h2.trans h1) (fun _ _ _ hs => key_match_visible hs)
      _ _ _ (parse_keys_some h).2

theorem mask_hidden (H : libdevmapper_h) (hmask : H.DM_REPORT_FIELD_MASK &&& FLD_HIDDEN = 0)
    (x : Nat) : ((x &&& H.DM_REPORT_FIELD_MASK) ||| 0) &&& FLD_HIDDEN = 0 := by
  rw [Nat.or_zero, Nat.and_assoc, hmask, Nat.and_zero]

/-- With the field mask clear of `FLD_HIDDEN`, a selection added for the field list goes to
the tail of the list, visible, with the default width and the masked flags of its field. -/
theorem add_field_zero_eq {H : libdevmapper_h} (hmask : H.DM_REPORT_FIELD_MASK &&& FLD_HIDDEN = 0)
    {rh rh1 : dm_report} {f i : Nat} (h : _add_field H rh f 0 = some (rh1, i)) :
    ∃ fp ft, rh.fields[f]? = some ft ∧
      rh1 = { rh with field_props := rh.field_props ++ [fp] } ∧
      fp.field_num = f ∧ fp.width = ft.width ∧
      fp.flags = (ft.flags &&& H.DM_REPORT_FIELD_MASK) ||| 0 ∧ fp.sort_posn = 0 ∧
      fp.flags &&& FLD_HIDDEN = 0 := by
  rw [add_field_eq] at h
  split at h
  · exact absurd h (by simp)
  · rename_i ft hft
    split at h
    · exact absurd h (by simp)
    · split at h
      · rename_i hh
        exact absurd (mask_hidden H hmask ft.flags) hh
      · simp only [Option.some.injEq, Prod.mk.injEq] at h
        exact ⟨_, ft, hft, h.1.symm, rfl, rfl, rfl, rfl, mask_hidden H hmask ft.flags⟩

theorem visible_append_visible (l : List field_properties) (fp : field_properties)
    (h : fp.flags &&& FLD_HIDDEN = 0) :
    visible (l ++ [fp]) = visible l ++ [(fp.field_num, fp.width)] := by
  unfold visible
  rw [List.filterMap_append]
  simp [h]

theorem field_of_congr {a b : dm_report} (h1 : b.fields = a.fields)
    (h2 : b.field_prefix = a.field_prefix) (w : cstr) : field_of b w = field_of a w := by
  unfold field_of
  rw [h1, h2]

/-- With the field mask clear of `FLD_HIDDEN`, resolving words that each name a field appends
one visible selection for each word, in the order of the words. -/
theorem resolve_field_words_eq {H : libdevmapper_h}
    (hmask : H.DM_REPORT_FIELD_MASK &&& FLD_HIDDEN = 0) :
    ∀ (ws : List cstr) (rh rh1 : dm_report),
      (∀ w ∈ ws, ∃ f, field_of rh w = some f) →
      resolve_words (fun r w => _field_match H r w w.length false) ws rh = some rh1 →
        rh1.field_props.map (fun fp => fp.field_num) =
            rh.field_props.map (fun fp => fp.field_num) ++ ws.filterMap (field_of rh) ∧
          (visible rh1.field_props).map Prod.fst =
            (visible rh.field_props).map Prod.fst ++ ws.filterMap (field_of rh) := by
  intro ws
  induction ws with
  | nil =>
    intro rh rh1 _ h
    simp only [resolve_words, Option.some.injEq] at h
    subst h
    simp
  | cons w ws ih =>
    intro rh rh1 hw h
    simp only [resolve_words] at h
    split at h
    · exact absurd h (by simp)
    · rename_i r2 hs
      obtain ⟨f, hf⟩ := hw w (List.mem_cons_self _ _)
      have hfr := (field_match_frame2 hs).1
      have hc : ∀ v, field_of r2 v = field_of rh v := by
        intro v
        apply field_of_congr
        · unfold frame2 at hfr; rw [hfr]
        · unfold frame2 at hfr; rw [hfr]
      rw [field_match_word] at hs
      split at hs
      · exact absurd hs (by simp)
      · rw [hf] at hs
        simp only [Bool.false_eq_true, if_false] at hs
        split at hs
        · exact absurd hs (by simp)
        · rename_i r3 i hadd
          simp only [Option.some.injEq] at hs
          subst hs
          obtain ⟨fp, ft, _, hr3, hnum, _, _, _, hvis⟩ := add_field_zero_eq hmask hadd
          have hw2 : ∀ v ∈ ws, ∃ g, field_of r3 v = some g := by
            intro v hv
            rw [hc v]
            exact hw v (List.mem_cons_of_mem _ hv)
          obtain ⟨e1, e2⟩ := ih r3 rh1 hw2 h
          have hfm : ws.filterMap (field_of r3) = ws.filterMap (field_of rh) := by
            congr 1
            funext v
            exact hc v
          rw [e1, e2, hfm, hr3]
          simp only [List.filterMap_cons, hf, List.map_append, List.map_cons, List.map_nil,
            visible_append_visible _ _ hvis, hnum, List.append_assoc, List.singleton_append,
            and_self]

theorem parse_fields_frame1 {H : libdevmapper_h} {rh rh1 : dm_report} {s : cstr}
    (h : _parse_fields H rh s true = some (some rh1)) : frame1 rh rh1 :=
  resolve_words_rel _ frame1 frame1_refl (fun _ _ _ => frame1_trans)
    (fun _ _ _ hs => field_match_frame1 hs) _ _ _ (parse_fields_some h).2

theorem parse_keys_frame1 {H : libdevmapper_h} {rh rh1 : dm_report} {keys : Option cstr}
    (h : _parse_keys H rh keys true = some (some rh1)) : frame1 rh rh1 := by
  cases keys with
  | none =>
    simp only [_parse_keys, Option.some.injEq] at h
    subst h
    rfl
  | some k =>
    exact resolve_words_rel _ frame1 frame1_refl (fun _ _ _ => frame1_trans)
      (fun _ _ _ hs => key_match_frame1 hs) _ _ _ (parse_keys_some h).2

/-- The four passes of a successful `dm_report_init`, with what the first two leave of the
handle they start from. -/
theorem init_passes {H : libdevmapper_h}
    {report_types : Option Nat} {types : List dm_report_object_type}
    {fields : List dm_report_field_type} {output_fields output_separator : cstr}
    {output_flags : Nat} {sort_keys : Option cstr} {private_data : Nat} {rh : dm_report}
    (h : dm_report_init H report_types types fields output_fields output_separator output_flags
      sort_keys private_data = some (some rh)) :
    ∃ rh2 rh3,
      frame1 (init_handle H report_types types fields output_separator output_flags
        private_data) rh2 ∧
      (∃ rh1, _parse_fields H (init_handle H report_types types fields output_separator
          output_flags private_data) output_fields true = some (some rh1) ∧
        _parse_keys H rh1 sort_keys true = some (some rh2)) ∧
      _parse_fields H rh2 output_fields false = some (some rh3) ∧
      _parse_keys H rh3 sort_keys false = some (some rh) := by
  obtain ⟨rh1, rh2, rh3, h1, h2, h3, h4⟩ := init_some h
  exact ⟨rh2, rh3, frame1_trans (parse_fields_frame1 h1) (parse_keys_frame1 h2),
    ⟨rh1, h1, h2⟩, h3, h4⟩

/-- C1. Let the field mask of the header be clear of the internal flag `FLD_HIDDEN`, and let
every word of the field list be the name of a registry field, by its id or by the name start
of the report plus the name. Then the visible selections of the handle that
`dm_report_init` returns are, in the order of the words, the first registry field of each
word's name: one selection for each word, a word that comes twice giving two. And the handle
is returned whenever every field of the registry belongs to a registered type, no list ends
in a comma and every sort key names a field. -/
theorem field_list_one_selection_per_word (H : libdevmapper_h) (report_types : Option Nat)
    (types : List dm_report_object_type) (fields : List dm_report_field_type)
    (output_fields output_separator : cstr) (output_flags : Nat) (sort_keys : Option cstr)
    (private_data : Nat) (hmask : H.DM_REPORT_FIELD_MASK &&& FLD_HIDDEN = 0)
    (hw : ∀ w ∈ words output_fields, ∃ ft ∈ fields, _is_same_field ft.id w w.length
      (dm_report.field_prefix (init_handle H report_types types fields output_separator output_flags
        private_data)) = true) :
    (∀ rh, dm_report_init H report_types types fields output_fields output_separator
        output_flags sort_keys private_data = some (some rh) →
      (visible rh.field_props).map Prod.fst =
          (words output_fields).filterMap (fun w => _same_field_loop w w.length
            (dm_report.field_prefix (init_handle H report_types types fields output_separator output_flags
              private_data)) fields 0) ∧
        (visible rh.field_props).length = (words output_fields).length) ∧
    (registry_ok types fields → output_fields.getLast? ≠ some ',' →
      (∀ k, sort_keys = some k → k.getLast? ≠ some ',' ∧
        ∀ w ∈ words k, key_name w ≠ [] ∧
          ∃ ft ∈ fields, _is_same_field ft.id (key_name w) (key_name w).length
            (dm_report.field_prefix (init_handle H report_types types fields output_separator output_flags
              private_data)) = true) →
      ∃ rh, dm_report_init H report_types types fields output_fields output_separator
        output_flags sort_keys private_data = some (some rh)) := by
  constructor
  · intro rh h
    obtain ⟨rh2, rh3, hf1, _, h3, h4⟩ := init_passes h
    have h0 := init_handle_field_props H report_types types fields output_separator
      output_flags private_data
    have hreg := frame1_on_registry hf1
      (init_handle_on_registry H report_types types fields output_separator output_flags
        private_data)
    have hprops : rh2.field_props = [] := by
      unfold frame1 at hf1
      rw [hf1]
      exact h0.1
    have hfo : ∀ w, field_of rh2 w = _same_field_loop w w.length
        (dm_report.field_prefix (init_handle H report_types types fields output_separator output_flags
          private_data)) fields 0 := by
      intro w
      unfold field_of
      rw [hreg.1, hreg.2.2]
    have hw2 : ∀ w ∈ words output_fields, ∃ f, field_of rh2 w = some f := by
      intro w hmem
      rw [hfo w]
      exact same_field_loop_isSome _ _ _ _ _ (hw w hmem)
    have e := (resolve_field_words_eq hmask _ _ _ hw2 (parse_fields_some h3).2).2
    rw [hprops] at e
    have hv := parse_keys_visible h4
    have hfm : (words output_fields).filterMap (field_of rh2) =
        (words output_fields).filterMap (fun w => _same_field_loop w w.length
          (dm_report.field_prefix (init_handle H report_types types fields output_separator output_flags
            private_data)) fields 0) := by
      congr 1
      funext w
      exact hfo w
    have hmain : (visible rh.field_props).map Prod.fst =
        (words output_fields).filterMap (field_of rh2) := by
      rw [hv, e]
      simp [visible]
    refine ⟨hmain.trans hfm, ?_⟩
    have hl := congrArg List.length hmain
    rw [List.length_map] at hl
    rw [hl]
    have : ∀ l : List cstr, (∀ w ∈ l, ∃ f, field_of rh2 w = some f) →
        (l.filterMap (field_of rh2)).length = l.length := by
      intro l
      induction l with
      | nil => intro _; rfl
      | cons a l ih =>
        intro hl
        obtain ⟨f, hf⟩ := hl a (List.mem_cons_self _ _)
        rw [List.filterMap_cons, hf]
        simp only [List.length_cons]
        rw [ih (fun w hm => hl w (List.mem_cons_of_mem _ hm))]
    exact this _ hw2
  · intro hreg hs hk
    exact init_succeeds H report_types types fields output_fields output_separator
      output_flags sort_keys private_data hreg hs hw hk

/-- C1 at the field list `name,lv_size,name` of the sample registry, under the name start
`lv_` and with the sort key `-size`: the handle is returned and its visible selections are the
fields 0, 1, 0. -/
theorem field_list_one_selection_per_word_witness :
    sample_h.DM_REPORT_FIELD_MASK &&& FLD_HIDDEN = 0 ∧
      (∀ w ∈ words "name,lv_size,name".toList, ∃ ft ∈ sample_fields,
        _is_same_field ft.id w w.length "lv_".toList = true) ∧
      ∃ rh, dm_report_init sample_h (some 1) sample_types sample_fields
          "name,lv_size,name".toList " ".toList 2 (some "-size".toList) 0 = some (some rh) ∧
        (visible rh.field_props).map Prod.fst = [0, 1, 0] := by
  have T := field_list_one_selection_per_word sample_h (some 1) sample_types sample_fields
    "name,lv_size,name".toList " ".toList 2 (some "-size".toList) 0 (by decide) (by decide)
  refine ⟨by decide, by decide, ?_⟩
  obtain ⟨rh, h⟩ := T.2 (by unfold registry_ok; decide) (by decide)
    (by
      intro k hk
      simp only [Option.some.injEq] at hk
      subst hk
      decide)
  refine ⟨rh, h, ?_⟩
  rw [(T.1 rh h).1]
  decide

/-! ## Names that match nothing -/

theorem strncasecmp_eq_zero (n : Nat) :
    ∀ (a b : cstr), a.length = n → b.length = n →
      (strncasecmp a b n = 0 ↔ ci_eq a b) := by
  induction n with
  | zero =>
    intro a b ha hb
    rw [List.length_eq_zero] at ha hb
    subst ha hb
    simp [strncasecmp, ci_eq]
  | succ n ih =>
    intro a b ha hb
    cases a with
    | nil => simp at ha
    | cons x a =>
      cases b with
      | nil => simp at hb
      | cons y b =>
        simp only [List.length_cons, Nat.add_right_cancel_iff] at ha hb
        simp only [strncasecmp, ci_eq, List.map_cons, List.cons.injEq]
        by_cases hxy : c_tolower x = c_tolower y
        · simp only [hxy, if_true, true_and]
          exact ih a b ha hb
        · simp only [hxy, if_false, false_and, iff_false]
          exact sub_ne_zero.mpr hxy

theorem ci_eq_append {a b c d : cstr} (h1 : ci_eq a b) (h2 : ci_eq c d) :
    ci_eq (a ++ c) (b ++ d) := by
  unfold ci_eq at *
  rw [List.map_append, List.map_append, h1, h2]

theorem ci_eq_symm {a b : cstr} (h : ci_eq a b) : ci_eq b a := h.symm

theorem ci_eq_length {a b : cstr} (h : ci_eq a b) : a.length = b.length := by
  have := congrArg List.length h
  simpa using this

/-- The test of `_all_match` for one type, on a whole word: the word is the name start of the
type followed by `all`. -/
theorem all_match_type_iff (t : dm_report_object_type) (w : cstr) :
    _all_match_type t w w.length false = true ↔ ci_eq w (t.pfx ++ ['a', 'l', 'l']) := by
  unfold _all_match_type
  simp only [Bool.false_and, Bool.false_or, Bool.and_eq_true, beq_iff_eq]
  constructor
  · rintro ⟨h1, h2, h3⟩
    obtain ⟨w1, w2, hw, hl1⟩ : ∃ w1 w2, w = w1 ++ w2 ∧ w1.length = t.pfx.length :=
      ⟨w.take t.pfx.length, w.drop t.pfx.length, (List.take_append_drop _ _).symm, by
        rw [List.length_take]; omega⟩
    subst hw
    rw [List.drop_left' hl1] at h2
    rw [← hl1, strncasecmp_append_right _ _ _ _ (le_refl _)] at h1
    have hl2 : w2.length = 3 := by
      rw [List.length_append] at h3; omega
    have c1 := (strncasecmp_eq_zero _ _ _ hl1.symm rfl).mp h1
    have c2 := (strncasecmp_eq_zero 3 _ ['a', 'l', 'l'] hl2 rfl).mp h2
    exact ci_eq_append (ci_eq_symm c1) c2
  · intro h
    have hl := ci_eq_length h
    rw [List.length_append] at hl
    simp only [List.length_cons, List.length_nil] at hl
    obtain ⟨w1, w2, hw, hl1⟩ : ∃ w1 w2, w = w1 ++ w2 ∧ w1.length = t.pfx.length :=
      ⟨w.take t.pfx.length, w.drop t.pfx.length, (List.take_append_drop _ _).symm, by
        rw [List.length_take]; omega⟩
    subst hw
    have hl2 : w2.length = 3 := by
      rw [List.length_append] at hl; omega
    unfold ci_eq at h
    rw [List.map_append, List.map_append] at h
    have hsplit := List.append_inj h (by simp [hl1])
    refine ⟨?_, ?_, by rw [List.length_append]; omega⟩
    · rw [← hl1, strncasecmp_append_right _ _ _ _ (le_refl _)]
      exact (strncasecmp_eq_zero _ _ _ hl1.symm rfl).mpr hsplit.1.symm
    · rw [List.drop_left' hl1]
      exact (strncasecmp_eq_zero 3 _ ['a', 'l', 'l'] hl2 rfl).mpr hsplit.2

theorem all_match_loop_none (field : cstr) (flen : Nat) (u : Bool) :
    ∀ (ts : List dm_report_object_type) (acc : Nat),
      (∀ t ∈ ts, _all_match_type t field flen u = false) →
        _all_match_loop field flen u ts acc = acc := by
  intro ts
  induction ts with
  | nil => intro acc _; rfl
  | cons t ts ih =>
    intro acc h
    simp only [_all_match_loop, h t (List.mem_cons_self _ _), Bool.false_eq_true, if_false]
    exact ih acc (fun t1 hm => h t1 (List.mem_cons_of_mem _ hm))

theorem all_match_eq_zero {rh : dm_report} {w : cstr} (h : ¬ all_pattern rh.types w) :
    _all_match rh w w.length = 0 := by
  unfold all_pattern at h
  push_neg at h
  unfold _all_match
  have h1 : ¬ ((strncasecmp w ['a', 'l', 'l'] 3 == 0 && w.length == 3) = true) := by
    intro hc
    simp only [Bool.and_eq_true, beq_iff_eq] at hc
    exact h.1 ((strncasecmp_eq_zero 3 _ ['a', 'l', 'l'] hc.2 rfl).mp hc.1)
  rw [if_neg h1]
  apply all_match_loop_none
  intro t ht
  cases hc : _all_match_type t w w.length false with
  | false => rfl
  | true => exact absurd ((all_match_type_iff t w).mp hc) (h.2 t ht)

theorem field_match_none {H : libdevmapper_h} {rh : dm_report} {w : cstr} (b : Bool)
    (hf : ∀ ft ∈ rh.fields, _is_same_field ft.id w w.length rh.field_prefix = false)
    (ha : ¬ all_pattern rh.types w) : _field_match H rh w w.length b = none := by
  rw [field_match_word]
  split
  · rfl
  · unfold field_of
    rw [same_field_loop_none _ _ _ _ _ hf]
    simp only [all_match_eq_zero ha, ne_eq, not_true_eq_false, if_false]

theorem key_match_none {H : libdevmapper_h} {rh : dm_report} {w : cstr} (b : Bool)
    (hf : ∀ ft ∈ rh.fields,
      _is_same_field ft.id (key_name w) (key_name w).length rh.field_prefix = false) :
    _key_match H rh w w.length b = none := by
  rw [key_match_word]
  split
  · rfl
  · unfold field_of
    rw [same_field_loop_none _ _ _ _ _ hf]

/-- A resolution fails when one of its words fails on every handle of a class closed under
the steps. -/
theorem resolve_words_fails (step : dm_report → cstr → Option dm_report)
    (I : dm_report → Prop) (hI : ∀ r w r1, I r → step r w = some r1 → I r1) (w : cstr)
    (hw : ∀ r, I r → step r w = none) :
    ∀ (ws : List cstr) (rh : dm_report), w ∈ ws → I rh → resolve_words step ws rh = none := by
  intro ws
  induction ws with
  | nil => intro rh hm; simp at hm
  | cons v ws ih =>
    intro rh hm hi
    simp only [resolve_words]
    cases hs : step rh v with
    | none => rfl
    | some r1 =>
      simp only
      simp only [List.mem_cons] at hm
      rcases hm with hm | hm
      · subst hm
        rw [hw rh hi] at hs
        exact absurd hs (by simp)
      · exact ih r1 hm (hI _ _ _ hi hs)

theorem after_display_fails {rh : dm_report} (h : registry_ok rh.types rh.fields) :
    after_display rh none = some none := by
  unfold after_display
  rw [(display_fields_defined rh).2 h]

theorem after_display_defined {rh : dm_report} (h : registry_ok rh.types rh.fields)
    (r : Option dm_report) : after_display rh r ≠ none := by
  unfold after_display
  rw [(display_fields_defined rh).2 h]
  cases r <;> simp

theorem after_display_undefined {rh : dm_report} (h : ¬ registry_ok rh.types rh.fields) :
    after_display rh none = none := by
  unfold after_display
  cases hd : _display_fields rh with
  | none => rfl
  | some u => exact absurd ((display_fields_defined rh).1 hd) h

theorem on_registry_ok {types : List dm_report_object_type}
    {fields : List dm_report_field_type} {pfx : cstr} {rh : dm_report}
    (hi : on_registry types fields pfx rh) (hreg : registry_ok types fields) :
    registry_ok rh.types rh.fields := by
  rw [hi.1, hi.2.1]
  exact hreg

theorem parse_fields_fails {H : libdevmapper_h} {types : List dm_report_object_type}
    {fields : List dm_report_field_type} {pfx : cstr} {s w : cstr} (b : Bool)
    (hm : w ∈ words s) (hf : ∀ ft ∈ fields, _is_same_field ft.id w w.length pfx = false)
    (ha : ¬ all_pattern types w) {rh : dm_report} (hi : on_registry types fields pfx rh) :
    _parse_fields H rh s b = after_display rh none := by
  rw [parse_fields_words]
  congr 1
  split
  · rfl
  · apply resolve_words_fails _ (on_registry types fields pfx)
      (fun r v r1 hr hs => field_match_on_registry hs hr) w _ _ _ hm hi
    intro r hr
    apply field_match_none
    · rw [hr.1, hr.2.2]; exact hf
    · rw [hr.2.1]; exact ha

theorem parse_keys_fails {H : libdevmapper_h} {types : List dm_report_object_type}
    {fields : List dm_report_field_type} {pfx : cstr} {k w : cstr} (b : Bool)
    (hm : w ∈ words k)
    (hf : ∀ ft ∈ fields, _is_same_field ft.id (key_name w) (key_name w).length pfx = false)
    {rh : dm_report} (hi : on_registry types fields pfx rh) :
    _parse_keys H rh (some k) b = after_display rh none := by
  rw [parse_keys_words]
  congr 1
  split
  · rfl
  · apply resolve_words_fails _ (on_registry types fields pfx)
      (fun r v r1 hr hs => key_match_on_registry hs hr) w _ _ _ hm hi
    intro r hr
    apply key_match_none
    rw [hr.1, hr.2.2]; exact hf

/-- C3. On a registry whose fields all belong to a registered type, `dm_report_init` returns
`NULL`, after the catalog of the fields is displayed, when the field list has a word that
is the name of no registry field, neither by its id nor by the name start of the report plus
the name, and that is neither `all` nor the name start of a registered type followed by
`all`; and when the list of sort keys has a word whose name, the word without its sign, is
the name of no registry field. `dm_report_object` called with `NULL` for the handle returns
0, prints nothing and has no handle to add a row to. (With a field of a type that is not
registered the display of the catalog reads through a `NULL` pointer, see
`unknown_name_undefined`.) -/
theorem unknown_name_no_session (H : libdevmapper_h) (report_types : Option Nat)
    (types : List dm_report_object_type) (fields : List dm_report_field_type)
    (output_fields output_separator : cstr) (output_flags : Nat) (sort_keys : Option cstr)
    (private_data : Nat) (hreg : registry_ok types fields) :
    (∀ w ∈ words output_fields,
      (∀ ft ∈ fields, _is_same_field ft.id w w.length
        (dm_report.field_prefix (init_handle H report_types types fields output_separator output_flags
          private_data)) = false) →
      ¬ all_pattern types w →
      dm_report_init H report_types types fields output_fields output_separator output_flags
        sort_keys private_data = some none) ∧
    (∀ k w, sort_keys = some k → w ∈ words k →
      (∀ ft ∈ fields, _is_same_field ft.id (key_name w) (key_name w).length
        (dm_report.field_prefix (init_handle H report_types types fields output_separator output_flags
          private_data)) = false) →
      dm_report_init H report_types types fields output_fields output_separator output_flags
        sort_keys private_data = some none) ∧
    (∀ (qsort : (row → row → Int) → List row → List row) (object : Nat),
      dm_report_object H qsort none object = some ⟨0, [], none⟩) := by
  have h0 := init_handle_on_registry H report_types types fields output_separator output_flags
    private_data
  have hd := after_display_fails (on_registry_ok h0 hreg)
  refine ⟨?_, ?_, fun _ _ => rfl⟩
  · intro w hm hf ha
    unfold dm_report_init
    simp only [parse_fields_fails (H := H) true hm hf ha h0, hd]
  · intro k w hk hm hf
    subst hk
    have e1 := parse_fields_words H (init_handle H report_types types fields output_separator
      output_flags private_data) output_fields true
    cases hx : (if output_fields.getLast? = some ',' then none
        else resolve_words (fun r w => _field_match H r w w.length true) (words output_fields)
          (init_handle H report_types types fields output_separator output_flags
            private_data)) with
    | none =>
      rw [hx, hd] at e1
      unfold dm_report_init
      simp only [e1]
    | some rh1 =>
      rw [hx] at e1
      have e2 : _parse_fields H (init_handle H report_types types fields output_separator
          output_flags private_data) output_fields true = some (some rh1) := e1
      have hi := frame1_on_registry (parse_fields_frame1 e2) h0
      unfold dm_report_init
      simp only [e2, parse_keys_fails (H := H) true hm hf hi,
        after_display_fails (on_registry_ok hi hreg)]

/-- C3 at the sample registry: the field list `lv_name,bogus_field` and the sort keys
`lv_name,-bogus` both end in `NULL`. -/
theorem unknown_name_no_session_witness :
    dm_report_init sample_h (some 0) sample_types sample_fields "lv_name,bogus_field".toList
        " ".toList 2 none 0 = some none ∧
      dm_report_init sample_h (some 0) sample_types sample_fields "lv_name".toList
        " ".toList 2 (some "lv_name,-bogus".toList) 0 = some none ∧
      dm_report_object sample_h stable_qsort none 16 = some ⟨0, [], none⟩ :=
  ⟨(unknown_name_no_session sample_h (some 0) sample_types sample_fields
      "lv_name,bogus_field".toList " ".toList 2 none 0
      (by unfold registry_ok; decide)).1 "bogus_field".toList (by decide)
      (by decide)
      (by
        unfold all_pattern ci_eq
        decide),
    (unknown_name_no_session sample_h (some 0) sample_types sample_fields
      "lv_name".toList " ".toList 2 (some "lv_name,-bogus".toList) 0
      (by unfold registry_ok; decide)).2.1
      "lv_name,-bogus".toList "-bogus".toList rfl (by decide) (by decide),
    (unknown_name_no_session sample_h (some 0) sample_types sample_fields
      "lv_name".toList " ".toList 2 none 0 (by unfold registry_ok; decide)).2.2
      stable_qsort 16⟩

/-- With a field of a type that is not registered, a word of the field list that matches
nothing ends `dm_report_init` in `_display_fields`, which reads `type->prefix` through a
`NULL` pointer: the run leaves defined behaviour, and no `NULL` is returned. -/
theorem unknown_name_undefined (H : libdevmapper_h) (report_types : Option Nat)
    (types : List dm_report_object_type) (fields : List dm_report_field_type)
    (output_fields output_separator : cstr) (output_flags : Nat) (sort_keys : Option cstr)
    (private_data : Nat) (hreg : ¬ registry_ok types fields) (w : cstr)
    (hm : w ∈ words output_fields)
    (hf : ∀ ft ∈ fields, _is_same_field ft.id w w.length
      (dm_report.field_prefix (init_handle H report_types types fields output_separator output_flags
        private_data)) = false)
    (ha : ¬ all_pattern types w) :
    dm_report_init H report_types types fields output_fields output_separator output_flags
      sort_keys private_data = none := by
  have h0 := init_handle_on_registry H report_types types fields output_separator output_flags
    private_data
  have hd : after_display (init_handle H report_types types fields output_separator
      output_flags private_data) none = none := by
    apply after_display_undefined
    rw [h0.1, h0.2.1]
    exact hreg
  unfold dm_report_init
  simp only [parse_fields_fails (H := H) true hm hf ha h0, hd]

/-! ## The pattern of a name start followed by `all` -/

theorem or_eq_zero {a b : Nat} (h : a ||| b = 0) : a = 0 ∧ b = 0 := by
  constructor
  · apply Nat.eq_of_testBit_eq
    intro i
    have := congrArg (fun n => Nat.testBit n i) h
    simp only [Nat.testBit_or, Nat.zero_testBit, Bool.or_eq_false_iff] at this
    rw [this.1, Nat.zero_testBit]
  · apply Nat.eq_of_testBit_eq
    intro i
    have := congrArg (fun n => Nat.testBit n i) h
    simp only [Nat.testBit_or, Nat.zero_testBit, Bool.or_eq_false_iff] at this
    rw [this.2, Nat.zero_testBit]

theorem foldl_or_eq_zero :
    ∀ (l : List dm_report_object_type) (acc : Nat),
      l.foldl (fun acc t => acc ||| t.id) acc = 0 → acc = 0 ∧ ∀ t ∈ l, t.id = 0 := by
  intro l
  induction l with
  | nil => intro acc h; exact ⟨h, by simp⟩
  | cons t l ih =>
    intro acc h
    simp only [List.foldl_cons] at h
    obtain ⟨h1, h2⟩ := ih _ h
    obtain ⟨h3, h4⟩ := or_eq_zero h1
    refine ⟨h3, ?_⟩
    intro t1 hm
    simp only [List.mem_cons] at hm
    rcases hm with hm | hm
    · subst hm; exact h4
    · exact h2 t1 hm

theorem all_match_loop_eq_foldl (field : cstr) (flen : Nat) (u : Bool) :
    ∀ (ts : List dm_report_object_type) (acc : Nat),
      _all_match_loop field flen u ts acc =
        (ts.filter (fun t => _all_match_type t field flen u)).foldl
          (fun acc t => acc ||| t.id) acc := by
  intro ts
  induction ts with
  | nil => intro acc; rfl
  | cons t ts ih =>
    intro acc
    simp only [_all_match_loop, List.filter_cons]
    split
    · simp only [List.foldl_cons]
      exact ih _
    · exact ih _

theorem ci_eq_append_all {p q : cstr} :
    ci_eq (p ++ ['a', 'l', 'l']) (q ++ ['a', 'l', 'l']) ↔ ci_eq q p := by
  unfold ci_eq
  rw [List.map_append, List.map_append]
  constructor
  · intro h
    exact (List.append_cancel_right h).symm
  · intro h
    rw [h]

/-- On the word made of a name start `p` and `all`, `_all_match` yields the ids of all
registered types with that name start. -/
theorem all_match_prefixed (rh : dm_report) (p : cstr) (hp : p ≠ []) :
    _all_match rh (p ++ ['a', 'l', 'l']) (p ++ ['a', 'l', 'l']).length =
      shared_mask rh.types p := by
  unfold _all_match
  have hlen : (p ++ ['a', 'l', 'l']).length ≠ 3 := by
    rw [List.length_append]
    have := List.length_pos.mpr hp
    simp only [List.length_cons, List.length_nil]
    omega
  have h1 : ¬ ((strncasecmp (p ++ ['a', 'l', 'l']) ['a', 'l', 'l'] 3 == 0 &&
      (p ++ ['a', 'l', 'l']).length == 3) = true) := by
    simp only [Bool.and_eq_true, beq_iff_eq, not_and]
    intro _
    exact hlen
  rw [if_neg h1, all_match_loop_eq_foldl]
  unfold shared_mask
  congr 1
  apply List.filter_congr
  intro t _
  have := all_match_type_iff t (p ++ ['a', 'l', 'l'])
  rw [ci_eq_append_all] at this
  by_cases hc : ci_eq t.pfx p
  · rw [this.mpr hc]
    simp [hc]
  · have hf : _all_match_type t (p ++ ['a', 'l', 'l']) (p ++ ['a', 'l', 'l']).length false =
        false := by
      cases hx : _all_match_type t (p ++ ['a', 'l', 'l']) (p ++ ['a', 'l', 'l']).length false with
      | false => rfl
      | true => exact absurd (this.mp hx) hc
    rw [hf]
    simp [hc]

theorem shared_mask_ne_zero {types : List dm_report_object_type} {T : dm_report_object_type}
    (hT : T ∈ types) (hid : T.id ≠ 0) : shared_mask types T.pfx ≠ 0 := by
  intro h
  unfold shared_mask at h
  have := (foldl_or_eq_zero _ _ h).2 T (by
    rw [List.mem_filter]
    exact ⟨hT, by simp [ci_eq]⟩)
  exact hid this

theorem words_single {w : cstr} (hne : w ≠ []) (hc : ',' ∉ w) :
    words w = [w] ∧ w.getLast? ≠ some ',' := by
  have ht : w.takeWhile (fun c => c != ',') = w := by
    rw [List.takeWhile_eq_self_iff]
    intro c hm
    simp only [bne_iff_ne, ne_eq]
    intro h
    subst h
    exact hc hm
  have hd : w.dropWhile (fun c => c != ',') = [] := by
    rw [List.dropWhile_eq_nil_iff]
    intro c hm
    simp only [bne_iff_ne, ne_eq]
    intro h
    subst h
    exact hc hm
  constructor
  · rw [words_eq, ht, hd, words_nil]
    simp [hne]
  · intro h
    exact hc (List.mem_of_getLast?_eq_some h)

theorem fields_matching_cons (ft : dm_report_field_type) (fts : List dm_report_field_type)
    (mask f : Nat) :
    ((List.enumFrom f (ft :: fts)).filter (fun p => p.2.type &&& mask != 0)).map Prod.fst =
      (if ft.type &&& mask ≠ 0 then [f] else []) ++
        ((List.enumFrom (f + 1) fts).filter (fun p => p.2.type &&& mask != 0)).map Prod.fst := by
  rw [List.enumFrom_cons, List.filter_cons]
  by_cases h : ft.type &&& mask ≠ 0
  · simp [h]
  · simp only [ne_eq, Decidable.not_not] at h
    simp [h]

/-- With the field mask clear of `FLD_HIDDEN`, on a registry whose fields all belong to a
registered type, `_add_all_fields` appends the fields whose type has a bit in `type`, in
the order of the registry. -/
theorem add_all_fields_loop_eq {H : libdevmapper_h}
    (hmask : H.DM_REPORT_FIELD_MASK &&& FLD_HIDDEN = 0) (type : Nat) :
    ∀ (fts : List dm_report_field_type) (f : Nat) (rh : dm_report),
      registry_ok rh.types rh.fields → (∀ i, fts[i]? = rh.fields[f + i]?) →
        ∃ rh1, _add_all_fields_loop H type fts f rh = some rh1 ∧
          rh1.field_props.map (fun fp => fp.field_num) =
            rh.field_props.map (fun fp => fp.field_num) ++
              ((List.enumFrom f fts).filter (fun p => p.2.type &&& type != 0)).map Prod.fst := by
  intro fts
  induction fts with
  | nil =>
    intro f rh _ _
    exact ⟨rh, rfl, by simp⟩
  | cons ft fts ih =>
    intro f rh hreg hsuf
    have hft : rh.fields[f]? = some ft := by
      have := hsuf 0
      simp only [List.getElem?_cons_zero, Nat.add_zero] at this
      exact this.symm
    have hsuf1 : ∀ (r : dm_report), r.fields = rh.fields →
        ∀ i, fts[i]? = r.fields[f + 1 + i]? := by
      intro r hr i
      have := hsuf (i + 1)
      simp only [List.getElem?_cons_succ] at this
      rw [hr, this]
      congr 1
      omega
    simp only [_add_all_fields_loop]
    rw [fields_matching_cons]
    by_cases hty : ft.type &&& type ≠ 0
    · rw [if_pos hty, if_pos hty]
      obtain ⟨r1, i, hadd⟩ := add_field_succeeds (H := H) 0 hreg hft
      obtain ⟨fp, ft1, _, hr1, hnum, _⟩ := add_field_zero_eq hmask hadd
      simp only [hadd]
      have hreg1 : registry_ok r1.types r1.fields := by rw [hr1]; exact hreg
      obtain ⟨r2, h2, e2⟩ := ih (f + 1) r1 hreg1 (hsuf1 r1 (by rw [hr1]))
      refine ⟨r2, h2, ?_⟩
      rw [e2, hr1]
      simp [hnum]
    · rw [if_neg hty, if_neg hty]
      obtain ⟨r2, h2, e2⟩ := ih (f + 1) rh hreg (hsuf1 rh rfl)
      exact ⟨r2, h2, by rw [e2]; simp⟩

/-- C2, amended. Let the field mask of the header be clear of `FLD_HIDDEN` and every field of
the registry belong to a registered type. For a registered type `T` with a non-zero id and a
non-empty name start without comma, when no field is itself named by the word, the field list
made of the name start of `T` followed by `all` resolves to the fields whose type has a bit in
common with the ids of all the registered types that share the name start of `T` (up to the
case of letters), in the order of the registry. -/
theorem prefix_all_selects_types_sharing_prefix (H : libdevmapper_h)
    (report_types : Option Nat) (types : List dm_report_object_type)
    (fields : List dm_report_field_type) (output_separator : cstr) (output_flags : Nat)
    (private_data : Nat) (T : dm_report_object_type)
    (hmask : H.DM_REPORT_FIELD_MASK &&& FLD_HIDDEN = 0) (hreg : registry_ok types fields)
    (hT : T ∈ types) (hid : T.id ≠ 0) (hp : T.pfx ≠ []) (hc : ',' ∉ T.pfx)
    (hno : ∀ ft ∈ fields, _is_same_field ft.id (T.pfx ++ ['a', 'l', 'l'])
      (T.pfx ++ ['a', 'l', 'l']).length
      (dm_report.field_prefix (init_handle H report_types types fields output_separator output_flags
        private_data)) = false) :
    ∃ rh, dm_report_init H report_types types fields (T.pfx ++ ['a', 'l', 'l'])
        output_separator output_flags none private_data = some (some rh) ∧
      rh.field_props.map (fun fp => fp.field_num) =
        fields_matching fields (shared_mask types T.pfx) := by
  have h0 := init_handle_on_registry H report_types types fields output_separator output_flags
    private_data
  have hprops := (init_handle_field_props H report_types types fields output_separator
    output_flags private_data).1
  unfold dm_report_init
  simp only
  generalize init_handle H report_types types fields output_separator output_flags
    private_data = rh0 at h0 hprops hno ⊢
  have hwne : T.pfx ++ ['a', 'l', 'l'] ≠ [] := by simp
  have hwc : ',' ∉ T.pfx ++ ['a', 'l', 'l'] := by
    simp only [List.mem_append, not_or]
    exact ⟨hc, by decide⟩
  obtain ⟨hwords, hlast⟩ := words_single hwne hwc
  have hM := shared_mask_ne_zero hT hid
  have hstep : ∀ (r : dm_report) (b : Bool), on_registry types fields rh0.field_prefix r →
      _field_match H r (T.pfx ++ ['a', 'l', 'l']) (T.pfx ++ ['a', 'l', 'l']).length b =
        if b then some { r with report_types := r.report_types ||| shared_mask types T.pfx }
        else _add_all_fields H r (shared_mask types T.pfx) := by
    intro r b hr
    rw [field_match_word, if_neg hwne]
    unfold field_of
    rw [same_field_loop_none _ _ _ _ _ (by rw [hr.1, hr.2.2]; exact hno)]
    simp only [all_match_prefixed r T.pfx hp, hr.2.1, hM, ne_eq, not_false_eq_true, if_true]
  have hpass : ∀ (r : dm_report) (b : Bool), on_registry types fields rh0.field_prefix r →
      _parse_fields H r (T.pfx ++ ['a', 'l', 'l']) b =
        after_display r
          (if b then some { r with report_types := r.report_types ||| shared_mask types T.pfx }
          else _add_all_fields H r (shared_mask types T.pfx)) := by
    intro r b hr
    rw [parse_fields_words, if_neg hlast, hwords]
    congr 1
    simp only [resolve_words, hstep r b hr]
    cases b with
    | true => rfl
    | false =>
      simp only [Bool.false_eq_true, if_false]
      cases _add_all_fields H r (shared_mask types T.pfx) <;> rfl
  have hr1 : on_registry types fields rh0.field_prefix
      { rh0 with report_types := rh0.report_types ||| shared_mask types T.pfx } := h0
  obtain ⟨rh3, h3, e3⟩ := add_all_fields_loop_eq hmask (shared_mask types T.pfx) rh0.fields 0
    { rh0 with report_types := rh0.report_types ||| shared_mask types T.pfx }
    (by show registry_ok rh0.types rh0.fields; rw [h0.1, h0.2.1]; exact hreg)
    (by intro i; show rh0.fields[i]? = rh0.fields[0 + i]?; rw [Nat.zero_add])
  refine ⟨rh3, ?_, ?_⟩
  · have h1 : _parse_fields H rh0 (T.pfx ++ ['a', 'l', 'l']) true =
        some (some { rh0 with
          report_types := rh0.report_types ||| shared_mask types T.pfx }) := by
      rw [hpass rh0 true h0]
      rfl
    have h4 : _add_all_fields H
        { rh0 with report_types := rh0.report_types ||| shared_mask types T.pfx }
        (shared_mask types T.pfx) = some rh3 := by
      unfold _add_all_fields
      exact h3
    have h2 : _parse_fields H
        { rh0 with report_types := rh0.report_types ||| shared_mask types T.pfx }
        (T.pfx ++ ['a', 'l', 'l']) false = some (some rh3) := by
      rw [hpass _ false hr1]
      simp only [Bool.false_eq_true, if_false]
      rw [h4]
      rfl
    simp only [h1, _parse_keys, h2]
  · rw [e3]
    show List.map (fun fp => fp.field_num) rh0.field_props ++ _ = _
    rw [hprops, h0.1]
    rfl

/-- C2 fails as stated. In the sample registry the types with the ids 2 and 4 share the name
start `pv_`; the field list `pv_all` resolves to the fields 2 and 3, of both types, while the
fields whose type matches the type with id 2 are the field 2 alone. -/
theorem prefix_all_counterexample :
    sample_types.map (fun t => (t.id, t.pfx)) =
        [(1, "lv_".toList), (2, "pv_".toList), (4, "pv_".toList)] ∧
      (dm_report_init sample_h (some 0) sample_types sample_fields "pv_all".toList " ".toList 2
        none 0).join.map (fun rh => rh.field_props.map (fun fp => fp.field_num)) =
          some [2, 3] ∧
      fields_matching sample_fields sample_pv.id = [2] := by
  decide

/-- C2 as amended, at the type of physical volumes of the sample registry: `pv_all` resolves
to the fields 2 and 3. -/
theorem prefix_all_selects_types_sharing_prefix_witness :
    ∃ rh, dm_report_init sample_h (some 0) sample_types sample_fields
        (sample_pv.pfx ++ ['a', 'l', 'l']) " ".toList 2 none 0 = some (some rh) ∧
      rh.field_props.map (fun fp => fp.field_num) = [2, 3] := by
  obtain ⟨rh, h, e⟩ := prefix_all_selects_types_sharing_prefix sample_h (some 0) sample_types
    sample_fields " ".toList 2 0 sample_pv (by decide) (by unfold registry_ok; decide)
    (by simp [sample_types]) (by decide) (by decide) (by decide) (by decide)
  refine ⟨rh, h, ?_⟩
  rw [e]
  decide

/-! ## Sort keys reuse a selection or add a hidden one -/

theorem or_sort_key (x fl : Nat) : ((x ||| FLD_SORT_KEY) ||| fl) &&& FLD_SORT_KEY ≠ 0 := by
  rw [test_sort_key, Nat.testBit_or, Nat.testBit_or]
  have : FLD_SORT_KEY.testBit 9 = true := by decide
  rw [this]
  simp

theorem add_sort_key_found_eq {rh rh1 : dm_report} {found flags : Nat}
    (h : _add_sort_key_found rh found flags = some rh1) :
    ∃ fp, rh.field_props[found]? = some fp ∧
      rh1 = (if fp.flags &&& FLD_SORT_KEY ≠ 0 then rh
        else { rh with
          field_props := rh.field_props.set found
            { fp with
              flags := (fp.flags ||| FLD_SORT_KEY) ||| flags
              sort_posn := rh.keys_count }
          keys_count := rh.keys_count + 1 }) := by
  unfold _add_sort_key_found at h
  split at h
  · exact absurd h (by simp)
  · rename_i fp hfp
    refine ⟨fp, hfp, ?_⟩
    split at h
    · rename_i hm
      simp only [Option.some.injEq] at h
      rw [if_pos hm, h]
    · rename_i hm
      simp only [Option.some.injEq] at h
      rw [if_neg hm, h]

/-- What marking the selection at the position `found` does to the list of selections. -/
theorem add_sort_key_found_props {rh rh1 : dm_report} {found flags : Nat}
    (hfl : flags = FLD_ASCENDING ∨ flags = FLD_DESCENDING)
    (h : _add_sort_key_found rh found flags = some rh1) :
    rh1.field_props.length = rh.field_props.length ∧
      (∃ fp fp1, rh.field_props[found]? = some fp ∧ rh1.field_props[found]? = some fp1 ∧
        fp1.field_num = fp.field_num ∧ fp1.width = fp.width ∧ fp1.type = fp.type ∧
        fp1.flags &&& FLD_SORT_KEY ≠ 0 ∧
        (fp1.flags &&& FLD_HIDDEN ≠ 0 ↔ fp.flags &&& FLD_HIDDEN ≠ 0)) ∧
      ∀ j, j ≠ found → rh1.field_props[j]? = rh.field_props[j]? := by
  obtain ⟨fp, hfp, e⟩ := add_sort_key_found_eq h
  have hlt : found < rh.field_props.length := by
    by_contra hc
    rw [List.getElem?_eq_none (by omega)] at hfp
    exact absurd hfp (by simp)
  by_cases hm : fp.flags &&& FLD_SORT_KEY ≠ 0
  · rw [if_pos hm] at e
    subst e
    exact ⟨rfl, ⟨fp, fp, hfp, hfp, rfl, rfl, rfl, hm, Iff.rfl⟩, fun _ _ => rfl⟩
  · rw [if_neg hm] at e
    subst e
    refine ⟨by simp, ⟨fp, { fp with
        flags := (fp.flags ||| FLD_SORT_KEY) ||| flags
        sort_posn := rh.keys_count }, hfp, ?_, rfl, rfl, rfl, or_sort_key _ _,
      sort_flags_hidden _ _ hfl⟩, ?_⟩
    · simp only [List.getElem?_set, hlt, if_true]
    · intro j hj
      simp only [List.getElem?_set, Ne.symm hj, if_false]

/-- C7. A sort key word naming the field `f` that `_key_match` accepts does one of two things.
When `f` is selected already, the list of selections keeps its length, the first selection of
`f` carries the sort key flag afterwards, with its field, width and visibility as before, and
no other selection changes. When `f` is not selected, exactly one selection is added, in
front: a hidden selection of `f` carrying the sort key flag. Either way, and for a whole list
of sort keys, the visible selections, their fields and widths in order, are as before. -/
theorem sort_key_reuses_or_hides (H : libdevmapper_h) :
    (∀ (rh rh1 : dm_report) (w : cstr), _key_match H rh w w.length false = some rh1 →
      ∃ f, field_of rh (key_name w) = some f ∧
        (∀ found, rh.field_props.findIdx? (fun fp => fp.field_num == f) = some found →
          rh1.field_props.length = rh.field_props.length ∧
          (∃ fp fp1, rh.field_props[found]? = some fp ∧ rh1.field_props[found]? = some fp1 ∧
            fp.field_num = f ∧ fp1.field_num = f ∧ fp1.width = fp.width ∧
            fp1.flags &&& FLD_SORT_KEY ≠ 0 ∧
            (fp1.flags &&& FLD_HIDDEN ≠ 0 ↔ fp.flags &&& FLD_HIDDEN ≠ 0)) ∧
          ∀ j, j ≠ found → rh1.field_props[j]? = rh.field_props[j]?) ∧
        (rh.field_props.findIdx? (fun fp => fp.field_num == f) = none →
          ∃ fp, rh1.field_props = fp :: rh.field_props ∧ fp.field_num = f ∧
            fp.flags &&& FLD_HIDDEN ≠ 0 ∧ fp.flags &&& FLD_SORT_KEY ≠ 0) ∧
        visible rh1.field_props = visible rh.field_props) ∧
    (∀ (rh rh1 : dm_report) (keys : Option cstr), _parse_keys H rh keys false = some (some rh1) →
      visible rh1.field_props = visible rh.field_props) := by
  refine ⟨?_, fun rh rh1 keys h => parse_keys_visible h⟩
  intro rh rh1 w h
  have hv := key_match_visible h
  rw [key_match_word] at h
  split at h
  · exact absurd h (by simp)
  · split at h
    · rename_i f hf
      refine ⟨f, hf, ?_, ?_, hv⟩
      · intro found hfound
        unfold _add_sort_key at h
        rw [hfound] at h
        simp only [Bool.false_eq_true, if_false] at h
        obtain ⟨hl, ⟨fp, fp1, h1, h2, h3, h4, _, h6, h7⟩, hj⟩ :=
          add_sort_key_found_props (key_flags_cases w) h
        have hnum : fp.field_num = f := by
          obtain ⟨hlt, hp, _⟩ := List.findIdx?_eq_some_iff_getElem.mp hfound
          rw [List.getElem?_eq_getElem hlt] at h1
          simp only [Option.some.injEq] at h1
          rw [← h1]
          simpa using hp
        exact ⟨hl, ⟨fp, fp1, h1, h2, hnum, h3.trans hnum, h4, h6, h7⟩, hj⟩
      · intro hnone
        unfold _add_sort_key at h
        rw [hnone] at h
        simp only [Bool.false_eq_true, if_false] at h
        split at h
        · exact absurd h (by simp)
        · rename_i rh2 i hadd
          obtain ⟨hi, fp, hfp, hnum, hh, _⟩ := add_field_hidden_eq hadd
          subst hi
          obtain ⟨hl, ⟨fp0, fp1, h1, h2, h3, _, _, h6, h7⟩, hj⟩ :=
            add_sort_key_found_props (key_flags_cases w) h
          rw [hfp] at h1
          simp only [List.getElem?_cons_zero, Option.some.injEq] at h1
          subst h1
          refine ⟨fp1, ?_, h3.trans hnum, h7.mpr hh, h6⟩
          apply List.ext_getElem?
          intro j
          cases j with
          | zero => rw [h2]; simp
          | succ j =>
            rw [hj (j + 1) (by omega), hfp]
            simp
    · exact absurd h (by simp)

/-- C7 at the sample session of the field list `name`: the key `-size` adds the hidden
selection of `size` in front, the key `+name` then marks the selection of `name` that is
there, and `name` stays the one visible selection. -/
theorem sort_key_reuses_or_hides_witness :
    ∃ rh1 rh2, _key_match sample_h sample_plain "-size".toList 5 false = some rh1 ∧
      _key_match sample_h rh1 "+name".toList 5 false = some rh2 ∧
      rh2.field_props.map (fun fp => (fp.field_num, decide (fp.flags &&& FLD_HIDDEN ≠ 0),
        decide (fp.flags &&& FLD_SORT_KEY ≠ 0))) = [(1, true, true), (0, false, true)] ∧
      visible rh1.field_props = visible sample_plain.field_props ∧
      visible rh2.field_props = visible rh1.field_props := by
  refine ⟨(_key_match sample_h sample_plain "-size".toList 5 false).get (by decide),
    (_key_match sample_h ((_key_match sample_h sample_plain "-size".toList 5 false).get
      (by decide)) "+name".toList 5 false).get (by decide),
    (Option.some_get _).symm, (Option.some_get _).symm, by decide, ?_, ?_⟩
  · obtain ⟨_, _, _, _, hv⟩ := (sort_key_reuses_or_hides sample_h).1 sample_plain _
      "-size".toList (Option.some_get _).symm
    exact hv
  · obtain ⟨_, _, _, _, hv⟩ := (sort_key_reuses_or_hides sample_h).1 _ _
      "+name".toList (Option.some_get _).symm
    exact hv

/-! ## The sort keys of a handle -/

theorem key_match_key_field (H : libdevmapper_h) (rh : dm_report) (w : cstr) (b : Bool) :
    _key_match H rh w w.length b =
      match key_field rh w with
      | some f => _add_sort_key H rh f (key_flags w) b
      | none => none := by
  rw [key_match_word]
  unfold key_field
  split
  · rfl
  · rfl

theorem findIdx?_first_sel {l : List field_properties} {f i : Nat}
    (h : l.findIdx? (fun fp => fp.field_num == f) = some i) : ∃ fp, first_sel l f i fp := by
  obtain ⟨hlt, hp, hj⟩ := List.findIdx?_eq_some_iff_getElem.mp h
  refine ⟨l[i], List.getElem?_eq_getElem hlt, by simpa using hp, ?_⟩
  intro j hji fq hfq
  have hjl : j < l.length := by omega
  rw [List.getElem?_eq_getElem hjl] at hfq
  simp only [Option.some.injEq] at hfq
  have := hj j hji
  rw [← hfq]
  simpa using this

theorem first_sel_unique {l : List field_properties} {f i j : Nat} {fp fq : field_properties}
    (h1 : first_sel l f i fp) (h2 : first_sel l f j fq) : i = j ∧ fp = fq := by
  have hij : i = j := by
    rcases Nat.lt_trichotomy i j with h | h | h
    · exact absurd h1.2.1 (h2.2.2 i h fp h1.1)
    · exact h
    · exact absurd h2.2.1 (h1.2.2 j h fq h2.1)
  subst hij
  have := h1.1.symm.trans h2.1
  simp only [Option.some.injEq] at this
  exact ⟨rfl, this⟩

theorem first_sel_findIdx? {l : List field_properties} {f i : Nat} {fp : field_properties}
    (h : first_sel l f i fp) : l.findIdx? (fun fp => fp.field_num == f) = some i := by
  cases hx : l.findIdx? (fun fp => fp.field_num == f) with
  | none =>
    rw [List.findIdx?_eq_none_iff] at hx
    have := hx fp (List.getElem?_mem h.1)
    simp [h.2.1] at this
  | some j =>
    obtain ⟨fq, hq⟩ := findIdx?_first_sel hx
    rw [(first_sel_unique h hq).1]

/-- What `_add_sort_key` does in the second pass: when the field has no selection it puts a
new hidden selection in front; then the first selection of the field is marked with the next
position and the direction, unless it is marked already. -/
theorem add_sort_key_cases {H : libdevmapper_h} {rh rh1 : dm_report} {f flags : Nat}
    (h : _add_sort_key H rh f flags false = some rh1) :
    ∃ l0 found fp,
      (l0 = rh.field_props ∨
        ((∀ fq ∈ rh.field_props, fq.field_num ≠ f) ∧ found = 0 ∧ l0 = fp :: rh.field_props ∧
          fp.sort_posn = 0 ∧
          ∃ ft, rh.fields[f]? = some ft ∧
            fp.flags = (ft.flags &&& H.DM_REPORT_FIELD_MASK) ||| FLD_HIDDEN)) ∧
      first_sel l0 f found fp ∧
      rh1 = (if fp.flags &&& FLD_SORT_KEY ≠ 0 then { rh with field_props := l0 }
        else { rh with
          field_props := l0.set found (mark_key fp flags rh.keys_count)
          keys_count := rh.keys_count + 1 }) := by
  unfold _add_sort_key at h
  split at h
  · rename_i hnone
    simp only [Bool.false_eq_true, if_false] at h
    split at h
    · exact absurd h (by simp)
    · rename_i rh2 i hadd
      obtain ⟨hi, fp, hfp, hnum, _, hpos, hft⟩ := add_field_hidden_eq hadd
      subst hi
      have hfr := (add_field_frame2 hadd)
      obtain ⟨fp0, h0, e⟩ := add_sort_key_found_eq h
      rw [hfp] at h0
      simp only [List.getElem?_cons_zero, Option.some.injEq] at h0
      subst h0
      refine ⟨fp :: rh.field_props, 0, fp, Or.inr ⟨?_, rfl, rfl, hpos, hft⟩,
        ⟨by simp, hnum, fun j hj => absurd hj (by omega)⟩, ?_⟩
      · intro fq hfq
        rw [List.findIdx?_eq_none_iff] at hnone
        simpa using hnone fq hfq
      · rw [e]
        have e2 : rh2 = { rh with field_props := fp :: rh.field_props } := by
          have := hfr.1
          unfold frame2 at this
          rw [this, hfp, hfr.2]
        rw [e2]
        rfl
  · rename_i found hfound
    simp only [Bool.false_eq_true, if_false] at h
    obtain ⟨fp, hfs⟩ := findIdx?_first_sel hfound
    obtain ⟨fp0, h0, e⟩ := add_sort_key_found_eq h
    have : fp0 = fp := by
      have := h0.symm.trans hfs.1
      simpa using this
    subst this
    refine ⟨rh.field_props, found, fp0, Or.inl rfl, hfs, ?_⟩
    rw [e]
    rfl

theorem first_sel_cons {l : List field_properties} {g i : Nat} {fp fq : field_properties}
    (h : first_sel l g i fp) (hq : fq.field_num ≠ g) : first_sel (fq :: l) g (i + 1) fp := by
  refine ⟨by simpa using h.1, h.2.1, ?_⟩
  intro j hj fr hfr
  cases j with
  | zero =>
    simp only [List.getElem?_cons_zero, Option.some.injEq] at hfr
    rw [← hfr]; exact hq
  | succ j =>
    simp only [List.getElem?_cons_succ] at hfr
    exact h.2.2 j (by omega) fr hfr

theorem first_sel_set {l : List field_properties} {g f i found : Nat}
    {fp fq fq1 : field_properties} (h : first_sel l g i fp) (hf : first_sel l f found fq)
    (hgf : g ≠ f) (hq : fq1.field_num = f) : first_sel (l.set found fq1) g i fp := by
  have hne : found ≠ i := by
    intro he
    subst he
    have := hf.1.symm.trans h.1
    simp only [Option.some.injEq] at this
    rw [this] at hf
    exact hgf (h.2.1.symm.trans hf.2.1)
  refine ⟨by rw [List.getElem?_set, if_neg hne]; exact h.1, h.2.1, ?_⟩
  intro j hj fr hfr
  rw [List.getElem?_set] at hfr
  split at hfr
  · split at hfr
    · simp only [Option.some.injEq] at hfr
      rw [← hfr, hq]
      exact fun he => hgf he.symm
    · exact absurd hfr (by simp)
  · exact h.2.2 j hj fr hfr

theorem first_sel_set_self {l : List field_properties} {f found : Nat}
    {fq fq1 : field_properties} (hf : first_sel l f found fq) (hq : fq1.field_num = f) :
    first_sel (l.set found fq1) f found fq1 := by
  have hlt : found < l.length := by
    by_contra hc
    have := hf.1
    rw [List.getElem?_eq_none (by omega)] at this
    exact absurd this (by simp)
  refine ⟨by rw [List.getElem?_set, if_pos rfl, if_pos hlt], hq, ?_⟩
  intro j hj fr hfr
  rw [List.getElem?_set, if_neg (by omega)] at hfr
  exact hf.2.2 j hj fr hfr

theorem first_sel_of_set {l : List field_properties} {g f i found : Nat}
    {fp fq fq1 : field_properties} (h : first_sel (l.set found fq1) g i fp)
    (hf : first_sel l f found fq) (hgf : g ≠ f) (hq : fq1.field_num = f) :
    first_sel l g i fp := by
  have hne : found ≠ i := by
    intro he
    subst he
    have := h.1
    rw [List.getElem?_set, if_pos rfl] at this
    split at this
    · simp only [Option.some.injEq] at this
      rw [← this] at h
      exact hgf (h.2.1.symm.trans hq)
    · exact absurd this (by simp)
  refine ⟨by have := h.1; rwa [List.getElem?_set, if_neg hne] at this, h.2.1, ?_⟩
  intro j hj fr hfr
  by_cases hjf : found = j
  · subst hjf
    have := hf.1.symm.trans hfr
    simp only [Option.some.injEq] at this
    rw [← this, hf.2.1]
    exact fun he => hgf he.symm
  · exact h.2.2 j hj fr (by rw [List.getElem?_set, if_neg hjf]; exact hfr)

theorem mark_key_field_num (fp : field_properties) (fl p : Nat) :
    (mark_key fp fl p).field_num = fp.field_num := rfl

theorem mark_key_sort_key (fp : field_properties) (fl p : Nat) :
    (mark_key fp fl p).flags &&& FLD_SORT_KEY ≠ 0 := or_sort_key _ _

/-- After a key of the field `f` is resolved in the second pass, the first selection of `f`
is a sort key; and the first selection of any other field is what it was. -/
theorem add_sort_key_done2 {H : libdevmapper_h} {rh rh1 : dm_report} {f flags : Nat}
    (h : _add_sort_key H rh f flags false = some rh1) :
    key_done2 f rh1 ∧ ∀ g, key_done2 g rh → key_done2 g rh1 := by
  obtain ⟨l0, found, fp, hl0, hfs, e⟩ := add_sort_key_cases h
  have hself : key_done2 f rh1 := by
    by_cases hm : fp.flags &&& FLD_SORT_KEY ≠ 0
    · rw [if_pos hm] at e
      rw [e]
      exact ⟨found, fp, hfs, hm⟩
    · rw [if_neg hm] at e
      rw [e]
      exact ⟨found, _, first_sel_set_self hfs (mark_key_field_num _ _ _ |>.trans hfs.2.1),
        mark_key_sort_key _ _ _⟩
  refine ⟨hself, ?_⟩
  intro g hg
  by_cases hgf : g = f
  · subst hgf; exact hself
  · obtain ⟨i, fq, hq, hqm⟩ := hg
    have hq0 : ∃ i0, first_sel l0 g i0 fq := by
      rcases hl0 with h1 | ⟨_, _, h1, _⟩
      · rw [h1]; exact ⟨i, hq⟩
      · rw [h1]
        exact ⟨i + 1, first_sel_cons hq (by rw [hfs.2.1]; exact fun he => hgf he.symm)⟩
    obtain ⟨i0, hq0⟩ := hq0
    by_cases hm : fp.flags &&& FLD_SORT_KEY ≠ 0
    · rw [if_pos hm] at e
      rw [e]
      exact ⟨i0, fq, hq0, hqm⟩
    · rw [if_neg hm] at e
      rw [e]
      exact ⟨i0, fq, first_sel_set hq0 hfs hgf (mark_key_field_num _ _ _ |>.trans hfs.2.1),
        hqm⟩

theorem add_sort_key_noop2 {H : libdevmapper_h} {rh : dm_report} {f : Nat} (flags : Nat)
    (h : key_done2 f rh) : _add_sort_key H rh f flags false = some rh := by
  obtain ⟨i, fp, hfs, hm⟩ := h
  unfold _add_sort_key
  rw [first_sel_findIdx? hfs]
  simp only [Bool.false_eq_true, if_false]
  unfold _add_sort_key_found
  rw [hfs.1]
  simp only [hm, ne_eq, not_false_eq_true, if_true]

theorem report_types_eta (rh : dm_report) (t : Nat) (h : t = rh.report_types) :
    { rh with report_types := t } = rh := by
  subst h
  rfl

theorem add_sort_key_noop1 {H : libdevmapper_h} {rh : dm_report} {f : Nat} (flags : Nat)
    (h : key_done1 f rh) :
    _add_sort_key H rh f flags true = some rh := by
  unfold _add_sort_key
  cases hx : rh.field_props.findIdx? (fun fp => fp.field_num == f) with
  | some found => rfl
  | none =>
    simp only [if_true]
    rcases h with ⟨fp, hm, hn⟩ | ⟨ft, hft1, hor⟩
    · rw [List.findIdx?_eq_none_iff] at hx
      have := hx fp hm
      simp [hn] at this
    · rw [hft1]
      simp only
      rw [report_types_eta rh _ hor]

theorem add_sort_key_done1 {H : libdevmapper_h} {rh rh1 : dm_report} {f flags : Nat}
    (h : _add_sort_key H rh f flags true = some rh1) :
    key_done1 f rh1 ∧ ∀ g, key_done1 g rh → key_done1 g rh1 := by
  unfold _add_sort_key at h
  split at h
  · rename_i hnone
    simp only [if_true] at h
    split at h
    · exact absurd h (by simp)
    · rename_i ft hft
      simp only [Option.some.injEq] at h
      subst h
      refine ⟨Or.inr ⟨ft, hft, ?_⟩, ?_⟩
      · show (rh.report_types ||| ft.type) ||| ft.type = rh.report_types ||| ft.type
        rw [Nat.or_assoc, Nat.or_self]
      · intro g hg
        rcases hg with hg | ⟨fg, hfg, hor⟩
        · exact Or.inl hg
        · refine Or.inr ⟨fg, hfg, ?_⟩
          show (rh.report_types ||| ft.type) ||| fg.type = rh.report_types ||| ft.type
          rw [Nat.or_assoc, Nat.or_comm ft.type, ← Nat.or_assoc, hor]
  · rename_i found hfound
    simp only [if_true, Option.some.injEq] at h
    subst h
    obtain ⟨fp, hfs⟩ := findIdx?_first_sel hfound
    exact ⟨Or.inl ⟨fp, List.getElem?_mem hfs.1, hfs.2.1⟩, fun g hg => hg⟩

theorem key_field_congr {types : List dm_report_object_type}
    {fields : List dm_report_field_type} {pfx : cstr} {a b : dm_report}
    (ha : on_registry types fields pfx a) (hb : on_registry types fields pfx b) (w : cstr) :
    key_field a w = key_field b w := by
  unfold key_field
  rw [field_of_congr (ha.1.trans hb.1.symm) (ha.2.2.trans hb.2.2.symm)]

/-- Resolving a list of key words gives what resolving the list without its repeated keys
gives, in either pass. -/
theorem resolve_drop_repeated (H : libdevmapper_h) (b : Bool) (done : Nat → dm_report → Prop)
    (types : List dm_report_object_type) (fields : List dm_report_field_type) (pfx : cstr)
    (r0 : dm_report) (h0 : on_registry types fields pfx r0)
    (hnoop : ∀ r f fl, done f r → _add_sort_key H r f fl b = some r)
    (hdone : ∀ r r1 f fl, _add_sort_key H r f fl b = some r1 →
      done f r1 ∧ ∀ g, done g r → done g r1) :
    ∀ (ws : List cstr) (seen : List Nat) (r : dm_report), on_registry types fields pfx r →
      (∀ f ∈ seen, done f r) →
      resolve_words (fun r w => _key_match H r w w.length b) ws r =
        resolve_words (fun r w => _key_match H r w w.length b)
          (drop_repeated_keys r0 ws seen) r := by
  intro ws
  induction ws with
  | nil => intro seen r _ _; rfl
  | cons w ws ih =>
    intro seen r hr hseen
    have hkf := key_field_congr hr h0 w
    simp only [drop_repeated_keys]
    cases hk : key_field r0 w with
    | none =>
      simp only [resolve_words]
      rw [key_match_key_field, hkf, hk]
    | some f =>
      simp only
      by_cases hmem : f ∈ seen
      · rw [if_pos hmem]
        simp only [resolve_words]
        rw [key_match_key_field, hkf, hk]
        simp only [hnoop r f _ (hseen f hmem)]
        exact ih seen r hr hseen
      · rw [if_neg hmem]
        simp only [resolve_words]
        cases hs : _key_match H r w w.length b with
        | none => rfl
        | some r1 =>
          simp only
          have hr1 := key_match_on_registry hs hr
          rw [key_match_key_field, hkf, hk] at hs
          obtain ⟨hd1, hd2⟩ := hdone r r1 f _ hs
          apply ih (f :: seen) r1 hr1
          intro g hg
          simp only [List.mem_cons] at hg
          rcases hg with hg | hg
          · subst hg; exact hd1
          · exact hd2 g (hseen g hg)

theorem parse_fields_on_registry {H : libdevmapper_h} {types : List dm_report_object_type}
    {fields : List dm_report_field_type} {pfx : cstr} {a b : dm_report} {s : cstr} {p : Bool}
    (h : _parse_fields H a s p = some (some b)) (ha : on_registry types fields pfx a) :
    on_registry types fields pfx b :=
  resolve_words_rel _ (fun x y => on_registry types fields pfx x → on_registry types fields pfx y)
    (fun _ hx => hx) (fun _ _ _ f g hx => g (f hx))
    (fun _ _ _ hs hx => field_match_on_registry hs hx) _ _ _ (parse_fields_some h).2 ha

theorem parse_keys_on_registry {H : libdevmapper_h} {types : List dm_report_object_type}
    {fields : List dm_report_field_type} {pfx : cstr} {a b : dm_report} {k : Option cstr}
    {p : Bool} (h : _parse_keys H a k p = some (some b)) (ha : on_registry types fields pfx a) :
    on_registry types fields pfx b := by
  cases k with
  | none =>
    simp only [_parse_keys, Option.some.injEq] at h
    subst h
    exact ha
  | some s =>
    exact resolve_words_rel _
      (fun x y => on_registry types fields pfx x → on_registry types fields pfx y)
      (fun _ hx => hx) (fun _ _ _ f g hx => g (f hx))
      (fun _ _ _ hs hx => key_match_on_registry hs hx) _ _ _ (parse_keys_some h).2 ha

/-- C6. Let the list `s1` of sort keys be the list `s` without every word that names a field
which an earlier word of `s` names, be it with another sign, in another case or with the
name start of the report. Then `dm_report_init` does with `s` what it does with `s1`: it
returns a handle for the one when it does for the other, and the handle is the same, with
the same selections, `keys_count`, positions and directions. -/
theorem repeated_sort_key_ignored (H : libdevmapper_h) (report_types : Option Nat)
    (types : List dm_report_object_type) (fields : List dm_report_field_type)
    (output_fields output_separator : cstr) (output_flags : Nat) (private_data : Nat)
    (s s1 : cstr) (hs : s.getLast? ≠ some ',') (hs1 : s1.getLast? ≠ some ',')
    (hw : words s1 = drop_repeated_keys
      (init_handle H report_types types fields output_separator output_flags private_data)
      (words s) []) :
    dm_report_init H report_types types fields output_fields output_separator output_flags
        (some s) private_data =
      dm_report_init H report_types types fields output_fields output_separator output_flags
        (some s1) private_data := by
  have h0 := init_handle_on_registry H report_types types fields output_separator output_flags
    private_data
  have hkeys : ∀ (b : Bool) (done : Nat → dm_report → Prop),
      (∀ r f fl, done f r → _add_sort_key H r f fl b = some r) →
      (∀ r r1 f fl, _add_sort_key H r f fl b = some r1 →
        done f r1 ∧ ∀ g, done g r → done g r1) →
      ∀ r, on_registry types fields
        (dm_report.field_prefix (init_handle H report_types types fields output_separator output_flags
          private_data)) r →
        _parse_keys H r (some s) b = _parse_keys H r (some s1) b := by
    intro b done hn hd r hr
    rw [parse_keys_words, parse_keys_words, if_neg hs, if_neg hs1, hw]
    congr 1
    exact resolve_drop_repeated H b done types fields _ _ h0 hn hd (words s) [] r hr
      (by simp)
  have hk1 := hkeys true key_done1 (fun r f fl hd => add_sort_key_noop1 fl hd)
    (fun r r1 f fl h => add_sort_key_done1 h)
  have hk2 := hkeys false key_done2 (fun r f fl hd => add_sort_key_noop2 fl hd)
    (fun r r1 f fl h => add_sort_key_done2 h)
  unfold dm_report_init
  simp only
  cases h1 : _parse_fields H (init_handle H report_types types fields output_separator
      output_flags private_data) output_fields true with
  | none => rfl
  | some o1 =>
    cases o1 with
    | none => rfl
    | some rh1 =>
      have hr1 := parse_fields_on_registry h1 h0
      simp only
      rw [← hk1 rh1 hr1]
      cases h2 : _parse_keys H rh1 (some s) true with
      | none => rfl
      | some o2 =>
        cases o2 with
        | none => rfl
        | some rh2 =>
          have hr2 := parse_keys_on_registry h2 hr1
          simp only
          cases h3 : _parse_fields H rh2 output_fields false with
          | none => rfl
          | some o3 =>
            cases o3 with
            | none => rfl
            | some rh3 =>
              simp only
              exact hk2 rh3 (parse_fields_on_registry h3 hr2)

/-- C6 at the sample registry: the keys `-size,name,+size,lv_name,-NAME` resolve as the keys
`-size,name` do, to two keys, `size` descending at position 0 and `name` ascending at
position 1. -/
theorem repeated_sort_key_ignored_witness :
    dm_report_init sample_h (some 1) sample_types sample_fields "name".toList " ".toList 2
        (some "-size,name,+size,lv_name,-NAME".toList) 0 =
      dm_report_init sample_h (some 1) sample_types sample_fields "name".toList " ".toList 2
        (some "-size,name".toList) 0 ∧
    (dm_report_init sample_h (some 1) sample_types sample_fields "name".toList " ".toList 2
        (some "-size,name,+size,lv_name,-NAME".toList) 0).join.map
      (fun rh => (rh.keys_count, rh.field_props.map (fun fp => (fp.field_num, fp.sort_posn,
        decide (fp.flags &&& FLD_DESCENDING ≠ 0))))) = some (2, [(1, 0, true), (0, 1, false)]) :=
  ⟨repeated_sort_key_ignored sample_h (some 1) sample_types sample_fields "name".toList
    " ".toList 2 0 "-size,name,+size,lv_name,-NAME".toList "-size,name".toList (by decide)
    (by decide) (by decide), by decide⟩

/-! ## Positions and directions of the sort keys -/

theorem dir_bits_mark (x d : Nat) (hx : dir_bits x = 0)
    (hd : d = FLD_ASCENDING ∨ d = FLD_DESCENDING) :
    dir_bits ((x ||| FLD_SORT_KEY) ||| d) = d := by
  unfold dir_bits at *
  rw [Nat.and_distrib_right, Nat.and_distrib_right, hx]
  have h1 : FLD_SORT_KEY &&& (FLD_ASCENDING ||| FLD_DESCENDING) = 0 := by decide
  rw [h1]
  rcases hd with hd | hd <;> subst hd <;> decide

theorem new_flags_clean (H : libdevmapper_h) (hsk : H.DM_REPORT_FIELD_MASK &&& FLD_SORT_KEY = 0)
    (hdir : H.DM_REPORT_FIELD_MASK &&& (FLD_ASCENDING ||| FLD_DESCENDING) = 0) (x fl : Nat)
    (hfl : fl = 0 ∨ fl = FLD_HIDDEN) :
    ((x &&& H.DM_REPORT_FIELD_MASK) ||| fl) &&& FLD_SORT_KEY = 0 ∧
      dir_bits ((x &&& H.DM_REPORT_FIELD_MASK) ||| fl) = 0 := by
  unfold dir_bits
  rw [Nat.and_distrib_right, Nat.and_distrib_right, Nat.and_assoc, Nat.and_assoc, hsk, hdir,
    Nat.and_zero]
  rcases hfl with hfl | hfl <;> subst hfl <;> exact ⟨by decide, by decide⟩

theorem keys_ok_cons {l : List field_properties} {D : List (Nat × Nat)}
    {fp : field_properties} (h : keys_ok l D) (hm : fp.flags &&& FLD_SORT_KEY = 0)
    (hd : dir_bits fp.flags = 0) (hf : fp.field_num ∉ D.map Prod.fst) :
    keys_ok (fp :: l) D := by
  obtain ⟨k1, k2, k3⟩ := h
  refine ⟨?_, ?_, ?_⟩
  · intro i f d hi
    obtain ⟨j, fq, hq, hqm, hqp, hqd⟩ := k1 i f d hi
    refine ⟨j + 1, fq, first_sel_cons hq ?_, hqm, hqp, hqd⟩
    intro he
    apply hf
    rw [he]
    exact List.mem_map.mpr ⟨(f, d), List.getElem?_mem hi, rfl⟩
  · intro j fq hj hqm
    cases j with
    | zero =>
      simp only [List.getElem?_cons_zero, Option.some.injEq] at hj
      subst hj
      exact absurd hm hqm
    | succ j =>
      simp only [List.getElem?_cons_succ] at hj
      obtain ⟨h1, h2⟩ := k2 j fq hj hqm
      exact ⟨first_sel_cons h1 (fun he => hf (he ▸ h2)), h2⟩
  · intro fq hq hqm
    simp only [List.mem_cons] at hq
    rcases hq with hq | hq
    · subst hq; exact hd
    · exact k3 fq hq hqm

theorem getElem?_append_singleton {α : Type} (D : List α) (x y : α) (i : Nat)
    (h : (D ++ [x])[i]? = some y) : D[i]? = some y ∨ (i = D.length ∧ y = x) := by
  by_cases hi : i < D.length
  · left
    rw [List.getElem?_append_left hi] at h
    exact h
  · right
    rw [List.getElem?_append_right (by omega)] at h
    have hz : i - D.length = 0 := by
      by_contra hne
      rw [List.getElem?_eq_none (by simp; omega)] at h
      exact absurd h (by simp)
    rw [hz] at h
    simp only [List.getElem?_cons_zero, Option.some.injEq] at h
    exact ⟨by omega, h.symm⟩

/-- Marking the first selection of a field that is not yet among the keys adds the key at
the next position. -/
theorem keys_ok_mark {l : List field_properties} {D : List (Nat × Nat)} {f found d : Nat}
    {fp : field_properties} (h : keys_ok l D) (hfs : first_sel l f found fp)
    (hf : f ∉ D.map Prod.fst) (hm : fp.flags &&& FLD_SORT_KEY = 0)
    (hd : d = FLD_ASCENDING ∨ d = FLD_DESCENDING) :
    keys_ok (l.set found (mark_key fp d D.length)) (D ++ [(f, d)]) := by
  obtain ⟨k1, k2, k3⟩ := h
  have hnum : (mark_key fp d D.length).field_num = f := hfs.2.1
  refine ⟨?_, ?_, ?_⟩
  · intro i g e hi
    rcases getElem?_append_singleton D _ _ i hi with hi1 | ⟨hi1, hi2⟩
    · obtain ⟨j, fq, hq, hqm, hqp, hqd⟩ := k1 i g e hi1
      have hgf : g ≠ f := by
        intro he
        apply hf
        rw [← he]
        exact List.mem_map.mpr ⟨(g, e), List.getElem?_mem hi1, rfl⟩
      exact ⟨j, fq, first_sel_set hq hfs hgf hnum, hqm, hqp, hqd⟩
    · simp only [Prod.mk.injEq] at hi2
      obtain ⟨hg, he⟩ := hi2
      subst hg he
      refine ⟨found, _, first_sel_set_self hfs hnum, mark_key_sort_key _ _ _, hi1.symm, ?_⟩
      exact dir_bits_mark _ _ (k3 fp (List.getElem?_mem hfs.1) hm) hd
  · intro j fq hj hqm
    by_cases hjf : found = j
    · subst hjf
      rw [List.getElem?_set, if_pos rfl] at hj
      split at hj
      · simp only [Option.some.injEq] at hj
        subst hj
        refine ⟨?_, ?_⟩
        · rw [hnum]
          exact first_sel_set_self hfs hnum
        · rw [hnum]
          simp
      · exact absurd hj (by simp)
    · rw [List.getElem?_set, if_neg hjf] at hj
      obtain ⟨h1, h2⟩ := k2 j fq hj hqm
      have hgf : fq.field_num ≠ f := fun he => hf (he ▸ h2)
      refine ⟨first_sel_set h1 hfs hgf hnum, ?_⟩
      rw [List.map_append]
      exact List.mem_append_left _ h2
  · intro fq hq hqm
    rcases List.mem_or_eq_of_mem_set hq with hq1 | hq1
    · exact k3 fq hq1 hqm
    · subst hq1
      exact absurd hqm (mark_key_sort_key _ _ _)

theorem add_key_cases (D : List (Nat × Nat)) (f d : Nat) :
    (f ∈ D.map Prod.fst ∧ add_key D f d = D) ∨
      (f ∉ D.map Prod.fst ∧ add_key D f d = D ++ [(f, d)]) := by
  unfold add_key
  by_cases h : f ∈ D.map Prod.fst
  · exact Or.inl ⟨h, if_pos h⟩
  · exact Or.inr ⟨h, if_neg h⟩

/-- With the field mask clear of the sort key and direction flags, a key of the field `f` with
the direction `d` takes the handle from the keys `D` to the keys `add_key D f d`. -/
theorem add_sort_key_keys {H : libdevmapper_h}
    (hsk : H.DM_REPORT_FIELD_MASK &&& FLD_SORT_KEY = 0)
    (hdir : H.DM_REPORT_FIELD_MASK &&& (FLD_ASCENDING ||| FLD_DESCENDING) = 0)
    {rh rh1 : dm_report} {f d : Nat} {D : List (Nat × Nat)}
    (h : _add_sort_key H rh f d false = some rh1)
    (hd : d = FLD_ASCENDING ∨ d = FLD_DESCENDING) (hc : rh.keys_count = D.length)
    (hk : keys_ok rh.field_props D) :
    rh1.keys_count = (add_key D f d).length ∧ keys_ok rh1.field_props (add_key D f d) := by
  obtain ⟨l0, found, fp, hl0, hfs, e⟩ := add_sort_key_cases h
  rcases add_key_cases D f d with ⟨hmem, hadd⟩ | ⟨hmem, hadd⟩
  · rw [hadd]
    obtain ⟨p, hp, hpf⟩ := List.mem_map.mp hmem
    obtain ⟨i, hi⟩ := List.getElem?_of_mem hp
    obtain ⟨j, fq, hq, hqm, _, _⟩ := hk.1 i f p.2 (by rw [hi, ← hpf])
    rcases hl0 with h1 | ⟨h1, _⟩
    · rw [h1] at hfs
      have := (first_sel_unique hfs hq).2
      subst this
      rw [if_pos hqm, h1] at e
      rw [e]
      exact ⟨hc, hk⟩
    · exact absurd hq.2.1 (h1 fq (List.getElem?_mem hq.1))
  · rw [hadd]
    have hl0ok : keys_ok l0 D ∧ fp.flags &&& FLD_SORT_KEY = 0 := by
      rcases hl0 with h1 | ⟨_, _, h1, _, ft, _, hflags⟩
      · rw [h1]
        refine ⟨hk, ?_⟩
        by_contra hm
        rw [h1] at hfs
        have := (hk.2.1 found fp hfs.1 hm).2
        rw [hfs.2.1] at this
        exact hmem this
      · have hcl := new_flags_clean H hsk hdir ft.flags FLD_HIDDEN (Or.inr rfl)
        rw [← hflags] at hcl
        rw [h1]
        exact ⟨keys_ok_cons hk hcl.1 hcl.2 (by rw [hfs.2.1]; exact hmem), hcl.1⟩
    have hm : ¬ fp.flags &&& FLD_SORT_KEY ≠ 0 := fun hx => hx hl0ok.2
    rw [if_neg hm] at e
    rw [e]
    refine ⟨by simp [hc], ?_⟩
    show keys_ok (l0.set found (mark_key fp d rh.keys_count)) (D ++ [(f, d)])
    rw [hc]
    exact keys_ok_mark hl0ok.1 hfs hmem hl0ok.2 hd

theorem resolve_keys_inv {H : libdevmapper_h}
    (hsk : H.DM_REPORT_FIELD_MASK &&& FLD_SORT_KEY = 0)
    (hdir : H.DM_REPORT_FIELD_MASK &&& (FLD_ASCENDING ||| FLD_DESCENDING) = 0)
    {types : List dm_report_object_type} {fields : List dm_report_field_type} {pfx : cstr}
    {r0 : dm_report} (h0 : on_registry types fields pfx r0) :
    ∀ (ws : List cstr) (D : List (Nat × Nat)) (r r1 : dm_report),
      on_registry types fields pfx r → r.keys_count = D.length → keys_ok r.field_props D →
      resolve_words (fun r w => _key_match H r w w.length false) ws r = some r1 →
        r1.keys_count = (key_list r0 ws D).length ∧
          keys_ok r1.field_props (key_list r0 ws D) := by
  intro ws
  induction ws with
  | nil =>
    intro D r r1 _ hc hk h
    simp only [resolve_words, Option.some.injEq] at h
    subst h
    exact ⟨hc, hk⟩
  | cons w ws ih =>
    intro D r r1 hr hc hk h
    simp only [resolve_words] at h
    split at h
    · exact absurd h (by simp)
    · rename_i r2 hs
      have hr2 := key_match_on_registry hs hr
      rw [key_match_key_field, key_field_congr hr h0 w] at hs
      simp only [key_list]
      split at hs
      · rename_i f hf
        rw [hf]
        obtain ⟨hc2, hk2⟩ := add_sort_key_keys hsk hdir hs (key_flags_cases w) hc hk
        exact ih _ r2 r1 hr2 hc2 hk2 h
      · exact absurd hs (by simp)

theorem no_keys_keys_ok {rh : dm_report} (h : no_keys rh) :
    rh.keys_count = ([] : List (Nat × Nat)).length ∧ keys_ok rh.field_props [] := by
  refine ⟨h.1, ?_, ?_, ?_⟩
  · intro i f d hi
    simp at hi
  · intro j fp hj hm
    exact absurd (h.2 fp (List.getElem?_mem hj)).1 hm
  · intro fp hfp _
    exact (h.2 fp hfp).2

theorem add_field_zero_no_keys {H : libdevmapper_h}
    (hsk : H.DM_REPORT_FIELD_MASK &&& FLD_SORT_KEY = 0)
    (hdir : H.DM_REPORT_FIELD_MASK &&& (FLD_ASCENDING ||| FLD_DESCENDING) = 0)
    {rh rh1 : dm_report} {f i : Nat} (h : _add_field H rh f 0 = some (rh1, i))
    (hn : no_keys rh) : no_keys rh1 := by
  rw [add_field_eq] at h
  split at h
  · exact absurd h (by simp)
  · rename_i ft hft
    split at h
    · exact absurd h (by simp)
    · have hcl := new_flags_clean H hsk hdir ft.flags 0 (Or.inl rfl)
      split at h <;>
      · simp only [Option.some.injEq, Prod.mk.injEq] at h
        rw [← h.1]
        refine ⟨hn.1, ?_⟩
        intro fp hfp
        simp only [List.mem_cons, List.mem_append, List.mem_singleton, List.not_mem_nil,
          or_false] at hfp
        rcases hfp with h1 | h1
        · first
            | exact hn.2 fp h1
            | (subst h1; exact hcl)
        · first
            | exact hn.2 fp h1
            | (subst h1; exact hcl)

theorem add_all_fields_loop_no_keys {H : libdevmapper_h}
    (hsk : H.DM_REPORT_FIELD_MASK &&& FLD_SORT_KEY = 0)
    (hdir : H.DM_REPORT_FIELD_MASK &&& (FLD_ASCENDING ||| FLD_DESCENDING) = 0) (type : Nat) :
    ∀ (fts : List dm_report_field_type) (f : Nat) (rh rh1 : dm_report),
      _add_all_fields_loop H type fts f rh = some rh1 → no_keys rh → no_keys rh1 := by
  intro fts
  induction fts with
  | nil =>
    intro f rh rh1 h hn
    simp only [_add_all_fields_loop, Option.some.injEq] at h
    subst h
    exact hn
  | cons ft fts ih =>
    intro f rh rh1 h hn
    simp only [_add_all_fields_loop] at h
    split at h
    · split at h
      · exact absurd h (by simp)
      · rename_i rh2 i hadd
        exact ih _ _ _ h (add_field_zero_no_keys hsk hdir hadd hn)
    · exact ih _ _ _ h hn

theorem field_match_no_keys {H : libdevmapper_h}
    (hsk : H.DM_REPORT_FIELD_MASK &&& FLD_SORT_KEY = 0)
    (hdir : H.DM_REPORT_FIELD_MASK &&& (FLD_ASCENDING ||| FLD_DESCENDING) = 0)
    {rh rh1 : dm_report} {w : cstr} {n : Nat} (h : _field_match H rh w n false = some rh1)
    (hn : no_keys rh) : no_keys rh1 := by
  unfold _field_match at h
  split at h
  · exact absurd h (by simp)
  · split at h
    · simp only [Bool.false_eq_true, if_false] at h
      split at h
      · exact absurd h (by simp)
      · rename_i rh2 i hadd
        simp only [Option.some.injEq] at h
        subst h
        exact add_field_zero_no_keys hsk hdir hadd hn
    · split at h
      · simp only [Bool.false_eq_true, if_false] at h
        exact add_all_fields_loop_no_keys hsk hdir _ _ _ _ _ h hn
      · exact absurd h (by simp)

/-- With the field mask clear of the sort key and direction flags, the handle carries the
keys of its list of sort keys when `dm_report_init` returns it. -/
theorem init_keys_ok {H : libdevmapper_h}
    (hsk : H.DM_REPORT_FIELD_MASK &&& FLD_SORT_KEY = 0)
    (hdir : H.DM_REPORT_FIELD_MASK &&& (FLD_ASCENDING ||| FLD_DESCENDING) = 0)
    {report_types : Option Nat} {types : List dm_report_object_type}
    {fields : List dm_report_field_type} {output_fields output_separator : cstr}
    {output_flags : Nat} {sort_keys : Option cstr} {private_data : Nat} {rh : dm_report}
    (h : dm_report_init H report_types types fields output_fields output_separator output_flags
      sort_keys private_data = some (some rh)) :
    rh.keys_count = (init_keys
        (init_handle H report_types types fields output_separator output_flags private_data)
        sort_keys).length ∧
      keys_ok rh.field_props (init_keys
        (init_handle H report_types types fields output_separator output_flags private_data)
        sort_keys) := by
  unfold init_keys
  obtain ⟨rh2, rh3, hf1, ⟨rh1, h1, h2⟩, h3, h4⟩ := init_passes h
  have h0 := init_handle_on_registry H report_types types fields output_separator output_flags
    private_data
  have hp := init_handle_field_props H report_types types fields output_separator output_flags
    private_data
  have hr2 := frame1_on_registry hf1 h0
  have hr3 := parse_fields_on_registry h3 hr2
  have hn2 : no_keys rh2 := by
    unfold frame1 at hf1
    rw [hf1]
    exact ⟨hp.2.1, by show ∀ fp ∈ (init_handle H report_types types fields output_separator
      output_flags private_data).field_props, _; rw [hp.1]; simp⟩
  have hn3 : no_keys rh3 :=
    resolve_words_rel _ (fun a b => no_keys a → no_keys b) (fun _ hx => hx)
      (fun _ _ _ f g hx => g (f hx)) (fun _ _ _ hs hx => field_match_no_keys hsk hdir hs hx)
      _ _ _ (parse_fields_some h3).2 hn2
  obtain ⟨hc, hk⟩ := no_keys_keys_ok hn3
  cases sort_keys with
  | none =>
    simp only [_parse_keys, Option.some.injEq] at h4
    subst h4
    exact ⟨hc, hk⟩
  | some k =>
    exact resolve_keys_inv hsk hdir h0 (words k) [] rh3 rh hr3 hc hk (parse_keys_some h4).2

theorem key_list_props (rh : dm_report) :
    ∀ (ws : List cstr) (D : List (Nat × Nat)), (D.map Prod.fst).Nodup →
      (∀ p ∈ D, p.2 = FLD_ASCENDING ∨ p.2 = FLD_DESCENDING) →
      ((key_list rh ws D).map Prod.fst).Nodup ∧
        ∀ p ∈ key_list rh ws D, p.2 = FLD_ASCENDING ∨ p.2 = FLD_DESCENDING := by
  intro ws
  induction ws with
  | nil => intro D h1 h2; exact ⟨h1, h2⟩
  | cons w ws ih =>
    intro D h1 h2
    simp only [key_list]
    split
    · exact ih D h1 h2
    · rename_i f _
      apply ih
      · rcases add_key_cases D f (key_flags w) with ⟨_, e⟩ | ⟨hm, e⟩
        · rw [e]; exact h1
        · rw [e, List.map_append, List.nodup_append]
          refine ⟨h1, by simp, ?_⟩
          intro a ha hb
          simp only [List.map_cons, List.map_nil, List.mem_singleton] at hb
          subst hb
          exact hm ha
      · rcases add_key_cases D f (key_flags w) with ⟨_, e⟩ | ⟨_, e⟩
        · rw [e]; exact h2
        · rw [e]
          intro p hp
          simp only [List.mem_append, List.mem_singleton] at hp
          rcases hp with hp | hp
          · exact h2 p hp
          · subst hp; exact key_flags_cases w

/-- C8. Let the field mask of the header be clear of the internal flags for sort keys and
directions. In the handle that `dm_report_init` returns, `keys_count` is the number of
fields that the list of sort keys names, `init_keys`; the key number `i` of that list, the
`i`-th field in the order of first naming, sits on the first selection of its field, which is
marked as sort key, has the position `i` and carries exactly the direction flag of the word
that names the field first, `FLD_DESCENDING` for a word with `-` in front and
`FLD_ASCENDING` for a word with `+` or no sign. A selection marked as sort key has a position
below `keys_count` and is the selection of the key at that position; two marked selections
never share a position. -/
theorem sort_key_positions (H : libdevmapper_h) (report_types : Option Nat)
    (types : List dm_report_object_type) (fields : List dm_report_field_type)
    (output_fields output_separator : cstr) (output_flags : Nat) (sort_keys : Option cstr)
    (private_data : Nat) (rh : dm_report)
    (hsk : H.DM_REPORT_FIELD_MASK &&& FLD_SORT_KEY = 0)
    (hdir : H.DM_REPORT_FIELD_MASK &&& (FLD_ASCENDING ||| FLD_DESCENDING) = 0)
    (h : dm_report_init H report_types types fields output_fields output_separator output_flags
      sort_keys private_data = some (some rh)) :
    rh.keys_count = (init_keys (init_handle H report_types types fields output_separator
        output_flags private_data) sort_keys).length ∧
    (∀ i f d, (init_keys (init_handle H report_types types fields output_separator
        output_flags private_data) sort_keys)[i]? = some (f, d) →
      (d = FLD_ASCENDING ∨ d = FLD_DESCENDING) ∧
      ∃ j fp, first_sel rh.field_props f j fp ∧ fp.flags &&& FLD_SORT_KEY ≠ 0 ∧
        fp.sort_posn = i ∧ fp.flags &&& (FLD_ASCENDING ||| FLD_DESCENDING) = d) ∧
    (∀ (j : Nat) (fp : field_properties), rh.field_props[j]? = some fp →
      fp.flags &&& FLD_SORT_KEY ≠ 0 →
      fp.sort_posn < rh.keys_count ∧
      (init_keys (init_handle H report_types types fields output_separator
        output_flags private_data) sort_keys)[fp.sort_posn]? =
          some (fp.field_num, fp.flags &&& (FLD_ASCENDING ||| FLD_DESCENDING))) ∧
    (∀ (j1 j2 : Nat) (fp1 fp2 : field_properties), rh.field_props[j1]? = some fp1 →
      rh.field_props[j2]? = some fp2 →
      fp1.flags &&& FLD_SORT_KEY ≠ 0 → fp2.flags &&& FLD_SORT_KEY ≠ 0 →
      fp1.sort_posn = fp2.sort_posn → j1 = j2) := by
  obtain ⟨hc, k1, k2, _⟩ := init_keys_ok hsk hdir h
  have hprops : ((init_keys (init_handle H report_types types fields output_separator
      output_flags private_data) sort_keys).map Prod.fst).Nodup ∧
      ∀ p ∈ init_keys (init_handle H report_types types fields output_separator
        output_flags private_data) sort_keys, p.2 = FLD_ASCENDING ∨ p.2 = FLD_DESCENDING :=
    key_list_props _ _ [] (by simp) (by simp)
  generalize init_keys (init_handle H report_types types fields output_separator output_flags
    private_data) sort_keys = D at hc k1 k2 hprops ⊢
  have hmarked : ∀ (j : Nat) (fp : field_properties), rh.field_props[j]? = some fp →
      fp.flags &&& FLD_SORT_KEY ≠ 0 →
      fp.sort_posn < D.length ∧
        D[fp.sort_posn]? = some (fp.field_num, dir_bits fp.flags) ∧
        first_sel rh.field_props fp.field_num j fp := by
    intro j fp hj hm
    obtain ⟨hfs, hmem⟩ := k2 j fp hj hm
    obtain ⟨p, hp, hpf⟩ := List.mem_map.mp hmem
    obtain ⟨i, hi⟩ := List.getElem?_of_mem hp
    obtain ⟨j1, fq, hq, _, hqp, hqd⟩ := k1 i fp.field_num p.2 (by rw [hi, ← hpf])
    have := (first_sel_unique hq hfs).2
    subst this
    have hlt : i < D.length := by
      by_contra hx
      rw [List.getElem?_eq_none (by omega)] at hi
      exact absurd hi (by simp)
    rw [hqp, hqd]
    refine ⟨hlt, ?_, hfs⟩
    rw [hi, ← hpf]
  refine ⟨hc, ?_, ?_, ?_⟩
  · intro i f d hi
    exact ⟨hprops.2 (f, d) (List.getElem?_mem hi), k1 i f d hi⟩
  · intro j fp hj hm
    obtain ⟨h1, h2, _⟩ := hmarked j fp hj hm
    exact ⟨by rw [hc]; exact h1, h2⟩
  · intro j1 j2 fp1 fp2 h1 h2 hm1 hm2 hpos
    obtain ⟨_, e1, fs1⟩ := hmarked j1 fp1 h1 hm1
    obtain ⟨_, e2, fs2⟩ := hmarked j2 fp2 h2 hm2
    rw [hpos, e2] at e1
    simp only [Option.some.injEq, Prod.mk.injEq] at e1
    rw [← e1.1] at fs1
    exact (first_sel_unique fs1 fs2).1

/-- C8 at the sample session of the field list `name` with the sort keys
`-size,name,+size`: two keys, `size` descending at position 0 on the hidden selection in
front, `name` ascending at position 1. -/
theorem sort_key_positions_witness :
    dm_report_init sample_h (some 1) sample_types sample_fields "name".toList
        " ".toList 2 (some "-size,name,+size".toList) 0 = some (some sample_keyed) ∧
      init_keys (init_handle sample_h (some 1) sample_types sample_fields " ".toList 2 0)
        (some "-size,name,+size".toList) = [(1, FLD_DESCENDING), (0, FLD_ASCENDING)] ∧
      sample_keyed.keys_count = 2 ∧
      ∀ (j : Nat) (fp : field_properties), sample_keyed.field_props[j]? = some fp →
        fp.flags &&& FLD_SORT_KEY ≠ 0 → fp.sort_posn < sample_keyed.keys_count := by
  have T := sort_key_positions sample_h (some 1) sample_types sample_fields "name".toList
    " ".toList 2 (some "-size,name,+size".toList) 0 sample_keyed (by decide) (by decide)
    (join_some_get _)
  refine ⟨join_some_get _, by decide, ?_, ?_⟩
  · rw [T.1]
    decide
  · intro j fp hj hm
    exact (T.2.2.1 j fp hj hm).1


/-! ## The order of rows -/

theorem char_toNat_ne (a b : Char) (h : a ≠ b) : (a.toNat : Int) ≠ (b.toNat : Int) := by
  intro e
  apply h
  have e1 : a.toNat = b.toNat := by exact_mod_cast e
  rw [← Char.ofNat_toNat a, ← Char.ofNat_toNat b, e1]

theorem strcmp_self (s : cstr) : strcmp s s = 0 := by
  induction s with
  | nil => rfl
  | cons a s ih => simp [strcmp, ih]

theorem strcmp_swap (s t : cstr) : strcmp t s = - strcmp s t := by
  induction s generalizing t with
  | nil => cases t <;> simp [strcmp]
  | cons a s ih =>
    cases t with
    | nil => simp [strcmp]
    | cons b t =>
      by_cases e : a = b
      · subst e
        simp [strcmp, ih]
      · have e1 : ¬ b = a := fun x => e x.symm
        simp [strcmp, e, e1]

theorem strcmp_eq_zero (s t : cstr) (hs : ∀ c ∈ s, c.toNat ≠ 0) (ht : ∀ c ∈ t, c.toNat ≠ 0)
    (h : strcmp s t = 0) : s = t := by
  induction s generalizing t with
  | nil =>
    cases t with
    | nil => rfl
    | cons b t =>
      exfalso
      have := ht b (List.mem_cons_self _ _)
      simp [strcmp] at h
      omega
  | cons a s ih =>
    cases t with
    | nil =>
      exfalso
      have := hs a (List.mem_cons_self _ _)
      simp [strcmp] at h
      omega
    | cons b t =>
      by_cases e : a = b
      · subst e
        simp only [strcmp, if_true] at h
        rw [ih t (fun c hc => hs c (List.mem_cons_of_mem _ hc))
          (fun c hc => ht c (List.mem_cons_of_mem _ hc)) h]
      · exfalso
        simp only [strcmp, e, if_false] at h
        exact char_toNat_ne a b e (by omega)

theorem strcmp_trans (s t u : cstr) (h1 : strcmp s t < 0) (h2 : strcmp t u < 0) :
    strcmp s u < 0 := by
  induction s generalizing t u with
  | nil =>
    cases t with
    | nil => simp [strcmp] at h1
    | cons b t =>
      cases u with
      | nil =>
        simp [strcmp] at h2
        omega
      | cons c u =>
        simp only [strcmp] at h1 h2 ⊢
        by_cases e : b = c
        · subst e
          exact h1
        · simp only [e, if_false] at h2
          omega
  | cons a s ih =>
    cases t with
    | nil =>
      simp [strcmp] at h1
      omega
    | cons b t =>
      cases u with
      | nil =>
        simp [strcmp] at h2
        omega
      | cons c u =>
        simp only [strcmp] at h1 h2 ⊢
        by_cases e1 : a = b
        · subst e1
          simp only [if_true] at h1
          by_cases e2 : a = c
          · subst e2
            simp only [if_true] at h2 ⊢
            exact ih t u h1 h2
          · simp only [e2, if_false] at h2 ⊢
            exact h2
        · simp only [e1, if_false] at h1
          by_cases e2 : b = c
          · subst e2
            simp only [e1, if_false]
            exact h1
          · simp only [e2, if_false] at h2
            have e3 : ¬ a = c := by
              intro e
              subst e
              omega
            simp only [e3, if_false]
            omega
theorem row_compare_loop_cons (H : libdevmapper_h) (rh : dm_report) (rowa rowb : row)
    (cnt : Nat) (rest : List Nat) (flags : Nat) (va vb : sort_value_t)
    (hf : row_flags rh rowa cnt = some flags) (ha : row_value rowa cnt = some va)
    (hb : row_value rowb cnt = some vb) (hta : value_typed H flags va)
    (htb : value_typed H flags vb) (hd : one_direction flags) :
    _row_compare_loop H rh rowa rowb (cnt :: rest) =
      if va = vb then _row_compare_loop H rh rowa rowb rest
      else some (spec_key_order flags va vb) := by
  unfold row_flags at hf
  unfold row_value at ha hb
  cases hsa : rowa.sort_fields with
  | none => simp [hsa] at ha
  | some sa =>
    cases hsb : rowb.sort_fields with
    | none => simp [hsb] at hb
    | some sb =>
      simp only [hsa] at ha hf
      simp only [hsb] at hb
      cases ea : sa[cnt]? with
      | none => simp [ea] at ha
      | some oa =>
        cases oa with
        | none => simp [ea] at ha
        | some sfa =>
          cases eb : sb[cnt]? with
          | none => simp [eb] at hb
          | some ob =>
            cases ob with
            | none => simp [eb] at hb
            | some sfb =>
              simp only [ea, Option.some.injEq] at ha hf
              simp only [eb, Option.some.injEq] at hb
              cases ep : rh.field_props[sfa.props]? with
              | none => simp [ep] at hf
              | some props =>
                simp only [ep, Option.map_some', Option.some.injEq] at hf
                rw [_row_compare_loop]
                simp only [hsa, hsb, ea, eb, ep]
                rw [hf, ha, hb]
                have hdesc : flags &&& FLD_ASCENDING ≠ 0 ↔ flags &&& FLD_DESCENDING = 0 := by
                  rcases hd with ⟨h1, h2⟩ | ⟨h1, h2⟩
                  · exact ⟨fun _ => h2, fun _ => h1⟩
                  · exact ⟨fun h => absurd h1 h, fun h => absurd h h2⟩
                cases va with
                | num x =>
                  cases vb with
                  | num y =>
                    have hn : is_numeric H flags := hta
                    unfold is_numeric at hn
                    rw [if_pos hn]
                    simp only [sort_value_t.num.injEq]
                    by_cases e : x = y
                    · simp [e]
                    · simp only [e, if_false, spec_key_order, spec_value_order]
                      by_cases ha1 : flags &&& FLD_ASCENDING ≠ 0
                      · have hd0 := hdesc.1 ha1
                        rw [if_pos ha1]
                        simp only [hd0, ne_eq, not_true_eq_false, if_false]
                        congr 1
                        split_ifs <;> omega
                      · have hd1 : flags &&& FLD_DESCENDING ≠ 0 := fun h => ha1 (hdesc.2 h)
                        rw [if_neg ha1]
                        simp only [hd1, ne_eq, not_false_eq_true, if_true]
                        congr 1
                        split_ifs <;> omega
                  | str y =>
                    exfalso
                    exact htb.1 hta
                | str x =>
                  cases vb with
                  | num y =>
                    exfalso
                    exact hta.1 htb
                  | str y =>
                    have hn : ¬ is_numeric H flags := hta.1
                    unfold is_numeric at hn
                    rw [if_neg hn]
                    simp only [sort_value_t.str.injEq]
                    by_cases e : x = y
                    · subst e
                      simp [strcmp_self]
                    · have e0 : strcmp x y ≠ 0 := fun h0 => e (strcmp_eq_zero x y hta.2 htb.2 h0)
                      simp only [e, e0, if_false, spec_key_order, spec_value_order]
                      by_cases ha1 : flags &&& FLD_ASCENDING ≠ 0
                      · have hd0 := hdesc.1 ha1
                        rw [if_pos ha1]
                        simp only [hd0, ne_eq, not_true_eq_false, if_false]
                        congr 1
                        split_ifs <;> omega
                      · have hd1 : flags &&& FLD_DESCENDING ≠ 0 := fun h => ha1 (hdesc.2 h)
                        rw [if_neg ha1]
                        simp only [hd1, ne_eq, not_false_eq_true, if_true]
                        congr 1
                        split_ifs <;> omega
theorem row_compare_loop_spec (H : libdevmapper_h) (rh : dm_report) (rowa rowb : row)
    (cs : List Nat) (ks : List (Nat × sort_value_t × sort_value_t))
    (h : List.Forall₂ (key_view H rh rowa rowb) cs ks) :
    _row_compare_loop H rh rowa rowb cs = some (spec_row_order ks) := by
  induction h with
  | nil => rfl
  | @cons cnt k cs1 ks1 hk _ ih =>
    obtain ⟨flags, va, vb⟩ := k
    obtain ⟨hf, ha, hb, hta, htb, hd⟩ := hk
    rw [row_compare_loop_cons H rh rowa rowb cnt cs1 flags va vb hf ha hb hta htb hd]
    simp only [spec_row_order]
    by_cases e : va = vb
    · simp [e, ih]
    · simp [e]

theorem spec_key_order_ne (H : libdevmapper_h) (flags : Nat) (a b : sort_value_t)
    (hta : value_typed H flags a) (htb : value_typed H flags b) (h : a ≠ b) :
    spec_key_order flags a b ≠ 0 := by
  have hv : spec_value_order a b ≠ 0 := by
    cases a with
    | num x =>
      cases b with
      | num y =>
        have e : x ≠ y := fun e => h (by rw [e])
        simp only [spec_value_order]
        split_ifs <;> omega
      | str y => exact absurd hta htb.1
    | str x =>
      cases b with
      | num y => exact absurd htb hta.1
      | str y =>
        have e : x ≠ y := fun e => h (by rw [e])
        have e0 : strcmp x y ≠ 0 := fun h0 => e (strcmp_eq_zero x y hta.2 htb.2 h0)
        simp only [spec_value_order]
        split_ifs <;> omega
  unfold spec_key_order
  split_ifs <;> omega

theorem spec_row_order_zero (H : libdevmapper_h)
    (ks : List (Nat × sort_value_t × sort_value_t))
    (ht : ∀ k ∈ ks, value_typed H k.1 k.2.1 ∧ value_typed H k.1 k.2.2) :
    spec_row_order ks = 0 ↔ ∀ k ∈ ks, k.2.1 = k.2.2 := by
  induction ks with
  | nil => simp [spec_row_order]
  | cons k ks ih =>
    obtain ⟨flags, va, vb⟩ := k
    have ih1 := ih (fun k hk => ht k (List.mem_cons_of_mem _ hk))
    have hk := ht (flags, va, vb) (List.mem_cons_self _ _)
    simp only [spec_row_order, List.forall_mem_cons]
    by_cases e : va = vb
    · simp only [e, if_true, true_and]
      exact ih1
    · simp only [e, if_false, false_and, iff_false]
      exact spec_key_order_ne H flags va vb hk.1 hk.2 e

theorem key_views_range (H : libdevmapper_h) (rh : dm_report) (rowa rowb : row)
    (ks : List (Nat × sort_value_t × sort_value_t)) (n : Nat) (hlen : ks.length = n)
    (hk : ∀ cnt k, ks[cnt]? = some k → key_view H rh rowa rowb cnt k) :
    List.Forall₂ (key_view H rh rowa rowb) (List.range n) ks := by
  rw [List.forall₂_iff_get]
  refine ⟨by simp [hlen], fun i h1 h2 => ?_⟩
  have e : (List.range n).get ⟨i, h1⟩ = i := by simp
  rw [e]
  exact hk i _ (List.getElem?_eq_getElem h2)

theorem row_compare_spec (H : libdevmapper_h) (rh : dm_report) (rowa rowb : row)
    (ks : List (Nat × sort_value_t × sort_value_t)) (hlen : ks.length = rh.keys_count)
    (hk : ∀ cnt k, ks[cnt]? = some k → key_view H rh rowa rowb cnt k) :
    _row_compare H rh rowa rowb = some (spec_row_order ks) :=
  row_compare_loop_spec H rh rowa rowb _ ks (key_views_range H rh rowa rowb ks _ hlen hk)

theorem key_view_typed (H : libdevmapper_h) (rh : dm_report) (rowa rowb : row)
    (ks : List (Nat × sort_value_t × sort_value_t))
    (hk : ∀ cnt k, ks[cnt]? = some k → key_view H rh rowa rowb cnt k) :
    ∀ k ∈ ks, value_typed H k.1 k.2.1 ∧ value_typed H k.1 k.2.2 := by
  intro k hm
  obtain ⟨i, hi⟩ := List.getElem?_of_mem hm
  have := hk i k hi
  exact ⟨this.2.2.2.1, this.2.2.2.2.1⟩
/-- C5: `_row_compare` visits the keys in position order `0 .. keys_count - 1` and returns
the result of the first key on which the two rows differ, which is the order of two numbers
under a number or size key and the `strcmp` order of two strings under any other key, the
sign reversed under a descending key; it returns 0 exactly when the rows are equal on every
key. The keys are given as the rows record them: `ks` lists, for every position, the flags
of the key and the value of either row. -/
theorem row_compare_first_difference (H : libdevmapper_h) (rh : dm_report) (rowa rowb : row)
    (ks : List (Nat × sort_value_t × sort_value_t)) (hlen : ks.length = rh.keys_count)
    (hk : ∀ cnt k, ks[cnt]? = some k → key_view H rh rowa rowb cnt k) :
    _row_compare H rh rowa rowb = some (spec_row_order ks) ∧
      (_row_compare H rh rowa rowb = some 0 ↔ ∀ k ∈ ks, k.2.1 = k.2.2) := by
  have e := row_compare_spec H rh rowa rowb ks hlen hk
  refine ⟨e, ?_⟩
  rw [e, Option.some.injEq]
  exact spec_row_order_zero H ks (key_view_typed H rh rowa rowb ks hk)

/-- C5 at the rows of `x` (size 10) and `y` (size 30) of the sample session, sorted by
`-size`: the one key is numeric and descending, so `x` comes after `y`. -/
theorem row_compare_first_difference_witness :
    sample_session.keys_count = 1 ∧
      _row_compare sample_h sample_session sample_x sample_y = some 1 ∧
      _row_compare sample_h sample_session sample_x sample_y ≠ some 0 := by
  have T := row_compare_first_difference sample_h sample_session sample_x sample_y
    [(0x20 ||| FLD_SORT_KEY ||| FLD_DESCENDING, sort_value_t.num 10, sort_value_t.num 30)]
    (by decide)
    (by
      intro cnt k h
      cases cnt with
      | zero =>
        simp only [List.getElem?_cons_zero, Option.some.injEq] at h
        subst h
        refine ⟨by decide, by decide, by decide, ?_, ?_, ?_⟩
        · show is_numeric _ _
          unfold is_numeric
          decide
        · show is_numeric _ _
          unfold is_numeric
          decide
        · unfold one_direction
          decide
      | succ n => simp at h)
  refine ⟨by decide, ?_, ?_⟩
  · rw [T.1]
    decide
  · rw [T.1]
    decide

/-! ## Sorting -/

theorem orderedInsert_pairwise_local {α : Type} (r : α → α → Prop) [DecidableRel r]
    (S : α → Prop) (tot : ∀ x y, S x → S y → r x y ∨ r y x)
    (tr : ∀ x y z, S x → S y → S z → r x y → r y z → r x z)
    (a : α) (l : List α) (ha : S a) (hl : ∀ x ∈ l, S x) (h : l.Pairwise r) :
    (List.orderedInsert r a l).Pairwise r := by
  induction l with
  | nil => simp
  | cons b l ih =>
    have hb : S b := hl b (List.mem_cons_self _ _)
    have hl1 : ∀ x ∈ l, S x := fun x hx => hl x (List.mem_cons_of_mem _ hx)
    rw [List.pairwise_cons] at h
    simp only [List.orderedInsert]
    by_cases e : r a b
    · rw [if_pos e, List.pairwise_cons]
      refine ⟨?_, List.pairwise_cons.2 h⟩
      intro x hx
      rcases List.mem_cons.1 hx with rfl | hx1
      · exact e
      · exact tr a b x ha hb (hl1 x hx1) e (h.1 x hx1)
    · rw [if_neg e, List.pairwise_cons]
      refine ⟨?_, ih hl1 h.2⟩
      intro x hx
      rcases (List.mem_orderedInsert r).1 hx with rfl | hx1
      · rcases tot x b ha hb with h1 | h1
        · exact absurd h1 e
        · exact h1
      · exact h.1 x hx1

theorem insertionSort_pairwise_local {α : Type} (r : α → α → Prop) [DecidableRel r]
    (S : α → Prop) (tot : ∀ x y, S x → S y → r x y ∨ r y x)
    (tr : ∀ x y z, S x → S y → S z → r x y → r y z → r x z)
    (l : List α) (hl : ∀ x ∈ l, S x) : (List.insertionSort r l).Pairwise r := by
  induction l with
  | nil => simp
  | cons b l ih =>
    simp only [List.insertionSort]
    refine orderedInsert_pairwise_local r S tot tr b _ (hl b (List.mem_cons_self _ _)) ?_
      (ih (fun x hx => hl x (List.mem_cons_of_mem _ hx)))
    intro x hx
    exact hl x (List.mem_cons_of_mem _ (((List.perm_insertionSort r l).mem_iff).1 hx))

theorem insertionSort_sorts (cmp : row → row → Int) (l l0 : List row)
    (hc : cmp_consistent cmp l0) (hm : ∀ x ∈ l, x ∈ l0) :
    (l.insertionSort (fun a b => cmp a b ≤ 0)).Pairwise (fun a b => cmp a b ≤ 0) :=
  insertionSort_pairwise_local (fun a b => cmp a b ≤ 0) (fun x => x ∈ l0)
    (fun x y hx hy => hc.1 x hx y hy)
    (fun x y z hx hy hz => hc.2 x hx y hy z hz) l hm

theorem stable_qsort_conforms : qsort_conforms stable_qsort := by
  intro cmp l hc
  exact ⟨List.perm_insertionSort _ l, insertionSort_sorts cmp l l hc (fun _ h => h)⟩

theorem spec_value_order_swap (a b : sort_value_t) :
    spec_value_order b a = - spec_value_order a b := by
  cases a with
  | num x =>
    cases b with
    | num y =>
      simp only [spec_value_order]
      split_ifs <;> omega
    | str y => simp [spec_value_order]
  | str x =>
    cases b with
    | num y => simp [spec_value_order]
    | str y =>
      simp only [spec_value_order]
      rw [strcmp_swap x y]
      split_ifs <;> omega

theorem spec_key_order_swap (flags : Nat) (a b : sort_value_t) :
    spec_key_order flags b a = - spec_key_order flags a b := by
  unfold spec_key_order
  rw [spec_value_order_swap a b]
  split_ifs <;> omega

theorem spec_value_order_trans (a b c : sort_value_t) (h1 : spec_value_order a b < 0)
    (h2 : spec_value_order b c < 0) : spec_value_order a c < 0 := by
  cases a with
  | num x =>
    cases b with
    | num y =>
      cases c with
      | num z =>
        simp only [spec_value_order] at h1 h2 ⊢
        split_ifs at h1 h2 ⊢ <;> omega
      | str z => simp [spec_value_order] at h2
    | str y => simp [spec_value_order] at h1
  | str x =>
    cases b with
    | num y => simp [spec_value_order] at h1
    | str y =>
      cases c with
      | num z => simp [spec_value_order] at h2
      | str z =>
        have e1 : strcmp x y < 0 := by
          simp only [spec_value_order] at h1
          split_ifs at h1 <;> omega
        have e2 : strcmp y z < 0 := by
          simp only [spec_value_order] at h2
          split_ifs at h2 <;> omega
        have e3 := strcmp_trans x y z e1 e2
        simp only [spec_value_order]
        rw [if_pos e3]
        omega

theorem spec_key_order_trans (flags : Nat) (a b c : sort_value_t)
    (h1 : spec_key_order flags a b < 0) (h2 : spec_key_order flags b c < 0) :
    spec_key_order flags a c < 0 := by
  unfold spec_key_order at h1 h2 ⊢
  by_cases e : flags &&& FLD_DESCENDING ≠ 0
  · rw [if_pos e] at h1 h2 ⊢
    have s1 := spec_value_order_swap a b
    have s2 := spec_value_order_swap b c
    have s3 := spec_value_order_swap a c
    have := spec_value_order_trans c b a (by omega) (by omega)
    omega
  · rw [if_neg e] at h1 h2 ⊢
    exact spec_value_order_trans a b c h1 h2

theorem row_compare_loop_swap (H : libdevmapper_h) (rh : dm_report) (rows : List row)
    (hk : rows_keyed H rh rows) (a b : row) (ha : a ∈ rows) (hb : b ∈ rows) (cs : List Nat)
    (hcs : ∀ cnt ∈ cs, cnt < rh.keys_count) :
    ∃ x, _row_compare_loop H rh a b cs = some x ∧
      _row_compare_loop H rh b a cs = some (- x) := by
  induction cs with
  | nil => exact ⟨0, rfl, rfl⟩
  | cons cnt cs ih =>
    obtain ⟨x, hx1, hx2⟩ := ih (fun c hc => hcs c (List.mem_cons_of_mem _ hc))
    obtain ⟨flags, hd, hr⟩ := hk cnt (hcs cnt (List.mem_cons_self _ _))
    obtain ⟨hfa, va, hva, hta⟩ := hr a ha
    obtain ⟨hfb, vb, hvb, htb⟩ := hr b hb
    rw [row_compare_loop_cons H rh a b cnt cs flags va vb hfa hva hvb hta htb hd,
      row_compare_loop_cons H rh b a cnt cs flags vb va hfb hvb hva htb hta hd]
    by_cases e : va = vb
    · subst e
      simp only [if_true]
      exact ⟨x, hx1, hx2⟩
    · have e1 : ¬ vb = va := fun h => e h.symm
      rw [if_neg e, if_neg e1]
      exact ⟨_, rfl, by rw [spec_key_order_swap flags va vb]⟩

theorem row_compare_loop_trans (H : libdevmapper_h) (rh : dm_report) (rows : List row)
    (hk : rows_keyed H rh rows) (a b c : row) (ha : a ∈ rows) (hb : b ∈ rows) (hc : c ∈ rows)
    (cs : List Nat) (hcs : ∀ cnt ∈ cs, cnt < rh.keys_count) :
    ∃ x y z, _row_compare_loop H rh a b cs = some x ∧
      _row_compare_loop H rh b c cs = some y ∧ _row_compare_loop H rh a c cs = some z ∧
      (x ≤ 0 → y ≤ 0 → z ≤ 0) := by
  induction cs with
  | nil => exact ⟨0, 0, 0, rfl, rfl, rfl, fun _ _ => le_refl _⟩
  | cons cnt cs ih =>
    obtain ⟨x, y, z, hx, hy, hz, hxyz⟩ := ih (fun c hc => hcs c (List.mem_cons_of_mem _ hc))
    obtain ⟨flags, hd, hr⟩ := hk cnt (hcs cnt (List.mem_cons_self _ _))
    obtain ⟨hfa, va, hva, hta⟩ := hr a ha
    obtain ⟨hfb, vb, hvb, htb⟩ := hr b hb
    obtain ⟨hfc, vc, hvc, htc⟩ := hr c hc
    rw [row_compare_loop_cons H rh a b cnt cs flags va vb hfa hva hvb hta htb hd,
      row_compare_loop_cons H rh b c cnt cs flags vb vc hfb hvb hvc htb htc hd,
      row_compare_loop_cons H rh a c cnt cs flags va vc hfa hva hvc hta htc hd]
    by_cases e1 : va = vb
    · subst e1
      rw [if_pos rfl]
      by_cases e2 : va = vc
      · subst e2
        rw [if_pos rfl, if_pos rfl]
        exact ⟨x, y, z, hx, hy, hz, hxyz⟩
      · rw [if_neg e2, if_neg e2]
        exact ⟨x, _, _, hx, rfl, rfl, fun _ h => h⟩
    · rw [if_neg e1]
      have n1 := spec_key_order_ne H flags va vb hta htb e1
      by_cases e2 : vb = vc
      · subst e2
        rw [if_pos rfl, if_neg e1]
        exact ⟨_, y, _, rfl, hy, rfl, fun h _ => h⟩
      · rw [if_neg e2]
        have n2 := spec_key_order_ne H flags vb vc htb htc e2
        by_cases e3 : va = vc
        · subst e3
          rw [if_pos rfl]
          refine ⟨_, _, z, rfl, rfl, hz, ?_⟩
          intro h1 h2
          exfalso
          have := spec_key_order_swap flags va vb
          omega
        · rw [if_neg e3]
          refine ⟨_, _, _, rfl, rfl, rfl, ?_⟩
          intro h1 h2
          have := spec_key_order_trans flags va vb vc (by omega) (by omega)
          omega
theorem row_compare_defined (H : libdevmapper_h) (rh : dm_report) (rows : List row)
    (hk : rows_keyed H rh rows) (a b : row) (ha : a ∈ rows) (hb : b ∈ rows) :
    ∃ x, _row_compare H rh a b = some x := by
  obtain ⟨x, hx, _⟩ := row_compare_loop_swap H rh rows hk a b ha hb (List.range rh.keys_count)
    (fun c hc => List.mem_range.1 hc)
  exact ⟨x, hx⟩

theorem row_compare_consistent (H : libdevmapper_h) (rh : dm_report) (rows : List row)
    (hk : rows_keyed H rh rows) :
    cmp_consistent (fun a b => (_row_compare H rh a b).getD 0) rows := by
  constructor
  · intro a ha b hb
    obtain ⟨x, hx1, hx2⟩ := row_compare_loop_swap H rh rows hk a b ha hb
      (List.range rh.keys_count) (fun c hc => List.mem_range.1 hc)
    show (_row_compare H rh a b).getD 0 ≤ 0 ∨ (_row_compare H rh b a).getD 0 ≤ 0
    unfold _row_compare
    rw [hx1, hx2]
    simp only [Option.getD_some]
    omega
  · intro a ha b hb c hc
    obtain ⟨x, y, z, hx, hy, hz, h⟩ := row_compare_loop_trans H rh rows hk a b c ha hb hc
      (List.range rh.keys_count) (fun c hc => List.mem_range.1 hc)
    show (_row_compare H rh a b).getD 0 ≤ 0 → (_row_compare H rh b c).getD 0 ≤ 0 →
      (_row_compare H rh a c).getD 0 ≤ 0
    unfold _row_compare
    rw [hx, hy, hz]
    exact h

theorem sort_rows_eq (H : libdevmapper_h) (qsort : (row → row → Int) → List row → List row)
    (rh : dm_report) (hk : rows_keyed H rh rh.rows) :
    _sort_rows H qsort rh =
      some { rh with rows := qsort (fun a b => (_row_compare H rh a b).getD 0) rh.rows } := by
  unfold _sort_rows
  rw [if_pos]
  rw [List.all_eq_true]
  intro a ha
  rw [List.all_eq_true]
  intro b hb
  obtain ⟨x, hx⟩ := row_compare_defined H rh rh.rows hk a b ha hb
  rw [hx]
  rfl

/-- In a handle that sorts, with rows that each record a value of its type for every key, and
under a `qsort` that sorts as the C standard asks, `dm_report_output` prints the rows as
`_sort_rows` leaves them: the rows held, in ascending order by `_row_compare`; two rows that
compare equal on all keys keep their order when the `qsort` is stable. -/
theorem sorted_output_order (H : libdevmapper_h)
    (qsort : (row → row → Int) → List row → List row) (rh : dm_report)
    (hq : qsort_conforms qsort) (hk : rows_keyed H rh rh.rows)
    (hs : rh.flags &&& RH_SORT_REQUIRED ≠ 0) (hne : rh.rows ≠ []) :
    ∃ rh1, _sort_rows H qsort rh = some rh1 ∧
      dm_report_output H qsort rh =
        (if rh.flags &&& H.DM_REPORT_OUTPUT_COLUMNS_AS_ROWS ≠ 0 then _output_as_rows H rh1
          else _output_as_columns H rh1) ∧
      rh1 = { rh with rows := rh1.rows } ∧
      rh1.rows.Perm rh.rows ∧
      rh1.rows.Pairwise (fun a b => ∃ c, _row_compare H rh a b = some c ∧ c ≤ 0) ∧
      (qsort_stable qsort → ∀ a b, _row_compare H rh a b = some 0 →
        [a, b].Sublist rh.rows → [a, b].Sublist rh1.rows) := by
  have e := sort_rows_eq H qsort rh hk
  obtain ⟨hp, hsorted⟩ := hq _ rh.rows (row_compare_consistent H rh rh.rows hk)
  refine ⟨_, e, ?_, rfl, hp, ?_, ?_⟩
  · unfold dm_report_output
    have h0 : rh.rows.isEmpty = false := by
      cases hr : rh.rows with
      | nil => exact absurd hr hne
      | cons a l => rfl
    rw [h0, if_pos hs, e]
    simp
  · show (qsort (fun a b => (_row_compare H rh a b).getD 0) rh.rows).Pairwise _
    refine List.Pairwise.imp_of_mem ?_ hsorted
    intro a b ha hb h
    obtain ⟨x, hx⟩ := row_compare_defined H rh rh.rows hk a b (hp.mem_iff.1 ha)
      (hp.mem_iff.1 hb)
    rw [hx] at h
    exact ⟨x, hx, h⟩
  · intro hst a b hab hsub
    exact hst _ rh.rows a b (by rw [hab]; rfl) hsub

/-! ## Numbers: the display string and the sort value -/

theorem toDigitsCore_append (f : Nat) :
    ∀ (n : Nat) (ds : List Char),
      Nat.toDigitsCore 10 f n ds = Nat.toDigitsCore 10 f n [] ++ ds := by
  induction f with
  | zero => intro n ds; simp [Nat.toDigitsCore]
  | succ f ih =>
    intro n ds
    simp only [Nat.toDigitsCore]
    by_cases h : n / 10 = 0
    · simp [h]
    · simp only [h, if_false]
      rw [ih (n / 10) (Nat.digitChar (n % 10) :: ds), ih (n / 10) [Nat.digitChar (n % 10)]]
      simp

theorem digitChar_digit : ∀ d, d < 10 →
    ('0' ≤ Nat.digitChar d ∧ Nat.digitChar d ≤ '9') ∧ (Nat.digitChar d).toNat - 48 = d := by
  decide

theorem parse_digits_append (xs ys : cstr) :
    ∀ acc, parse_digits acc (xs ++ ys) =
      (parse_digits acc xs).bind (fun m => parse_digits m ys) := by
  induction xs with
  | nil => intro acc; rfl
  | cons c xs ih =>
    intro acc
    rw [List.cons_append]
    simp only [parse_digits]
    by_cases h : '0' ≤ c ∧ c ≤ '9'
    · rw [if_pos h, if_pos h, ih]
    · rw [if_neg h, if_neg h]
      rfl

theorem parse_digits_single (acc d : Nat) (h : d < 10) :
    parse_digits acc [Nat.digitChar d] = some (acc * 10 + d) := by
  have hd := digitChar_digit d h
  simp only [parse_digits]
  rw [if_pos hd.1, hd.2]

theorem parse_toDigitsCore (f : Nat) :
    ∀ n, n < f → parse_digits 0 (Nat.toDigitsCore 10 f n []) = some n ∧
      Nat.toDigitsCore 10 f n [] ≠ [] := by
  induction f with
  | zero => intro n h; omega
  | succ f ih =>
    intro n h
    simp only [Nat.toDigitsCore]
    have hm : n % 10 < 10 := Nat.mod_lt _ (by decide)
    by_cases h0 : n / 10 = 0
    · simp only [h0, if_true]
      refine ⟨?_, by simp⟩
      rw [parse_digits_single 0 (n % 10) hm]
      congr 1
      omega
    · simp only [h0, if_false]
      rw [toDigitsCore_append f (n / 10) [Nat.digitChar (n % 10)]]
      refine ⟨?_, by simp⟩
      have hlt : n / 10 < f := by omega
      rw [parse_digits_append, (ih (n / 10) hlt).1]
      simp only [Option.some_bind]
      rw [parse_digits_single (n / 10) (n % 10) hm]
      congr 1
      omega

theorem parse_decimal_fmt_u (n : Nat) : parse_decimal (fmt_u n) = some (n : Int) := by
  obtain ⟨hp, hne⟩ := parse_toDigitsCore (n + 1) n (Nat.lt_succ_self n)
  unfold fmt_u Nat.toDigits
  cases hs : Nat.toDigitsCore 10 (n + 1) n [] with
  | nil => exact absurd hs hne
  | cons c t =>
    rw [hs] at hp
    have hc : c ≠ '-' := by
      intro e
      subst e
      simp [parse_digits] at hp
    simp only [parse_decimal]
    rw [if_neg hc, hp]
    rfl

theorem fmt_u_length (n e : Nat) (h : n < 10 ^ e) (he : 0 < e) : (fmt_u n).length ≤ e :=
  Nat.toDigitsCore_length 10 (by decide) (n + 1) n e h he

theorem fmt_d_nonneg (v : Int) (h : 0 ≤ v) : fmt_d v = fmt_u v.toNat := by
  unfold fmt_d fmt_u
  rw [if_neg (by omega)]

theorem uint64_of_int_nonneg (v : Int) (h : 0 ≤ v) (hlt : v < 18446744073709551616) :
    uint64_of_int v = v.toNat := by
  unfold uint64_of_int
  rw [Int.emod_eq_of_lt h hlt]

theorem field_int_nonneg (v : Int) (h0 : 0 ≤ v) (h1 : v < 2147483648) :
    dm_report_field_int v = some (fmt_d v, sort_value_t.num v.toNat) ∧
      parse_decimal (fmt_d v) = some v := by
  have hl : (fmt_u v.toNat).length ≤ 10 := fmt_u_length v.toNat 10 (by omega) (by decide)
  have e := fmt_d_nonneg v h0
  constructor
  · unfold dm_report_field_int dm_snprintf
    rw [uint64_of_int_nonneg v h0 (by omega), e, if_neg (by omega)]
  · rw [e, parse_decimal_fmt_u]
    congr 1
    omega

theorem field_uint_fits (n bufsize e : Nat) (h : n < 10 ^ e) (he : 0 < e) (hb : e < bufsize) :
    ¬ dm_snprintf bufsize (fmt_u n) < 0 := by
  have hl := fmt_u_length n e h he
  unfold dm_snprintf
  rw [if_neg (by omega)]
  omega

/-- C11 as stated fails: `dm_report_field_int` (and `dm_report_field_int32`, the same code)
at the number -5 stores the display string `-5`, which parses back to -5, of magnitude 5, and
the sort value 18446744073709551611, the conversion of -5 to `uint64_t`. -/
theorem numeric_round_trip_counterexample :
    dm_report_field_int (-5) = some ("-5".toList, sort_value_t.num 18446744073709551611) ∧
      dm_report_field_int32 (-5) = some ("-5".toList, sort_value_t.num 18446744073709551611) ∧
      parse_decimal "-5".toList = some (-5) ∧
      ((-5 : Int).natAbs : Int) ≠ 18446744073709551611 ∧ (-5 : Int) ≠ 18446744073709551611 := by
  decide

/-- C11, amended: for a number that is not negative, each of `dm_report_field_int`,
`dm_report_field_int32`, `dm_report_field_uint32` and `dm_report_field_uint64` returns 1 and
stores a display string that parses back to the number stored as the sort value, the number
read from `data` itself. The numbers range over the C types `int`, `int32_t`, `uint32_t`
and `uint64_t`. -/
theorem numeric_display_round_trip :
    (∀ v : Int, 0 ≤ v → v < 2147483648 →
      ∃ s m, dm_report_field_int v = some (s, sort_value_t.num m) ∧ (m : Int) = v ∧
        parse_decimal s = some (m : Int)) ∧
    (∀ v : Int, 0 ≤ v → v < 2147483648 →
      ∃ s m, dm_report_field_int32 v = some (s, sort_value_t.num m) ∧ (m : Int) = v ∧
        parse_decimal s = some (m : Int)) ∧
    (∀ n : Nat, n < 4294967296 →
      ∃ s m, dm_report_field_uint32 n = some (s, sort_value_t.num m) ∧ m = n ∧
        parse_decimal s = some (m : Int)) ∧
    (∀ n : Nat, n < 18446744073709551616 →
      ∃ s m, dm_report_field_uint64 n = some (s, sort_value_t.num m) ∧ m = n ∧
        parse_decimal s = some (m : Int)) := by
  refine ⟨?_, ?_, ?_, ?_⟩
  · intro v h0 h1
    obtain ⟨a, b⟩ := field_int_nonneg v h0 h1
    exact ⟨_, _, a, by omega, by rw [b]; congr 1; omega⟩
  · intro v h0 h1
    obtain ⟨a, b⟩ := field_int_nonneg v h0 h1
    exact ⟨_, _, a, by omega, by rw [b]; congr 1; omega⟩
  · intro n h
    refine ⟨fmt_u n, n, ?_, rfl, parse_decimal_fmt_u n⟩
    unfold dm_report_field_uint32
    rw [if_neg (field_uint_fits n 11 10 (by omega) (by decide) (by decide)),
      Nat.mod_eq_of_lt (by omega)]
  · intro n h
    refine ⟨fmt_u n, n, ?_, rfl, parse_decimal_fmt_u n⟩
    unfold dm_report_field_uint64
    rw [if_neg (field_uint_fits n 21 20 (by omega) (by decide) (by decide))]

/-- C11, amended, at the numbers 30 and 18446744073709551615: the display strings `30` and
`18446744073709551615` parse back to the sort values. -/
theorem numeric_display_round_trip_witness :
    (∃ s m, dm_report_field_int 30 = some (s, sort_value_t.num m) ∧ (m : Int) = 30 ∧
        parse_decimal s = some (m : Int)) ∧
      ∃ s m, dm_report_field_uint64 18446744073709551615 = some (s, sort_value_t.num m) ∧
        m = 18446744073709551615 ∧ parse_decimal s = some (m : Int) :=
  ⟨numeric_display_round_trip.1 30 (by decide) (by decide),
    numeric_display_round_trip.2.2.2 18446744073709551615 (by decide)⟩

/-! ## The loop of `dm_report_object` -/

theorem object_loop_nil (rh : dm_report) (object : Nat) (done : List field_properties)
    (r : row) : dm_report_object_loop rh object done [] r = some (done, r, true) := by
  simp [dm_report_object_loop]

theorem object_loop_cons (rh : dm_report) (object : Nat) (fp : field_properties)
    (todo done : List field_properties) (r : row)
    (res : List field_properties × row × Bool)
    (h : dm_report_object_loop rh object done (fp :: todo) r = some res) :
    (selection_fails rh object fp ∧ res = (done ++ fp :: todo, r, false)) ∨
    ∃ s v r1, selection_renders rh object fp s v ∧
      add_cell rh (fold_width fp s) ⟨done.length, s, v⟩ r = some r1 ∧
      dm_report_object_loop rh object (done ++ [fold_width fp s]) todo r1 = some res := by
  simp only [dm_report_object_loop] at h
  split at h
  · exact absurd h (by simp)
  · rename_i data hdata
    split at h
    · rename_i h0
      subst h0
      simp only [Option.some.injEq] at h
      exact Or.inl ⟨Or.inl hdata, h.symm⟩
    · rename_i hne
      split at h
      · exact absurd h (by simp)
      · rename_i ft hft
        split at h
        · rename_i hrep
          simp only [Option.some.injEq] at h
          exact Or.inl ⟨Or.inr ⟨data, ft, hne, hdata, hft, hrep⟩, h.symm⟩
        · rename_i s v hrep
          refine Or.inr ⟨s, v, ?_⟩
          have hr : selection_renders rh object fp s v := ⟨data, ft, hne, hdata, hft, hrep⟩
          unfold add_cell
          split at h
          · rename_i hc
            rw [if_pos hc]
            split at h
            · exact absurd h (by simp)
            · rename_i arr harr
              split at h
              · rename_i hlt
                refine ⟨_, hr, ?_, h⟩
                rw [if_pos hlt]
              · exact absurd h (by simp)
          · rename_i hc
            rw [if_neg hc]
            exact ⟨_, hr, rfl, h⟩

theorem fails_not_renders {rh : dm_report} {object : Nat} {fp : field_properties}
    {s : cstr} {v : sort_value_t} (hf : selection_fails rh object fp)
    (hr : selection_renders rh object fp s v) : False := by
  obtain ⟨data, ft, hne, hd, hft, hrep⟩ := hr
  rcases hf with h0 | ⟨data1, ft1, _, hd1, hft1, hrep1⟩
  · rw [hd] at h0
    simp only [Option.some.injEq] at h0
    exact hne h0
  · rw [hd] at hd1
    rw [hft] at hft1
    simp only [Option.some.injEq] at hd1 hft1
    subst hd1 hft1
    rw [hrep] at hrep1
    exact absurd hrep1 (by simp)

theorem object_loop_outcome (rh : dm_report) (object : Nat) :
    ∀ (todo done : List field_properties) (r r1 : row) (props : List field_properties)
      (ok : Bool),
      dm_report_object_loop rh object done todo r = some (props, r1, ok) →
        (ok = true → ∀ fp ∈ todo, ∃ s v, selection_renders rh object fp s v) ∧
        (ok = false → ∃ fp ∈ todo, selection_fails rh object fp) := by
  intro todo
  induction todo with
  | nil =>
    intro done r r1 props ok h
    rw [object_loop_nil] at h
    simp only [Option.some.injEq, Prod.mk.injEq] at h
    refine ⟨fun _ fp hfp => absurd hfp (List.not_mem_nil _), fun hk => ?_⟩
    rw [← h.2.2] at hk
    exact absurd hk (by simp)
  | cons fp todo ih =>
    intro done r r1 props ok h
    rcases object_loop_cons rh object fp todo done r _ h with ⟨hf, he⟩ | ⟨s, v, r2, hr, _, hl⟩
    · simp only [Prod.mk.injEq] at he
      refine ⟨fun hk => ?_, fun _ => ⟨fp, List.mem_cons_self _ _, hf⟩⟩
      rw [he.2.2] at hk
      exact absurd hk (by simp)
    · obtain ⟨i1, i2⟩ := ih _ _ _ _ _ hl
      constructor
      · intro hk fq hq
        rcases List.mem_cons.1 hq with rfl | hq1
        · exact ⟨s, v, hr⟩
        · exact i1 hk fq hq1
      · intro hk
        obtain ⟨fq, hq, hf⟩ := i2 hk
        exact ⟨fq, List.mem_cons_of_mem _ hq, hf⟩
theorem report_object_eq (H : libdevmapper_h)
    (qsort : (row → row → Int) → List row → List row) (rh : dm_report) (object : Nat) :
    dm_report_object H qsort (some rh) object =
      match dm_report_object_loop rh object [] rh.field_props (new_row rh) with
      | none => none
      | some (props, r1, ok) =>
        if ok = false then
          some ⟨0, [], some { rh with field_props := props, rows := rh.rows ++ [r1] }⟩
        else if rh.flags &&& H.DM_REPORT_OUTPUT_BUFFERED = 0 then
          dm_report_output H qsort { rh with field_props := props, rows := rh.rows ++ [r1] }
        else some ⟨1, [], some { rh with field_props := props, rows := rh.rows ++ [r1] }⟩ :=
  rfl

theorem report_output_ret {H : libdevmapper_h}
    {qsort : (row → row → Int) → List row → List row} {rh : dm_report} {out : outcome}
    (h : dm_report_output H qsort rh = some out) : out.ret = 1 := by
  unfold dm_report_output at h
  split at h
  · simp only [Option.some.injEq] at h
    rw [← h]
  · split at h
    · exact absurd h (by simp)
    · split at h
      · unfold _output_as_rows at h
        split at h
        · exact absurd h (by simp)
        · simp only [Option.some.injEq] at h
          rw [← h]
      · unfold _output_as_columns at h
        split at h
        · exact absurd h (by simp)
        · split at h
          · exact absurd h (by simp)
          · simp only [Option.some.injEq] at h
            rw [← h]

theorem add_cell_defined (rh : dm_report) (fp1 : field_properties) (field : dm_report_field)
    (r : row)
    (hp : rh.flags &&& RH_SORT_REQUIRED ≠ 0 → fp1.flags &&& FLD_SORT_KEY ≠ 0 →
      fp1.sort_posn < rh.keys_count)
    (hr : rh.flags &&& RH_SORT_REQUIRED ≠ 0 →
      ∃ arr, r.sort_fields = some arr ∧ arr.length = rh.keys_count) :
    ∃ r1, add_cell rh fp1 field r = some r1 ∧ r1.fields = r.fields ++ [field] ∧
      (rh.flags &&& RH_SORT_REQUIRED ≠ 0 →
        ∃ arr, r1.sort_fields = some arr ∧ arr.length = rh.keys_count) := by
  unfold add_cell
  by_cases hc : rh.flags &&& RH_SORT_REQUIRED ≠ 0 ∧ fp1.flags &&& FLD_SORT_KEY ≠ 0
  · obtain ⟨arr, ha, hl⟩ := hr hc.1
    rw [if_pos hc]
    simp only [ha]
    rw [if_pos (by rw [hl]; exact hp hc.1 hc.2)]
    exact ⟨_, rfl, rfl, fun _ => ⟨_, rfl, by simp [hl]⟩⟩
  · rw [if_neg hc]
    exact ⟨_, rfl, rfl, hr⟩

theorem fold_width_same (fp : field_properties) (s : cstr) :
    (fold_width fp s).flags = fp.flags ∧ (fold_width fp s).sort_posn = fp.sort_posn ∧
      (fold_width fp s).field_num = fp.field_num ∧ (fold_width fp s).type = fp.type := by
  unfold fold_width
  split <;> exact ⟨rfl, rfl, rfl, rfl⟩

theorem object_loop_defined (rh : dm_report) (object : Nat) :
    ∀ (todo done : List field_properties) (r : row),
      (∀ fp ∈ todo, (∃ t, fp.type = some t) ∧ (∃ ft, rh.fields[fp.field_num]? = some ft) ∧
        (rh.flags &&& RH_SORT_REQUIRED ≠ 0 → fp.flags &&& FLD_SORT_KEY ≠ 0 →
          fp.sort_posn < rh.keys_count)) →
      (rh.flags &&& RH_SORT_REQUIRED ≠ 0 →
        ∃ arr, r.sort_fields = some arr ∧ arr.length = rh.keys_count) →
      ∃ res, dm_report_object_loop rh object done todo r = some res := by
  intro todo
  induction todo with
  | nil =>
    intro done r _ _
    exact ⟨_, object_loop_nil rh object done r⟩
  | cons fp todo ih =>
    intro done r hok hr
    obtain ⟨⟨t, ht⟩, ⟨ft, hft⟩, hp⟩ := hok fp (List.mem_cons_self _ _)
    have hok1 := fun fq hq => hok fq (List.mem_cons_of_mem _ hq)
    simp only [dm_report_object_loop, _report_get_field_data, ht, hft]
    by_cases h0 : t.data_fn object = 0
    · simp [h0]
    · have hne : t.data_fn object + ft.offset ≠ 0 := by omega
      simp only [h0, if_false, hne]
      cases hrep : ft.report_fn (t.data_fn object + ft.offset) rh.private_data with
      | none => simp
      | some sv =>
        obtain ⟨s, v⟩ := sv
        simp only
        have hs := fold_width_same fp s
        obtain ⟨r1, hc, _, hr1⟩ := add_cell_defined rh (fold_width fp s)
          ⟨done.length, s, v⟩ r (by rw [hs.1, hs.2.1]; exact hp) hr
        obtain ⟨res, hres⟩ := ih (done ++ [fold_width fp s]) r1 hok1 hr1
        refine ⟨res, ?_⟩
        rw [← hres]
        unfold add_cell at hc
        split
        · rename_i hcond
          rw [if_pos hcond] at hc
          split
          · rename_i hnone
            rw [hnone] at hc
            exact absurd hc (by simp)
          · rename_i arr harr
            rw [harr] at hc
            simp only at hc
            split
            · rename_i hlt
              rw [if_pos hlt] at hc
              simp only [Option.some.injEq] at hc
              rw [hc]
            · rename_i hlt
              rw [if_neg hlt] at hc
              exact absurd hc (by simp)
        · rename_i hcond
          rw [if_neg hcond] at hc
          simp only [Option.some.injEq] at hc
          rw [hc]
theorem new_row_sort_fields (rh : dm_report) :
    rh.flags &&& RH_SORT_REQUIRED ≠ 0 →
      ∃ arr, (new_row rh).sort_fields = some arr ∧ arr.length = rh.keys_count := by
  intro h
  unfold new_row
  simp only
  rw [if_pos h]
  exact ⟨_, rfl, by simp⟩

/-- C12. A call of `dm_report_object` that runs within defined behaviour returns 0 exactly
when, for some selection of the handle, the accessor of the object type returns `NULL` or
the render function of the field returns 0, and returns 1 exactly when every selection is
located and rendered. The call runs within defined behaviour on a buffered handle whose
selections have their type and field and whose sort keys lie inside the sort array. -/
theorem report_object_fails_iff (H : libdevmapper_h)
    (qsort : (row → row → Int) → List row → List row) (rh : dm_report) (object : Nat) :
    (∀ out, dm_report_object H qsort (some rh) object = some out →
      (out.ret = 0 ↔ ∃ fp ∈ rh.field_props, selection_fails rh object fp) ∧
      (out.ret = 1 ↔ ∀ fp ∈ rh.field_props, ∃ s v, selection_renders rh object fp s v)) ∧
    (selections_ok rh → rh.flags &&& H.DM_REPORT_OUTPUT_BUFFERED ≠ 0 →
      ∃ out, dm_report_object H qsort (some rh) object = some out) := by
  constructor
  · intro out h
    rw [report_object_eq] at h
    cases hl : dm_report_object_loop rh object [] rh.field_props (new_row rh) with
    | none =>
      rw [hl] at h
      exact absurd h (by simp)
    | some res =>
      obtain ⟨props, r1, ok⟩ := res
      rw [hl] at h
      simp only at h
      obtain ⟨i1, i2⟩ := object_loop_outcome rh object _ _ _ _ _ _ hl
      cases ok with
      | false =>
        simp only [if_true, Option.some.injEq] at h
        obtain ⟨fp, hfp, hf⟩ := i2 rfl
        have h0 : out.ret = 0 := by rw [← h]
        constructor
        · exact ⟨fun _ => ⟨fp, hfp, hf⟩, fun _ => h0⟩
        · constructor
          · intro h1
            rw [h0] at h1
            exact absurd h1 (by decide)
          · intro hall
            obtain ⟨s, v, hr⟩ := hall fp hfp
            exact absurd hr (fun x => fails_not_renders hf x)
      | true =>
        have h1 : out.ret = 1 := by
          simp only [Bool.true_eq_false, if_false] at h
          split at h
          · exact report_output_ret h
          · simp only [Option.some.injEq] at h
            rw [← h]
        have hall := i1 rfl
        constructor
        · constructor
          · intro h0
            rw [h1] at h0
            exact absurd h0 (by decide)
          · intro ⟨fp, hfp, hf⟩
            obtain ⟨s, v, hr⟩ := hall fp hfp
            exact absurd hr (fun x => fails_not_renders hf x)
        · exact ⟨fun _ => hall, fun _ => h1⟩
  · intro hok hb
    obtain ⟨res, hres⟩ := object_loop_defined rh object rh.field_props [] (new_row rh) hok
      (new_row_sort_fields rh)
    obtain ⟨props, r1, ok⟩ := res
    rw [report_object_eq, hres]
    simp only
    cases ok with
    | false => exact ⟨_, rfl⟩
    | true =>
      simp only [Bool.true_eq_false, if_false]
      rw [if_neg hb]
      exact ⟨_, rfl⟩

/-- C12 at the handle `sample_hidden`: for the object 0, whose type has no data, the call
returns 0, and for the object at address 16, whose two selections are located and rendered,
it returns 1. -/
theorem report_object_fails_iff_witness :
    dm_report_object sample_h stable_qsort (some sample_hidden) 0 = some sample_refused ∧
      sample_refused.ret = 0 ∧
      (∃ fp ∈ sample_hidden.field_props, selection_fails sample_hidden 0 fp) ∧
      ∃ out, dm_report_object sample_h stable_qsort (some sample_hidden) 16 = some out ∧
        out.ret = 1 := by
  have h0 : dm_report_object sample_h stable_qsort (some sample_hidden) 0 =
      some sample_refused := (Option.some_get _).symm
  have T := report_object_fails_iff sample_h stable_qsort sample_hidden 0
  have hr : sample_refused.ret = 0 := by decide
  exact ⟨h0, hr, ((T.1 sample_refused h0).1).1 hr, _, (Option.some_get (by decide)).symm,
    by decide⟩
theorem report_object_failure_row {H : libdevmapper_h}
    {qsort : (row → row → Int) → List row → List row} {rh : dm_report} {object : Nat}
    {out : outcome} (h : dm_report_object H qsort (some rh) object = some out)
    (h0 : out.ret = 0) :
    out.printed = [] ∧ ∃ rh1 r, out.rh = some rh1 ∧ rh1.rows = rh.rows ++ [r] := by
  rw [report_object_eq] at h
  cases hl : dm_report_object_loop rh object [] rh.field_props (new_row rh) with
  | none =>
    rw [hl] at h
    exact absurd h (by simp)
  | some res =>
    obtain ⟨props, r1, ok⟩ := res
    rw [hl] at h
    simp only at h
    cases ok with
    | false =>
      simp only [if_true, Option.some.injEq] at h
      rw [← h]
      exact ⟨rfl, _, r1, rfl, rfl⟩
    | true =>
      exfalso
      have h1 : out.ret = 1 := by
        simp only [Bool.true_eq_false, if_false] at h
        split at h
        · exact report_output_ret h
        · simp only [Option.some.injEq] at h
          rw [← h]
      rw [h1] at h0
      exact absurd h0 (by decide)

/-- C13 fails on the code: `dm_report_object` links the new row into `rh->rows` before it
visits the selections and returns 0 without unlinking it. In the buffered session
`sample_sparse`, which holds the row of `x`, the call for the object at address 64 returns 0
because the size is not rendered; afterwards the session holds a second row with the name
`z` alone, and `dm_report_output` prints it as the line `z`. -/
theorem failed_row_stays_buffered :
    sample_sparse.rows.length = 1 ∧ sample_sparse_failed.ret = 0 ∧
      (sample_sparse_failed.rh.map (fun rh => rh.rows)) =
        some (sample_sparse.rows ++
          [⟨[⟨0, "z".toList, sort_value_t.str "z".toList⟩], some []⟩]) ∧
      (sample_sparse_failed.rh.bind (output_lines sample_h stable_qsort)) =
        some ["x 10".toList, "z".toList] := by
  decide

/-! ## The sort array of a row -/

theorem getElem?_snoc_cases {α : Type} (l : List α) (a b : α) (j : Nat)
    (h : (l ++ [a])[j]? = some b) :
    (j < l.length ∧ l[j]? = some b) ∨ (j = l.length ∧ b = a) := by
  rcases Nat.lt_trichotomy j l.length with hlt | heq | hgt
  · rw [List.getElem?_append_left hlt] at h
    exact Or.inl ⟨hlt, h⟩
  · subst heq
    simp at h
    exact Or.inr ⟨rfl, h.symm⟩
  · rw [List.getElem?_eq_none (by simp; omega)] at h
    exact absurd h (by simp)

theorem selection_renders_congr {rh : dm_report} {object : Nat} {a b : field_properties}
    {s : cstr} {v : sort_value_t} (ht : b.type = a.type) (hf : b.field_num = a.field_num)
    (h : selection_renders rh object a s v) : selection_renders rh object b s v := by
  obtain ⟨data, ft, hne, hd, hft, hrep⟩ := h
  refine ⟨data, ft, hne, ?_, by rw [hf]; exact hft, hrep⟩
  unfold _report_get_field_data at hd ⊢
  rw [ht, hf]
  exact hd

theorem posn_inj_replace (done todo : List field_properties) (fp fp1 : field_properties)
    (hf : fp1.flags = fp.flags) (hp : fp1.sort_posn = fp.sort_posn)
    (h : posn_inj (done ++ fp :: todo)) : posn_inj ((done ++ [fp1]) ++ todo) := by
  have key : ∀ (j : Nat) (x : field_properties), ((done ++ [fp1]) ++ todo)[j]? = some x →
      ∃ y, (done ++ fp :: todo)[j]? = some y ∧ y.flags = x.flags ∧
        y.sort_posn = x.sort_posn := by
    intro j x hx
    rw [List.append_assoc, List.singleton_append] at hx
    rcases Nat.lt_trichotomy j done.length with hlt | heq | hgt
    · rw [List.getElem?_append_left hlt] at hx
      exact ⟨x, by rw [List.getElem?_append_left hlt]; exact hx, rfl, rfl⟩
    · subst heq
      rw [List.getElem?_append_right (le_refl _)] at hx
      simp only [Nat.sub_self, List.getElem?_cons_zero, Option.some.injEq] at hx
      subst hx
      exact ⟨fp, by rw [List.getElem?_append_right (le_refl _)]; simp, hf.symm, hp.symm⟩
    · rw [List.getElem?_append_right (le_of_lt hgt)] at hx
      obtain ⟨m, hm⟩ : ∃ m, j - done.length = m + 1 := ⟨j - done.length - 1, by omega⟩
      rw [hm, List.getElem?_cons_succ] at hx
      refine ⟨x, ?_, rfl, rfl⟩
      rw [List.getElem?_append_right (le_of_lt hgt), hm, List.getElem?_cons_succ]
      exact hx
  intro j1 j2 x1 x2 h1 h2 m1 m2 hpos
  obtain ⟨y1, e1, f1, p1⟩ := key j1 x1 h1
  obtain ⟨y2, e2, f2, p2⟩ := key j2 x2 h2
  exact h j1 j2 y1 y2 e1 e2 (by rw [f1]; exact m1) (by rw [f2]; exact m2)
    (by rw [p1, p2]; exact hpos)
theorem add_cell_built {rh : dm_report} {object : Nat} {done todo : List field_properties}
    {fp1 : field_properties} {s : cstr} {v : sort_value_t} {r r1 : row}
    (hinj : posn_inj ((done ++ [fp1]) ++ todo)) (hb : row_built rh object done r)
    (hr : selection_renders rh object fp1 s v)
    (hc : add_cell rh fp1 ⟨done.length, s, v⟩ r = some r1) :
    row_built rh object (done ++ [fp1]) r1 := by
  obtain ⟨hlen, hcells, hsort⟩ := hb
  have hfields : r1.fields = r.fields ++ [⟨done.length, s, v⟩] := by
    unfold add_cell at hc
    split at hc
    · split at hc
      · exact absurd hc (by simp)
      · split at hc
        · simp only [Option.some.injEq] at hc
          rw [← hc]
        · exact absurd hc (by simp)
    · simp only [Option.some.injEq] at hc
      rw [← hc]
  have hold : ∀ j, j < done.length → r1.fields[j]? = r.fields[j]? := by
    intro j hj
    rw [hfields, List.getElem?_append_left (by omega)]
  have hnew : r1.fields[done.length]? = some ⟨done.length, s, v⟩ := by
    rw [hfields, ← hlen]
    simp
  have hk : ((done ++ [fp1]) ++ todo)[done.length]? = some fp1 := by
    rw [List.append_assoc, List.getElem?_append_right (le_refl _)]
    simp
  have hdone : ∀ (j : Nat) (x : field_properties), j < done.length → done[j]? = some x →
      ((done ++ [fp1]) ++ todo)[j]? = some x := by
    intro j x hj hx
    rw [List.append_assoc, List.getElem?_append_left hj]
    exact hx
  refine ⟨by rw [hfields]; simp [hlen], ?_, ?_⟩
  · intro j fpj hj
    rcases getElem?_snoc_cases done fp1 fpj j hj with ⟨hlt, hd⟩ | ⟨he, hfp⟩
    · obtain ⟨s1, v1, e1, e2⟩ := hcells j fpj hd
      exact ⟨s1, v1, by rw [hold j hlt]; exact e1, e2⟩
    · subst he hfp
      exact ⟨s, v, hnew, hr⟩
  · intro hreq
    obtain ⟨arr, harr, hal, hrec⟩ := hsort hreq
    unfold add_cell at hc
    by_cases hm : fp1.flags &&& FLD_SORT_KEY ≠ 0
    · rw [if_pos ⟨hreq, hm⟩] at hc
      simp only [harr] at hc
      split at hc
      · rename_i hlt
        simp only [Option.some.injEq] at hc
        refine ⟨arr.set fp1.sort_posn (some ⟨done.length, s, v⟩), by rw [← hc], by simp [hal],
          ?_⟩
        intro j fpj hj hmj
        rcases getElem?_snoc_cases done fp1 fpj j hj with ⟨hlt1, hd⟩ | ⟨he, hfp⟩
        · have hne : fp1.sort_posn ≠ fpj.sort_posn := by
            intro e
            have := hinj done.length j fp1 fpj hk (hdone j fpj hlt1 hd) hm hmj e
            omega
          rw [List.getElem?_set_ne hne, hold j hlt1]
          exact hrec j fpj hd hmj
        · subst he hfp
          rw [hnew, List.getElem?_set_self hlt]
      · exact absurd hc (by simp)
    · rw [if_neg (fun x => hm x.2)] at hc
      simp only [Option.some.injEq] at hc
      refine ⟨arr, by rw [← hc]; exact harr, hal, ?_⟩
      intro j fpj hj hmj
      rcases getElem?_snoc_cases done fp1 fpj j hj with ⟨hlt1, hd⟩ | ⟨he, hfp⟩
      · rw [hold j hlt1]
        exact hrec j fpj hd hmj
      · subst hfp
        exact absurd hmj hm

theorem object_loop_built (rh : dm_report) (object : Nat) :
    ∀ (todo done : List field_properties) (r r1 : row) (props : List field_properties),
      posn_inj (done ++ todo) → row_built rh object done r →
      dm_report_object_loop rh object done todo r = some (props, r1, true) →
        row_built rh object props r1 := by
  intro todo
  induction todo with
  | nil =>
    intro done r r1 props _ hb h
    rw [object_loop_nil] at h
    simp only [Option.some.injEq, Prod.mk.injEq] at h
    rw [← h.1, ← h.2.1]
    exact hb
  | cons fp todo ih =>
    intro done r r1 props hinj hb h
    rcases object_loop_cons rh object fp todo done r _ h with ⟨_, he⟩ | ⟨s, v, r2, hr, hc, hl⟩
    · simp only [Prod.mk.injEq] at he
      exact absurd he.2.2 (by simp)
    · have hs := fold_width_same fp s
      have hinj1 := posn_inj_replace done todo fp (fold_width fp s) hs.1 hs.2.1 hinj
      have hr1 : selection_renders rh object (fold_width fp s) s v :=
        selection_renders_congr hs.2.2.2 hs.2.2.1 hr
      exact ih _ _ _ _ hinj1 (add_cell_built hinj1 hb hr1 hc) hl

/-! ## What the calls on a session leave of its handle -/

theorem selection_grows_trans {a b c : field_properties} (h1 : selection_grows a b)
    (h2 : selection_grows b c) : selection_grows a c := by
  obtain ⟨a1, a2, a3, a4, a5⟩ := h1
  obtain ⟨b1, b2, b3, b4, b5⟩ := h2
  exact ⟨b1.trans a1, b2.trans a2, b3.trans a3, b4.trans a4, le_trans a5 b5⟩

theorem forall₂_grows_trans :
    ∀ {l1 l2 l3 : List field_properties}, List.Forall₂ selection_grows l1 l2 →
      List.Forall₂ selection_grows l2 l3 → List.Forall₂ selection_grows l1 l3 := by
  intro l1 l2 l3 h1
  induction h1 generalizing l3 with
  | nil =>
    intro h2
    cases h2
    exact List.Forall₂.nil
  | cons hab _ ih =>
    intro h2
    cases h2 with
    | cons hbc ht => exact List.Forall₂.cons (selection_grows_trans hab hbc) (ih ht)

theorem same_session_refl (a : dm_report) : same_session a a :=
  ⟨rfl, rfl, rfl, rfl, rfl, rfl, forall₂_grows_refl _, Or.inl rfl⟩

theorem or_or_self (x y : Nat) : (x ||| y) ||| y = x ||| y := by
  rw [Nat.or_assoc, Nat.or_self]

theorem same_session_trans {a b c : dm_report} (h1 : same_session a b)
    (h2 : same_session b c) : same_session a c := by
  obtain ⟨a1, a2, a3, a4, a5, a6, a7, a8⟩ := h1
  obtain ⟨b1, b2, b3, b4, b5, b6, b7, b8⟩ := h2
  refine ⟨b1.trans a1, b2.trans a2, b3.trans a3, b4.trans a4, b5.trans a5, b6.trans a6,
    forall₂_grows_trans a7 b7, ?_⟩
  rcases a8 with e1 | e1 <;> rcases b8 with e2 | e2
  · exact Or.inl (e2.trans e1)
  · exact Or.inr (by rw [e2, e1])
  · exact Or.inr (e2.trans e1)
  · exact Or.inr (by rw [e2, e1, or_or_self])

theorem report_headings_flags {H : libdevmapper_h} {rh rh1 : dm_report} {l : List cstr}
    (h : _report_headings H rh = some (rh1, l)) :
    (rh1.flags = rh.flags ∨ rh1.flags = rh.flags ||| RH_HEADINGS_PRINTED) ∧
      rh1.flags &&& RH_HEADINGS_PRINTED ≠ 0 := by
  unfold _report_headings at h
  have hp : (rh.flags ||| RH_HEADINGS_PRINTED) &&& RH_HEADINGS_PRINTED ≠ 0 := by
    rw [Nat.and_distrib_right, Nat.and_self]
    intro e
    have := (or_eq_zero e).2
    exact absurd this (by decide)
  split at h
  · rename_i hset
    simp only [Option.some.injEq, Prod.mk.injEq] at h
    rw [← h.1]
    exact ⟨Or.inl rfl, hset⟩
  · simp only at h
    split at h
    · simp only [Option.some.injEq, Prod.mk.injEq] at h
      rw [← h.1]
      exact ⟨Or.inr rfl, hp⟩
    · split at h
      · exact absurd h (by simp)
      · simp only [Option.some.injEq, Prod.mk.injEq] at h
        rw [← h.1]
        exact ⟨Or.inr rfl, hp⟩

theorem frame_out_same {a b : dm_report} (h : frame_out a b)
    (hf : b.flags = a.flags ∨ b.flags = a.flags ||| RH_HEADINGS_PRINTED) :
    same_session a b := by
  unfold frame_out at h
  refine ⟨?_, ?_, ?_, ?_, ?_, ?_, ?_, hf⟩
  all_goals rw [h]
  exact forall₂_grows_refl _

theorem report_output_same {H : libdevmapper_h}
    {qsort : (row → row → Int) → List row → List row} {rh : dm_report} {out : outcome}
    (h : dm_report_output H qsort rh = some out) :
    ∃ rh1, out.rh = some rh1 ∧ same_session rh rh1 := by
  obtain ⟨rh1, ho, hfr⟩ := report_output_frame h
  refine ⟨rh1, ho, frame_out_same hfr ?_⟩
  unfold dm_report_output at h
  split at h
  · simp only [Option.some.injEq] at h
    rw [← h] at ho
    simp only [Option.some.injEq] at ho
    rw [← ho]
    exact Or.inl rfl
  · split at h
    · exact absurd h (by simp)
    · rename_i rh2 hs
      have h2 : rh2.flags = rh.flags := by
        split at hs
        · have := sort_rows_frame hs
          unfold frame_out at this
          unfold _sort_rows at hs
          split at hs
          · simp only [Option.some.injEq] at hs
            rw [← hs]
          · exact absurd hs (by simp)
        · simp only [Option.some.injEq] at hs
          rw [← hs]
      split at h
      · unfold _output_as_rows at h
        split at h
        · exact absurd h (by simp)
        · simp only [Option.some.injEq] at h
          rw [← h] at ho
          simp only [Option.some.injEq] at ho
          rw [← ho]
          exact Or.inl h2
      · unfold _output_as_columns at h
        split at h
        · exact absurd h (by simp)
        · rename_i rh3 heading hh
          split at h
          · exact absurd h (by simp)
          · simp only [Option.some.injEq] at h
            rw [← h] at ho
            simp only [Option.some.injEq] at ho
            rw [← ho]
            show rh3.flags = rh.flags ∨ rh3.flags = rh.flags ||| RH_HEADINGS_PRINTED
            rw [← h2]
            split at hh
            · exact (report_headings_flags hh).1
            · simp only [Option.some.injEq, Prod.mk.injEq] at hh
              rw [← hh.1]
              exact Or.inl rfl

theorem report_object_same {H : libdevmapper_h}
    {qsort : (row → row → Int) → List row → List row} {rh : dm_report} {object : Nat}
    {out : outcome} (h : dm_report_object H qsort (some rh) object = some out) :
    ∃ rh1, out.rh = some rh1 ∧ same_session rh rh1 := by
  rw [report_object_eq] at h
  cases hl : dm_report_object_loop rh object [] rh.field_props (new_row rh) with
  | none =>
    rw [hl] at h
    exact absurd h (by simp)
  | some res =>
    obtain ⟨props, r1, ok⟩ := res
    rw [hl] at h
    simp only at h
    obtain ⟨todo1, hp, hf⟩ := object_loop_grows rh object _ _ _ _ _ _ hl
    simp only [List.nil_append] at hp
    subst hp
    have hmid : same_session rh { rh with field_props := props, rows := rh.rows ++ [r1] } :=
      ⟨rfl, rfl, rfl, rfl, rfl, rfl, hf, Or.inl rfl⟩
    split at h
    · simp only [Option.some.injEq] at h
      rw [← h]
      exact ⟨_, rfl, hmid⟩
    · split at h
      · obtain ⟨rh2, ho, hs⟩ := report_output_same h
        exact ⟨rh2, ho, same_session_trans hmid hs⟩
      · simp only [Option.some.injEq] at h
        rw [← h]
        exact ⟨_, rfl, hmid⟩

theorem session_same {H : libdevmapper_h}
    {qsort : (row → row → Int) → List row → List row} {rh0 rh : dm_report}
    (h : session H qsort rh0 rh) : same_session rh0 rh := by
  induction h with
  | start => exact same_session_refl _
  | object _ _ _ _ _ ho hr ih =>
    obtain ⟨rh2, h2, hs⟩ := report_object_same ho
    rw [hr] at h2
    simp only [Option.some.injEq] at h2
    subst h2
    exact same_session_trans ih hs
  | output _ _ _ _ ho hr ih =>
    obtain ⟨rh2, h2, hs⟩ := report_output_same ho
    rw [hr] at h2
    simp only [Option.some.injEq] at h2
    subst h2
    exact same_session_trans ih hs

/-! ## Handles as `dm_report_init` returns them -/

theorem keys_ok_marked {l : List field_properties} {D : List (Nat × Nat)} (h : keys_ok l D)
    (j : Nat) (fp : field_properties) (hj : l[j]? = some fp)
    (hm : fp.flags &&& FLD_SORT_KEY ≠ 0) :
    fp.sort_posn < D.length ∧ D[fp.sort_posn]? = some (fp.field_num, dir_bits fp.flags) ∧
      first_sel l fp.field_num j fp := by
  obtain ⟨k1, k2, _⟩ := h
  obtain ⟨hfs, hmem⟩ := k2 j fp hj hm
  obtain ⟨p, hp, hpf⟩ := List.mem_map.mp hmem
  obtain ⟨i, hi⟩ := List.getElem?_of_mem hp
  obtain ⟨j1, fq, hq, _, hqp, hqd⟩ := k1 i fp.field_num p.2 (by rw [hi, ← hpf])
  have := (first_sel_unique hq hfs).2
  subst this
  have hlt : i < D.length := by
    by_contra hx
    rw [List.getElem?_eq_none (by omega)] at hi
    exact absurd hi (by simp)
  rw [hqp, hqd]
  refine ⟨hlt, ?_, hfs⟩
  rw [hi, ← hpf]

theorem keys_ok_posn_inj {l : List field_properties} {D : List (Nat × Nat)}
    (h : keys_ok l D) : posn_inj l := by
  intro j1 j2 fp1 fp2 h1 h2 hm1 hm2 hpos
  obtain ⟨_, e1, fs1⟩ := keys_ok_marked h j1 fp1 h1 hm1
  obtain ⟨_, e2, fs2⟩ := keys_ok_marked h j2 fp2 h2 hm2
  rw [hpos, e2] at e1
  simp only [Option.some.injEq, Prod.mk.injEq] at e1
  rw [← e1.1] at fs1
  exact (first_sel_unique fs1 fs2).1

theorem init_posn {H : libdevmapper_h}
    (hsk : H.DM_REPORT_FIELD_MASK &&& FLD_SORT_KEY = 0)
    (hdir : H.DM_REPORT_FIELD_MASK &&& (FLD_ASCENDING ||| FLD_DESCENDING) = 0)
    {report_types : Option Nat} {types : List dm_report_object_type}
    {fields : List dm_report_field_type} {output_fields output_separator : cstr}
    {output_flags : Nat} {sort_keys : Option cstr} {private_data : Nat} {rh : dm_report}
    (h : dm_report_init H report_types types fields output_fields output_separator output_flags
      sort_keys private_data = some (some rh)) :
    posn_inj rh.field_props ∧
      ∀ fp ∈ rh.field_props, fp.flags &&& FLD_SORT_KEY ≠ 0 → fp.sort_posn < rh.keys_count := by
  obtain ⟨hc, hk⟩ := init_keys_ok hsk hdir h
  refine ⟨keys_ok_posn_inj hk, ?_⟩
  intro fp hfp hm
  obtain ⟨j, hj⟩ := List.getElem?_of_mem hfp
  rw [hc]
  exact (keys_ok_marked hk j fp hj hm).1

theorem prim_frame {H : libdevmapper_h} {a b : dm_report} (h : prim H a b) :
    b.flags = a.flags ∧ b.rows = a.rows ∧ b.separator = a.separator ∧ b.fields = a.fields ∧
      b.output_field_name_prefix = a.output_field_name_prefix ∧
      b.private_data = a.private_data := by
  cases h
  · exact ⟨rfl, rfl, rfl, rfl, rfl, rfl⟩
  · rename_i f flags i hadd
    have := (add_field_frame2 hadd).1
    unfold frame2 at this
    rw [this]
    exact ⟨rfl, rfl, rfl, rfl, rfl, rfl⟩
  · rename_i found flags hfl hmark
    have := add_sort_key_found_frame2 hmark
    unfold frame2 at this
    rw [this]
    exact ⟨rfl, rfl, rfl, rfl, rfl, rfl⟩

theorem init_frame {H : libdevmapper_h}
    {report_types : Option Nat} {types : List dm_report_object_type}
    {fields : List dm_report_field_type} {output_fields output_separator : cstr}
    {output_flags : Nat} {sort_keys : Option cstr} {private_data : Nat} {rh : dm_report}
    (h : dm_report_init H report_types types fields output_fields output_separator output_flags
      sort_keys private_data = some (some rh)) :
    rh.flags = init_flags H output_flags ∧ rh.rows = [] ∧ rh.separator = output_separator ∧
      rh.fields = fields ∧ rh.output_field_name_prefix = none ∧
      rh.private_data = private_data := by
  refine chain_inv (fun r => r.flags = init_flags H output_flags ∧ r.rows = [] ∧
    r.separator = output_separator ∧ r.fields = fields ∧ r.output_field_name_prefix = none ∧
    r.private_data = private_data) ?_ (init_chain h) ?_
  · intro a b hp ha
    obtain ⟨p1, p2, p3, p4, p5, p6⟩ := prim_frame hp
    obtain ⟨a1, a2, a3, a4, a5, a6⟩ := ha
    exact ⟨p1.trans a1, p2.trans a2, p3.trans a3, p4.trans a4, p5.trans a5, p6.trans a6⟩
  · unfold init_handle
    simp only
    split <;> exact ⟨rfl, rfl, rfl, rfl, rfl, rfl⟩

theorem prim_selections {H : libdevmapper_h} {a b : dm_report} (h : prim H a b)
    (ha : ∀ fp ∈ a.field_props, (∃ t, fp.type = some t) ∧
      ∃ ft, a.fields[fp.field_num]? = some ft) :
    ∀ fp ∈ b.field_props, (∃ t, fp.type = some t) ∧
      ∃ ft, b.fields[fp.field_num]? = some ft := by
  cases h
  · exact ha
  · rename_i f flags i hadd
    rw [add_field_eq] at hadd
    split at hadd
    · exact absurd hadd (by simp)
    · rename_i ft hft
      split at hadd
      · exact absurd hadd (by simp)
      · rename_i t ht
        split at hadd <;>
        · simp only [Option.some.injEq, Prod.mk.injEq] at hadd
          rw [← hadd.1]
          intro fp hfp
          simp only [List.mem_cons, List.mem_append, List.mem_singleton, List.not_mem_nil,
            or_false] at hfp
          rcases hfp with hx | hx
          · first
              | (subst hx; exact ⟨⟨t, rfl⟩, ft, hft⟩)
              | exact ha fp hx
          · first
              | (subst hx; exact ⟨⟨t, rfl⟩, ft, hft⟩)
              | exact ha fp hx
  · rename_i found flags hfl hmark
    have hfr := add_sort_key_found_frame2 hmark
    obtain ⟨hlen, ⟨fp0, fp1, h0, h1, e1, _, e3, _⟩, hother⟩ :=
      add_sort_key_found_props hfl hmark
    have hfields : b.fields = a.fields := by
      unfold frame2 at hfr
      rw [hfr]
    intro fp hfp
    obtain ⟨j, hj⟩ := List.getElem?_of_mem hfp
    rw [hfields]
    by_cases e : j = found
    · subst e
      rw [h1] at hj
      simp only [Option.some.injEq] at hj
      subst hj
      rw [e1, e3]
      exact ha fp0 (List.getElem?_mem h0)
    · rw [hother j e] at hj
      exact ha fp (List.getElem?_mem hj)

theorem init_selections {H : libdevmapper_h}
    {report_types : Option Nat} {types : List dm_report_object_type}
    {fields : List dm_report_field_type} {output_fields output_separator : cstr}
    {output_flags : Nat} {sort_keys : Option cstr} {private_data : Nat} {rh : dm_report}
    (h : dm_report_init H report_types types fields output_fields output_separator output_flags
      sort_keys private_data = some (some rh)) :
    ∀ fp ∈ rh.field_props, (∃ t, fp.type = some t) ∧
      ∃ ft, rh.fields[fp.field_num]? = some ft := by
  refine chain_inv (fun r => ∀ fp ∈ r.field_props, (∃ t, fp.type = some t) ∧
    ∃ ft, r.fields[fp.field_num]? = some ft) (fun a b hp ha => prim_selections hp ha)
    (init_chain h) ?_
  intro fp hfp
  rw [(init_handle_field_props H report_types types fields output_separator output_flags
    private_data).1] at hfp
  exact absurd hfp (List.not_mem_nil _)

/-! ## Rows of a session that sorts -/

theorem forall₂_getElem? {α β : Type} {R : α → β → Prop} :
    ∀ {l : List α} {l1 : List β}, List.Forall₂ R l l1 → ∀ (j : Nat) (b : β),
      l1[j]? = some b → ∃ a, l[j]? = some a ∧ R a b := by
  intro l l1 h
  induction h with
  | nil =>
    intro j b hb
    simp at hb
  | cons hab _ ih =>
    intro j b hb
    cases j with
    | zero =>
      simp only [List.getElem?_cons_zero, Option.some.injEq] at hb
      subst hb
      exact ⟨_, by simp, hab⟩
    | succ j =>
      simp only [List.getElem?_cons_succ] at hb ⊢
      exact ih j b hb

theorem posn_inj_grows {l l1 : List field_properties}
    (hg : List.Forall₂ selection_grows l l1) (h : posn_inj l) : posn_inj l1 := by
  intro j1 j2 x1 x2 h1 h2 m1 m2 hpos
  obtain ⟨y1, e1, g1⟩ := forall₂_getElem? hg j1 x1 h1
  obtain ⟨y2, e2, g2⟩ := forall₂_getElem? hg j2 x2 h2
  exact h j1 j2 y1 y2 e1 e2 (by rw [← g1.2.2.2.1]; exact m1) (by rw [← g2.2.2.2.1]; exact m2)
    (by rw [← g1.2.1, ← g2.2.1]; exact hpos)

theorem or_and_self_ne_zero (x y : Nat) (hy : y ≠ 0) : (x ||| y) &&& y ≠ 0 := by
  rw [Nat.and_distrib_right, Nat.and_self]
  intro e
  exact hy (or_eq_zero e).2

theorem or_and_ne_zero (x y z : Nat) (h : x &&& z ≠ 0) : (x ||| y) &&& z ≠ 0 := by
  rw [Nat.and_distrib_right]
  intro e
  exact h (or_eq_zero e).1

theorem init_flags_sort (H : libdevmapper_h) (output_flags : Nat)
    (hb : output_flags &&& H.DM_REPORT_OUTPUT_BUFFERED ≠ 0) :
    init_flags H output_flags &&& RH_SORT_REQUIRED ≠ 0 := by
  unfold init_flags
  simp only
  rw [if_pos hb]
  exact or_and_self_ne_zero _ _ (by decide)

theorem same_session_flag {a b : dm_report} (h : same_session a b) (z : Nat)
    (hz : a.flags &&& z ≠ 0) : b.flags &&& z ≠ 0 := by
  rcases h.2.2.2.2.2.2.2 with e | e
  · rw [e]
    exact hz
  · rw [e]
    exact or_and_ne_zero _ _ _ hz

theorem new_row_built (rh : dm_report) (object : Nat) :
    row_built rh object [] (new_row rh) := by
  refine ⟨rfl, ?_, ?_⟩
  · intro j fp hj
    simp at hj
  · intro hreq
    obtain ⟨arr, ha, hl⟩ := new_row_sort_fields rh hreq
    refine ⟨arr, ha, hl, ?_⟩
    intro j fp hj
    simp at hj

theorem report_object_built {H : libdevmapper_h}
    {qsort : (row → row → Int) → List row → List row} {rh : dm_report} {object : Nat}
    {out : outcome} (hinj : posn_inj rh.field_props)
    (h : dm_report_object H qsort (some rh) object = some out) (h1 : out.ret = 1) :
    ∃ props r, dm_report_object_loop rh object [] rh.field_props (new_row rh) =
        some (props, r, true) ∧ row_built rh object props r ∧
      (rh.flags &&& H.DM_REPORT_OUTPUT_BUFFERED ≠ 0 →
        out.rh = some { rh with field_props := props, rows := rh.rows ++ [r] }) := by
  rw [report_object_eq] at h
  cases hl : dm_report_object_loop rh object [] rh.field_props (new_row rh) with
  | none =>
    rw [hl] at h
    exact absurd h (by simp)
  | some res =>
    obtain ⟨props, r, ok⟩ := res
    rw [hl] at h
    simp only at h
    cases ok with
    | false =>
      simp only [if_true, Option.some.injEq] at h
      rw [← h] at h1
      have h2 : (0 : Int) = 1 := h1
      exact absurd h2 (by decide)
    | true =>
      refine ⟨props, r, rfl, ?_, ?_⟩
      · exact object_loop_built rh object _ _ _ _ _ (by simpa using hinj)
          (new_row_built rh object) hl
      · intro hb
        simp only [Bool.true_eq_false, if_false] at h
        rw [if_neg hb] at h
        simp only [Option.some.injEq] at h
        rw [← h]
/-- C14 as stated fails: a row gets its sort array only in a handle that carries
`RH_SORT_REQUIRED`, which `dm_report_init` sets when the caller passes
`DM_REPORT_OUTPUT_BUFFERED`. In the session `sample_unbuffered`, with the sort key `-size`
and no flag, the row built for the object at address 16 has no sort array although the call
returns 1; and the row that the session `sample_by_rows` holds has none either. -/
theorem sort_array_counterexample :
    sample_unbuffered.keys_count = 1 ∧
      (∃ fp ∈ sample_unbuffered.field_props, fp.flags &&& FLD_SORT_KEY ≠ 0) ∧
      (dm_report_object_loop sample_unbuffered 16 [] sample_unbuffered.field_props
        (new_row sample_unbuffered)).map (fun x => (x.2.1.sort_fields, x.2.2)) =
          some (none, true) ∧
      (dm_report_object sample_h stable_qsort (some sample_unbuffered) 16).map
        (fun out => out.ret) = some 1 ∧
      sample_by_rows.keys_count = 1 ∧
      sample_by_rows.rows.map (fun r => r.sort_fields) = [none] := by
  decide

/-- C14, amended: in every state of a session that `dm_report_init` creates with
`DM_REPORT_OUTPUT_BUFFERED` among the output flags, a call of `dm_report_object` that returns
1 builds a row whose sort array has `keys_count` entries and holds, for every selection that
is a sort key, at the index `sort_posn` of the selection, the field of the row that belongs
to this selection, with the display string and the sort value its render function stored.
The field mask of the header is taken to be clear of the internal sort flags. -/
theorem sort_array_holds_keys (H : libdevmapper_h)
    (qsort : (row → row → Int) → List row → List row) (report_types : Option Nat)
    (types : List dm_report_object_type) (fields : List dm_report_field_type)
    (output_fields output_separator : cstr) (output_flags : Nat) (sort_keys : Option cstr)
    (private_data : Nat) (rh0 rh : dm_report) (object : Nat) (out : outcome)
    (hsk : H.DM_REPORT_FIELD_MASK &&& FLD_SORT_KEY = 0)
    (hdir : H.DM_REPORT_FIELD_MASK &&& (FLD_ASCENDING ||| FLD_DESCENDING) = 0)
    (hb : output_flags &&& H.DM_REPORT_OUTPUT_BUFFERED ≠ 0)
    (hinit : dm_report_init H report_types types fields output_fields output_separator
      output_flags sort_keys private_data = some (some rh0))
    (hs : session H qsort rh0 rh)
    (hcall : dm_report_object H qsort (some rh) object = some out) (hret : out.ret = 1) :
    ∃ props r arr,
      dm_report_object_loop rh object [] rh.field_props (new_row rh) = some (props, r, true) ∧
      (rh.flags &&& H.DM_REPORT_OUTPUT_BUFFERED ≠ 0 →
        out.rh = some { rh with field_props := props, rows := rh.rows ++ [r] }) ∧
      r.sort_fields = some arr ∧ arr.length = rh.keys_count ∧
      ∀ (j : Nat) (fp : field_properties), props[j]? = some fp →
        fp.flags &&& FLD_SORT_KEY ≠ 0 →
        ∃ s v, selection_renders rh object fp s v ∧ r.fields[j]? = some ⟨j, s, v⟩ ∧
          arr[fp.sort_posn]? = some (some ⟨j, s, v⟩) := by
  have hsame := session_same hs
  have hinj : posn_inj rh.field_props :=
    posn_inj_grows hsame.2.2.2.2.2.2.1 (init_posn hsk hdir hinit).1
  have hreq : rh.flags &&& RH_SORT_REQUIRED ≠ 0 := by
    apply same_session_flag hsame
    rw [(init_frame hinit).1]
    exact init_flags_sort H output_flags hb
  obtain ⟨props, r, hl, ⟨_, hcells, hsort⟩, hrow⟩ := report_object_built hinj hcall hret
  obtain ⟨arr, ha, hlen, hrec⟩ := hsort hreq
  refine ⟨props, r, arr, hl, hrow, ha, hlen, ?_⟩
  intro j fp hj hm
  obtain ⟨s, v, e1, e2⟩ := hcells j fp hj
  refine ⟨s, v, e2, e1, ?_⟩
  rw [hrec j fp hj hm, e1]

/-- C14, amended, at the buffered session `sample_hidden` of the field list `name` with the
sort key `-size`: the row built for the object at address 16 holds the hidden field of the
size, 10, at index 0 of its sort array. -/
theorem sort_array_holds_keys_witness :
    ∃ props r arr,
      dm_report_object_loop sample_hidden 16 [] sample_hidden.field_props
        (new_row sample_hidden) = some (props, r, true) ∧
      r.sort_fields = some arr ∧ arr.length = sample_hidden.keys_count ∧
      ∀ (j : Nat) (fp : field_properties), props[j]? = some fp →
        fp.flags &&& FLD_SORT_KEY ≠ 0 →
        ∃ s v, selection_renders sample_hidden 16 fp s v ∧ r.fields[j]? = some ⟨j, s, v⟩ ∧
          arr[fp.sort_posn]? = some (some ⟨j, s, v⟩) := by
  obtain ⟨props, r, arr, h1, _, h3, h4, h5⟩ := sort_array_holds_keys sample_h stable_qsort
    (some 1) sample_types sample_fields "name".toList " ".toList 2 (some "-size".toList) 0
    sample_hidden sample_hidden 16
    ((dm_report_object sample_h stable_qsort (some sample_hidden) 16).get (by decide))
    (by decide) (by decide) (by decide) (join_some_get _) (session.start)
    (Option.some_get _).symm (by decide)
  exact ⟨props, r, arr, h1, h3, h4, h5⟩

/-! ## The output flags of a new handle -/

theorem and_eq_zero_bits {x y : Nat} (h : x &&& y = 0) (i : Nat) :
    ¬ (x.testBit i = true ∧ y.testBit i = true) := by
  intro ⟨hx, hy⟩
  have : (x &&& y).testBit i = true := by rw [Nat.testBit_and, hx, hy]; rfl
  rw [h, Nat.zero_testBit] at this
  exact absurd this (by simp)

theorem and_eq_left_bits {x y : Nat} (h : x &&& y = x) (i : Nat) :
    x.testBit i = true → y.testBit i = true := by
  intro hx
  have : (x &&& y).testBit i = true := by rw [h]; exact hx
  rw [Nat.testBit_and] at this
  simp only [Bool.and_eq_true] at this
  exact this.2

theorem testBit_lt_32 {x : Nat} (h : x < 4294967296) (i : Nat) (hx : x.testBit i = true) :
    i < 32 := by
  by_contra hc
  have h2 : (4294967296 : Nat) ≤ 2 ^ i := by
    have : (2 : Nat) ^ 32 ≤ 2 ^ i := Nat.pow_le_pow_right (by decide) (by omega)
    simpa using this
  rw [Nat.testBit_lt_two_pow (by omega)] at hx
  exact absurd hx (by simp)

theorem ne_zero_of_testBit {x : Nat} (i : Nat) (h : x.testBit i = true) : x ≠ 0 := by
  intro e
  rw [e, Nat.zero_testBit] at h
  exact absurd h (by simp)

theorem and_eq_zero_of_bits {x y : Nat}
    (h : ∀ i, ¬ (x.testBit i = true ∧ y.testBit i = true)) : x &&& y = 0 := by
  apply Nat.eq_of_testBit_eq
  intro i
  rw [Nat.testBit_and, Nat.zero_testBit]
  have := h i
  cases hx : x.testBit i <;> cases hy : y.testBit i <;> simp_all

theorem testBit_mask32 (i : Nat) : Nat.testBit 4294967295 i = decide (i < 32) := by
  have h32 : (4294967295 : Nat) = 2 ^ 32 - 1 := by norm_num
  rw [h32, Nat.testBit_two_pow_sub_one]

theorem testBit_not32 (a i : Nat) :
    (4294967295 ^^^ a).testBit i = (decide (i < 32) ^^ a.testBit i) := by
  have h32 : (4294967295 : Nat) = 2 ^ 32 - 1 := by norm_num
  rw [Nat.testBit_xor, h32, Nat.testBit_two_pow_sub_one]

theorem init_flags_testBit (H : libdevmapper_h) (o i : Nat) :
    (init_flags H o).testBit i =
      (((o.testBit i && H.DM_REPORT_OUTPUT_MASK.testBit i ||
            (decide (o &&& H.DM_REPORT_OUTPUT_COLUMNS_AS_ROWS ≠ 0) &&
              decide (o &&& H.DM_REPORT_OUTPUT_BUFFERED = 0) &&
              H.DM_REPORT_OUTPUT_BUFFERED.testBit i)) &&
          !(decide (o &&& H.DM_REPORT_OUTPUT_COLUMNS_AS_ROWS ≠ 0) &&
            decide (o &&& H.DM_REPORT_OUTPUT_ALIGNED ≠ 0) &&
            !(decide (i < 32) ^^ H.DM_REPORT_OUTPUT_ALIGNED.testBit i))) ||
        (decide (o &&& H.DM_REPORT_OUTPUT_BUFFERED ≠ 0) && RH_SORT_REQUIRED.testBit i)) := by
  unfold init_flags
  simp only
  split_ifs <;>
    simp_all [Nat.testBit_and, Nat.testBit_or, Nat.testBit_xor, testBit_mask32]

theorem init_flags_columns_as_rows (H : libdevmapper_h) (o : Nat)
    (hm : H.DM_REPORT_OUTPUT_MASK < 4294967296)
    (hr : H.DM_REPORT_OUTPUT_MASK &&& RH_SORT_REQUIRED = 0)
    (hbm : H.DM_REPORT_OUTPUT_BUFFERED &&& H.DM_REPORT_OUTPUT_MASK = H.DM_REPORT_OUTPUT_BUFFERED)
    (ham : H.DM_REPORT_OUTPUT_ALIGNED &&& H.DM_REPORT_OUTPUT_MASK = H.DM_REPORT_OUTPUT_ALIGNED)
    (hb0 : H.DM_REPORT_OUTPUT_BUFFERED ≠ 0)
    (hba : H.DM_REPORT_OUTPUT_BUFFERED &&& H.DM_REPORT_OUTPUT_ALIGNED = 0)
    (hcar : o &&& H.DM_REPORT_OUTPUT_COLUMNS_AS_ROWS ≠ 0) :
    init_flags H o &&& H.DM_REPORT_OUTPUT_BUFFERED ≠ 0 ∧
      init_flags H o &&& H.DM_REPORT_OUTPUT_ALIGNED = 0 ∧
      ∀ F, F &&& H.DM_REPORT_OUTPUT_MASK = F → F &&& H.DM_REPORT_OUTPUT_BUFFERED = 0 →
        F &&& H.DM_REPORT_OUTPUT_ALIGNED = 0 → init_flags H o &&& F = o &&& F := by
  have m32 : ∀ i, H.DM_REPORT_OUTPUT_MASK.testBit i = true → decide (i < 32) = true :=
    fun i hi => by simpa using testBit_lt_32 hm i hi
  have mrh : ∀ i, H.DM_REPORT_OUTPUT_MASK.testBit i = true →
      RH_SORT_REQUIRED.testBit i = false := by
    intro i hi
    have := and_eq_zero_bits hr i
    cases hx : RH_SORT_REQUIRED.testBit i
    · rfl
    · exact absurd ⟨hi, hx⟩ this
  refine ⟨?_, ?_, ?_⟩
  · by_cases hob : o &&& H.DM_REPORT_OUTPUT_BUFFERED = 0
    · obtain ⟨i, hi⟩ := Nat.ne_zero_implies_bit_true hb0
      have hM := and_eq_left_bits hbm i hi
      have h32 := m32 i hM
      have hA : H.DM_REPORT_OUTPUT_ALIGNED.testBit i = false := by
        have := and_eq_zero_bits hba i
        cases hx : H.DM_REPORT_OUTPUT_ALIGNED.testBit i
        · rfl
        · exact absurd ⟨hi, hx⟩ this
      apply ne_zero_of_testBit i
      rw [Nat.testBit_and, init_flags_testBit]
      simp [hi, hA, h32, hob, hcar]
    · obtain ⟨i, hi⟩ := Nat.ne_zero_implies_bit_true hob
      rw [Nat.testBit_and] at hi
      simp only [Bool.and_eq_true] at hi
      have hM := and_eq_left_bits hbm i hi.2
      have h32 := m32 i hM
      have hA : H.DM_REPORT_OUTPUT_ALIGNED.testBit i = false := by
        have := and_eq_zero_bits hba i
        cases hx : H.DM_REPORT_OUTPUT_ALIGNED.testBit i
        · rfl
        · exact absurd ⟨hi.2, hx⟩ this
      apply ne_zero_of_testBit i
      rw [Nat.testBit_and, init_flags_testBit]
      simp [hi.1, hi.2, hM, hA, h32]
  · apply and_eq_zero_of_bits
    intro i ⟨hf, hA⟩
    have hM := and_eq_left_bits ham i hA
    have h32 := m32 i hM
    have hR := mrh i hM
    have hB : H.DM_REPORT_OUTPUT_BUFFERED.testBit i = false := by
      have := and_eq_zero_bits hba i
      cases hx : H.DM_REPORT_OUTPUT_BUFFERED.testBit i
      · rfl
      · exact absurd ⟨hx, hA⟩ this
    rw [init_flags_testBit] at hf
    by_cases hoa : o &&& H.DM_REPORT_OUTPUT_ALIGNED = 0
    · have ho : o.testBit i = false := by
        have := and_eq_zero_bits hoa i
        cases hx : o.testBit i
        · rfl
        · exact absurd ⟨hx, hA⟩ this
      simp [hA, hM, h32, hR, hB, ho] at hf
    · simp [hA, hM, h32, hR, hB, hoa, hcar] at hf
  · intro F hFM hFB hFA
    apply Nat.eq_of_testBit_eq
    intro i
    rw [Nat.testBit_and, Nat.testBit_and, init_flags_testBit]
    cases hF : F.testBit i
    · simp
    · have hM := and_eq_left_bits hFM i hF
      have h32 := m32 i hM
      have hR := mrh i hM
      have hB : H.DM_REPORT_OUTPUT_BUFFERED.testBit i = false := by
        have := and_eq_zero_bits hFB i
        cases hx : H.DM_REPORT_OUTPUT_BUFFERED.testBit i
        · rfl
        · exact absurd ⟨hF, hx⟩ this
      have hA : H.DM_REPORT_OUTPUT_ALIGNED.testBit i = false := by
        have := and_eq_zero_bits hFA i
        cases hx : H.DM_REPORT_OUTPUT_ALIGNED.testBit i
        · rfl
        · exact absurd ⟨hF, hx⟩ this
      simp [hM, h32, hR, hB, hA]

/-- C19. Let the output flags passed to `dm_report_init` ask for the layout
`DM_REPORT_OUTPUT_COLUMNS_AS_ROWS`. Then the handle returned has
`DM_REPORT_OUTPUT_BUFFERED` set and `DM_REPORT_OUTPUT_ALIGNED` clear, whatever was passed for
the two, and every other flag of the output mask is in the handle as it was passed. The
header is taken to put the two flags inside the output mask, apart from each other, and the
mask inside 32 bits and apart from the internal flag `RH_SORT_REQUIRED`. -/
theorem columns_as_rows_buffers_unaligned (H : libdevmapper_h) (report_types : Option Nat)
    (types : List dm_report_object_type) (fields : List dm_report_field_type)
    (output_fields output_separator : cstr) (output_flags : Nat) (sort_keys : Option cstr)
    (private_data : Nat) (rh : dm_report)
    (hm : H.DM_REPORT_OUTPUT_MASK < 4294967296)
    (hr : H.DM_REPORT_OUTPUT_MASK &&& RH_SORT_REQUIRED = 0)
    (hbm : H.DM_REPORT_OUTPUT_BUFFERED &&& H.DM_REPORT_OUTPUT_MASK = H.DM_REPORT_OUTPUT_BUFFERED)
    (ham : H.DM_REPORT_OUTPUT_ALIGNED &&& H.DM_REPORT_OUTPUT_MASK = H.DM_REPORT_OUTPUT_ALIGNED)
    (hb0 : H.DM_REPORT_OUTPUT_BUFFERED ≠ 0)
    (hba : H.DM_REPORT_OUTPUT_BUFFERED &&& H.DM_REPORT_OUTPUT_ALIGNED = 0)
    (hcar : output_flags &&& H.DM_REPORT_OUTPUT_COLUMNS_AS_ROWS ≠ 0)
    (hinit : dm_report_init H report_types types fields output_fields output_separator
      output_flags sort_keys private_data = some (some rh)) :
    rh.flags &&& H.DM_REPORT_OUTPUT_BUFFERED ≠ 0 ∧
      rh.flags &&& H.DM_REPORT_OUTPUT_ALIGNED = 0 ∧
      ∀ F, F &&& H.DM_REPORT_OUTPUT_MASK = F → F &&& H.DM_REPORT_OUTPUT_BUFFERED = 0 →
        F &&& H.DM_REPORT_OUTPUT_ALIGNED = 0 → rh.flags &&& F = output_flags &&& F := by
  rw [(init_frame hinit).1]
  exact init_flags_columns_as_rows H output_flags hm hr hbm ham hb0 hba hcar

/-- C19 at the sample header: the flags `COLUMNS_AS_ROWS | HEADINGS | ALIGNED` give a handle
with the flags `COLUMNS_AS_ROWS | HEADINGS | BUFFERED`. -/
theorem columns_as_rows_buffers_unaligned_witness :
    sample_rows_layout.flags = 0x26 ∧
      sample_rows_layout.flags &&& sample_h.DM_REPORT_OUTPUT_BUFFERED ≠ 0 ∧
      sample_rows_layout.flags &&& sample_h.DM_REPORT_OUTPUT_ALIGNED = 0 ∧
      sample_rows_layout.flags &&& 0x24 = 0x25 &&& 0x24 := by
  have T := columns_as_rows_buffers_unaligned sample_h (some 1) sample_types sample_fields
    "name,size".toList " ".toList 0x25 none 0 sample_rows_layout (by decide) (by decide)
    (by decide) (by decide) (by decide) (by decide) (by decide) (join_some_get _)
  exact ⟨by decide, T.1, T.2.1, T.2.2 0x24 (by decide) (by decide) (by decide)⟩

/-! ## The text of one field -/

theorem snprintf_left_length (w : Nat) (s : cstr) : (snprintf_left w s).length = w := by
  unfold snprintf_left
  simp only [List.length_append, List.length_replicate, List.length_take]
  omega

theorem snprintf_right_length (w : Nat) (s : cstr) : (snprintf_right w s).length = w := by
  unfold snprintf_right
  simp only [List.length_append, List.length_replicate, List.length_take]
  omega

theorem snprintf_left_fits (w : Nat) (s : cstr) (h : s.length ≤ w) :
    snprintf_left w s = s ++ List.replicate (w - s.length) ' ' := by
  unfold snprintf_left
  rw [List.take_of_length_le h]

theorem snprintf_right_fits (w : Nat) (s : cstr) (h : s.length ≤ w) :
    snprintf_right w s = List.replicate (w - s.length) ' ' ++ s := by
  unfold snprintf_right
  rw [List.take_of_length_le h]

theorem and_mask_and (x m f : Nat) (h : f &&& m = f) : (x &&& m) &&& f = x &&& f := by
  rw [Nat.and_assoc, Nat.and_comm m f, h]

theorem output_field_plain {H : libdevmapper_h} {rh : dm_report} {field : dm_report_field}
    {props : field_properties} (hp : rh.field_props[field.props]? = some props)
    (hn : rh.flags &&& H.DM_REPORT_OUTPUT_FIELD_NAME_PREFIX = 0)
    (ha : rh.flags &&& H.DM_REPORT_OUTPUT_ALIGNED = 0) :
    _output_field H rh field = some field.report_string := by
  unfold _output_field
  simp [hp, hn, ha]

theorem output_field_aligned {H : libdevmapper_h} {rh : dm_report} {field : dm_report_field}
    {props : field_properties} (hp : rh.field_props[field.props]? = some props)
    (hn : rh.flags &&& H.DM_REPORT_OUTPUT_FIELD_NAME_PREFIX = 0)
    (ha : rh.flags &&& H.DM_REPORT_OUTPUT_ALIGNED ≠ 0) (hw : 0 ≤ props.width) :
    _output_field H rh field =
      if (if props.flags &&& H.DM_REPORT_FIELD_ALIGN_MASK = 0 then
            (if props.flags &&& H.DM_REPORT_FIELD_TYPE_NUMBER ≠ 0 ∨
                props.flags &&& H.DM_REPORT_FIELD_TYPE_SIZE ≠ 0 then
              H.DM_REPORT_FIELD_ALIGN_RIGHT else H.DM_REPORT_FIELD_ALIGN_LEFT)
          else props.flags &&& H.DM_REPORT_FIELD_ALIGN_MASK) &&&
          H.DM_REPORT_FIELD_ALIGN_LEFT ≠ 0 then
        some (snprintf_left props.width.toNat field.report_string)
      else if (if props.flags &&& H.DM_REPORT_FIELD_ALIGN_MASK = 0 then
            (if props.flags &&& H.DM_REPORT_FIELD_TYPE_NUMBER ≠ 0 ∨
                props.flags &&& H.DM_REPORT_FIELD_TYPE_SIZE ≠ 0 then
              H.DM_REPORT_FIELD_ALIGN_RIGHT else H.DM_REPORT_FIELD_ALIGN_LEFT)
          else props.flags &&& H.DM_REPORT_FIELD_ALIGN_MASK) &&&
          H.DM_REPORT_FIELD_ALIGN_RIGHT ≠ 0 then
        some (snprintf_right props.width.toNat field.report_string)
      else some [] := by
  unfold _output_field
  have hw1 : ¬ props.width < 0 := by omega
  simp only [hp, hn, ha, hw1, bne_self_eq_false, Bool.false_and, Bool.false_eq_true, if_false,
    List.nil_append, List.append_nil]
  split_ifs <;> rfl

/-- C16. In a handle with `DM_REPORT_OUTPUT_ALIGNED` (and without field name prefixes), the
text `_output_field` emits for a field whose selection has the width `width`, not negative,
is the report string put into exactly `width` characters by `snprintf`, padded with spaces:
on the left side of the column when the selection carries `DM_REPORT_FIELD_ALIGN_LEFT` or,
with no alignment bit, is neither number nor size; on the right side when it carries
`DM_REPORT_FIELD_ALIGN_RIGHT` (and not the left flag, which wins) or, with no alignment bit,
is a number or a size. The header is taken to define the two flags as bits of the alignment
mask that differ. -/
theorem aligned_field_width (H : libdevmapper_h) (rh : dm_report) (field : dm_report_field)
    (props : field_properties)
    (hl0 : H.DM_REPORT_FIELD_ALIGN_LEFT ≠ 0) (hr0 : H.DM_REPORT_FIELD_ALIGN_RIGHT ≠ 0)
    (hlr : H.DM_REPORT_FIELD_ALIGN_RIGHT &&& H.DM_REPORT_FIELD_ALIGN_LEFT = 0)
    (hlm : H.DM_REPORT_FIELD_ALIGN_LEFT &&& H.DM_REPORT_FIELD_ALIGN_MASK =
      H.DM_REPORT_FIELD_ALIGN_LEFT)
    (hrm : H.DM_REPORT_FIELD_ALIGN_RIGHT &&& H.DM_REPORT_FIELD_ALIGN_MASK =
      H.DM_REPORT_FIELD_ALIGN_RIGHT)
    (hp : rh.field_props[field.props]? = some props)
    (hn : rh.flags &&& H.DM_REPORT_OUTPUT_FIELD_NAME_PREFIX = 0)
    (ha : rh.flags &&& H.DM_REPORT_OUTPUT_ALIGNED ≠ 0) (hw : 0 ≤ props.width) :
    ((props.flags &&& H.DM_REPORT_FIELD_ALIGN_LEFT ≠ 0 ∨
        (props.flags &&& H.DM_REPORT_FIELD_ALIGN_MASK = 0 ∧ ¬ is_numeric H props.flags)) →
      _output_field H rh field =
        some (snprintf_left props.width.toNat field.report_string)) ∧
    (((props.flags &&& H.DM_REPORT_FIELD_ALIGN_RIGHT ≠ 0 ∧
          props.flags &&& H.DM_REPORT_FIELD_ALIGN_LEFT = 0) ∨
        (props.flags &&& H.DM_REPORT_FIELD_ALIGN_MASK = 0 ∧ is_numeric H props.flags)) →
      _output_field H rh field =
        some (snprintf_right props.width.toNat field.report_string)) ∧
    (snprintf_left props.width.toNat field.report_string).length = props.width.toNat ∧
    (snprintf_right props.width.toNat field.report_string).length = props.width.toNat ∧
    (field.report_string.length ≤ props.width.toNat →
      snprintf_left props.width.toNat field.report_string =
        field.report_string ++
          List.replicate (props.width.toNat - field.report_string.length) ' ' ∧
      snprintf_right props.width.toNat field.report_string =
        List.replicate (props.width.toNat - field.report_string.length) ' ' ++
          field.report_string) := by
  have e := output_field_aligned hp hn ha hw
  have eL := and_mask_and props.flags _ _ hlm
  have eR := and_mask_and props.flags _ _ hrm
  refine ⟨?_, ?_, snprintf_left_length _ _, snprintf_right_length _ _,
    fun h => ⟨snprintf_left_fits _ _ h, snprintf_right_fits _ _ h⟩⟩
  · rintro (hL | ⟨h0, hnum⟩)
    · have hm : ¬ props.flags &&& H.DM_REPORT_FIELD_ALIGN_MASK = 0 := by
        intro h0
        rw [h0, Nat.zero_and] at eL
        exact hL eL.symm
      rw [e, if_neg hm, eL, if_pos hL]
    · unfold is_numeric at hnum
      rw [e, if_pos h0, if_neg hnum, Nat.and_self, if_pos hl0]
  · rintro (⟨hR, hL⟩ | ⟨h0, hnum⟩)
    · have hm : ¬ props.flags &&& H.DM_REPORT_FIELD_ALIGN_MASK = 0 := by
        intro h0
        rw [h0, Nat.zero_and] at eR
        exact hR eR.symm
      rw [e, if_neg hm, eL, eR, if_neg (by simpa using hL), if_pos hR]
    · unfold is_numeric at hnum
      rw [e, if_pos h0, if_pos hnum, hlr, Nat.and_self, if_neg (by simp), if_pos hr0]

/-- C16 at the session `sample_aligned`: the name `x` is emitted in the four characters of
its column, on the left, as a field that is neither number nor size, and the size `10` in
the two characters of its column, on the right, as a number. -/
theorem aligned_field_width_witness :
    _output_field sample_h sample_aligned sample_x_name = some "x   ".toList ∧
      _output_field sample_h sample_aligned sample_x_size = some "10".toList := by
  have T1 := aligned_field_width sample_h sample_aligned sample_x_name sample_name_props
    (by decide) (by decide) (by decide) (by decide) (by decide) rfl (by decide)
    (by decide) (by decide)
  have T2 := aligned_field_width sample_h sample_aligned sample_x_size sample_size_props
    (by decide) (by decide) (by decide) (by decide) (by decide) rfl (by decide)
    (by decide) (by decide)
  refine ⟨?_, ?_⟩
  · rw [T1.1 (Or.inr ⟨by decide, by unfold is_numeric; decide⟩)]
    decide
  · rw [T2.2.1 (Or.inr ⟨by decide, by unfold is_numeric; decide⟩)]
    decide

theorem output_field_eq (H : libdevmapper_h) (rh : dm_report) (field : dm_report_field) :
    _output_field H rh field =
      match rh.field_props[field.props]? with
      | none => none
      | some props =>
        match output_head H rh props, field_value H rh props field with
        | some h, some b => some (h ++ b ++ output_quote H rh)
        | _, _ => none := rfl

theorem output_field_unnamed {H : libdevmapper_h} {rh : dm_report} {field : dm_report_field}
    {props : field_properties} (hp : rh.field_props[field.props]? = some props)
    (hn : rh.flags &&& H.DM_REPORT_OUTPUT_FIELD_NAME_PREFIX = 0) :
    _output_field H rh field = field_value H rh props field := by
  rw [output_field_eq, hp]
  have h1 : output_head H rh props = some [] := by
    unfold output_head
    simp [hn]
  have h2 : output_quote H rh = [] := by
    unfold output_quote
    simp [hn]
  simp only
  rw [h1, h2]
  cases field_value H rh props field <;> simp

theorem output_field_named {H : libdevmapper_h} {rh : dm_report} {field : dm_report_field}
    {props : field_properties} {ft : dm_report_field_type} {p : cstr}
    (hp : rh.field_props[field.props]? = some props)
    (hft : rh.fields[props.field_num]? = some ft)
    (hpre : rh.output_field_name_prefix = some p)
    (hn : rh.flags &&& H.DM_REPORT_OUTPUT_FIELD_NAME_PREFIX ≠ 0) :
    _output_field H rh field =
      (field_value H rh props field).map
        (fun b => p ++ _toupperstr ft.id ++ ['='] ++ output_quote H rh ++ b ++
          output_quote H rh) := by
  rw [output_field_eq, hp]
  have h1 : output_head H rh props =
      some (p ++ _toupperstr ft.id ++ ['='] ++ output_quote H rh) := by
    unfold output_head
    simp [hn, hft, hpre]
  simp only
  rw [h1]
  cases field_value H rh props field <;> simp

theorem field_value_congr {H : libdevmapper_h} {rh : dm_report} (f0 : Nat)
    (props : field_properties) (field : dm_report_field)
    (h : f0 &&& H.DM_REPORT_OUTPUT_ALIGNED = rh.flags &&& H.DM_REPORT_OUTPUT_ALIGNED) :
    field_value H { rh with flags := f0 } props field = field_value H rh props field := by
  unfold field_value
  simp only [h]

/-- C20. Let `pfx` be the output prefix configured with
`dm_report_set_output_field_name_prefix`, which stores its upper-cased copy in the handle. In
a handle with `DM_REPORT_OUTPUT_FIELD_NAME_PREFIX`, the text `_output_field` emits for a field
is the upper-cased prefix, the upper-cased id of the registry field, `=`, and the value
between two single quotes, the value being the text emitted for the field without the flag;
with `DM_REPORT_OUTPUT_FIELD_UNQUOTED` the two quotes are left out and the rest is the same. -/
theorem named_field_text (H : libdevmapper_h) (rh : dm_report) (pfx : cstr)
    (field : dm_report_field) (props : field_properties) (ft : dm_report_field_type)
    (f0 : Nat) (value : cstr)
    (hp : rh.field_props[field.props]? = some props)
    (hft : rh.fields[props.field_num]? = some ft)
    (hpre : rh.output_field_name_prefix = some (_toupperstr pfx))
    (hn : rh.flags &&& H.DM_REPORT_OUTPUT_FIELD_NAME_PREFIX ≠ 0)
    (hf0n : f0 &&& H.DM_REPORT_OUTPUT_FIELD_NAME_PREFIX = 0)
    (hf0a : f0 &&& H.DM_REPORT_OUTPUT_ALIGNED = rh.flags &&& H.DM_REPORT_OUTPUT_ALIGNED)
    (hv : _output_field H { rh with flags := f0 } field = some value) :
    (∀ r, dm_report.output_field_name_prefix ( dm_report_set_output_field_name_prefix r pfx).1 =
      some (_toupperstr pfx) ∧ ( dm_report_set_output_field_name_prefix r pfx).2 = 1) ∧
    (rh.flags &&& H.DM_REPORT_OUTPUT_FIELD_UNQUOTED = 0 →
      _output_field H rh field =
        some (_toupperstr pfx ++ _toupperstr ft.id ++ ['='] ++ [Char.ofNat 39] ++ value ++
          [Char.ofNat 39])) ∧
    (rh.flags &&& H.DM_REPORT_OUTPUT_FIELD_UNQUOTED ≠ 0 →
      _output_field H rh field =
        some (_toupperstr pfx ++ _toupperstr ft.id ++ ['='] ++ value)) := by
  have hval : field_value H rh props field = some value := by
    rw [← field_value_congr f0 props field hf0a, ← hv]
    exact (@output_field_unnamed H { rh with flags := f0 } _ _ hp hf0n).symm
  have e := output_field_named hp hft hpre hn
  rw [hval] at e
  refine ⟨fun r => ⟨rfl, rfl⟩, ?_, ?_⟩
  · intro hq
    have hquote : output_quote H rh = [Char.ofNat 39] := by
      unfold output_quote
      simp [hn, hq]
    rw [e, hquote]
    rfl
  · intro hq
    have hquote : output_quote H rh = [] := by
      unfold output_quote
      simp [hq]
    rw [e, hquote]
    simp

/-- C20 at the session `sample_named`, with the output prefix `lvm2_` and aligned columns:
the size of the row of `x` is emitted as `LVM2_LV_SIZE='10'`, and as `LVM2_LV_SIZE=10` when
quotes are switched off. -/
theorem named_field_text_witness :
    _output_field sample_h sample_named sample_x_size = some "LVM2_LV_SIZE='10'".toList ∧
      _output_field sample_h { sample_named with flags := sample_named.flags ||| 0x10 }
        sample_x_size = some "LVM2_LV_SIZE=10".toList := by
  have T1 := named_field_text sample_h sample_named "lvm2_".toList sample_x_size
    sample_size_props sample_size_field 1 "10".toList (by rfl)
    (by rfl) (by rfl) (by decide) (by decide) (by decide) (by decide)
  have T2 := named_field_text sample_h
    { sample_named with flags := sample_named.flags ||| 0x10 } "lvm2_".toList sample_x_size
    sample_size_props sample_size_field 1 "10".toList (by rfl)
    (by rfl) (by rfl) (by decide) (by decide) (by decide) (by decide)
  refine ⟨?_, ?_⟩
  · rw [T1.2.1 (by decide)]
    decide
  · rw [T2.2.2 (by decide)]
    decide

/-! ## Lines of the column layout -/

theorem join_with_intercalate (sep : cstr) (l : List cstr) :
    join_with sep l = sep.intercalate l := by
  induction l with
  | nil => rfl
  | cons s rest ih =>
    cases rest with
    | nil => simp [join_with, List.intercalate]
    | cons t rest =>
      rw [join_with, ih]
      simp [List.intercalate, List.intersperse]

theorem columns_line_visible (H : libdevmapper_h) (rh : dm_report)
    (g : dm_report_field → cstr) :
    ∀ fs : List dm_report_field,
      (∀ f ∈ fs, cell_visible rh f = true ∧ _output_field H rh f = some (g f)) →
      _output_as_columns_line H rh fs = some (join_with rh.separator (fs.map g)) := by
  intro fs
  induction fs with
  | nil => intro _; rfl
  | cons f rest ih =>
    intro h
    obtain ⟨hv, ho⟩ := h f (List.mem_cons_self _ _)
    have ih1 := ih (fun x hx => h x (List.mem_cons_of_mem _ hx))
    unfold cell_visible at hv
    rw [_output_as_columns_line]
    cases hp : rh.field_props[f.props]? with
    | none => simp [hp] at hv
    | some p =>
      simp only [hp, decide_eq_true_eq] at hv
      simp only
      rw [if_neg (by simp [hv]), ho, ih1]
      simp only [List.map_cons, join_with]
      cases rest <;> simp

theorem columns_line_hidden_first (H : libdevmapper_h) (rh : dm_report)
    (g : dm_report_field → cstr) (hh : hidden_first rh.field_props) :
    ∀ (fs : List dm_report_field) (k : Nat),
      (∀ (i : Nat) (f : dm_report_field), fs[i]? = some f →
        f.props = k + i ∧ k + i < rh.field_props.length) →
      (∀ f ∈ fs, cell_visible rh f = true → _output_field H rh f = some (g f)) →
      _output_as_columns_line H rh fs =
        some (join_with rh.separator ((fs.filter (cell_visible rh)).map g)) := by
  intro fs
  induction fs with
  | nil => intro _ _ _; rfl
  | cons f rest ih =>
    intro k hidx hout
    obtain ⟨hf, hlt⟩ := hidx 0 f (by simp)
    simp only [Nat.add_zero] at hf hlt
    have hidx1 : ∀ (i : Nat) (x : dm_report_field), rest[i]? = some x →
        x.props = (k + 1) + i ∧ (k + 1) + i < rh.field_props.length := by
      intro i x hx
      have := hidx (i + 1) x (by simpa using hx)
      omega
    have hout1 := fun x hx => hout x (List.mem_cons_of_mem _ hx)
    obtain ⟨p, hp⟩ : ∃ p, rh.field_props[f.props]? = some p :=
      ⟨rh.field_props[f.props], List.getElem?_eq_getElem (by omega)⟩
    by_cases hv : p.flags &&& FLD_HIDDEN = 0
    · have hvis : cell_visible rh f = true := by
        unfold cell_visible
        simp [hp, hv]
      have hall : ∀ x ∈ f :: rest, cell_visible rh x = true ∧
          _output_field H rh x = some (g x) := by
        intro x hx
        have hxv : cell_visible rh x = true := by
          rcases List.mem_cons.1 hx with rfl | hx1
          · exact hvis
          · obtain ⟨i, hi⟩ := List.getElem?_of_mem hx1
            obtain ⟨e1, e2⟩ := hidx1 i x hi
            unfold cell_visible
            have hq : rh.field_props[x.props]? = some rh.field_props[x.props] :=
              List.getElem?_eq_getElem (by omega)
            rw [hq]
            simp only [decide_eq_true_eq]
            by_contra hc
            have hpw := List.pairwise_iff_getElem.1 hh f.props x.props (by omega) (by omega)
              (by omega) hc
            have e3 : rh.field_props[f.props] = p := by
              have := List.getElem?_eq_getElem (l := rh.field_props) (n := f.props) (by omega)
              rw [hp] at this
              simp only [Option.some.injEq] at this
              exact this.symm
            rw [e3] at hpw
            exact hpw hv
        exact ⟨hxv, hout x hx hxv⟩
      rw [columns_line_visible H rh g (f :: rest) hall]
      congr 2
      rw [List.filter_eq_self.2 (fun x hx => (hall x hx).1)]
    · rw [_output_as_columns_line]
      simp only [hp]
      rw [if_pos hv, ih (k + 1) hidx1 hout1]
      have hnv : cell_visible rh f = false := by
        unfold cell_visible
        simp [hp, hv]
      rw [List.filter_cons_of_neg (by simp [hnv])]
theorem add_cell_fields {rh : dm_report} {fp1 : field_properties} {field : dm_report_field}
    {r r1 : row} (hc : add_cell rh fp1 field r = some r1) :
    r1.fields = r.fields ++ [field] := by
  unfold add_cell at hc
  split at hc
  · split at hc
    · exact absurd hc (by simp)
    · split at hc
      · simp only [Option.some.injEq] at hc
        rw [← hc]
      · exact absurd hc (by simp)
  · simp only [Option.some.injEq] at hc
    rw [← hc]

theorem object_loop_indexed (rh : dm_report) (object : Nat) :
    ∀ (todo done : List field_properties) (r r1 : row) (props : List field_properties)
      (ok : Bool),
      r.fields.length = done.length →
      (∀ (j : Nat) (f : dm_report_field), r.fields[j]? = some f → f.props = j) →
      dm_report_object_loop rh object done todo r = some (props, r1, ok) →
        r1.fields.length ≤ done.length + todo.length ∧
        (ok = true → r1.fields.length = done.length + todo.length) ∧
        ∀ (j : Nat) (f : dm_report_field), r1.fields[j]? = some f → f.props = j := by
  intro todo
  induction todo with
  | nil =>
    intro done r r1 props ok hlen hidx h
    rw [object_loop_nil] at h
    simp only [Option.some.injEq, Prod.mk.injEq] at h
    rw [← h.2.1]
    exact ⟨by simp [hlen], fun _ => by simp [hlen], hidx⟩
  | cons fp todo ih =>
    intro done r r1 props ok hlen hidx h
    rcases object_loop_cons rh object fp todo done r _ h with ⟨_, he⟩ | ⟨s, v, r2, _, hc, hl⟩
    · simp only [Prod.mk.injEq] at he
      rw [he.2.1]
      refine ⟨by simp [hlen], fun hk => ?_, hidx⟩
      rw [he.2.2] at hk
      exact absurd hk (by simp)
    · have hf := add_cell_fields hc
      have hlen2 : r2.fields.length = (done ++ [fold_width fp s]).length := by
        rw [hf]
        simp [hlen]
      have hidx2 : ∀ (j : Nat) (f : dm_report_field), r2.fields[j]? = some f →
          f.props = j := by
        intro j f hj
        rw [hf] at hj
        rcases getElem?_snoc_cases _ _ _ _ hj with ⟨_, hd⟩ | ⟨he, hfe⟩
        · exact hidx j f hd
        · rw [hfe, he, hlen]
      obtain ⟨i1, i2, i3⟩ := ih _ _ _ _ _ hlen2 hidx2 hl
      simp only [List.length_append, List.length_singleton, List.length_cons, List.length_nil] at i1 i2 ⊢
      exact ⟨by omega, fun hk => by have := i2 hk; omega, i3⟩

theorem forall₂_grows_length {l l1 : List field_properties}
    (h : List.Forall₂ selection_grows l l1) : l1.length = l.length :=
  (List.Forall₂.length_eq h).symm

theorem report_object_loop_row {rh : dm_report} {object : Nat}
    {props : List field_properties} {r1 : row} {ok : Bool}
    (hl : dm_report_object_loop rh object [] rh.field_props (new_row rh) =
      some (props, r1, ok)) :
    props.length = rh.field_props.length ∧
      row_indexed { rh with field_props := props, rows := rh.rows ++ [r1] } r1 ∧
      (ok = true → r1.fields.length = rh.field_props.length) := by
  obtain ⟨todo1, hp, hf⟩ := object_loop_grows rh object _ _ _ _ _ _ hl
  simp only [List.nil_append] at hp
  subst hp
  have hlen := forall₂_grows_length hf
  obtain ⟨i1, i2, i3⟩ := object_loop_indexed rh object _ _ _ _ _ _ rfl
    (by intro j f hj; simp [new_row] at hj) hl
  simp only [List.length_nil, Nat.zero_add] at i1 i2
  refine ⟨hlen, ?_, i2⟩
  intro j f hj
  refine ⟨i3 j f hj, ?_⟩
  have : j < r1.fields.length := by
    by_contra hc
    rw [List.getElem?_eq_none (by omega)] at hj
    exact absurd hj (by simp)
  show j < props.length
  omega

/-! ## Heading lines and row lines of a call -/

theorem output_as_columns_parts (H : libdevmapper_h) (rh : dm_report) :
    (_output_as_columns H rh).map (fun out => (out.ret, out.printed, out.rh)) =
      (column_parts H rh).map (fun p => ((1 : Int), p.1 ++ p.2.1, some p.2.2)) := by
  unfold _output_as_columns column_parts
  cases (if rh.flags &&& RH_HEADINGS_PRINTED = 0 then _report_headings H rh
    else some (rh, [])) with
  | none => rfl
  | some x =>
    obtain ⟨rh1, heading⟩ := x
    simp only
    cases _output_as_columns_rows H rh1 rh1.rows <;> rfl

theorem report_output_parts (H : libdevmapper_h)
    (qsort : (row → row → Int) → List row → List row) (rh : dm_report) :
    (dm_report_output H qsort rh).map (fun out => (out.ret, out.printed, out.rh)) =
      (output_parts H qsort rh).map (fun p => ((1 : Int), p.1 ++ p.2.1, some p.2.2)) := by
  unfold dm_report_output output_parts
  by_cases he : rh.rows.isEmpty = true
  · rw [if_pos he, if_pos he]
    rfl
  · rw [if_neg he, if_neg he]
    cases (if rh.flags &&& RH_SORT_REQUIRED ≠ 0 then _sort_rows H qsort rh else some rh) with
    | none => rfl
    | some rh1 =>
      simp only
      by_cases hc : rh1.flags &&& H.DM_REPORT_OUTPUT_COLUMNS_AS_ROWS ≠ 0
      · rw [if_pos hc, if_pos hc]
        unfold _output_as_rows
        cases _output_as_rows_loop H rh1 rh1.field_props rh1.rows with
        | none => rfl
        | some x => rfl
      · rw [if_neg hc, if_neg hc]
        exact output_as_columns_parts H rh1

theorem report_object_parts (H : libdevmapper_h)
    (qsort : (row → row → Int) → List row → List row) (rh : dm_report) (object : Nat) :
    (dm_report_object H qsort (some rh) object).map
        (fun out => (out.printed, out.rh)) =
      (object_parts H qsort rh object).map (fun p => (p.1 ++ p.2.1, some p.2.2)) := by
  rw [report_object_eq]
  unfold object_parts
  cases dm_report_object_loop rh object [] rh.field_props (new_row rh) with
  | none => rfl
  | some x =>
    obtain ⟨props, r1, ok⟩ := x
    simp only
    cases ok with
    | false => rfl
    | true =>
      simp only [Bool.true_eq_false, if_false]
      by_cases hb : rh.flags &&& H.DM_REPORT_OUTPUT_BUFFERED = 0
      · rw [if_pos hb, if_pos hb]
        have := report_output_parts H qsort
          { rh with field_props := props, rows := rh.rows ++ [r1] }
        cases h1 : dm_report_output H qsort
            { rh with field_props := props, rows := rh.rows ++ [r1] } <;>
          cases h2 : output_parts H qsort
            { rh with field_props := props, rows := rh.rows ++ [r1] } <;>
          rw [h1, h2] at this <;> simp at this ⊢
        exact ⟨this.2.1, this.2.2⟩
      · rw [if_neg hb, if_neg hb]
        rfl
theorem report_headings_eq {H : libdevmapper_h} {rh rh1 : dm_report} {l : List cstr}
    (h : _report_headings H rh = some (rh1, l)) :
    (rh1 = rh ∨ rh1 = { rh with flags := rh.flags ||| RH_HEADINGS_PRINTED }) ∧
      l.length ≤ 1 ∧ (l ≠ [] → rh.flags &&& RH_HEADINGS_PRINTED = 0) := by
  unfold _report_headings at h
  split at h
  · simp only [Option.some.injEq, Prod.mk.injEq] at h
    rw [← h.1, ← h.2]
    exact ⟨Or.inl rfl, by simp, fun hx => absurd rfl hx⟩
  · rename_i hclear
    simp only at h
    split at h
    · simp only [Option.some.injEq, Prod.mk.injEq] at h
      rw [← h.1, ← h.2]
      exact ⟨Or.inr rfl, by simp, fun hx => absurd rfl hx⟩
    · split at h
      · exact absurd h (by simp)
      · simp only [Option.some.injEq, Prod.mk.injEq] at h
        rw [← h.1, ← h.2]
        exact ⟨Or.inr rfl, by simp, fun _ => by simpa using hclear⟩

theorem and_or_disjoint (x y z : Nat) (h : z &&& y = 0) : (x ||| y) &&& z = x &&& z := by
  rw [Nat.and_distrib_right, Nat.and_comm y z, h, Nat.or_zero]

theorem spec_column_line_flags (rh : dm_report) (f : Nat) (r : row) :
    spec_column_line { rh with flags := f } r = spec_column_line rh r := rfl

theorem row_indexed_flags (rh : dm_report) (f : Nat) (r : row) (h : row_indexed rh r) :
    row_indexed { rh with flags := f } r := h

theorem output_as_columns_rows_lines (H : libdevmapper_h) (rh : dm_report)
    (hh : hidden_first rh.field_props)
    (hn : rh.flags &&& H.DM_REPORT_OUTPUT_FIELD_NAME_PREFIX = 0)
    (ha : rh.flags &&& H.DM_REPORT_OUTPUT_ALIGNED = 0) :
    ∀ rows : List row, (∀ r ∈ rows, row_indexed rh r) →
      _output_as_columns_rows H rh rows = some (rows.map (spec_column_line rh)) := by
  intro rows
  induction rows with
  | nil => intro _; rfl
  | cons r rest ih =>
    intro hidx
    have h1 := columns_line_hidden_first H rh (fun f => f.report_string) hh r.fields 0
      (by
        intro i f hf
        have := hidx r (List.mem_cons_self _ _) i f hf
        omega)
      (by
        intro f _ hv
        unfold cell_visible at hv
        cases hp : rh.field_props[f.props]? with
        | none => simp [hp] at hv
        | some p => exact output_field_plain hp hn ha)
    rw [_output_as_columns_rows, h1, ih (fun x hx => hidx x (List.mem_cons_of_mem _ hx))]
    rfl

theorem column_parts_lines {H : libdevmapper_h} {rh rh1 : dm_report} {hs ls : List cstr}
    (hhp : H.DM_REPORT_OUTPUT_FIELD_NAME_PREFIX &&& RH_HEADINGS_PRINTED = 0)
    (hha : H.DM_REPORT_OUTPUT_ALIGNED &&& RH_HEADINGS_PRINTED = 0)
    (hh : hidden_first rh.field_props) (hidx : ∀ r ∈ rh.rows, row_indexed rh r)
    (hn : rh.flags &&& H.DM_REPORT_OUTPUT_FIELD_NAME_PREFIX = 0)
    (ha : rh.flags &&& H.DM_REPORT_OUTPUT_ALIGNED = 0)
    (h : column_parts H rh = some (hs, ls, rh1)) :
    ls = rh.rows.map (spec_column_line rh) ∧ hs.length ≤ 1 := by
  unfold column_parts at h
  split at h
  · exact absurd h (by simp)
  · rename_i rh2 heading hhead
    have hfacts : (rh2 = rh ∨ rh2 = { rh with flags := rh.flags ||| RH_HEADINGS_PRINTED }) ∧
        heading.length ≤ 1 := by
      split at hhead
      · exact ⟨(report_headings_eq hhead).1, (report_headings_eq hhead).2.1⟩
      · simp only [Option.some.injEq, Prod.mk.injEq] at hhead
        rw [← hhead.1, ← hhead.2]
        exact ⟨Or.inl rfl, by simp⟩
    have hlines : _output_as_columns_rows H rh2 rh2.rows =
        some (rh.rows.map (spec_column_line rh)) := by
      rcases hfacts.1 with e | e
      · rw [e]
        exact output_as_columns_rows_lines H rh hh hn ha rh.rows hidx
      · rw [e]
        exact output_as_columns_rows_lines H
          { rh with flags := rh.flags ||| RH_HEADINGS_PRINTED } hh
          (by show (rh.flags ||| RH_HEADINGS_PRINTED) &&& _ = 0
              rw [and_or_disjoint _ _ _ hhp]; exact hn)
          (by show (rh.flags ||| RH_HEADINGS_PRINTED) &&& _ = 0
              rw [and_or_disjoint _ _ _ hha]; exact ha)
          rh.rows hidx
    rw [hlines] at h
    simp only [Option.some.injEq, Prod.mk.injEq] at h
    rw [← h.1, ← h.2.1]
    exact ⟨rfl, hfacts.2⟩
theorem sort_rows_some {H : libdevmapper_h} {qsort : (row → row → Int) → List row → List row}
    {rh rh1 : dm_report} (h : _sort_rows H qsort rh = some rh1) :
    rh1 = { rh with rows := qsort (fun a b => (_row_compare H rh a b).getD 0) rh.rows } := by
  unfold _sort_rows at h
  split at h
  · simp only [Option.some.injEq] at h
    exact h.symm
  · exact absurd h (by simp)

theorem sorted_handle_rows {H : libdevmapper_h}
    {qsort : (row → row → Int) → List row → List row} {rh rh1 : dm_report}
    (hq : qsort_rearranges qsort)
    (h : (if rh.flags &&& RH_SORT_REQUIRED ≠ 0 then _sort_rows H qsort rh else some rh) =
      some rh1) :
    rh1 = { rh with rows := rh1.rows } ∧ rh1.rows.Perm rh.rows ∧
      (rh.flags &&& RH_SORT_REQUIRED = 0 → rh1.rows = rh.rows) := by
  split at h
  · rename_i hs
    have e := sort_rows_some h
    rw [e]
    exact ⟨rfl, hq _ _, fun h0 => absurd h0 hs⟩
  · simp only [Option.some.injEq] at h
    rw [← h]
    exact ⟨rfl, List.Perm.refl _, fun _ => rfl⟩

theorem output_parts_lines {H : libdevmapper_h}
    {qsort : (row → row → Int) → List row → List row} {rh rh1 : dm_report}
    {hs ls : List cstr} (hq : qsort_rearranges qsort)
    (hhp : H.DM_REPORT_OUTPUT_FIELD_NAME_PREFIX &&& RH_HEADINGS_PRINTED = 0)
    (hha : H.DM_REPORT_OUTPUT_ALIGNED &&& RH_HEADINGS_PRINTED = 0)
    (hh : hidden_first rh.field_props) (hidx : ∀ r ∈ rh.rows, row_indexed rh r)
    (hc : rh.flags &&& H.DM_REPORT_OUTPUT_COLUMNS_AS_ROWS = 0)
    (hn : rh.flags &&& H.DM_REPORT_OUTPUT_FIELD_NAME_PREFIX = 0)
    (ha : rh.flags &&& H.DM_REPORT_OUTPUT_ALIGNED = 0)
    (h : output_parts H qsort rh = some (hs, ls, rh1)) :
    ∃ rows1, rows1.Perm rh.rows ∧ (rh.flags &&& RH_SORT_REQUIRED = 0 → rows1 = rh.rows) ∧
      ls = rows1.map (spec_column_line rh) ∧ hs.length ≤ 1 := by
  unfold output_parts at h
  split at h
  · rename_i he
    simp only [Option.some.injEq, Prod.mk.injEq] at h
    have : rh.rows = [] := by simpa using he
    rw [← h.1, ← h.2.1, this]
    exact ⟨[], List.Perm.refl _, fun _ => rfl, rfl, by simp⟩
  · split at h
    · exact absurd h (by simp)
    · rename_i rh2 hsort
      obtain ⟨e, hperm, hsame⟩ := sorted_handle_rows hq hsort
      have hflags : rh2.flags = rh.flags := by rw [e]
      have hprops : rh2.field_props = rh.field_props := by rw [e]
      rw [if_neg (by rw [hflags]; simpa using hc)] at h
      obtain ⟨h1, h2⟩ := column_parts_lines hhp hha (by rw [hprops]; exact hh)
        (by
          intro r hr
          have := hidx r (hperm.mem_iff.1 hr)
          intro j f hj
          rw [hprops]
          exact this j f hj)
        (by rw [hflags]; exact hn) (by rw [hflags]; exact ha) h
      refine ⟨rh2.rows, hperm, hsame, ?_, h2⟩
      rw [h1, e]
      rfl

theorem output_parts_after {H : libdevmapper_h}
    {qsort : (row → row → Int) → List row → List row} {rh rh1 : dm_report}
    {hs ls : List cstr} (h : output_parts H qsort rh = some (hs, ls, rh1)) :
    rh1 = rh ∨ rh1.rows = [] ∨ rh1.flags &&& H.DM_REPORT_OUTPUT_COLUMNS_AS_ROWS ≠ 0 := by
  unfold output_parts at h
  split at h
  · simp only [Option.some.injEq, Prod.mk.injEq] at h
    exact Or.inl h.2.2.symm
  · split at h
    · exact absurd h (by simp)
    · rename_i rh2 hsort
      split at h
      · rename_i hc
        split at h
        · exact absurd h (by simp)
        · simp only [Option.some.injEq, Prod.mk.injEq] at h
          rw [← h.2.2]
          exact Or.inr (Or.inr hc)
      · unfold column_parts at h
        split at h
        · exact absurd h (by simp)
        · split at h
          · exact absurd h (by simp)
          · simp only [Option.some.injEq, Prod.mk.injEq] at h
            rw [← h.2.2]
            exact Or.inr (Or.inl rfl)

theorem report_output_after {H : libdevmapper_h}
    {qsort : (row → row → Int) → List row → List row} {rh rh1 : dm_report} {out : outcome}
    (h : dm_report_output H qsort rh = some out) (hr : out.rh = some rh1) :
    ∃ hs ls, output_parts H qsort rh = some (hs, ls, rh1) ∧ out.printed = hs ++ ls := by
  have e := report_output_parts H qsort rh
  rw [h] at e
  cases hp : output_parts H qsort rh with
  | none =>
    rw [hp] at e
    exact absurd e (by simp)
  | some p =>
    obtain ⟨hs, ls, rh2⟩ := p
    rw [hp] at e
    simp only [Option.map_some', Option.some.injEq, Prod.mk.injEq] at e
    rw [hr] at e
    simp only [Option.some.injEq] at e
    rw [e.2.2]
    exact ⟨hs, ls, rfl, e.2.1⟩

theorem report_object_after {H : libdevmapper_h}
    {qsort : (row → row → Int) → List row → List row} {rh rh1 : dm_report} {object : Nat}
    {out : outcome} (h : dm_report_object H qsort (some rh) object = some out)
    (hr : out.rh = some rh1) :
    ∃ hs ls, object_parts H qsort rh object = some (hs, ls, rh1) ∧
      out.printed = hs ++ ls := by
  have e := report_object_parts H qsort rh object
  rw [h] at e
  cases hp : object_parts H qsort rh object with
  | none =>
    rw [hp] at e
    exact absurd e (by simp)
  | some p =>
    obtain ⟨hs, ls, rh2⟩ := p
    rw [hp] at e
    simp only [Option.map_some', Option.some.injEq, Prod.mk.injEq] at e
    rw [hr] at e
    simp only [Option.some.injEq] at e
    rw [e.2]
    exact ⟨hs, ls, rfl, e.1⟩

/-! ## Rows of a reachable handle -/

theorem object_parts_mid {H : libdevmapper_h}
    {qsort : (row → row → Int) → List row → List row} {rh rh1 : dm_report} {object : Nat}
    {hs ls : List cstr} (h : object_parts H qsort rh object = some (hs, ls, rh1)) :
    ∃ props r ok,
      dm_report_object_loop rh object [] rh.field_props (new_row rh) = some (props, r, ok) ∧
      ((hs = [] ∧ ls = [] ∧ rh1 = { rh with field_props := props, rows := rh.rows ++ [r] }) ∨
        output_parts H qsort { rh with field_props := props, rows := rh.rows ++ [r] } =
          some (hs, ls, rh1)) := by
  unfold object_parts at h
  split at h
  · exact absurd h (by simp)
  · rename_i props r ok hl
    refine ⟨props, r, ok, hl, ?_⟩
    split at h
    · simp only [Option.some.injEq, Prod.mk.injEq] at h
      exact Or.inl ⟨h.1.symm, h.2.1.symm, h.2.2.symm⟩
    · split at h
      · exact Or.inr h
      · simp only [Option.some.injEq, Prod.mk.injEq] at h
        exact Or.inl ⟨h.1.symm, h.2.1.symm, h.2.2.symm⟩

theorem mid_rows_indexed {H : libdevmapper_h} {rh : dm_report} {object : Nat}
    {props : List field_properties} {r1 : row} {ok : Bool}
    (hl : dm_report_object_loop rh object [] rh.field_props (new_row rh) =
      some (props, r1, ok)) (hi : rows_indexed H rh) :
    rows_indexed H { rh with field_props := props, rows := rh.rows ++ [r1] } := by
  obtain ⟨hlen, hnew, _⟩ := report_object_loop_row hl
  intro hc r hr
  simp only [List.mem_append, List.mem_singleton] at hr
  rcases hr with hr | hr
  · intro j f hj
    have := hi hc r hr j f hj
    exact ⟨this.1, by show j < props.length; omega⟩
  · rw [hr]
    exact hnew

theorem output_parts_indexed {H : libdevmapper_h}
    {qsort : (row → row → Int) → List row → List row} {rh rh1 : dm_report}
    {hs ls : List cstr} (h : output_parts H qsort rh = some (hs, ls, rh1))
    (hi : rows_indexed H rh) : rows_indexed H rh1 := by
  rcases output_parts_after h with e | e | e
  · rw [e]
    exact hi
  · intro _ r hr
    rw [e] at hr
    exact absurd hr (List.not_mem_nil _)
  · intro hc
    exact absurd hc e

theorem reachable_rows_indexed {H : libdevmapper_h}
    {qsort : (row → row → Int) → List row → List row} {rh : dm_report}
    (h : reachable H qsort rh) : rows_indexed H rh := by
  induction h with
  | init _ _ _ _ _ _ _ _ _ hi =>
    intro _ r hr
    rw [(init_frame hi).2.1] at hr
    exact absurd hr (List.not_mem_nil _)
  | object _ _ _ _ _ ho hr ih =>
    obtain ⟨hs, ls, hp, _⟩ := report_object_after ho hr
    obtain ⟨props, r, ok, hl, hcase⟩ := object_parts_mid hp
    have hmid := mid_rows_indexed (H := H) hl ih
    rcases hcase with ⟨_, _, e⟩ | hout
    · rw [e]
      exact hmid
    · exact output_parts_indexed hout hmid
  | output _ _ _ _ ho hr ih =>
    obtain ⟨hs, ls, hp, _⟩ := report_output_after ho hr
    exact output_parts_indexed hp ih

theorem cell_visible_congr {a b : dm_report}
    (h : List.Forall₂ selection_grows a.field_props b.field_props) (f : dm_report_field) :
    cell_visible b f = cell_visible a f := by
  unfold cell_visible
  cases hb : b.field_props[f.props]? with
  | none =>
    have hlen := forall₂_grows_length h
    have : a.field_props[f.props]? = none := by
      rw [List.getElem?_eq_none_iff] at hb ⊢
      omega
    rw [this]
  | some q =>
    obtain ⟨p, hp, hg⟩ := forall₂_getElem? h f.props q hb
    rw [hp]
    simp only [hg.2.2.2.1]

theorem spec_column_line_congr {a b : dm_report}
    (h : List.Forall₂ selection_grows a.field_props b.field_props)
    (hs : b.separator = a.separator) (r : row) :
    spec_column_line b r = spec_column_line a r := by
  unfold spec_column_line
  rw [hs]
  congr 2
  apply List.filter_congr
  intro f _
  exact cell_visible_congr h f
theorem report_objects_reachable {H : libdevmapper_h}
    {qsort : (row → row → Int) → List row → List row} :
    ∀ (objs : List Nat) (rh rh1 : dm_report), reachable H qsort rh →
      report_objects H qsort rh objs = some rh1 → reachable H qsort rh1 := by
  intro objs
  induction objs with
  | nil =>
    intro rh rh1 hr h
    simp only [report_objects, Option.some.injEq] at h
    rw [← h]
    exact hr
  | cons o objs ih =>
    intro rh rh1 hr h
    simp only [report_objects] at h
    split at h
    · exact absurd h (by simp)
    · rename_i out ho
      split at h
      · split at h
        · exact absurd h (by simp)
        · rename_i rh2 hrh
          exact ih rh2 rh1 (reachable.object rh rh2 o out hr ho hrh) h
      · exact absurd h (by simp)

theorem sample_session_reachable : reachable sample_h stable_qsort sample_session := by
  have h0 : reachable sample_h stable_qsort (sample_init.get (by decide)) :=
    reachable.init (some 1) sample_types sample_fields "name,size".toList " ".toList 2
      (some "-size".toList) 0 _ (join_some_get _)
  refine report_objects_reachable [16, 32, 48] _ _ h0 ?_
  rfl

/-- C15. In every state a session reaches, in the column layout without alignment and
without field name prefixes, the lines that `dm_report_output` prints after the heading
line, if any, are one line for each row, in the order of the rows (as `qsort` leaves them in
a handle that sorts), and the line of a row is the report strings of its visible fields, in
the order of the selections, joined by the separator; a hidden field gives neither a text
nor a separator. The same holds for the lines printed by `dm_report_object` on a handle that
is not buffered. The header is taken to keep the two flags apart from the internal flag
`RH_HEADINGS_PRINTED`, and `qsort` to rearrange the array only. -/
theorem column_line_joins_visible (H : libdevmapper_h)
    (qsort : (row → row → Int) → List row → List row) (rh : dm_report)
    (hreach : reachable H qsort rh) (hq : qsort_rearranges qsort)
    (hhp : H.DM_REPORT_OUTPUT_FIELD_NAME_PREFIX &&& RH_HEADINGS_PRINTED = 0)
    (hha : H.DM_REPORT_OUTPUT_ALIGNED &&& RH_HEADINGS_PRINTED = 0)
    (hc : rh.flags &&& H.DM_REPORT_OUTPUT_COLUMNS_AS_ROWS = 0)
    (hn : rh.flags &&& H.DM_REPORT_OUTPUT_FIELD_NAME_PREFIX = 0)
    (ha : rh.flags &&& H.DM_REPORT_OUTPUT_ALIGNED = 0) :
    (∀ out, dm_report_output H qsort rh = some out →
      ∃ heading rows1, rows1.Perm rh.rows ∧
        (rh.flags &&& RH_SORT_REQUIRED = 0 → rows1 = rh.rows) ∧ heading.length ≤ 1 ∧
        out.printed = heading ++ rows1.map (spec_column_line rh)) ∧
    (∀ object out, dm_report_object H qsort (some rh) object = some out →
      out.printed = [] ∨
      ∃ heading rows1 props r ok,
        dm_report_object_loop rh object [] rh.field_props (new_row rh) =
          some (props, r, ok) ∧
        rows1.Perm (rh.rows ++ [r]) ∧
        (rh.flags &&& RH_SORT_REQUIRED = 0 → rows1 = rh.rows ++ [r]) ∧ heading.length ≤ 1 ∧
        out.printed = heading ++ rows1.map (spec_column_line rh)) := by
  have hh := reachable_hidden_first hreach
  have hi := reachable_rows_indexed hreach
  constructor
  · intro out ho
    obtain ⟨rh1, hr, _⟩ := report_output_frame ho
    obtain ⟨hs, ls, hp, hprint⟩ := report_output_after ho hr
    obtain ⟨rows1, h1, h2, h3, h4⟩ := output_parts_lines hq hhp hha hh (hi hc) hc hn ha hp
    exact ⟨hs, rows1, h1, h2, h4, by rw [hprint, h3]⟩
  · intro object out ho
    obtain ⟨rh1, hr, _⟩ := report_object_grows ho
    obtain ⟨hs, ls, hp, hprint⟩ := report_object_after ho hr
    obtain ⟨props, r, ok, hl, hcase⟩ := object_parts_mid hp
    rcases hcase with ⟨e1, e2, _⟩ | hout
    · left
      rw [hprint, e1, e2]
      rfl
    · right
      obtain ⟨todo1, hpe, hf⟩ := object_loop_grows rh object _ _ _ _ _ _ hl
      simp only [List.nil_append] at hpe
      subst hpe
      have hmid := mid_rows_indexed (H := H) hl hi
      obtain ⟨rows1, h1, h2, h3, h4⟩ := @output_parts_lines H qsort
        { rh with field_props := props, rows := rh.rows ++ [r] } _ _ _ hq hhp hha
        (hidden_first_of_flags (grows_map_flags hf) hh) (hmid hc) hc hn ha hout
      refine ⟨hs, rows1, props, r, ok, hl, h1, h2, h4, ?_⟩
      rw [hprint, h3]
      congr 1
      apply List.map_congr_left
      intro x _
      exact spec_column_line_congr
        (b := { rh with field_props := props, rows := rh.rows ++ [r] }) hf rfl x

/-- C15 at the session `sample_hidden_row`, whose one row holds the hidden size 10 in front
of the name `x`: the line printed for the row is `x`, without the size and without a
separator. -/
theorem column_line_joins_visible_witness :
    sample_hidden_row.rows.map (fun r => r.fields.map (fun f => f.report_string)) =
        [["10".toList, "x".toList]] ∧
      dm_report_output sample_h stable_qsort sample_hidden_row = some sample_flushed ∧
      ∃ (heading : List cstr) (rows1 : List row),
        rows1.Perm sample_hidden_row.rows ∧ heading.length ≤ 1 ∧
        sample_flushed.printed = heading ++ rows1.map (spec_column_line sample_hidden_row) ∧
        rows1.map (spec_column_line sample_hidden_row) = ["x".toList] := by
  have h0 : dm_report_output sample_h stable_qsort sample_hidden_row = some sample_flushed :=
    (Option.some_get _).symm
  have T := (column_line_joins_visible sample_h stable_qsort sample_hidden_row
    sample_hidden_row_reachable (fun _ l => List.perm_insertionSort _ l) (by decide)
    (by decide) (by decide) (by decide) (by decide)).1 sample_flushed h0
  obtain ⟨heading, rows1, h1, _, h3, h4⟩ := T
  refine ⟨by decide, h0, heading, rows1, h1, h3, h4, ?_⟩
  have hrows : sample_hidden_row.rows.length = 1 := by decide
  have hl := h1.length_eq
  match rows1, h1, hl with
  | [r], hperm, _ =>
    have hm : r ∈ sample_hidden_row.rows := hperm.mem_iff.1 (List.mem_singleton_self r)
    have he : sample_hidden_row.rows = [(sample_hidden_row.rows[0]?).get (by decide)] := by
      decide
    rw [he] at hm
    simp only [List.mem_singleton] at hm
    rw [hm]
    decide
  | [], _, hx =>
    rw [hrows] at hx
    exact absurd hx (by decide)
  | _ :: _ :: _, _, hx =>
    rw [hrows] at hx
    simp at hx

/-! ## Lines of the layout of columns as rows -/

theorem output_as_rows_line_spec (H : libdevmapper_h) (rh : dm_report) (k : Nat) :
    ∀ (R : List row) (l : cstr) (rows1 : List row),
      (∀ r ∈ R, k < r.fields.length) →
      _output_as_rows_line H rh (R.map (drop_fields k)) = some (l, rows1) →
        l = join_with rh.separator (R.map (fun r => cell_text H rh r k)) ∧
        rows1 = R.map (drop_fields (k + 1)) := by
  intro R
  induction R with
  | nil =>
    intro l rows1 _ h
    simp only [List.map_nil, _output_as_rows_line, Option.some.injEq, Prod.mk.injEq] at h
    rw [← h.1, ← h.2]
    exact ⟨rfl, rfl⟩
  | cons r R ih =>
    intro l rows1 hlen h
    have hk := hlen r (List.mem_cons_self _ _)
    have hdrop : (drop_fields k r).fields = r.fields[k] :: r.fields.drop (k + 1) := by
      show r.fields.drop k = _
      exact List.drop_eq_getElem_cons hk
    have hcell : cell_text H rh r k = (_output_field H rh r.fields[k]).getD [] := by
      unfold cell_text
      rw [List.getElem?_eq_getElem hk]
    rw [List.map_cons, _output_as_rows_line] at h
    simp only [hdrop] at h
    cases ho : _output_field H rh r.fields[k] with
    | none =>
      rw [ho] at h
      simp at h
    | some c =>
      rw [ho] at h
      simp only at h
      cases hrest : _output_as_rows_line H rh (R.map (drop_fields k)) with
      | none =>
        rw [hrest] at h
        simp at h
      | some x =>
        obtain ⟨l1, rs⟩ := x
        rw [hrest] at h
        simp only [Option.some.injEq, Prod.mk.injEq] at h
        obtain ⟨e1, e2⟩ := ih l1 rs (fun x hx => hlen x (List.mem_cons_of_mem _ hx)) hrest
        rw [← h.1, ← h.2, e1, e2]
        refine ⟨?_, ?_⟩
        · simp only [List.map_cons, join_with, hcell, ho, Option.getD_some]
          cases R <;> rfl
        · simp only [List.map_cons, List.cons.injEq, and_true]
          rfl
theorem output_as_rows_loop_spec (H : libdevmapper_h) (rh : dm_report) :
    ∀ (fps : List field_properties) (k : Nat) (R : List row) (lines : List cstr)
      (rows1 : List row),
      (∀ r ∈ R, k + fps.length ≤ r.fields.length) →
      _output_as_rows_loop H rh fps (R.map (drop_fields k)) = some (lines, rows1) →
        lines = spec_rows_lines H rh R k fps := by
  intro fps
  induction fps with
  | nil =>
    intro k R lines rows1 _ h
    simp only [_output_as_rows_loop, Option.some.injEq, Prod.mk.injEq] at h
    rw [← h.1]
    rfl
  | cons fp fps ih =>
    intro k R lines rows1 hlen h
    have hlen1 : ∀ r ∈ R, (k + 1) + fps.length ≤ r.fields.length := by
      intro r hr
      have := hlen r hr
      simp only [List.length_cons] at this
      omega
    have hk : ∀ r ∈ R, k < r.fields.length := by
      intro r hr
      have := hlen r hr
      simp only [List.length_cons] at this
      omega
    rw [_output_as_rows_loop] at h
    by_cases hh : fp.flags &&& FLD_HIDDEN ≠ 0
    · rw [if_pos hh] at h
      split at h
      · have e : (R.map (drop_fields k)).map (fun r => { r with fields := r.fields.tail }) =
            R.map (drop_fields (k + 1)) := by
          rw [List.map_map]
          apply List.map_congr_left
          intro r _
          show ({ r with fields := (r.fields.drop k).tail } : row) = _
          rw [List.tail_drop]
          rfl
        rw [e] at h
        rw [ih (k + 1) R lines rows1 hlen1 h]
        simp only [spec_rows_lines]
        rw [if_pos hh]
      · exact absurd h (by simp)
    · rw [if_neg hh] at h
      simp only at h
      cases hline : _output_as_rows_line H rh (R.map (drop_fields k)) with
      | none =>
        rw [hline] at h
        split at h
        · rename_i heq
          exact absurd heq (by simp)
        · exact absurd h (by simp)
      | some x =>
        obtain ⟨l, rows2⟩ := x
        obtain ⟨e1, e2⟩ := output_as_rows_line_spec H rh k R l rows2 hk hline
        rw [hline] at h
        simp only [spec_rows_lines]
        rw [if_neg hh]
        unfold spec_field_line
        by_cases hhead : rh.flags &&& H.DM_REPORT_OUTPUT_HEADINGS ≠ 0
        · rw [if_pos hhead] at h ⊢
          cases hft : rh.fields[fp.field_num]? with
          | none =>
            rw [hft] at h
            simp at h
          | some ft =>
            rw [hft] at h
            simp only at h
            cases hrest : _output_as_rows_loop H rh fps rows2 with
            | none =>
              rw [hrest] at h
              simp at h
            | some y =>
              obtain ⟨ls, rows3⟩ := y
              rw [hrest] at h
              simp only [Option.some.injEq, Prod.mk.injEq] at h
              rw [e2] at hrest
              rw [← h.1, ih (k + 1) R ls rows3 hlen1 hrest, e1]
              rfl
        · rw [if_neg hhead] at h ⊢
          simp only at h
          cases hrest : _output_as_rows_loop H rh fps rows2 with
          | none =>
            rw [hrest] at h
            simp at h
          | some y =>
            obtain ⟨ls, rows3⟩ := y
            rw [hrest] at h
            simp only [Option.some.injEq, Prod.mk.injEq] at h
            rw [e2] at hrest
            rw [← h.1, ih (k + 1) R ls rows3 hlen1 hrest, e1]

theorem drop_fields_zero (R : List row) : R.map (drop_fields 0) = R := by
  have e : R.map (drop_fields 0) = R.map id := List.map_congr_left (fun r _ => rfl)
  rw [e, List.map_id]
theorem report_objects_complete {H : libdevmapper_h}
    {qsort : (row → row → Int) → List row → List row} :
    ∀ (objs : List Nat) (rh rh1 : dm_report),
      rh.flags &&& H.DM_REPORT_OUTPUT_BUFFERED ≠ 0 → (∀ r ∈ rh.rows, row_complete rh r) →
      report_objects H qsort rh objs = some rh1 →
        (∀ r ∈ rh1.rows, row_complete rh1 r) ∧ rh1.flags = rh.flags ∧
          rh1.rows.length = rh.rows.length + objs.length := by
  intro objs
  induction objs with
  | nil =>
    intro rh rh1 _ hc h
    simp only [report_objects, Option.some.injEq] at h
    rw [← h]
    exact ⟨hc, rfl, rfl⟩
  | cons o objs ih =>
    intro rh rh1 hb hc h
    simp only [report_objects] at h
    split at h
    · exact absurd h (by simp)
    · rename_i out ho
      split at h
      · rename_i hret
        split at h
        · exact absurd h (by simp)
        · rename_i rh2 hrh
          rw [report_object_eq] at ho
          cases hl : dm_report_object_loop rh o [] rh.field_props (new_row rh) with
          | none =>
            rw [hl] at ho
            exact absurd ho (by simp)
          | some res =>
            obtain ⟨props, r, ok⟩ := res
            rw [hl] at ho
            simp only at ho
            cases ok with
            | false =>
              simp only [if_true, Option.some.injEq] at ho
              rw [← ho] at hret
              have h2 : (0 : Int) = 1 := hret
              exact absurd h2 (by decide)
            | true =>
              simp only [Bool.true_eq_false, if_false] at ho
              rw [if_neg hb] at ho
              simp only [Option.some.injEq] at ho
              rw [← ho] at hrh
              simp only [Option.some.injEq] at hrh
              obtain ⟨hlen, hnew, hfull⟩ := report_object_loop_row hl
              have hmid : ∀ x ∈ rh2.rows, row_complete rh2 x := by
                rw [← hrh]
                intro x hx
                simp only [List.mem_append, List.mem_singleton] at hx
                rcases hx with hx | hx
                · obtain ⟨c1, c2⟩ := hc x hx
                  refine ⟨by show x.fields.length = props.length; omega, ?_⟩
                  intro j f hj
                  have := c2 j f hj
                  exact ⟨this.1, by show j < props.length; omega⟩
                · rw [hx]
                  exact ⟨by show r.fields.length = props.length; rw [hfull rfl, hlen], hnew⟩
              have hflags : rh2.flags = rh.flags := by rw [← hrh]
              obtain ⟨i1, i2, i3⟩ := ih rh2 rh1 (by rw [hflags]; exact hb) hmid h
              refine ⟨i1, i2.trans hflags, ?_⟩
              have hrows : rh2.rows.length = rh.rows.length + 1 := by
                rw [← hrh]
                simp
              rw [i3, hrows]
              simp only [List.length_cons]
              omega
      · exact absurd h (by simp)

theorem cell_text_plain {H : libdevmapper_h} {rh : dm_report} {r : row}
    (hr : row_indexed rh r)
    (hn : rh.flags &&& H.DM_REPORT_OUTPUT_FIELD_NAME_PREFIX = 0)
    (ha : rh.flags &&& H.DM_REPORT_OUTPUT_ALIGNED = 0) (j : Nat) (f : dm_report_field)
    (hj : r.fields[j]? = some f) : cell_text H rh r j = f.report_string := by
  unfold cell_text
  rw [hj]
  obtain ⟨e1, e2⟩ := hr j f hj
  have hp : rh.field_props[f.props]? = some rh.field_props[j] := by
    rw [e1]
    exact List.getElem?_eq_getElem e2
  simp only
  rw [output_field_plain hp hn ha]
  rfl
theorem spec_field_line_rows (H : libdevmapper_h) (rh : dm_report) (x R : List row) (j : Nat)
    (fp : field_properties) :
    spec_field_line H { rh with rows := x } R j fp = spec_field_line H rh R j fp := rfl

theorem spec_rows_lines_rows (H : libdevmapper_h) (rh : dm_report) (x R : List row) :
    ∀ (fps : List field_properties) (k : Nat),
      spec_rows_lines H { rh with rows := x } R k fps = spec_rows_lines H rh R k fps := by
  intro fps
  induction fps with
  | nil => intro k; rfl
  | cons fp fps ih =>
    intro k
    simp only [spec_rows_lines, spec_field_line_rows, ih]

/-- C18. Let a session start without rows, buffered and in the layout of columns as rows, and
let it hold the rows of a sequence of objects, one or more, each reported with success. Then
`dm_report_output` prints one line for each visible selection, in the order of the
selections, and none for a hidden one; the line of a selection is the heading of its field
and the separator, when headings are enabled, followed by the text emitted for that field
of every row, in the order of the rows (as `qsort` leaves them in a handle that sorts),
joined by the separator. Without alignment and field name prefixes the text emitted for a
field is its report string. `qsort` is taken to rearrange the array only. -/
theorem rows_layout_lines (H : libdevmapper_h)
    (qsort : (row → row → Int) → List row → List row) (rh0 rh : dm_report)
    (objs : List Nat) (out : outcome) (hq : qsort_rearranges qsort)
    (h0 : rh0.rows = []) (hb : rh0.flags &&& H.DM_REPORT_OUTPUT_BUFFERED ≠ 0)
    (hc : rh0.flags &&& H.DM_REPORT_OUTPUT_COLUMNS_AS_ROWS ≠ 0) (hne : objs ≠ [])
    (hobjs : report_objects H qsort rh0 objs = some rh)
    (hout : dm_report_output H qsort rh = some out) :
    ∃ rows1, rows1.Perm rh.rows ∧ (rh.flags &&& RH_SORT_REQUIRED = 0 → rows1 = rh.rows) ∧
      rows1.length = objs.length ∧
      out.printed = spec_rows_lines H rh rows1 0 rh.field_props ∧
      (rh.flags &&& H.DM_REPORT_OUTPUT_FIELD_NAME_PREFIX = 0 →
        rh.flags &&& H.DM_REPORT_OUTPUT_ALIGNED = 0 →
        ∀ r ∈ rows1, ∀ (j : Nat) (f : dm_report_field), r.fields[j]? = some f →
          cell_text H rh r j = f.report_string) := by
  obtain ⟨hcomp, hflags, hlen⟩ := report_objects_complete objs rh0 rh hb
    (by rw [h0]; intro r hr; exact absurd hr (List.not_mem_nil _)) hobjs
  rw [h0] at hlen
  simp only [List.length_nil, Nat.zero_add] at hlen
  have hrows : rh.rows.isEmpty = false := by
    cases hr : rh.rows with
    | nil =>
      rw [hr] at hlen
      cases objs with
      | nil => exact absurd rfl hne
      | cons o os => simp at hlen
    | cons r rs => rfl
  obtain ⟨rh2, hr2, _⟩ := report_output_frame hout
  obtain ⟨hs, ls, hp, hprint⟩ := report_output_after hout hr2
  unfold output_parts at hp
  rw [hrows] at hp
  simp only [Bool.false_eq_true, if_false] at hp
  split at hp
  · exact absurd hp (by simp)
  · rename_i rh1 hsort
    obtain ⟨e, hperm, hsame⟩ := sorted_handle_rows hq hsort
    have hf1 : rh1.flags = rh.flags := by rw [e]
    rw [if_pos (by rw [hf1, hflags]; exact hc)] at hp
    split at hp
    · exact absurd hp (by simp)
    · rename_i lines rows3 hloop
      simp only [Option.some.injEq, Prod.mk.injEq] at hp
      have hprops : rh1.field_props = rh.field_props := by rw [e]
      have hk : ∀ r ∈ rh1.rows, 0 + rh1.field_props.length ≤ r.fields.length := by
        intro r hr
        have := (hcomp r (hperm.mem_iff.1 hr)).1
        rw [hprops]
        omega
      rw [← drop_fields_zero rh1.rows] at hloop
      have hl := output_as_rows_loop_spec H rh1 rh1.field_props 0 rh1.rows lines rows3 hk hloop
      refine ⟨rh1.rows, hperm, hsame, by rw [hperm.length_eq, hlen], ?_, ?_⟩
      · rw [hprint, ← hp.1, ← hp.2.1, hl, hprops, e, spec_rows_lines_rows]
        rfl
      · intro hn ha r hr j f hj
        exact cell_text_plain (hcomp r (hperm.mem_iff.1 hr)).2 hn ha j f hj

/-- C18 at the session `sample_two_rows`, with headings: the two lines are `LV x y` and
`LSize 10 30`. -/
theorem rows_layout_lines_witness :
    dm_report_output sample_h stable_qsort sample_two_rows = some sample_two_rows_out ∧
      sample_two_rows_out.printed = ["LV x y".toList, "LSize 10 30".toList] ∧
      ∃ rows1, rows1.Perm sample_two_rows.rows ∧ rows1.length = 2 ∧
        sample_two_rows_out.printed =
          spec_rows_lines sample_h sample_two_rows rows1 0 sample_two_rows.field_props := by
  have h0 : dm_report_output sample_h stable_qsort sample_two_rows =
      some sample_two_rows_out := (Option.some_get _).symm
  obtain ⟨rows1, h1, _, h3, h4, _⟩ := rows_layout_lines sample_h stable_qsort
    sample_rows_layout sample_two_rows [16, 32] sample_two_rows_out
    (fun _ l => List.perm_insertionSort _ l) (by decide) (by decide) (by decide) (by decide)
    (Option.some_get _).symm h0
  exact ⟨h0, by decide, rows1, h1, h3, h4⟩


/-! ## The heading line over a sequence of calls -/

theorem column_parts_facts {H : libdevmapper_h} {rh rh1 : dm_report} {hs ls : List cstr}
    (h : column_parts H rh = some (hs, ls, rh1)) :
    hs.length ≤ 1 ∧ (rh.flags &&& RH_HEADINGS_PRINTED ≠ 0 → hs = []) ∧
      rh1.flags &&& RH_HEADINGS_PRINTED ≠ 0 := by
  unfold column_parts at h
  split at h
  · exact absurd h (by simp)
  · rename_i rh2 heading hhead
    split at h
    · exact absurd h (by simp)
    · simp only [Option.some.injEq, Prod.mk.injEq] at h
      rw [← h.1, ← h.2.2]
      split at hhead
      · rename_i hclear
        obtain ⟨_, h2, _⟩ := report_headings_eq hhead
        exact ⟨h2, fun hp => absurd hclear hp, (report_headings_flags hhead).2⟩
      · rename_i hset
        simp only [Option.some.injEq, Prod.mk.injEq] at hhead
        rw [← hhead.1, ← hhead.2]
        exact ⟨by simp, fun _ => rfl, hset⟩

theorem output_parts_facts {H : libdevmapper_h}
    {qsort : (row → row → Int) → List row → List row} {rh rh1 : dm_report}
    {hs ls : List cstr} (h : output_parts H qsort rh = some (hs, ls, rh1)) :
    hs.length ≤ 1 ∧
      (rh.flags &&& RH_HEADINGS_PRINTED ≠ 0 →
        hs = [] ∧ rh1.flags &&& RH_HEADINGS_PRINTED ≠ 0) ∧
      (rh.flags &&& H.DM_REPORT_OUTPUT_COLUMNS_AS_ROWS ≠ 0 →
        hs = [] ∧ rh1.flags &&& H.DM_REPORT_OUTPUT_COLUMNS_AS_ROWS ≠ 0) ∧
      (rh.flags &&& H.DM_REPORT_OUTPUT_COLUMNS_AS_ROWS = 0 → (hs ≠ [] ∨ ls ≠ []) →
        rh1.flags &&& RH_HEADINGS_PRINTED ≠ 0) := by
  unfold output_parts at h
  split at h
  · simp only [Option.some.injEq, Prod.mk.injEq] at h
    rw [← h.1, ← h.2.1, ← h.2.2]
    exact ⟨by simp, fun hp => ⟨rfl, hp⟩, fun hq => ⟨rfl, hq⟩,
      fun _ hx => by rcases hx with hx | hx <;> exact absurd rfl hx⟩
  · split at h
    · exact absurd h (by simp)
    · rename_i rh2 hsort
      have hflags : rh2.flags = rh.flags := by
        split at hsort
        · rw [sort_rows_some hsort]
        · simp only [Option.some.injEq] at hsort
          rw [← hsort]
      split at h
      · rename_i hc
        split at h
        · exact absurd h (by simp)
        · simp only [Option.some.injEq, Prod.mk.injEq] at h
          rw [← h.1, ← h.2.2]
          rw [hflags] at hc
          refine ⟨by simp, fun hp => ⟨rfl, ?_⟩, fun _ => ⟨rfl, ?_⟩, fun h0 => absurd h0 hc⟩
          · show rh2.flags &&& _ ≠ 0
            rw [hflags]
            exact hp
          · show rh2.flags &&& _ ≠ 0
            rw [hflags]
            exact hc
      · rename_i hc
        rw [hflags] at hc
        obtain ⟨f1, f2, f3⟩ := column_parts_facts h
        rw [hflags] at f2
        exact ⟨f1, fun hp => ⟨f2 hp, f3⟩, fun hq => absurd hq hc, fun _ _ => f3⟩

theorem object_parts_facts {H : libdevmapper_h}
    {qsort : (row → row → Int) → List row → List row} {rh rh1 : dm_report} {object : Nat}
    {hs ls : List cstr} (h : object_parts H qsort rh object = some (hs, ls, rh1)) :
    hs.length ≤ 1 ∧
      (rh.flags &&& RH_HEADINGS_PRINTED ≠ 0 →
        hs = [] ∧ rh1.flags &&& RH_HEADINGS_PRINTED ≠ 0) ∧
      (rh.flags &&& H.DM_REPORT_OUTPUT_COLUMNS_AS_ROWS ≠ 0 →
        hs = [] ∧ rh1.flags &&& H.DM_REPORT_OUTPUT_COLUMNS_AS_ROWS ≠ 0) ∧
      (rh.flags &&& H.DM_REPORT_OUTPUT_COLUMNS_AS_ROWS = 0 → (hs ≠ [] ∨ ls ≠ []) →
        rh1.flags &&& RH_HEADINGS_PRINTED ≠ 0) := by
  obtain ⟨props, r, ok, _, hcase⟩ := object_parts_mid h
  rcases hcase with ⟨e1, e2, e3⟩ | hout
  · rw [e1, e2, e3]
    exact ⟨by simp, fun hp => ⟨rfl, hp⟩, fun hq => ⟨rfl, hq⟩,
      fun _ hx => by rcases hx with hx | hx <;> exact absurd rfl hx⟩
  · exact @output_parts_facts H qsort
      { rh with field_props := props, rows := rh.rows ++ [r] } _ _ _ hout

theorem call_parts_facts {H : libdevmapper_h}
    {qsort : (row → row → Int) → List row → List row} {rh rh1 : dm_report} {c : call}
    {hs ls : List cstr} (h : call_parts H qsort rh c = some (hs, ls, rh1)) :
    hs.length ≤ 1 ∧
      (rh.flags &&& RH_HEADINGS_PRINTED ≠ 0 →
        hs = [] ∧ rh1.flags &&& RH_HEADINGS_PRINTED ≠ 0) ∧
      (rh.flags &&& H.DM_REPORT_OUTPUT_COLUMNS_AS_ROWS ≠ 0 →
        hs = [] ∧ rh1.flags &&& H.DM_REPORT_OUTPUT_COLUMNS_AS_ROWS ≠ 0) ∧
      (rh.flags &&& H.DM_REPORT_OUTPUT_COLUMNS_AS_ROWS = 0 → (hs ≠ [] ∨ ls ≠ []) →
        rh1.flags &&& RH_HEADINGS_PRINTED ≠ 0) := by
  cases c with
  | object o => exact object_parts_facts h
  | output => exact output_parts_facts h
theorem trace_no_headings {H : libdevmapper_h}
    {qsort : (row → row → Int) → List row → List row} :
    ∀ (cs : List call) (rh : dm_report) (tr : List (List cstr × List cstr)),
      (rh.flags &&& RH_HEADINGS_PRINTED ≠ 0 ∨
        rh.flags &&& H.DM_REPORT_OUTPUT_COLUMNS_AS_ROWS ≠ 0) →
      trace_parts H qsort rh cs = some tr → ∀ p ∈ tr, p.1 = [] := by
  intro cs
  induction cs with
  | nil =>
    intro rh tr _ h p hp
    simp only [trace_parts, Option.some.injEq] at h
    rw [← h] at hp
    exact absurd hp (List.not_mem_nil _)
  | cons c cs ih =>
    intro rh tr hn h p hp
    simp only [trace_parts] at h
    split at h
    · exact absurd h (by simp)
    · rename_i hs ls rh1 hc
      cases ht : trace_parts H qsort rh1 cs with
      | none =>
        rw [ht] at h
        exact absurd h (by simp)
      | some t =>
        rw [ht] at h
        simp only [Option.map_some', Option.some.injEq] at h
        obtain ⟨_, f2, f3, _⟩ := call_parts_facts hc
        have hfacts : hs = [] ∧ (rh1.flags &&& RH_HEADINGS_PRINTED ≠ 0 ∨
            rh1.flags &&& H.DM_REPORT_OUTPUT_COLUMNS_AS_ROWS ≠ 0) := by
          rcases hn with hp1 | hq1
          · exact ⟨(f2 hp1).1, Or.inl (f2 hp1).2⟩
          · exact ⟨(f3 hq1).1, Or.inr (f3 hq1).2⟩
        rw [← h] at hp
        rcases List.mem_cons.1 hp with e | hp1
        · rw [e]
          exact hfacts.1
        · exact ih rh1 t hfacts.2 ht p hp1

theorem sum_lengths_zero (tr : List (List cstr × List cstr)) (h : ∀ p ∈ tr, p.1 = []) :
    (tr.map (fun p => p.1.length)).sum = 0 := by
  induction tr with
  | nil => rfl
  | cons p tr ih =>
    simp only [List.map_cons, List.sum_cons]
    rw [h p (List.mem_cons_self _ _), ih (fun q hq => h q (List.mem_cons_of_mem _ hq))]
    rfl

theorem trace_heading_once {H : libdevmapper_h}
    {qsort : (row → row → Int) → List row → List row} :
    ∀ (cs : List call) (rh : dm_report) (tr : List (List cstr × List cstr)),
      trace_parts H qsort rh cs = some tr →
        (tr.map (fun p => p.1.length)).sum ≤ 1 ∧
        ∀ (i j : Nat) (pi pj : List cstr × List cstr), i < j → tr[i]? = some pi →
          tr[j]? = some pj → pj.1 ≠ [] → pi.2 = [] := by
  intro cs
  induction cs with
  | nil =>
    intro rh tr h
    simp only [trace_parts, Option.some.injEq] at h
    rw [← h]
    exact ⟨by simp, fun i j pi pj _ hi => by simp at hi⟩
  | cons c cs ih =>
    intro rh tr h
    simp only [trace_parts] at h
    split at h
    · exact absurd h (by simp)
    · rename_i hs ls rh1 hc
      cases ht : trace_parts H qsort rh1 cs with
      | none =>
        rw [ht] at h
        exact absurd h (by simp)
      | some t =>
        rw [ht] at h
        simp only [Option.map_some', Option.some.injEq] at h
        rw [← h]
        obtain ⟨f1, f2, f3, f4⟩ := call_parts_facts hc
        obtain ⟨i1, i2⟩ := ih rh1 t ht
        have hquiet : (rh1.flags &&& RH_HEADINGS_PRINTED ≠ 0 ∨
            rh1.flags &&& H.DM_REPORT_OUTPUT_COLUMNS_AS_ROWS ≠ 0) →
            ((((hs, ls) :: t).map (fun p => p.1.length)).sum ≤ 1 ∧
              ∀ (i j : Nat) (pi pj : List cstr × List cstr), i < j →
                ((hs, ls) :: t)[i]? = some pi → ((hs, ls) :: t)[j]? = some pj →
                pj.1 ≠ [] → pi.2 = []) := by
          intro hn
          have hnone := trace_no_headings cs rh1 t hn ht
          refine ⟨?_, ?_⟩
          · simp only [List.map_cons, List.sum_cons]
            rw [sum_lengths_zero t hnone]
            omega
          · intro i j pi pj hij _ hj hne
            obtain ⟨m, hm⟩ : ∃ m, j = m + 1 := ⟨j - 1, by omega⟩
            rw [hm, List.getElem?_cons_succ] at hj
            exact absurd (hnone pj (List.getElem?_mem hj)) hne
        by_cases hq : rh.flags &&& H.DM_REPORT_OUTPUT_COLUMNS_AS_ROWS ≠ 0
        · exact hquiet (Or.inr (f3 hq).2)
        · have hq0 : rh.flags &&& H.DM_REPORT_OUTPUT_COLUMNS_AS_ROWS = 0 := by
            simpa using hq
          by_cases hprint : hs ≠ [] ∨ ls ≠ []
          · exact hquiet (Or.inl (f4 hq0 hprint))
          · have hs0 : hs = [] := by
              by_contra hx
              exact hprint (Or.inl hx)
            have ls0 : ls = [] := by
              by_contra hx
              exact hprint (Or.inr hx)
            refine ⟨?_, ?_⟩
            · simp only [List.map_cons, List.sum_cons, hs0, List.length_nil, Nat.zero_add]
              exact i1
            · intro i j pi pj hij hi hj hne
              obtain ⟨m, hm⟩ : ∃ m, j = m + 1 := ⟨j - 1, by omega⟩
              rw [hm, List.getElem?_cons_succ] at hj
              cases i with
              | zero =>
                simp only [List.getElem?_cons_zero, Option.some.injEq] at hi
                rw [← hi]
                exact ls0
              | succ n =>
                rw [List.getElem?_cons_succ] at hi
                exact i2 n m pi pj (by omega) hi hj hne

theorem run_calls_trace {H : libdevmapper_h}
    {qsort : (row → row → Int) → List row → List row} :
    ∀ (cs : List call) (rh : dm_report) (printed : List (List cstr)),
      run_calls H qsort rh cs = some printed →
        ∃ tr, trace_parts H qsort rh cs = some tr ∧
          printed = tr.map (fun p => p.1 ++ p.2) := by
  intro cs
  induction cs with
  | nil =>
    intro rh printed h
    simp only [run_calls, Option.some.injEq] at h
    exact ⟨[], rfl, by rw [← h]; rfl⟩
  | cons c cs ih =>
    intro rh printed h
    simp only [run_calls] at h
    split at h
    · exact absurd h (by simp)
    · rename_i out ho
      split at h
      · exact absurd h (by simp)
      · rename_i rh1 hr
        cases hrest : run_calls H qsort rh1 cs with
        | none =>
          rw [hrest] at h
          exact absurd h (by simp)
        | some t =>
          rw [hrest] at h
          simp only [Option.map_some', Option.some.injEq] at h
          obtain ⟨tr, htr, hpr⟩ := ih rh1 t hrest
          have hparts : ∃ hs ls, call_parts H qsort rh c = some (hs, ls, rh1) ∧
              out.printed = hs ++ ls := by
            cases c with
            | object o => exact report_object_after ho hr
            | output => exact report_output_after ho hr
          obtain ⟨hs, ls, hp, hprint⟩ := hparts
          refine ⟨(hs, ls) :: tr, ?_, ?_⟩
          · simp only [trace_parts, hp, htr, Option.map_some']
          · rw [← h, hprint, hpr]
            rfl
theorem column_parts_headed {H : libdevmapper_h} {rh rh1 : dm_report} {hs ls : List cstr}
    (h : column_parts H rh = some (hs, ls, rh1))
    (hp : rh.flags &&& RH_HEADINGS_PRINTED = 0)
    (hh : rh.flags &&& H.DM_REPORT_OUTPUT_HEADINGS ≠ 0) : hs ≠ [] := by
  unfold column_parts at h
  rw [if_pos hp] at h
  unfold _report_headings at h
  rw [if_neg (by simpa using hp)] at h
  simp only at h
  rw [if_neg (or_and_ne_zero _ _ _ hh)] at h
  split at h
  · exact absurd h (by simp)
  · rename_i rh2 heading hhead
    split at hhead
    · exact absurd hhead (by simp)
    · rename_i line _
      simp only [Option.some.injEq, Prod.mk.injEq] at hhead
      split at h
      · exact absurd h (by simp)
      · simp only [Option.some.injEq, Prod.mk.injEq] at h
        rw [← h.1, ← hhead.2]
        exact List.cons_ne_nil _ _

theorem output_parts_headed {H : libdevmapper_h}
    {qsort : (row → row → Int) → List row → List row} {rh rh1 : dm_report}
    {hs ls : List cstr} (h : output_parts H qsort rh = some (hs, ls, rh1))
    (hp : rh.flags &&& RH_HEADINGS_PRINTED = 0)
    (hc : rh.flags &&& H.DM_REPORT_OUTPUT_COLUMNS_AS_ROWS = 0)
    (hh : rh.flags &&& H.DM_REPORT_OUTPUT_HEADINGS ≠ 0) :
    hs ≠ [] ∨ (ls = [] ∧ rh1.flags = rh.flags) := by
  unfold output_parts at h
  split at h
  · simp only [Option.some.injEq, Prod.mk.injEq] at h
    rw [← h.2.1, ← h.2.2]
    exact Or.inr ⟨rfl, rfl⟩
  · split at h
    · exact absurd h (by simp)
    · rename_i rh2 hsort
      have hflags : rh2.flags = rh.flags := by
        split at hsort
        · rw [sort_rows_some hsort]
        · simp only [Option.some.injEq] at hsort
          rw [← hsort]
      rw [if_neg (by rw [hflags]; simpa using hc)] at h
      exact Or.inl (column_parts_headed h (by rw [hflags]; exact hp) (by rw [hflags]; exact hh))

theorem call_parts_headed {H : libdevmapper_h}
    {qsort : (row → row → Int) → List row → List row} {rh rh1 : dm_report} {c : call}
    {hs ls : List cstr} (h : call_parts H qsort rh c = some (hs, ls, rh1))
    (hp : rh.flags &&& RH_HEADINGS_PRINTED = 0)
    (hc : rh.flags &&& H.DM_REPORT_OUTPUT_COLUMNS_AS_ROWS = 0)
    (hh : rh.flags &&& H.DM_REPORT_OUTPUT_HEADINGS ≠ 0) :
    hs ≠ [] ∨ (ls = [] ∧ rh1.flags = rh.flags) := by
  cases c with
  | output => exact output_parts_headed h hp hc hh
  | object o =>
    obtain ⟨props, r, ok, _, hcase⟩ := object_parts_mid h
    rcases hcase with ⟨_, e2, e3⟩ | hout
    · rw [e2, e3]
      exact Or.inr ⟨rfl, rfl⟩
    · exact @output_parts_headed H qsort
        { rh with field_props := props, rows := rh.rows ++ [r] } _ _ _ hout hp hc hh

theorem trace_heading_first {H : libdevmapper_h}
    {qsort : (row → row → Int) → List row → List row} :
    ∀ (cs : List call) (rh : dm_report) (tr : List (List cstr × List cstr)),
      trace_parts H qsort rh cs = some tr →
      rh.flags &&& RH_HEADINGS_PRINTED = 0 →
      rh.flags &&& H.DM_REPORT_OUTPUT_COLUMNS_AS_ROWS = 0 →
      rh.flags &&& H.DM_REPORT_OUTPUT_HEADINGS ≠ 0 →
      ∀ (j : Nat) (pj : List cstr × List cstr), tr[j]? = some pj → pj.2 ≠ [] →
        ∃ (i : Nat) (pi : List cstr × List cstr), i ≤ j ∧ tr[i]? = some pi ∧ pi.1 ≠ [] := by
  intro cs
  induction cs with
  | nil =>
    intro rh tr h _ _ _ j pj hj
    simp only [trace_parts, Option.some.injEq] at h
    rw [← h] at hj
    simp at hj
  | cons c cs ih =>
    intro rh tr h hp hc hh j pj hj hne
    simp only [trace_parts] at h
    split at h
    · exact absurd h (by simp)
    · rename_i hs ls rh1 hcall
      cases ht : trace_parts H qsort rh1 cs with
      | none =>
        rw [ht] at h
        exact absurd h (by simp)
      | some t =>
        rw [ht] at h
        simp only [Option.map_some', Option.some.injEq] at h
        rw [← h] at hj ⊢
        rcases call_parts_headed hcall hp hc hh with hhead | ⟨hl, hf⟩
        · exact ⟨0, (hs, ls), Nat.zero_le _, List.getElem?_cons_zero, hhead⟩
        · cases j with
          | zero =>
            simp only [List.getElem?_cons_zero, Option.some.injEq] at hj
            rw [← hj] at hne
            exact absurd hl hne
          | succ n =>
            rw [List.getElem?_cons_succ] at hj
            obtain ⟨i, pi, hi, hget, hpi⟩ :=
              ih rh1 t ht (by rw [hf]; exact hp) (by rw [hf]; exact hc)
                (by rw [hf]; exact hh) n pj hj hne
            exact ⟨i + 1, pi, by omega, by rw [List.getElem?_cons_succ]; exact hget, hpi⟩
/-- C17. Over any sequence of `dm_report_object` and `dm_report_output` calls on one handle,
the lines of every call are its heading lines, those `_report_headings` prints, followed by
its row lines. Over the whole sequence at most one heading line is printed and no call before
the one printing it prints a row line. In the column layout with headings enabled and the
heading not printed yet, every call printing a row line prints the heading line itself or
comes after the call that did. -/
theorem heading_line_once (H : libdevmapper_h)
    (qsort : (row → row → Int) → List row → List row) (rh : dm_report) (cs : List call)
    (printed : List (List cstr)) (h : run_calls H qsort rh cs = some printed) :
    ∃ tr : List (List cstr × List cstr),
      trace_parts H qsort rh cs = some tr ∧
      printed = tr.map (fun p => p.1 ++ p.2) ∧
      (tr.map (fun p => p.1.length)).sum ≤ 1 ∧
      (∀ (i j : Nat) (pi pj : List cstr × List cstr), i < j → tr[i]? = some pi →
        tr[j]? = some pj → pj.1 ≠ [] → pi.2 = []) ∧
      (rh.flags &&& RH_HEADINGS_PRINTED = 0 →
        rh.flags &&& H.DM_REPORT_OUTPUT_COLUMNS_AS_ROWS = 0 →
        rh.flags &&& H.DM_REPORT_OUTPUT_HEADINGS ≠ 0 →
        ∀ (j : Nat) (pj : List cstr × List cstr), tr[j]? = some pj → pj.2 ≠ [] →
          ∃ (i : Nat) (pi : List cstr × List cstr), i ≤ j ∧ tr[i]? = some pi ∧ pi.1 ≠ []) := by
  obtain ⟨tr, htr, hpr⟩ := run_calls_trace cs rh printed h
  obtain ⟨h1, h2⟩ := trace_heading_once cs rh tr htr
  exact ⟨tr, htr, hpr, h1, h2, trace_heading_first cs rh tr htr⟩

/-- C17 at the session `sample_headed`: the output with no row prints nothing, the first
object prints the heading `LV LSize` and then `x 10`, the second object prints `y 30` alone,
and the last output prints nothing. -/
theorem heading_line_once_witness :
    run_calls sample_h stable_qsort sample_headed sample_headed_calls =
        some [[], ["LV LSize".toList, "x 10".toList], ["y 30".toList], []] ∧
      ∃ tr : List (List cstr × List cstr),
        trace_parts sample_h stable_qsort sample_headed sample_headed_calls = some tr ∧
        tr = [([], []), (["LV LSize".toList], ["x 10".toList]), ([], ["y 30".toList]),
          ([], [])] ∧
        (tr.map (fun p => p.1.length)).sum ≤ 1 := by
  have h0 : run_calls sample_h stable_qsort sample_headed sample_headed_calls =
      some [[], ["LV LSize".toList, "x 10".toList], ["y 30".toList], []] := by decide
  obtain ⟨tr, h1, _, h3, _⟩ := heading_line_once sample_h stable_qsort sample_headed
    sample_headed_calls _ h0
  have h2 : trace_parts sample_h stable_qsort sample_headed sample_headed_calls =
      some [([], []), (["LV LSize".toList], ["x 10".toList]), ([], ["y 30".toList]),
        ([], [])] := by decide
  have e : tr = [([], []), (["LV LSize".toList], ["x 10".toList]), ([], ["y 30".toList]),
      ([], [])] := by
    rw [h2] at h1
    exact (Option.some.inj h1).symm
  exact ⟨h0, tr, h1, e, h3⟩

/-! ## Selection parsing: operators and field names -/

theorem strncmp_zero_iff (t : cstr) (ht : ∀ c ∈ t, c.toNat ≠ 0) :
    ∀ s : cstr, strncmp s t t.length = 0 ↔ t <+: s := by
  induction t with
  | nil =>
    intro s
    simp [strncmp]
  | cons b t ih =>
    intro s
    have hb : b.toNat ≠ 0 := ht b (List.mem_cons_self _ _)
    cases s with
    | nil =>
      simp only [List.length_cons, strncmp]
      constructor
      · intro h
        omega
      · intro h
        exact absurd h (by simp)
    | cons a s =>
      simp only [List.length_cons, strncmp]
      by_cases e : a = b
      · subst e
        simp only [if_true]
        rw [ih (fun c hc => ht c (List.mem_cons_of_mem _ hc)) s]
        exact (List.prefix_cons_inj a).symm
      · simp only [e, if_false]
        constructor
        · intro h
          exact absurd (by omega) (char_toNat_ne a b e)
        · intro h
          exact absurd (List.cons_prefix_cons.1 h).1.symm e

theorem skip_space_eq (s : cstr) : _skip_space s = s.dropWhile c_isspace := by
  induction s with
  | nil => rfl
  | cons c s ih =>
    simp only [_skip_space, List.dropWhile_cons]
    split
    · exact ih
    · rfl

/-- When no spelling that `_tok_op` tries under `expect` starts the input, the loop returns 0
and leaves the position where it is. -/
theorem tok_op_loop_none (s : cstr) (expect : Nat) :
    ∀ table : List op_def, (∀ t ∈ table, ∀ c ∈ t.string, c.toNat ≠ 0) →
      (∀ t ∈ table, (expect = 0 ∨ t.flags &&& expect ≠ 0) → ¬ t.string <+: s) →
      _tok_op_loop s expect table = (0, s) := by
  intro table
  induction table with
  | nil => intro _ _; rfl
  | cons t ts ih =>
    intro hz h
    have ih1 := ih (fun u hu => hz u (List.mem_cons_of_mem _ hu))
      (fun u hu => h u (List.mem_cons_of_mem _ hu))
    simp only [_tok_op_loop]
    split
    · exact ih1
    · rename_i hx
      have hu : expect = 0 ∨ t.flags &&& expect ≠ 0 := by
        by_cases e0 : expect = 0
        · exact Or.inl e0
        · right
          intro e1
          exact hx ⟨e0, e1⟩
      rw [if_neg]
      · exact ih1
      · rw [strncmp_zero_iff t.string (hz t (List.mem_cons_self _ _))]
        exact h t (List.mem_cons_self _ _) hu

theorem tok_op_loop_longest (s : cstr) (expect : Nat) :
    ∀ table : List op_def, (∀ t ∈ table, ∀ c ∈ t.string, c.toNat ≠ 0) →
      table.Pairwise (fun a b => a.string <+: b.string → b.string.length ≤ a.string.length) →
      ∀ u ∈ table, (expect = 0 ∨ u.flags &&& expect ≠ 0) → u.string <+: s →
        ∃ t ∈ table, (expect = 0 ∨ t.flags &&& expect ≠ 0) ∧ t.string <+: s ∧
          u.string.length ≤ t.string.length ∧
          _tok_op_loop s expect table = (t.flags, s.drop t.string.length) := by
  intro table
  induction table with
  | nil =>
    intro _ _ u hu
    exact absurd hu (List.not_mem_nil _)
  | cons t ts ih =>
    intro hz hp u hu huse hpre
    have hz1 : ∀ t ∈ ts, ∀ c ∈ t.string, c.toNat ≠ 0 :=
      fun v hv => hz v (List.mem_cons_of_mem _ hv)
    rw [List.pairwise_cons] at hp
    have hrest : u ∈ ts → ∃ t1 ∈ t :: ts, (expect = 0 ∨ t1.flags &&& expect ≠ 0) ∧
        t1.string <+: s ∧ u.string.length ≤ t1.string.length ∧
        _tok_op_loop s expect ts = (t1.flags, s.drop t1.string.length) := by
      intro hmem
      obtain ⟨t1, h1, h2, h3, h4, h5⟩ := ih hz1 hp.2 u hmem huse hpre
      exact ⟨t1, List.mem_cons_of_mem _ h1, h2, h3, h4, h5⟩
    simp only [_tok_op_loop]
    split
    · rename_i hskip
      rcases List.mem_cons.1 hu with e | hmem
      · exfalso
        rw [e] at huse
        rcases huse with h0 | h1
        · exact hskip.1 h0
        · exact h1 hskip.2
      · exact hrest hmem
    · rename_i hx
      have htuse : expect = 0 ∨ t.flags &&& expect ≠ 0 := by
        by_cases e0 : expect = 0
        · exact Or.inl e0
        · right
          intro e1
          exact hx ⟨e0, e1⟩
      by_cases hpt : t.string <+: s
      · rw [if_pos ((strncmp_zero_iff t.string (hz t (List.mem_cons_self _ _)) s).2 hpt)]
        refine ⟨t, List.mem_cons_self _ _, htuse, hpt, ?_, rfl⟩
        rcases List.mem_cons.1 hu with e | hmem
        · rw [e]
        · by_contra hlt
          have hlt1 : t.string.length ≤ u.string.length := by omega
          have := hp.1 u hmem (List.prefix_of_prefix_length_le hpt hpre hlt1)
          omega
      · rw [if_neg (fun e => hpt ((strncmp_zero_iff t.string
          (hz t (List.mem_cons_self _ _)) s).1 e))]
        rcases List.mem_cons.1 hu with e | hmem
        · rw [e] at hpre
          exact absurd hpre hpt
        · exact hrest hmem

theorem prefix_same_length {a b s : cstr} (ha : a <+: s) (hb : b <+: s)
    (h : a.length = b.length) : a = b := by
  have h1 := List.prefix_of_prefix_length_le ha hb (by omega)
  exact List.IsPrefix.eq_of_length h1 h

/-- C21. For every input string `_tok_op_cmp` skips the leading spaces. When no spelling of
the table `_op_cmp` starts the rest it returns 0 and the end position is the first character
that is no space; otherwise it returns the flags of the longest spelling of the table that
starts the rest, and there is one, with the end position right after that spelling. -/
theorem tok_op_cmp_longest (s : cstr) :
    ((∀ t ∈ _op_cmp, ¬ t.string <+: s.dropWhile c_isspace) →
      _tok_op_cmp s = (0, s.dropWhile c_isspace)) ∧
    (∀ t ∈ _op_cmp, t.string <+: s.dropWhile c_isspace →
      (∀ u ∈ _op_cmp, u.string <+: s.dropWhile c_isspace →
        u.string.length ≤ t.string.length) →
      _tok_op_cmp s = (t.flags, (s.dropWhile c_isspace).drop t.string.length)) ∧
    ((∃ u ∈ _op_cmp, u.string <+: s.dropWhile c_isspace) →
      ∃ t ∈ _op_cmp, t.string <+: s.dropWhile c_isspace ∧
        ∀ u ∈ _op_cmp, u.string <+: s.dropWhile c_isspace →
          u.string.length ≤ t.string.length) := by
  have hz : ∀ t ∈ _op_cmp, ∀ c ∈ t.string, c.toNat ≠ 0 := by decide
  have hp : _op_cmp.Pairwise
      (fun a b => a.string <+: b.string → b.string.length ≤ a.string.length) := by decide
  have hinj : ∀ a ∈ _op_cmp, ∀ b ∈ _op_cmp, a.string = b.string → a = b := by decide
  have hfirst : ∀ u ∈ _op_cmp, u.string <+: s.dropWhile c_isspace →
      ∃ t ∈ _op_cmp, t.string <+: s.dropWhile c_isspace ∧
        u.string.length ≤ t.string.length ∧
        _tok_op_cmp s = (t.flags, (s.dropWhile c_isspace).drop t.string.length) := by
    intro u hu hpre
    obtain ⟨t, h1, _, h3, h4, h5⟩ :=
      tok_op_loop_longest (s.dropWhile c_isspace) 0 _op_cmp hz hp u hu (Or.inl rfl) hpre
    refine ⟨t, h1, h3, h4, ?_⟩
    unfold _tok_op_cmp _tok_op
    rw [skip_space_eq]
    exact h5
  refine ⟨?_, ?_, ?_⟩
  · intro h
    unfold _tok_op_cmp _tok_op
    rw [skip_space_eq]
    exact tok_op_loop_none _ 0 _op_cmp hz (fun t ht _ => h t ht)
  · intro t ht hpre hmax
    obtain ⟨t1, h1, h2, h3, h4⟩ := hfirst t ht hpre
    have hlen : t1.string.length = t.string.length :=
      Nat.le_antisymm (hmax t1 h1 h2) h3
    have heq : t1 = t := hinj t1 h1 t ht (prefix_same_length h2 hpre hlen)
    rw [h4, heq]
  · rintro ⟨u, hu, hpre⟩
    obtain ⟨t, h1, h2, _, h4⟩ := hfirst u hu hpre
    refine ⟨t, h1, h2, ?_⟩
    intro v hv hvpre
    obtain ⟨t2, g1, g2, g3, g4⟩ := hfirst v hv hvpre
    rw [h4] at g4
    have e : t.string.length = t2.string.length := by
      have e1 := congrArg (fun p => p.2.length) g4
      simp only [List.length_drop] at e1
      have l1 := h2.length_le
      have l2 := g2.length_le
      omega
    omega

/-- C21 at the input ` >=5`: the operator `>=` is taken, not `>`, and the end position is at
`5`; at `x` no operator is found and the end position is the `x`. -/
theorem tok_op_cmp_longest_witness :
    _tok_op_cmp [' ', '>', '=', '5'] =
        ((FLD_CMP_NUMBER ||| FLD_CMP_GT) ||| FLD_CMP_EQUAL, ['5']) ∧
      _tok_op_cmp [' ', 'x'] = (0, ['x']) :=
  ⟨(tok_op_cmp_longest [' ', '>', '=', '5']).2.1
      ⟨['>', '='], (FLD_CMP_NUMBER ||| FLD_CMP_GT) ||| FLD_CMP_EQUAL⟩ (by decide) (by decide)
      (by decide),
    (tok_op_cmp_longest [' ', 'x']).1 (by decide)⟩

theorem field_char_eq (c : Char) :
    (c_isalnum c || c == '_' || c == '-') = spec_field_char c := by
  unfold spec_field_char c_isalnum Char.isAlphanum Char.isAlpha Char.isUpper Char.isLower
    Char.isDigit
  rw [Bool.eq_iff_iff]
  simp only [Bool.or_eq_true, Bool.and_eq_true, decide_eq_true_eq, beq_iff_eq, ge_iff_le,
    Char.le_def]
  have e1 : 'A'.val = 65 := rfl
  have e2 : 'Z'.val = 90 := rfl
  have e3 : 'a'.val = 97 := rfl
  have e4 : 'z'.val = 122 := rfl
  have e5 : '0'.val = 48 := rfl
  have e6 : '9'.val = 57 := rfl
  rw [e1, e2, e3, e4, e5, e6]
  tauto

theorem field_name_loop_eq (s : cstr) :
    _tok_field_name_loop s = s.dropWhile spec_field_char := by
  induction s with
  | nil => rfl
  | cons c s ih =>
    simp only [_tok_field_name_loop, List.dropWhile_cons, field_char_eq]
    split
    · exact ih
    · rfl

theorem take_length_sub_dropWhile (p : Char → Bool) (s : cstr) :
    s.take (s.length - (s.dropWhile p).length) = s.takeWhile p := by
  have h := List.takeWhile_append_dropWhile p s
  have hl : s.length = (s.takeWhile p).length + (s.dropWhile p).length := by
    rw [← List.length_append, h]
  have e : s.length - (s.dropWhile p).length = (s.takeWhile p).length := by omega
  rw [e]
  have e2 : s.take (s.takeWhile p).length =
      (s.takeWhile p ++ s.dropWhile p).take (s.takeWhile p).length := by rw [h]
  rw [e2]
  exact List.take_left _ _

/-- C22. For every input string `_tok_field_name` skips the leading spaces; the token is the
longest run of characters of `[A-Za-z0-9_-]` that follows, parsing resumes right after it, and
the function fails exactly when that run is empty. -/
theorem tok_field_name_longest_run (s : cstr) :
    (_tok_field_name s = none ↔ (s.dropWhile c_isspace).takeWhile spec_field_char = []) ∧
    (∀ t, _tok_field_name s = some t →
      t.tbegin = s.dropWhile c_isspace ∧
      t.text = (s.dropWhile c_isspace).takeWhile spec_field_char ∧
      t.next = (s.dropWhile c_isspace).dropWhile spec_field_char ∧
      t.tend = t.next) ∧
    ((s.dropWhile c_isspace).takeWhile spec_field_char ≠ [] →
      ∃ t, _tok_field_name s = some t) := by
  have hl : (s.dropWhile c_isspace).length =
      ((s.dropWhile c_isspace).takeWhile spec_field_char).length +
        ((s.dropWhile c_isspace).dropWhile spec_field_char).length := by
    rw [← List.length_append, List.takeWhile_append_dropWhile]
  have hnone : _tok_field_name s = none ↔
      (s.dropWhile c_isspace).takeWhile spec_field_char = [] := by
    unfold _tok_field_name
    rw [skip_space_eq, field_name_loop_eq]
    constructor
    · intro h
      split at h
      · rename_i e
        exact List.length_eq_zero.1 (by omega)
      · exact absurd h (by simp)
    · intro h
      rw [if_pos]
      rw [h] at hl
      simpa using hl
  refine ⟨hnone, ?_, ?_⟩
  · intro t ht
    unfold _tok_field_name at ht
    rw [skip_space_eq, field_name_loop_eq] at ht
    split at ht
    · exact absurd ht (by simp)
    · simp only [Option.some.injEq] at ht
      rw [← ht]
      refine ⟨rfl, ?_, rfl, rfl⟩
      exact take_length_sub_dropWhile _ _
  · intro h
    cases ht : _tok_field_name s with
    | none => exact absurd (hnone.1 ht) h
    | some t => exact ⟨t, rfl⟩

/-- C22 at the input ` lv_name=x`: the token is `lv_name` and parsing resumes at `=x`; at the
input ` =x` the function fails. -/
theorem tok_field_name_longest_run_witness :
    (∃ t, _tok_field_name " lv_name=x".toList = some t ∧ t.text = "lv_name".toList ∧
      t.next = "=x".toList) ∧ _tok_field_name " =x".toList = none := by
  refine ⟨?_, (tok_field_name_longest_run " =x".toList).1.2 (by decide)⟩
  obtain ⟨t, ht⟩ := (tok_field_name_longest_run " lv_name=x".toList).2.2 (by decide)
  obtain ⟨_, h2, h3, _⟩ := (tok_field_name_longest_run " lv_name=x".toList).2.1 t ht
  exact ⟨t, ht, by rw [h2]; decide, by rw [h3]; decide⟩

/-! ## Selection parsing: values -/

theorem quoted_loop_eq (c : Char) (s : cstr) :
    _tok_value_string_quoted c s = s.dropWhile (fun x => x != c) := by
  induction s with
  | nil => rfl
  | cons a s ih =>
    simp only [_tok_value_string_quoted, List.dropWhile_cons]
    by_cases e : a = c
    · simp [e]
    · simp [e, ih]

theorem dropWhile_ne_of_mem (c : Char) :
    ∀ s : cstr, c ∈ s → s.dropWhile (fun x => x != c) =
      c :: (s.dropWhile (fun x => x != c)).tail := by
  intro s
  induction s with
  | nil => intro h; exact absurd h (List.not_mem_nil _)
  | cons a s ih =>
    intro h
    by_cases e : a = c
    · simp [e]
    · have hs : c ∈ s := by
        rcases List.mem_cons.1 h with h1 | h1
        · exact absurd h1.symm e
        · exact h1
      have e1 : (a != c) = true := by simpa using e
      rw [List.dropWhile_cons, if_pos e1]
      exact ih hs

theorem dropWhile_ne_of_not_mem (c : Char) :
    ∀ s : cstr, c ∉ s → s.dropWhile (fun x => x != c) = [] := by
  intro s
  induction s with
  | nil => intro _; rfl
  | cons a s ih =>
    intro h
    have e : a ≠ c := fun e => h (by rw [e]; exact List.mem_cons_self _ _)
    have e1 : (a != c) = true := by simpa using e
    rw [List.dropWhile_cons, if_pos e1]
    exact ih (fun hc => h (List.mem_cons_of_mem _ hc))

theorem takeWhile_ne_not_mem (c : Char) (s : cstr) : c ∉ s.takeWhile (fun x => x != c) := by
  intro h
  have := List.mem_takeWhile_imp h
  simp at this

/-- What `_tok_value_string` does with an end character: with the character in the string
the token is the text before its first occurrence and parsing resumes after it; without it
the function returns `NULL`. -/
theorem tok_value_string_quoted (c : Char) (hc : c ≠ Char.ofNat 0) (body : cstr) (f : Nat) :
    (c ∈ body → ∃ t, _tok_value_string body c f = some (t, none) ∧
      t.tbegin = body ∧ t.text = body.takeWhile (fun x => x != c) ∧
      t.next = (body.dropWhile (fun x => x != c)).tail ∧
      t.tend = c :: t.next ∧ body = t.text ++ c :: t.next ∧ c ∉ t.text) ∧
    (c ∉ body → _tok_value_string body c f = none) := by
  constructor
  · intro h
    have hd := dropWhile_ne_of_mem c body h
    refine ⟨⟨body, body.dropWhile (fun x => x != c),
      (body.dropWhile (fun x => x != c)).tail⟩, ?_, rfl, ?_, rfl, hd, ?_, ?_⟩
    · unfold _tok_value_string
      rw [if_pos hc, quoted_loop_eq]
      split
      · rename_i e
        rw [e] at hd
        exact absurd hd (by simp)
      · rename_i a r e
        rw [e]
        rfl
    · exact take_length_sub_dropWhile _ _
    · show body = tok.text ⟨body, _, _⟩ ++ c :: (body.dropWhile (fun x => x != c)).tail
      rw [← hd]
      show body = body.take _ ++ _
      rw [take_length_sub_dropWhile]
      exact (List.takeWhile_append_dropWhile _ _).symm
    · show c ∉ body.take _
      rw [take_length_sub_dropWhile]
      exact takeWhile_ne_not_mem c body
  · intro h
    unfold _tok_value_string
    rw [if_pos hc, quoted_loop_eq, dropWhile_ne_of_not_mem c body h]

theorem regex_endchar_opener (o : Char)
    (ho : o = '(' ∨ o = c_lbrace ∨ o = '[' ∨ o = c_dquote ∨ o = c_squote) :
    regex_endchar o = spec_closer o ∧ spec_closer o ≠ Char.ofNat 0 := by
  rcases ho with h | h | h | h | h <;> subst h <;> exact ⟨by decide, by decide⟩

/-- C23. Let a value open, after leading spaces, with the character `o`, and let `body` be
what follows `o`. As a regex value (`o` one of the brackets or quotes, closed by the matching
bracket or the same quote) and as the value of a string field (`o` a quote): when the closing
character occurs in `body`, the token is the text before its first occurrence and parsing
resumes right after that occurrence; when it does not occur, the function returns `NULL`. -/
theorem quoted_value_ends_at_closer (H : libdevmapper_h)
    (dm_units_to_factor : cstr → Nat × cstr) (ft : dm_report_field_type) (s : cstr)
    (flags custom : Nat) (o : Char) (body : cstr)
    (hs : s.dropWhile c_isspace = o :: body)
    (ho : o = '(' ∨ o = c_lbrace ∨ o = '[' ∨ o = c_dquote ∨ o = c_squote) :
    ((spec_closer o ∈ body →
        ∃ t, _tok_value_regex H s flags = some (t, flags ||| H.DM_REPORT_FIELD_TYPE_STRING) ∧
          t.text = body.takeWhile (fun x => x != spec_closer o) ∧
          t.next = (body.dropWhile (fun x => x != spec_closer o)).tail ∧
          body = t.text ++ spec_closer o :: t.next ∧ spec_closer o ∉ t.text) ∧
      (spec_closer o ∉ body → _tok_value_regex H s flags = none)) ∧
    (ft.flags &&& H.DM_REPORT_FIELD_TYPE_MASK = H.DM_REPORT_FIELD_TYPE_STRING →
      o = c_dquote ∨ o = c_squote →
      (o ∈ body →
        ∃ t, _tok_value H dm_units_to_factor ft s flags custom =
            some (some ⟨some t, t.next, flags ||| H.DM_REPORT_FIELD_TYPE_STRING, none⟩) ∧
          t.text = body.takeWhile (fun x => x != o) ∧
          t.next = (body.dropWhile (fun x => x != o)).tail ∧
          body = t.text ++ o :: t.next ∧ o ∉ t.text) ∧
      (o ∉ body → _tok_value H dm_units_to_factor ft s flags custom = some none)) := by
  obtain ⟨hend, hnz⟩ := regex_endchar_opener o ho
  refine ⟨⟨?_, ?_⟩, ?_⟩
  · intro hmem
    obtain ⟨t, h1, _, h3, h4, _, h6, h7⟩ :=
      (tok_value_string_quoted (spec_closer o) hnz body value_end_flags).1 hmem
    refine ⟨t, ?_, h3, h4, h6, h7⟩
    unfold _tok_value_regex
    rw [skip_space_eq, hs]
    simp only [hend, if_pos hnz, h1]
  · intro hmem
    have h1 := (tok_value_string_quoted (spec_closer o) hnz body value_end_flags).2 hmem
    unfold _tok_value_regex
    rw [skip_space_eq, hs]
    simp only [hend, if_pos hnz, h1]
  · intro hstr hq
    have hoz : o ≠ Char.ofNat 0 := by
      rcases hq with h | h <;> subst h <;> decide
    have hhead : (o :: body).head? = some c_dquote ∨ (o :: body).head? = some c_squote := by
      rcases hq with h | h
      · exact Or.inl (by rw [h]; rfl)
      · exact Or.inr (by rw [h]; rfl)
    constructor
    · intro hmem
      obtain ⟨t, h1, _, h3, h4, _, h6, h7⟩ :=
        (tok_value_string_quoted o hoz body value_end_flags).1 hmem
      refine ⟨t, ?_, h3, h4, h6, h7⟩
      unfold _tok_value
      rw [if_pos hstr, skip_space_eq, hs, if_pos hhead]
      simp only [List.tail_cons, List.head?_cons, Option.getD_some, h1]
    · intro hmem
      have h1 := (tok_value_string_quoted o hoz body value_end_flags).2 hmem
      unfold _tok_value
      rw [if_pos hstr, skip_space_eq, hs, if_pos hhead]
      simp only [List.tail_cons, List.head?_cons, Option.getD_some, h1]

/-- C23 at the values `'abc` and ` 'abc' x` of the string field `lv_name`, and at the regex
value `(a(b)c`: the first fails, the second yields the token `abc` and resumes at ` x`, the
third yields `a(b` and resumes at `c`. -/
theorem quoted_value_ends_at_closer_witness :
    _tok_value sample_h (fun x => (0, x)) sample_name_field [c_squote, 'a', 'b', 'c'] 0 1 =
        some none ∧
      (∃ t, _tok_value sample_h (fun x => (0, x)) sample_name_field
          [' ', c_squote, 'a', 'b', 'c', c_squote, ' ', 'x'] 0 1 =
            some (some ⟨some t, t.next, 0x10, none⟩) ∧
          t.text = ['a', 'b', 'c'] ∧ t.next = [' ', 'x']) ∧
      (∃ t, _tok_value_regex sample_h ['(', 'a', '(', 'b', ')', 'c'] 0 = some (t, 0x10) ∧
          t.text = ['a', '(', 'b'] ∧ t.next = ['c']) := by
  have T1 := quoted_value_ends_at_closer sample_h (fun x => (0, x)) sample_name_field
    [c_squote, 'a', 'b', 'c'] 0 1 c_squote ['a', 'b', 'c'] (by decide) (by decide)
  have T2 := quoted_value_ends_at_closer sample_h (fun x => (0, x)) sample_name_field
    [' ', c_squote, 'a', 'b', 'c', c_squote, ' ', 'x'] 0 1 c_squote
    ['a', 'b', 'c', c_squote, ' ', 'x'] (by decide) (by decide)
  have T3 := quoted_value_ends_at_closer sample_h (fun x => (0, x)) sample_name_field
    ['(', 'a', '(', 'b', ')', 'c'] 0 1 '(' ['a', '(', 'b', ')', 'c'] (by decide) (by decide)
  refine ⟨(T1.2 rfl (Or.inr rfl)).2 (by decide), ?_, ?_⟩
  · obtain ⟨t, h1, h2, h3, _⟩ := (T2.2 rfl (Or.inr rfl)).1 (by decide)
    exact ⟨t, h1, by rw [h2]; decide, by rw [h3]; decide⟩
  · obtain ⟨t, h1, h2, h3, _⟩ := T3.1.1 (by decide)
    exact ⟨t, h1, by rw [h2]; decide, by rw [h3]; decide⟩

theorem tok_op_log_ne_zero (x : cstr) (f : Nat) :
    (_tok_op _op_log x f).1 ≠ 0 ↔
      ∃ op ∈ _op_log, (f = 0 ∨ op.flags &&& f ≠ 0) ∧ op.string <+: x.dropWhile c_isspace := by
  have hz : ∀ t ∈ _op_log, ∀ c ∈ t.string, c.toNat ≠ 0 := by decide
  have hp : _op_log.Pairwise
      (fun a b => a.string <+: b.string → b.string.length ≤ a.string.length) := by decide
  have hfl : ∀ t ∈ _op_log, t.flags ≠ 0 := by decide
  unfold _tok_op
  rw [skip_space_eq]
  constructor
  · intro h
    by_contra hno
    apply h
    rw [tok_op_loop_none _ f _op_log hz]
    intro t ht hu hpre
    exact hno ⟨t, ht, hu, hpre⟩
  · rintro ⟨op, hop, hu, hpre⟩
    obtain ⟨t, h1, _, _, _, h5⟩ := tok_op_loop_longest _ f _op_log hz hp op hop hu hpre
    rw [h5]
    exact hfl t h1

theorem value_scan_spec (f : Nat) :
    ∀ s : cstr,
      (∃ tk, s = tk ++ (_tok_value_string_scan f s).1 ∧
        (_tok_value_string_scan f s).1.length + tk.length = s.length ∧
        (∀ i, i < tk.length →
          (s.drop i).head? ≠ some ' ' ∧ (_tok_op _op_log (s.drop i) f).1 = 0) ∧ ' ' ∉ tk) ∧
      ((_tok_value_string_scan f s).1 = [] ∨
        (_tok_value_string_scan f s).1.head? = some ' ' ∨
        (_tok_op _op_log (_tok_value_string_scan f s).1 f).1 ≠ 0) := by
  intro s
  induction s with
  | nil =>
    exact ⟨⟨[], rfl, rfl, fun i hi => absurd hi (Nat.not_lt_zero _), List.not_mem_nil _⟩,
      Or.inl rfl⟩
  | cons c s ih =>
    by_cases hstop : (_tok_op _op_log (c :: s) f).1 ≠ 0 ∨ c = ' '
    · have e : _tok_value_string_scan f (c :: s) =
          (c :: s, (_tok_op _op_log (c :: s) f).1) := by
        simp only [_tok_value_string_scan]
        rw [if_pos hstop]
      rw [e]
      refine ⟨⟨[], rfl, rfl, fun i hi => absurd hi (Nat.not_lt_zero _), List.not_mem_nil _⟩,
        ?_⟩
      rcases hstop with h | h
      · exact Or.inr (Or.inr h)
      · exact Or.inr (Or.inl (by rw [h]; rfl))
    · have e : _tok_value_string_scan f (c :: s) = _tok_value_string_scan f s := by
        simp only [_tok_value_string_scan]
        rw [if_neg hstop]
      rw [e]
      obtain ⟨⟨tk, h1, h2, h3, h4⟩, h5⟩ := ih
      have hc : c ≠ ' ' := fun e1 => hstop (Or.inr e1)
      have hop : (_tok_op _op_log (c :: s) f).1 = 0 := by
        by_contra e1
        exact hstop (Or.inl e1)
      refine ⟨⟨c :: tk, ?_, ?_, ?_, ?_⟩, h5⟩
      · rw [List.cons_append, ← h1]
      · simp only [List.length_cons]
        omega
      · intro i hi
        cases i with
        | zero =>
          refine ⟨?_, hop⟩
          simp only [List.drop_zero, List.head?_cons, ne_eq, Option.some.injEq]
          exact hc
        | succ n =>
          simp only [List.drop_succ_cons]
          exact h3 n (by simpa using hi)
      · intro hm
        rcases List.mem_cons.1 hm with h | h
        · exact hc h.symm
        · exact h4 h

/-- C24 fails for white space other than the space character: in `a<TAB>b` the tab is a
space for `isspace`, yet the token of the value without quotes is the whole of `a<TAB>b`. -/
theorem unquoted_value_counterexample :
    c_isspace (Char.ofNat 9) = true ∧
      (_tok_value_string ['a', Char.ofNat 9, 'b'] (Char.ofNat 0) value_end_flags).map
          (fun p => (p.1.text, p.1.next)) = some (['a', Char.ofNat 9, 'b'], []) := by
  decide

/-- C24, amended. For every value without quotes, `_tok_value_string` without an end
character succeeds; the token ends at the first position that holds the space character or
at which `_tok_op` finds a logical operator selected by `end_op_flags` (after leading white
space), or at the end of the input when there is no such position; parsing resumes where the
token ends, and the token holds no space character. -/
theorem unquoted_value_ends (s : cstr) (f : Nat) :
    ∃ t hit, _tok_value_string s (Char.ofNat 0) f = some (t, some hit) ∧
      t.tbegin = s ∧ t.tend = t.next ∧ s = t.text ++ t.next ∧
      (t.next = [] ∨ t.next.head? = some ' ' ∨
        ∃ op ∈ _op_log, (f = 0 ∨ op.flags &&& f ≠ 0) ∧
          op.string <+: t.next.dropWhile c_isspace) ∧
      (∀ i, i < t.text.length → (s.drop i).head? ≠ some ' ' ∧
        ∀ op ∈ _op_log, (f = 0 ∨ op.flags &&& f ≠ 0) →
          ¬ op.string <+: (s.drop i).dropWhile c_isspace) ∧
      ' ' ∉ t.text := by
  obtain ⟨⟨tk, h1, h2, h3, h4⟩, h5⟩ := value_scan_spec f s
  have htext : tok.text ⟨s, (_tok_value_string_scan f s).1, (_tok_value_string_scan f s).1⟩ =
      tk := by
    show s.take (s.length - (_tok_value_string_scan f s).1.length) = tk
    have e : s.length - (_tok_value_string_scan f s).1.length = tk.length := by omega
    rw [e]
    have e2 : s.take tk.length = (tk ++ (_tok_value_string_scan f s).1).take tk.length := by
      rw [← h1]
    rw [e2]
    exact List.take_left _ _
  refine ⟨⟨s, (_tok_value_string_scan f s).1, (_tok_value_string_scan f s).1⟩,
    (_tok_value_string_scan f s).2, ?_, rfl, rfl, ?_, ?_, ?_, ?_⟩
  · unfold _tok_value_string
    rw [if_neg (by simp)]
  · rw [htext]
    exact h1
  · rcases h5 with h | h | h
    · exact Or.inl h
    · exact Or.inr (Or.inl h)
    · exact Or.inr (Or.inr ((tok_op_log_ne_zero _ f).1 h))
  · rw [htext]
    intro i hi
    refine ⟨(h3 i hi).1, ?_⟩
    intro op hop hu hpre
    exact (tok_op_log_ne_zero (s.drop i) f).2 ⟨op, hop, hu, hpre⟩ (h3 i hi).2
  · rw [htext]
    exact h4

/-- C25, where the code departs from it. For the number field `lv_size` and the value `10`,
digits with no unit, `_tok_value` returns `NULL` whatever `dm_units_to_factor` answers: the
test `if (factor)` looks at the pointer, which is never `NULL` there. The same holds for
every field of type number and every input: the function never hands back a token. A field
of type size is accepted with the factor stored and resumes where `dm_units_to_factor` puts
`endptr`. -/
theorem number_value_always_refused :
    (∀ units : cstr → Nat × cstr,
      _tok_value sample_h units sample_size_field ['1', '0'] 0 1 = some none) ∧
    (∀ (H : libdevmapper_h) (units : cstr → Nat × cstr) (ft : dm_report_field_type)
      (s : cstr) (flags custom : Nat) (r : value_tok),
      ft.flags &&& H.DM_REPORT_FIELD_TYPE_MASK = H.DM_REPORT_FIELD_TYPE_NUMBER →
      H.DM_REPORT_FIELD_TYPE_NUMBER ≠ H.DM_REPORT_FIELD_TYPE_STRING →
      _tok_value H units ft s flags custom ≠ some (some r)) ∧
    (∀ (H : libdevmapper_h) (units : cstr → Nat × cstr) (ft : dm_report_field_type)
      (s : cstr) (flags custom : Nat) (t : tok),
      ft.flags &&& H.DM_REPORT_FIELD_TYPE_MASK = H.DM_REPORT_FIELD_TYPE_SIZE →
      H.DM_REPORT_FIELD_TYPE_SIZE ≠ H.DM_REPORT_FIELD_TYPE_STRING →
      H.DM_REPORT_FIELD_TYPE_SIZE ≠ H.DM_REPORT_FIELD_TYPE_NUMBER →
      custom ≠ 0 → _tok_value_number (s.dropWhile c_isspace) = some t →
      _tok_value H units ft s flags custom =
        some (some ⟨some t, (units t.next).2, flags ||| H.DM_REPORT_FIELD_TYPE_SIZE,
          some (units t.next).1⟩)) := by
  refine ⟨?_, ?_, ?_⟩
  · intro units
    rfl
  · intro H units ft s flags custom r hnum hne h
    unfold _tok_value at h
    rw [hnum, if_neg hne, if_pos (Or.inl rfl)] at h
    split at h
    · exact absurd h (by simp)
    · by_cases hc : custom = 0
      · rw [if_pos hc] at h
        exact absurd h (by simp)
      · rw [if_neg hc, if_pos rfl, if_pos hc] at h
        exact absurd h (by simp)
  · intro H units ft s flags custom t hsize hne1 hne2 hc ht
    unfold _tok_value
    rw [hsize, if_neg hne1, if_pos (Or.inr rfl), skip_space_eq, ht]
    simp only
    rw [if_neg hc, if_neg hne2]

/-! ## Lists with repeated commas -/

theorem words_replicate_comma (k : Nat) (s : cstr) :
    words (List.replicate k ',' ++ s) = words s := by
  induction k with
  | zero => rfl
  | succ k ih =>
    rw [List.replicate_succ, List.cons_append, words_comma]
    exact ih

theorem takeWhile_token (w r : cstr) (hc : ',' ∉ w) :
    (w ++ ',' :: r).takeWhile (fun c => c != ',') = w ∧
      (w ++ ',' :: r).dropWhile (fun c => c != ',') = ',' :: r := by
  induction w with
  | nil => exact ⟨by simp, by simp⟩
  | cons a w ih =>
    have ha : a ≠ ',' := fun e => hc (by rw [e]; exact List.mem_cons_self _ _)
    have ha1 : (a != ',') = true := by simpa using ha
    have ih1 := ih (fun h => hc (List.mem_cons_of_mem _ h))
    rw [List.cons_append, List.takeWhile_cons, List.dropWhile_cons, if_pos ha1, if_pos ha1]
    exact ⟨by rw [ih1.1], ih1.2⟩

theorem words_token_comma (w r : cstr) (hne : w ≠ []) (hc : ',' ∉ w) :
    words (w ++ ',' :: r) = w :: words r := by
  rw [words_eq, (takeWhile_token w r hc).1, (takeWhile_token w r hc).2, if_neg hne,
    words_comma]
  rfl

theorem getLast?_append_ne_nil (a b : cstr) (hb : b ≠ []) :
    (a ++ b).getLast? = b.getLast? := by
  rw [List.getLast?_append]
  cases h : b.getLast? with
  | none => exact absurd (List.getLast?_eq_none_iff.1 h) hb
  | some c => rfl

theorem words_join_more (t1 : cstr) (rest : List (Nat × cstr)) :
    t1 ≠ [] → ',' ∉ t1 → (∀ p ∈ rest, p.2 ≠ [] ∧ ',' ∉ p.2) →
      words (t1 ++ join_more rest) = t1 :: rest.map Prod.snd ∧
        (t1 ++ join_more rest).getLast? ≠ some ',' := by
  induction rest generalizing t1 with
  | nil =>
    intro hne hc _
    simp only [join_more, List.append_nil, List.map_nil]
    exact words_single hne hc
  | cons p rest ih =>
    intro hne hc hrest
    obtain ⟨hp1, hp2⟩ := hrest p (List.mem_cons_self _ _)
    obtain ⟨ih1, ih2⟩ := ih p.2 hp1 hp2 (fun q hq => hrest q (List.mem_cons_of_mem _ hq))
    have hne2 : p.2 ++ join_more rest ≠ [] := by
      intro e
      exact hp1 (List.append_eq_nil.1 e).1
    constructor
    · simp only [join_more, List.replicate_succ, List.cons_append, List.map_cons]
      rw [words_token_comma t1 _ hne hc, words_replicate_comma, ih1]
    · simp only [join_more]
      rw [getLast?_append_ne_nil _ _ (by
        intro e
        exact hne2 (List.append_eq_nil.1 e).2),
        getLast?_append_ne_nil _ _ hne2]
      exact ih2

theorem words_join_loose (lead : Nat) (t1 : cstr) (rest : List (Nat × cstr))
    (hne : t1 ≠ []) (hc : ',' ∉ t1) (hrest : ∀ p ∈ rest, p.2 ≠ [] ∧ ',' ∉ p.2) :
    words (join_loose lead t1 rest) = t1 :: rest.map Prod.snd ∧
      (join_loose lead t1 rest).getLast? ≠ some ',' := by
  obtain ⟨h1, h2⟩ := words_join_more t1 rest hne hc hrest
  unfold join_loose
  constructor
  · rw [words_replicate_comma]
    exact h1
  · rw [getLast?_append_ne_nil _ _ (by
      intro e
      exact hne (List.append_eq_nil.1 e).1)]
    exact h2

theorem words_join_single (t1 : cstr) (rest : List (Nat × cstr))
    (hne : t1 ≠ []) (hc : ',' ∉ t1) (hrest : ∀ p ∈ rest, p.2 ≠ [] ∧ ',' ∉ p.2) :
    words (join_single t1 (rest.map Prod.snd)) = t1 :: rest.map Prod.snd ∧
      (join_single t1 (rest.map Prod.snd)).getLast? ≠ some ',' := by
  have h := words_join_loose 0 t1 ((rest.map Prod.snd).map (fun t => (0, t))) hne hc (by
    intro p hp
    simp only [List.map_map, List.mem_map, Function.comp] at hp
    obtain ⟨q, hq, e⟩ := hp
    rw [← e]
    exact hrest q hq)
  simp only [List.map_map] at h
  have e : (rest.map ((Prod.snd : Nat × cstr → cstr) ∘ (fun t => ((0 : Nat), t)) ∘ Prod.snd)) =
      rest.map Prod.snd := by
    apply List.map_congr_left
    intro q _
    rfl
  unfold join_single
  simp only [List.map_map]
  rw [← e]
  exact h

theorem parse_fields_same_words (H : libdevmapper_h) (rh : dm_report) (s1 s2 : cstr)
    (b : Bool) (hw : words s1 = words s2) (h1 : s1.getLast? ≠ some ',')
    (h2 : s2.getLast? ≠ some ',') : _parse_fields H rh s1 b = _parse_fields H rh s2 b := by
  rw [parse_fields_words, parse_fields_words, if_neg h1, if_neg h2, hw]

theorem parse_keys_same_words (H : libdevmapper_h) (rh : dm_report) (s1 s2 : cstr)
    (b : Bool) (hw : words s1 = words s2) (h1 : s1.getLast? ≠ some ',')
    (h2 : s2.getLast? ≠ some ',') :
    _parse_keys H rh (some s1) b = _parse_keys H rh (some s2) b := by
  rw [parse_keys_words, parse_keys_words, if_neg h1, if_neg h2, hw]

/-- C28. Let `t1` and the tokens of `rest` be non-empty and free of commas, and likewise
`k1` and the tokens of `krest`. Joined with one or more commas between neighbours and any
number of commas before the first, a field list and a sort key list resolve as they do when
joined with single commas: `_parse_fields` and `_parse_keys` return the same on every handle
in both passes, and `dm_report_init` returns the same handle or fails alike. -/
theorem repeated_commas_same_result (H : libdevmapper_h) (lead : Nat) (t1 : cstr)
    (rest : List (Nat × cstr)) (klead : Nat) (k1 : cstr) (krest : List (Nat × cstr))
    (hne : t1 ≠ []) (hc : ',' ∉ t1) (hrest : ∀ p ∈ rest, p.2 ≠ [] ∧ ',' ∉ p.2)
    (hkne : k1 ≠ []) (hkc : ',' ∉ k1) (hkrest : ∀ p ∈ krest, p.2 ≠ [] ∧ ',' ∉ p.2) :
    (∀ (rh : dm_report) (b : Bool),
      _parse_fields H rh (join_loose lead t1 rest) b =
        _parse_fields H rh (join_single t1 (rest.map Prod.snd)) b) ∧
    (∀ (rh : dm_report) (b : Bool),
      _parse_keys H rh (some (join_loose klead k1 krest)) b =
        _parse_keys H rh (some (join_single k1 (krest.map Prod.snd))) b) ∧
    (∀ (report_types : Option Nat) (types : List dm_report_object_type)
      (fields : List dm_report_field_type) (output_separator : cstr) (output_flags : Nat)
      (private_data : Nat),
      dm_report_init H report_types types fields (join_loose lead t1 rest) output_separator
          output_flags (some (join_loose klead k1 krest)) private_data =
        dm_report_init H report_types types fields (join_single t1 (rest.map Prod.snd))
          output_separator output_flags (some (join_single k1 (krest.map Prod.snd)))
          private_data ∧
      dm_report_init H report_types types fields (join_loose lead t1 rest) output_separator
          output_flags none private_data =
        dm_report_init H report_types types fields (join_single t1 (rest.map Prod.snd))
          output_separator output_flags none private_data) := by
  obtain ⟨f1, f2⟩ := words_join_loose lead t1 rest hne hc hrest
  obtain ⟨f3, f4⟩ := words_join_single t1 rest hne hc hrest
  obtain ⟨g1, g2⟩ := words_join_loose klead k1 krest hkne hkc hkrest
  obtain ⟨g3, g4⟩ := words_join_single k1 krest hkne hkc hkrest
  have hf : ∀ (rh : dm_report) (b : Bool),
      _parse_fields H rh (join_loose lead t1 rest) b =
        _parse_fields H rh (join_single t1 (rest.map Prod.snd)) b :=
    fun rh b => parse_fields_same_words H rh _ _ b (by rw [f1, f3]) f2 f4
  have hk : ∀ (rh : dm_report) (b : Bool),
      _parse_keys H rh (some (join_loose klead k1 krest)) b =
        _parse_keys H rh (some (join_single k1 (krest.map Prod.snd))) b :=
    fun rh b => parse_keys_same_words H rh _ _ b (by rw [g1, g3]) g2 g4
  refine ⟨hf, hk, ?_⟩
  intro report_types types fields output_separator output_flags private_data
  constructor
  · unfold dm_report_init
    simp only [hf, hk]
  · unfold dm_report_init
    simp only [hf]

/-- C28 at the lists `,name,,size` and `-size`: the session is the one of `name,size`, and
it exists. -/
theorem repeated_commas_same_result_witness :
    dm_report_init sample_h (some 1) sample_types sample_fields ",name,,size".toList
        " ".toList 2 (some "-size".toList) 0 = sample_init ∧ sample_init.isSome = true :=
  ⟨((repeated_commas_same_result sample_h 1 "name".toList [(1, "size".toList)] 0
      "-size".toList [] (by decide) (by decide) (by decide) (by decide) (by decide)
      (by decide)).2.2 (some 1) sample_types sample_fields " ".toList 2 0).1, by decide⟩

/-! ## The help markers -/

theorem tolower_ne_zero (c : Char) (h : c.toNat ≠ 0) : c_tolower c ≠ 0 := by
  unfold c_tolower Char.toLower
  simp only
  split
  · rename_i hb
    have hc : c = Char.ofNat c.toNat := (Char.ofNat_toNat c).symm
    generalize c.toNat = n at hb hc h
    subst hc
    obtain ⟨h1, h2⟩ := hb
    interval_cases n <;> decide
  · exact_mod_cast h

theorem strcasecmp_eq_zero :
    ∀ (a b : cstr), (∀ c ∈ a, c.toNat ≠ 0) → (∀ c ∈ b, c.toNat ≠ 0) →
      (strcasecmp a b = 0 ↔ ci_eq a b) := by
  intro a
  induction a with
  | nil =>
    intro b _ hb
    cases b with
    | nil => simp [strcasecmp, ci_eq]
    | cons y b =>
      have := tolower_ne_zero y (hb y (List.mem_cons_self _ _))
      simp only [strcasecmp, ci_eq, List.map_nil, List.map_cons]
      constructor
      · intro h
        omega
      · intro h
        exact absurd h (by simp)
  | cons x a ih =>
    intro b ha hb
    cases b with
    | nil =>
      have := tolower_ne_zero x (ha x (List.mem_cons_self _ _))
      simp only [strcasecmp, ci_eq, List.map_nil, List.map_cons]
      constructor
      · intro h
        omega
      · intro h
        exact absurd h (by simp)
    | cons y b =>
      have ih1 := ih b (fun c hc => ha c (List.mem_cons_of_mem _ hc))
        (fun c hc => hb c (List.mem_cons_of_mem _ hc))
      simp only [strcasecmp]
      by_cases hxy : c_tolower x = c_tolower y
      · rw [if_pos hxy, ih1]
        unfold ci_eq
        simp only [List.map_cons, hxy, List.cons.injEq, true_and]
      · rw [if_neg hxy]
        unfold ci_eq
        simp only [List.map_cons, List.cons.injEq]
        constructor
        · intro h
          exact absurd (by omega) hxy
        · intro h
          exact absurd h.1 hxy

/-- The error line is left out exactly when the rest of the list from the word on, not the
word, is a help marker. -/
theorem unmatched_log_quiet (msg ws : cstr) (len : Nat) (hz : ∀ c ∈ ws, c.toNat ≠ 0) :
    unmatched_log sample_h msg ws len = [log_entry.display_fields, log_entry.warn [' ']] ↔
      (ci_eq ws ['h', 'e', 'l', 'p'] ∨ ws = ['?']) := by
  have h1 := strcasecmp_eq_zero ws ['h', 'e', 'l', 'p'] hz (by decide)
  have h2 : strcmp ws ['?'] = 0 ↔ ws = ['?'] :=
    ⟨strcmp_eq_zero ws ['?'] hz (by decide), fun e => by rw [e]; decide⟩
  unfold unmatched_log
  show _ ++ (if strcasecmp ws ['h', 'e', 'l', 'p'] ≠ 0 ∧ strcmp ws ['?'] ≠ 0 then _ else _) =
    _ ↔ _
  constructor
  · intro h
    split at h
    · exact absurd h (by simp)
    · rename_i hn
      by_cases e1 : strcasecmp ws ['h', 'e', 'l', 'p'] = 0
      · exact Or.inl (h1.1 e1)
      · by_cases e2 : strcmp ws ['?'] = 0
        · exact Or.inr (h2.1 e2)
        · exact absurd ⟨e1, e2⟩ hn
  · intro h
    rw [if_neg]
    · rfl
    · rintro ⟨e1, e2⟩
      rcases h with h | h
      · exact e1 (h1.2 h)
      · exact e2 (h2.2 h)

/-- C27, where the code departs from it. On the sample registry no field is named `help`
or `?`. As the last word of the list a help marker is not reported as an error: the catalog
is displayed and nothing else. Followed by another word it is: `strcasecmp` and `strcmp`
compare the markers with the whole rest of the list, `help,name` and `?,name`, not with the
word. Any other word that matches nothing is reported. The same holds for sort keys. For
every unmatched word the error line is left out exactly when the rest of the list from the
word on is a help marker. -/
theorem help_marker_before_another_word :
    sample_log "help,name".toList none =
        [log_entry.display_fields, log_entry.warn [' '],
          log_entry.error "Unrecognised field: help".toList] ∧
      sample_log "?,name".toList none =
        [log_entry.display_fields, log_entry.warn [' '],
          log_entry.error "Unrecognised field: ?".toList] ∧
      sample_log "name".toList (some "HELP,size".toList) =
        [log_entry.display_fields, log_entry.warn [' '],
          log_entry.error "dm_report: Unrecognised field: HELP".toList] ∧
      sample_log "name,HeLp".toList none = [log_entry.display_fields, log_entry.warn [' ']] ∧
      sample_log "name,?".toList none = [log_entry.display_fields, log_entry.warn [' ']] ∧
      sample_log "name".toList (some "size,help".toList) =
        [log_entry.display_fields, log_entry.warn [' ']] ∧
      sample_log "name,bogus".toList none =
        [log_entry.display_fields, log_entry.warn [' '],
          log_entry.error "Unrecognised field: bogus".toList] ∧
      dm_report_init sample_h (some 1) sample_types sample_fields "help,name".toList
        " ".toList 2 none 0 = some none ∧
      (∀ (msg ws : cstr) (len : Nat), (∀ c ∈ ws, c.toNat ≠ 0) →
        (unmatched_log sample_h msg ws len =
            [log_entry.display_fields, log_entry.warn [' ']] ↔
          (ci_eq ws ['h', 'e', 'l', 'p'] ∨ ws = ['?']))) := by
  refine ⟨by decide, by decide, by decide, by decide, by decide, by decide, by decide, ?_,
    unmatched_log_quiet⟩
  rfl

/-! ## Unbuffered sessions -/

theorem output_as_columns_rows_cons (H : libdevmapper_h) (rh : dm_report) (r : row)
    (rest : List row) :
    _output_as_columns_rows H rh (r :: rest) =
      match _output_as_columns_line H rh r.fields, _output_as_columns_rows H rh rest with
      | some l, some ls => some (l :: ls)
      | _, _ => none := rfl

theorem output_as_columns_rows_snoc (H : libdevmapper_h) (rh : dm_report) (r : row) :
    ∀ (rows : List row) (lines : List cstr),
      _output_as_columns_rows H rh (rows ++ [r]) = some lines →
        ∃ older line, lines = older ++ [line] ∧
          _output_as_columns_rows H rh rows = some older ∧ older.length = rows.length ∧
          _output_as_columns_line H rh r.fields = some line := by
  intro rows
  induction rows with
  | nil =>
    intro lines h
    simp only [List.nil_append, _output_as_columns_rows] at h
    cases hl : _output_as_columns_line H rh r.fields with
    | none =>
      rw [hl] at h
      exact absurd h (by simp)
    | some line =>
      rw [hl] at h
      simp only [Option.some.injEq] at h
      exact ⟨[], line, by rw [← h]; rfl, rfl, rfl, rfl⟩
  | cons a rows ih =>
    intro lines h
    rw [List.cons_append, output_as_columns_rows_cons] at h
    cases hl : _output_as_columns_line H rh a.fields with
    | none =>
      rw [hl] at h
      exact absurd h (by simp)
    | some l =>
      cases hr : _output_as_columns_rows H rh (rows ++ [r]) with
      | none =>
        rw [hl, hr] at h
        exact absurd h (by simp)
      | some ls =>
        rw [hl, hr] at h
        simp only [Option.some.injEq] at h
        obtain ⟨older, line, e1, e2, e3, e4⟩ := ih ls hr
        refine ⟨l :: older, line, ?_, ?_, ?_, e4⟩
        · rw [← h, e1]
          rfl
        · rw [output_as_columns_rows_cons, hl, e2]
        · simp only [List.length_cons, e3]

theorem report_output_no_rows (H : libdevmapper_h)
    (qsort : (row → row → Int) → List row → List row) (rh : dm_report) (h : rh.rows = []) :
    dm_report_output H qsort rh = some ⟨1, [], some rh⟩ := by
  unfold dm_report_output
  rw [h]
  rfl

theorem unbuffered_object_call {H : libdevmapper_h}
    {qsort : (row → row → Int) → List row → List row} {rh : dm_report} {object : Nat}
    {out : outcome} (hb : rh.flags &&& H.DM_REPORT_OUTPUT_BUFFERED = 0)
    (hc : rh.flags &&& H.DM_REPORT_OUTPUT_COLUMNS_AS_ROWS = 0)
    (hs : rh.flags &&& RH_SORT_REQUIRED = 0)
    (hcall : dm_report_object H qsort (some rh) object = some out) (hret : out.ret = 1) :
    ∃ (props : List field_properties) (r : row) (rh1 : dm_report)
      (heading older : List cstr) (line : cstr),
      dm_report_object_loop rh object [] rh.field_props (new_row rh) =
        some (props, r, true) ∧
      out.rh = some rh1 ∧ rh1.rows = [] ∧ rh1.field_props = props ∧
      (rh1.flags = rh.flags ∨ rh1.flags = rh.flags ||| RH_HEADINGS_PRINTED) ∧
      out.printed = heading ++ older ++ [line] ∧ heading.length ≤ 1 ∧
      (rh.flags &&& RH_HEADINGS_PRINTED ≠ 0 → heading = []) ∧
      older.length = rh.rows.length ∧
      _output_as_columns_line H { rh1 with rows := rh.rows ++ [r] } r.fields = some line := by
  rw [report_object_eq] at hcall
  split at hcall
  · exact absurd hcall (by simp)
  · rename_i props r ok hl
    split at hcall
    · simp only [Option.some.injEq] at hcall
      rw [← hcall] at hret
      have h2 : (0 : Int) = 1 := hret
      exact absurd h2 (by decide)
    · rename_i hok
      have hok1 : ok = true := by
        cases ok with
        | true => rfl
        | false => exact absurd rfl hok
      subst hok1
      unfold dm_report_output at hcall
      have hne : (rh.rows ++ [r]).isEmpty = false := by
        cases rh.rows <;> rfl
      simp only [hne, Bool.false_eq_true, if_false] at hcall
      rw [if_neg (by simpa using hs)] at hcall
      simp only at hcall
      rw [if_neg (by simpa using hc)] at hcall
      unfold _output_as_columns at hcall
      split at hcall
      · exact absurd hcall (by simp)
      · rename_i rh2 heading hhead
        split at hcall
        · exact absurd hcall (by simp)
        · rename_i lines hlines
          simp only [Option.some.injEq] at hcall
          have hrh2 : (rh2 = { rh with field_props := props, rows := rh.rows ++ [r] } ∨
              rh2 = { ({ rh with field_props := props, rows := rh.rows ++ [r] } : dm_report)
                with flags := rh.flags ||| RH_HEADINGS_PRINTED }) ∧ heading.length ≤ 1 ∧
              (rh.flags &&& RH_HEADINGS_PRINTED ≠ 0 → heading = []) := by
            split at hhead
            · rename_i hclear
              obtain ⟨g1, g2, _⟩ := report_headings_eq hhead
              exact ⟨g1, g2, fun hp => absurd hclear hp⟩
            · simp only [Option.some.injEq, Prod.mk.injEq] at hhead
              exact ⟨Or.inl hhead.1.symm, by rw [← hhead.2]; simp, fun _ => hhead.2.symm⟩
          obtain ⟨hcase, hlen, hprinted⟩ := hrh2
          have hrows : rh2.rows = rh.rows ++ [r] := by
            rcases hcase with e | e <;> rw [e]
          have hprops : rh2.field_props = props := by
            rcases hcase with e | e <;> rw [e]
          have hflags : rh2.flags = rh.flags ∨ rh2.flags = rh.flags ||| RH_HEADINGS_PRINTED := by
            rcases hcase with e | e
            · exact Or.inl (by rw [e])
            · exact Or.inr (by rw [e])
          rw [hrows] at hlines
          obtain ⟨older, line, e1, _, e3, e4⟩ :=
            output_as_columns_rows_snoc H rh2 r rh.rows lines hlines
          refine ⟨props, r, { rh2 with rows := [] }, heading, older, line, hl, ?_, rfl, hprops,
            hflags, ?_, hlen, hprinted, e3, ?_⟩
          · rw [← hcall]
          · rw [← hcall, e1, List.append_assoc]
          · have e5 : ({ ({ rh2 with rows := [] } : dm_report) with rows := rh.rows ++ [r] } :
                dm_report) = rh2 := by
              rw [← hrows]
            rw [e5]
            exact e4

theorem and_and_eq_zero (x m b : Nat) (h : x &&& b = 0) : (x &&& m) &&& b = 0 := by
  rw [Nat.and_assoc, Nat.and_comm m b, ← Nat.and_assoc, h, Nat.zero_and]

theorem or_and_eq_zero (x y z : Nat) (h1 : x &&& z = 0) (h2 : y &&& z = 0) :
    (x ||| y) &&& z = 0 := by
  rw [Nat.and_distrib_right, h1, h2]
  rfl

/-- A session created without `DM_REPORT_OUTPUT_BUFFERED` and without
`DM_REPORT_OUTPUT_COLUMNS_AS_ROWS` starts with no row and with both flags and
`RH_SORT_REQUIRED` clear. -/
theorem init_unbuffered_flags {H : libdevmapper_h}
    {report_types : Option Nat} {types : List dm_report_object_type}
    {fields : List dm_report_field_type} {output_fields output_separator : cstr}
    {output_flags : Nat} {sort_keys : Option cstr} {private_data : Nat} {rh : dm_report}
    (hr : H.DM_REPORT_OUTPUT_MASK &&& RH_SORT_REQUIRED = 0)
    (hb : output_flags &&& H.DM_REPORT_OUTPUT_BUFFERED = 0)
    (hc : output_flags &&& H.DM_REPORT_OUTPUT_COLUMNS_AS_ROWS = 0)
    (h : dm_report_init H report_types types fields output_fields output_separator output_flags
      sort_keys private_data = some (some rh)) :
    rh.rows = [] ∧ rh.flags &&& H.DM_REPORT_OUTPUT_BUFFERED = 0 ∧
      rh.flags &&& H.DM_REPORT_OUTPUT_COLUMNS_AS_ROWS = 0 ∧
      rh.flags &&& RH_SORT_REQUIRED = 0 := by
  obtain ⟨hf, hrows, _⟩ := init_frame h
  have e : init_flags H output_flags = output_flags &&& H.DM_REPORT_OUTPUT_MASK := by
    unfold init_flags
    simp only
    rw [if_neg (by simpa using hb), if_neg (by simpa using hc)]
  rw [hf, e]
  refine ⟨hrows, and_and_eq_zero _ _ _ hb, and_and_eq_zero _ _ _ hc, ?_⟩
  rw [Nat.and_assoc, hr]
  exact Nat.and_zero _

/-- C30. In a session that is not buffered, in the column layout and without a sort
(`DM_REPORT_OUTPUT_BUFFERED`, `DM_REPORT_OUTPUT_COLUMNS_AS_ROWS` and `RH_SORT_REQUIRED` are
clear, as after `dm_report_init` without the two flags), every `dm_report_object` that
returns 1 prints during the call: at most one heading line, one line for each row a failed
call had left behind, and last the line of the row just built. It leaves the session with no
row, so that a `dm_report_output` right after returns 1, prints nothing and leaves the handle
as it is; and the three flags stay clear, so a later successful submission prints its own
line only: the rows appear in the order of submission. -/
theorem unbuffered_object_prints_row (H : libdevmapper_h)
    (qsort : (row → row → Int) → List row → List row) (rh : dm_report) (object : Nat)
    (out : outcome) (hb : rh.flags &&& H.DM_REPORT_OUTPUT_BUFFERED = 0)
    (hc : rh.flags &&& H.DM_REPORT_OUTPUT_COLUMNS_AS_ROWS = 0)
    (hs : rh.flags &&& RH_SORT_REQUIRED = 0)
    (hcall : dm_report_object H qsort (some rh) object = some out) (hret : out.ret = 1) :
    ∃ (props : List field_properties) (r : row) (rh1 : dm_report)
      (heading older : List cstr) (line : cstr),
      dm_report_object_loop rh object [] rh.field_props (new_row rh) =
        some (props, r, true) ∧
      out.rh = some rh1 ∧ rh1.rows = [] ∧ rh1.field_props = props ∧
      out.printed = heading ++ older ++ [line] ∧ heading.length ≤ 1 ∧
      (rh.flags &&& RH_HEADINGS_PRINTED ≠ 0 → heading = []) ∧
      older.length = rh.rows.length ∧
      _output_as_columns_line H { rh1 with rows := rh.rows ++ [r] } r.fields = some line ∧
      dm_report_output H qsort rh1 = some ⟨1, [], some rh1⟩ ∧
      rh1.flags &&& RH_SORT_REQUIRED = 0 ∧
      (H.DM_REPORT_OUTPUT_BUFFERED &&& RH_HEADINGS_PRINTED = 0 →
        rh1.flags &&& H.DM_REPORT_OUTPUT_BUFFERED = 0) ∧
      (H.DM_REPORT_OUTPUT_COLUMNS_AS_ROWS &&& RH_HEADINGS_PRINTED = 0 →
        rh1.flags &&& H.DM_REPORT_OUTPUT_COLUMNS_AS_ROWS = 0) := by
  obtain ⟨props, r, rh1, heading, older, line, h1, h2, h3, h4, h5, h6, h7, h8, h9, h10⟩ :=
    unbuffered_object_call hb hc hs hcall hret
  refine ⟨props, r, rh1, heading, older, line, h1, h2, h3, h4, h6, h7, h8, h9, h10,
    report_output_no_rows H qsort rh1 h3, ?_, ?_, ?_⟩
  · rcases h5 with e | e
    · rw [e]
      exact hs
    · rw [e]
      exact or_and_eq_zero _ _ _ hs (by decide)
  · intro hx
    rcases h5 with e | e
    · rw [e]
      exact hb
    · rw [e]
      exact or_and_eq_zero _ _ _ hb (by rw [Nat.and_comm]; exact hx)
  · intro hx
    rcases h5 with e | e
    · rw [e]
      exact hc
    · rw [e]
      exact or_and_eq_zero _ _ _ hc (by rw [Nat.and_comm]; exact hx)

/-- C30 at the session `sample_headed`: the object `x` prints the heading and `x 10`, the
object `y` after it prints `y 30` alone, and both leave no row. -/
theorem unbuffered_object_prints_row_witness :
    sample_headed_x.printed = ["LV LSize".toList, "x 10".toList] ∧
      (dm_report_object sample_h stable_qsort (some sample_headed_after) 32).map
        (fun o => (o.ret, o.printed)) = some (1, ["y 30".toList]) ∧
      ∃ rh1, sample_headed_x.rh = some rh1 ∧ rh1.rows = [] ∧
        dm_report_output sample_h stable_qsort rh1 = some ⟨1, [], some rh1⟩ := by
  obtain ⟨_, _, rh1, _, _, _, _, h2, h3, _, _, _, _, _, _, h10, _⟩ :=
    unbuffered_object_prints_row sample_h stable_qsort sample_headed 16 sample_headed_x
      (by decide) (by decide) (by decide) (Option.some_get _).symm (by decide)
  exact ⟨by decide, by decide, rh1, h2, h3, h10⟩

/-! ## Selection expressions -/

/-- C29 fails on the code: in the sample session the row of `x`, of size 10, is in the row
collection and is printed, although `!(size=10)`, `name=y && size=10` and
`name=y || size=30` all evaluate false on it. -/
theorem selection_counterexample :
    spec_selected sample_x (spec_selection.neg (spec_selection.eq 1 (sort_value_t.num 10))) =
        false ∧
      spec_selected sample_x
        (spec_selection.conj (spec_selection.eq 0 (sort_value_t.str ['y']))
          (spec_selection.eq 1 (sort_value_t.num 10))) = false ∧
      spec_selected sample_x
        (spec_selection.disj (spec_selection.eq 0 (sort_value_t.str ['y']))
          (spec_selection.eq 1 (sort_value_t.num 30))) = false ∧
      sample_x ∈ sample_session.rows ∧
      scenario_lines stable_qsort = some ["y 30".toList, "x 10".toList, "z 10".toList] := by
  decide

/-- C29, amended. A row whose submission succeeds is included in the report, whatever its
field values: `dm_report_object` evaluates no selection expression. When it returns 1 the row
it has built, with one field for every selection, is appended to the row collection; a
buffered session keeps the collection for `dm_report_output`, and a session that is not
buffered hands it to `dm_report_output` within the call. -/
theorem successful_row_included (H : libdevmapper_h)
    (qsort : (row → row → Int) → List row → List row) (rh : dm_report) (object : Nat)
    (out : outcome) (hcall : dm_report_object H qsort (some rh) object = some out)
    (hret : out.ret = 1) :
    ∃ (props : List field_properties) (r : row),
      dm_report_object_loop rh object [] rh.field_props (new_row rh) =
        some (props, r, true) ∧
      r.fields.length = rh.field_props.length ∧
      (rh.flags &&& H.DM_REPORT_OUTPUT_BUFFERED ≠ 0 →
        out.printed = [] ∧
          out.rh = some { rh with field_props := props, rows := rh.rows ++ [r] }) ∧
      (rh.flags &&& H.DM_REPORT_OUTPUT_BUFFERED = 0 →
        dm_report_output H qsort { rh with field_props := props, rows := rh.rows ++ [r] } =
          some out) := by
  rw [report_object_eq] at hcall
  split at hcall
  · exact absurd hcall (by simp)
  · rename_i props r ok hl
    by_cases hok : ok = false
    · rw [if_pos hok] at hcall
      simp only [Option.some.injEq] at hcall
      rw [← hcall] at hret
      have h2 : (0 : Int) = 1 := hret
      exact absurd h2 (by decide)
    · rw [if_neg hok] at hcall
      have hok1 : ok = true := by
        cases ok with
        | true => rfl
        | false => exact absurd rfl hok
      subst hok1
      refine ⟨props, r, hl, (report_object_loop_row hl).2.2 rfl, ?_, ?_⟩
      · intro hb
        rw [if_neg hb] at hcall
        simp only [Option.some.injEq] at hcall
        rw [← hcall]
        exact ⟨rfl, rfl⟩
      · intro hb
        rw [if_pos hb] at hcall
        exact hcall

/-- C29, amended, at the buffered session `sample_plain`: the row of the object `x` joins
the empty row collection. -/
theorem successful_row_included_witness :
    sample_plain.rows = [] ∧
      ∃ r : row, (sample_plain_x.rh).map (fun h => h.rows) = some [r] ∧
        r.fields.length = 1 := by
  obtain ⟨props, r, _, h2, h3, _⟩ := successful_row_included sample_h stable_qsort
    sample_plain 16 sample_plain_x (Option.some_get _).symm (by decide)
  refine ⟨by decide, r, ?_, ?_⟩
  · rw [(h3 (by decide)).2]
    have e : sample_plain.rows = [] := by decide
    simp only [Option.map_some', e, List.nil_append]
  · rw [h2]
    decide

/-! ## The report types of a session -/

theorem field_match_types {H : libdevmapper_h} {r r1 : dm_report} {w : cstr}
    (h : _field_match H r w w.length true = some r1) :
    r1 = { r with report_types := r.report_types ||| field_word_types r w } := by
  rw [field_match_word] at h
  unfold field_word_types
  split at h
  · exact absurd h (by simp)
  · split at h
    · rename_i f hf
      simp only [if_true] at h
      split at h
      · exact absurd h (by simp)
      · rename_i ft hft
        simp only [Option.some.injEq] at h
        rw [← h, hft]
        rfl
    · rename_i hf
      split at h
      · simp only [if_true, Option.some.injEq] at h
        exact h.symm
      · exact absurd h (by simp)

theorem key_match_types {H : libdevmapper_h} {r r1 : dm_report} {w : cstr}
    (hp : r.field_props = []) (h : _key_match H r w w.length true = some r1) :
    r1 = { r with report_types := r.report_types ||| key_word_types r w } := by
  rw [key_match_word] at h
  unfold key_word_types key_field
  split at h
  · exact absurd h (by simp)
  · rename_i hk
    rw [if_neg hk]
    split at h
    · rename_i f hf
      unfold _add_sort_key at h
      rw [hp] at h
      simp only [List.findIdx?_nil, if_true] at h
      split at h
      · exact absurd h (by simp)
      · rename_i ft hft
        simp only [Option.some.injEq] at h
        rw [← h, hft, hp]
        rfl
    · exact absurd h (by simp)

theorem resolve_fields_types {H : libdevmapper_h} :
    ∀ (ws : List cstr) (r r1 : dm_report),
      resolve_words (fun r w => _field_match H r w w.length true) ws r = some r1 →
        r1 = { r with report_types := (ws.foldl
          (fun m w => m ||| field_word_types { r with report_types := m } w) r.report_types) } := by
  intro ws
  induction ws with
  | nil =>
    intro r r1 h
    simp only [resolve_words, Option.some.injEq] at h
    rw [← h]
    rfl
  | cons w ws ih =>
    intro r r1 h
    simp only [resolve_words] at h
    split at h
    · exact absurd h (by simp)
    · rename_i r2 hstep
      have e := field_match_types hstep
      have e2 := ih r2 r1 h
      rw [e2, e]
      rfl

theorem resolve_keys_types {H : libdevmapper_h} :
    ∀ (ws : List cstr) (r r1 : dm_report), r.field_props = [] →
      resolve_words (fun r w => _key_match H r w w.length true) ws r = some r1 →
        r1 = { r with report_types := (ws.foldl
          (fun m w => m ||| key_word_types { r with report_types := m } w) r.report_types) } := by
  intro ws
  induction ws with
  | nil =>
    intro r r1 _ h
    simp only [resolve_words, Option.some.injEq] at h
    rw [← h]
    rfl
  | cons w ws ih =>
    intro r r1 hp h
    simp only [resolve_words] at h
    split at h
    · exact absurd h (by simp)
    · rename_i r2 hstep
      have e := key_match_types hp hstep
      have e2 := ih r2 r1 (by rw [e]; exact hp) h
      rw [e2, e]
      rfl

theorem add_all_fields_loop_visible {H : libdevmapper_h}
    (hmask : H.DM_REPORT_FIELD_MASK &&& FLD_HIDDEN = 0) (type : Nat) :
    ∀ (fts : List dm_report_field_type) (f : Nat) (rh rh1 : dm_report),
      _add_all_fields_loop H type fts f rh = some rh1 →
        rh1 = { rh with field_props := rh1.field_props } ∧
          (visible rh1.field_props).map Prod.fst =
            (visible rh.field_props).map Prod.fst ++
              ((List.enumFrom f fts).filter (fun p => p.2.type &&& type != 0)).map Prod.fst := by
  intro fts
  induction fts with
  | nil =>
    intro f rh rh1 h
    simp only [_add_all_fields_loop, Option.some.injEq] at h
    rw [← h]
    exact ⟨rfl, by simp⟩
  | cons ft fts ih =>
    intro f rh rh1 h
    simp only [_add_all_fields_loop] at h
    rw [fields_matching_cons]
    by_cases hty : ft.type &&& type ≠ 0
    · rw [if_pos hty] at h
      rw [if_pos hty]
      split at h
      · exact absurd h (by simp)
      · rename_i r1 i hadd
        obtain ⟨fp, ft1, _, hr1, hnum, _, _, _, hvis⟩ := add_field_zero_eq hmask hadd
        obtain ⟨e1, e2⟩ := ih (f + 1) r1 rh1 h
        constructor
        · rw [e1, hr1]
        · rw [e2, hr1]
          simp only
          rw [visible_append_visible _ _ hvis]
          simp [hnum]
    · rw [if_neg hty] at h
      rw [if_neg hty]
      obtain ⟨e1, e2⟩ := ih (f + 1) rh rh1 h
      exact ⟨e1, by rw [e2]; simp⟩

theorem field_match_fields {H : libdevmapper_h}
    (hmask : H.DM_REPORT_FIELD_MASK &&& FLD_HIDDEN = 0) {r r1 : dm_report} {w : cstr}
    (h : _field_match H r w w.length false = some r1) :
    r1 = { r with field_props := r1.field_props } ∧
      (visible r1.field_props).map Prod.fst =
        (visible r.field_props).map Prod.fst ++ word_fields r w := by
  rw [field_match_word] at h
  unfold word_fields
  split at h
  · exact absurd h (by simp)
  · split at h
    · rename_i f hf
      simp only [Bool.false_eq_true, if_false] at h
      split at h
      · exact absurd h (by simp)
      · rename_i r2 i hadd
        simp only [Option.some.injEq] at h
        obtain ⟨fp, ft1, _, hr1, hnum, _, _, _, hvis⟩ := add_field_zero_eq hmask hadd
        rw [← h, hr1]
        refine ⟨rfl, ?_⟩
        simp only
        rw [visible_append_visible _ _ hvis]
        simp [hnum]
    · rename_i hf
      split at h
      · simp only [Bool.false_eq_true, if_false] at h
        unfold _add_all_fields at h
        obtain ⟨e1, e2⟩ := add_all_fields_loop_visible hmask _ _ _ _ _ h
        refine ⟨e1, ?_⟩
        rw [e2]
        rfl
      · exact absurd h (by simp)

theorem word_fields_congr {a b : dm_report} (h : b = { a with field_props := b.field_props })
    (w : cstr) : word_fields b w = word_fields a w := by
  rw [h]
  rfl

theorem resolve_fields_visible {H : libdevmapper_h}
    (hmask : H.DM_REPORT_FIELD_MASK &&& FLD_HIDDEN = 0) :
    ∀ (ws : List cstr) (r r1 : dm_report),
      resolve_words (fun r w => _field_match H r w w.length false) ws r = some r1 →
        r1 = { r with field_props := r1.field_props } ∧
          (visible r1.field_props).map Prod.fst =
            (visible r.field_props).map Prod.fst ++ ws.flatMap (word_fields r) := by
  intro ws
  induction ws with
  | nil =>
    intro r r1 h
    simp only [resolve_words, Option.some.injEq] at h
    rw [← h]
    exact ⟨rfl, by simp⟩
  | cons w ws ih =>
    intro r r1 h
    simp only [resolve_words] at h
    split at h
    · exact absurd h (by simp)
    · rename_i r2 hstep
      obtain ⟨e1, e2⟩ := field_match_fields hmask hstep
      obtain ⟨e3, e4⟩ := ih r2 r1 h
      constructor
      · rw [e3, e1]
      · rw [e4, e2, List.flatMap_cons, List.append_assoc]
        congr 2
        apply List.flatMap_congr
        intro x _
        exact word_fields_congr e1 x

theorem or_absorb_right (x y m : Nat) (h : (x ||| y) ||| m = m) : y ||| m = m := by
  apply Nat.eq_of_testBit_eq
  intro i
  have hi := congrArg (fun n => n.testBit i) h
  simp only [Nat.testBit_or] at hi ⊢
  cases hx : x.testBit i <;> cases hy : y.testBit i <;> cases hm : m.testBit i <;>
    simp_all

theorem or_absorb_trans (a b c : Nat) (h1 : a ||| b = b) (h2 : b ||| c = c) : a ||| c = c := by
  rw [← h2, ← Nat.or_assoc, h1]

theorem fold_or_mono (h : Nat → cstr → Nat) :
    ∀ (ws : List cstr) (m0 : Nat),
      m0 ||| ws.foldl (fun m w => m ||| h m w) m0 = ws.foldl (fun m w => m ||| h m w) m0 := by
  intro ws
  induction ws with
  | nil =>
    intro m0
    exact Nat.or_self m0
  | cons w ws ih =>
    intro m0
    simp only [List.foldl_cons]
    apply or_absorb_trans m0 (m0 ||| h m0 w) _ _ (ih (m0 ||| h m0 w))
    rw [← Nat.or_assoc, Nat.or_self]

theorem fold_or_mem (h : Nat → cstr → Nat) :
    ∀ (ws : List cstr) (m0 : Nat), ∀ w ∈ ws,
      ∃ m, (m ||| h m w) ||| ws.foldl (fun m w => m ||| h m w) m0 =
        ws.foldl (fun m w => m ||| h m w) m0 := by
  intro ws
  induction ws with
  | nil =>
    intro m0 w hw
    exact absurd hw (List.not_mem_nil _)
  | cons v ws ih =>
    intro m0 w hw
    simp only [List.foldl_cons]
    rcases List.mem_cons.1 hw with e | hmem
    · rw [e]
      exact ⟨m0, fold_or_mono h ws (m0 ||| h m0 v)⟩
    · exact ih (m0 ||| h m0 v) w hmem

theorem foldl_or_ids (l : List dm_report_object_type) (acc : Nat) :
    l.foldl (fun acc t => acc ||| t.id) acc = acc ||| l.foldl (fun acc t => acc ||| t.id) 0 := by
  induction l generalizing acc with
  | nil => simp
  | cons t l ih =>
    simp only [List.foldl_cons]
    rw [ih (acc ||| t.id), ih (0 ||| t.id), Nat.zero_or, Nat.or_assoc]

theorem all_match_loop_acc (field : cstr) (flen : Nat) (u : Bool)
    (ts : List dm_report_object_type) (acc : Nat) :
    _all_match_loop field flen u ts acc = acc ||| _all_match_loop field flen u ts 0 := by
  rw [all_match_loop_eq_foldl, all_match_loop_eq_foldl]
  exact foldl_or_ids _ acc

theorem ci_all_test (w : cstr) :
    (strncasecmp w ['a', 'l', 'l'] 3 == 0 && w.length == 3) = true ↔
      ci_eq w ['a', 'l', 'l'] := by
  constructor
  · intro h
    simp only [Bool.and_eq_true, beq_iff_eq] at h
    exact (strncasecmp_eq_zero 3 w ['a', 'l', 'l'] h.2 rfl).1 h.1
  · intro h
    have hl : w.length = 3 := ci_eq_length h
    simp only [Bool.and_eq_true, beq_iff_eq]
    exact ⟨(strncasecmp_eq_zero 3 w ['a', 'l', 'l'] hl rfl).2 h, hl⟩

/-- What `_all_match` returns for the word `all` on a handle whose `report_types` holds what
the first pass added for that word: `report_types` itself. -/
theorem all_match_final (rh : dm_report) (w : cstr) (hw : ci_eq w ['a', 'l', 'l']) (m : Nat)
    (hincl : (m ||| _all_match { rh with report_types := m } w w.length) ||| rh.report_types =
      rh.report_types) :
    _all_match rh w w.length = rh.report_types := by
  have ht := (ci_all_test w).2 hw
  have hy := or_absorb_right _ _ _ hincl
  unfold _all_match at hy ⊢
  rw [if_pos ht] at hy ⊢
  by_cases hp : rh.field_prefix.length = 0
  · rw [if_pos hp]
    simp only [if_pos hp] at hy
    have hne : rh.report_types ≠ 0 := by
      intro e
      rw [e] at hy
      have h0 := (or_eq_zero hy).1
      split at h0
      · rename_i hm
        exact hm h0
      · exact absurd h0 (by decide)
    rw [if_pos hne]
  · rw [if_neg hp]
    simp only [if_neg hp] at hy
    rw [all_match_loop_acc] at hy ⊢
    have hz := or_absorb_right _ _ _ hy
    rw [Nat.or_comm]
    exact hz

theorem all_match_pattern (rh : dm_report) (w : cstr) (hw : ¬ ci_eq w ['a', 'l', 'l']) :
    _all_match rh w w.length = _all_match_loop w w.length false rh.types 0 := by
  unfold _all_match
  rw [if_neg (fun h => hw ((ci_all_test w).1 h))]

theorem word_fields_same {a b : dm_report} (h1 : b.fields = a.fields)
    (h2 : b.types = a.types) (h3 : b.field_prefix = a.field_prefix)
    (h4 : b.report_types = a.report_types) (w : cstr) : word_fields b w = word_fields a w := by
  unfold word_fields field_of _all_match
  rw [h1, h2, h3, h4]

theorem parse_keys_frame2 {H : libdevmapper_h} {rh rh1 : dm_report} {keys : Option cstr}
    (h : _parse_keys H rh keys false = some (some rh1)) : frame2 rh rh1 := by
  cases keys with
  | none =>
    simp only [_parse_keys, Option.some.injEq] at h
    rw [← h]
    exact frame2_refl rh
  | some k =>
    exact resolve_words_rel _ frame2 frame2_refl (fun _ _ _ => frame2_trans)
      (fun _ _ _ hs => key_match_frame2 hs) _ _ _ (parse_keys_some h).2

theorem init_handle_no_selection (H : libdevmapper_h) (report_types : Option Nat)
    (types : List dm_report_object_type) (fields : List dm_report_field_type)
    (output_separator : cstr) (output_flags private_data : Nat) :
    (init_handle H report_types types fields output_separator output_flags
      private_data).field_props = [] := by
  unfold init_handle
  simp only
  split <;> rfl

theorem parse_keys_types {H : libdevmapper_h} {rh rh1 : dm_report} {keys : Option cstr}
    (hp : rh.field_props = []) (h : _parse_keys H rh keys true = some (some rh1)) :
    rh1 = { rh with report_types := (((keys.map words).getD []).foldl
      (fun m w => m ||| key_word_types { rh with report_types := m } w) rh.report_types) } := by
  cases keys with
  | none =>
    simp only [_parse_keys, Option.some.injEq] at h
    rw [← h]
    rfl
  | some k =>
    exact resolve_keys_types (words k) rh rh1 hp (parse_keys_some h).2

/-- C26. On every successful `dm_report_init`, the field mask of the header being clear of
`FLD_HIDDEN`: the `report_types` of the handle, the mask written back to the caller, is the
mask of the caller with the type bits of every word of the field list and of the sort key
list or-ed in; and the visible selections are, word by word, the field a word names, for the
word `all` the fields of the registry, in its order, whose type intersects that final mask,
and for another pattern the fields of the types it matches. -/
theorem report_types_union (H : libdevmapper_h) (report_types : Option Nat)
    (types : List dm_report_object_type) (fields : List dm_report_field_type)
    (output_fields output_separator : cstr) (output_flags : Nat) (sort_keys : Option cstr)
    (private_data : Nat) (rh : dm_report)
    (hmask : H.DM_REPORT_FIELD_MASK &&& FLD_HIDDEN = 0)
    (hinit : dm_report_init H report_types types fields output_fields output_separator
      output_flags sort_keys private_data = some (some rh)) :
    rh.report_types =
        spec_report_types
          (init_handle H report_types types fields output_separator output_flags private_data)
          (words output_fields) ((sort_keys.map words).getD []) ∧
      (visible rh.field_props).map Prod.fst =
        (words output_fields).flatMap (spec_expansion rh) := by
  obtain ⟨rh2, rh3, _, ⟨rh1, hp1, hk1⟩, hp2, hk2⟩ := init_passes hinit
  have h0 := init_handle_no_selection H report_types types fields output_separator
    output_flags private_data
  generalize init_handle H report_types types fields output_separator output_flags
    private_data = rh0 at hp1 h0 ⊢
  have e1 := resolve_fields_types (words output_fields) rh0 rh1 (parse_fields_some hp1).2
  have e2 := parse_keys_types (by rw [e1]; exact h0) hk1
  obtain ⟨e3, v3⟩ := resolve_fields_visible hmask (words output_fields) rh2 rh3
    (parse_fields_some hp2).2
  have e4 : frame2 rh3 rh := parse_keys_frame2 hk2
  have v4 := parse_keys_visible hk2
  have hM : rh2.report_types = spec_report_types rh0 (words output_fields)
      ((sort_keys.map words).getD []) := by
    rw [e2, e1]
    rfl
  have hrt : rh.report_types = rh2.report_types := by
    rw [e4, e3]
  have hfl : rh.fields = rh0.fields ∧ rh.types = rh0.types ∧
      rh.field_prefix = rh0.field_prefix := by
    rw [e4, e3, e2, e1]
    exact ⟨rfl, rfl, rfl⟩
  have hfl2 : rh2.fields = rh0.fields ∧ rh2.types = rh0.types ∧
      rh2.field_prefix = rh0.field_prefix := by
    rw [e2, e1]
    exact ⟨rfl, rfl, rfl⟩
  refine ⟨by rw [hrt, hM], ?_⟩
  have hv2 : visible rh2.field_props = [] := by
    rw [e2, e1]
    show visible rh0.field_props = []
    rw [h0]
    rfl
  rw [v4, v3, hv2]
  simp only [List.map_nil, List.nil_append]
  apply List.flatMap_congr
  intro w hw
  rw [word_fields_same (a := rh) (b := rh2) (by rw [hfl.1, hfl2.1]) (by rw [hfl.2.1, hfl2.2.1])
    (by rw [hfl.2.2, hfl2.2.2]) hrt.symm w]
  unfold word_fields spec_expansion
  cases hf : field_of rh w with
  | some f => rfl
  | none =>
    simp only
    by_cases hci : ci_eq w ['a', 'l', 'l']
    · rw [if_pos hci]
      obtain ⟨m, hm⟩ := fold_or_mem
        (fun m w => field_word_types { rh0 with report_types := m } w) (words output_fields)
        rh0.report_types w hw
      have hmono := fold_or_mono
        (fun m w => key_word_types { rh0 with report_types := m } w)
        ((sort_keys.map words).getD [])
        ((words output_fields).foldl
          (fun m w => m ||| field_word_types { rh0 with report_types := m } w)
          rh0.report_types)
      have hincl := or_absorb_trans _ _ _ hm hmono
      have hfw : field_word_types { rh0 with report_types := m } w =
          _all_match { rh with report_types := m } w w.length := by
        unfold field_word_types
        have hf0 : field_of { rh0 with report_types := m } w = none := by
          rw [← hf]
          exact field_of_congr hfl.1.symm hfl.2.2.symm w
        rw [hf0]
        unfold _all_match
        simp only [hfl.2.1, hfl.2.2]
      rw [hfw] at hincl
      have hMrh : rh.report_types = spec_report_types rh0 (words output_fields)
          ((sort_keys.map words).getD []) := by rw [hrt, hM]
      rw [all_match_final rh w hci m (by rw [hMrh]; exact hincl)]
    · rw [if_neg hci, all_match_pattern rh w hci]

/-- C26 at the field list `all,pv_size` with the initial mask 1: the final mask is 3, and
`all` stands for the fields of the types 1 and 2, `pv_size` among them although it is named
after `all`. -/
theorem report_types_union_witness :
    sample_all.report_types = 3 ∧
      (visible sample_all.field_props).map Prod.fst = [0, 1, 2, 2] ∧
      spec_expansion sample_all "all".toList = [0, 1, 2] := by
  obtain ⟨h1, h2⟩ := report_types_union sample_h (some 1) sample_types sample_fields
    "all,pv_size".toList " ".toList 2 none 0 sample_all (by decide) (join_some_get _)
  refine ⟨?_, ?_, by decide⟩
  · rw [h1]
    decide
  · rw [h2]
    decide

/-! ## Names of fields -/

theorem strncasecmp_take :
    ∀ (n : Nat) (a b : cstr), (∀ c ∈ a, c.toNat ≠ 0) → (∀ c ∈ b, c.toNat ≠ 0) →
      (strncasecmp a b n = 0 ↔ ci_eq (a.take n) (b.take n)) := by
  intro n
  induction n with
  | zero =>
    intro a b _ _
    simp [strncasecmp, ci_eq]
  | succ n ih =>
    intro a b ha hb
    cases a with
    | nil =>
      cases b with
      | nil => simp [strncasecmp, ci_eq]
      | cons y b =>
        have := tolower_ne_zero y (hb y (List.mem_cons_self _ _))
        simp only [strncasecmp, ci_eq, List.take_nil, List.take_succ_cons, List.map_nil,
          List.map_cons]
        constructor
        · intro h
          omega
        · intro h
          exact absurd h (by simp)
    | cons x a =>
      cases b with
      | nil =>
        have := tolower_ne_zero x (ha x (List.mem_cons_self _ _))
        simp only [strncasecmp, ci_eq, List.take_nil, List.take_succ_cons, List.map_nil,
          List.map_cons]
        constructor
        · intro h
          omega
        · intro h
          exact absurd h (by simp)
      | cons y b =>
        have ih1 := ih a b (fun c hc => ha c (List.mem_cons_of_mem _ hc))
          (fun c hc => hb c (List.mem_cons_of_mem _ hc))
        simp only [strncasecmp, List.take_succ_cons]
        by_cases hxy : c_tolower x = c_tolower y
        · rw [if_pos hxy, ih1]
          unfold ci_eq
          simp only [List.map_cons, hxy, List.cons.injEq, true_and]
        · rw [if_neg hxy]
          unfold ci_eq
          simp only [List.map_cons, List.cons.injEq]
          constructor
          · intro h
            exact absurd (by omega) hxy
          · intro h
            exact absurd h.1 hxy

theorem ci_eq_take_drop {a p t : cstr} :
    ci_eq a (p ++ t) ↔ ci_eq (a.take p.length) p ∧ ci_eq (a.drop p.length) t := by
  unfold ci_eq
  constructor
  · intro h
    have h1 := congrArg (List.take p.length) h
    have h2 := congrArg (List.drop p.length) h
    simp only [List.map_append, ← List.map_take, ← List.map_drop] at h1 h2
    rw [List.take_left' (by simp), List.map_take] at h1
    rw [List.drop_left' (by simp), List.map_drop] at h2
    simp only [← List.map_take, ← List.map_drop] at h1 h2
    exact ⟨h1, h2⟩
  · rintro ⟨h1, h2⟩
    have e : a = a.take p.length ++ a.drop p.length := (List.take_append_drop _ _).symm
    rw [e, List.map_append, List.map_append, h1, h2]

theorem same_field_exact (id token : cstr) (len : Nat) (hlen : len ≤ token.length)
    (hid : ∀ c ∈ id, c.toNat ≠ 0) (htok : ∀ c ∈ token, c.toNat ≠ 0) :
    (strncasecmp id token len = 0 ∧ id.length = len) ↔ ci_eq id (token.take len) := by
  have hl : (token.take len).length = len := by
    rw [List.length_take]
    omega
  constructor
  · rintro ⟨h1, h2⟩
    have h := (strncasecmp_take len id token hid htok).1 h1
    rw [List.take_of_length_le (by omega)] at h
    exact h
  · intro h
    have h2 : id.length = len := by
      rw [ci_eq_length h, hl]
    refine ⟨(strncasecmp_take len id token hid htok).2 ?_, h2⟩
    rw [List.take_of_length_le (by omega)]
    exact h

theorem same_field_prefixed (id token pfx : cstr) (len : Nat) (hlen : len ≤ token.length)
    (hid : ∀ c ∈ id, c.toNat ≠ 0) (htok : ∀ c ∈ token, c.toNat ≠ 0)
    (hpfx : ∀ c ∈ pfx, c.toNat ≠ 0) :
    (strncasecmp pfx id pfx.length = 0 ∧ strncasecmp (id.drop pfx.length) token len = 0 ∧
      id.length = pfx.length + len) ↔ ci_eq id (pfx ++ token.take len) := by
  have hl : (token.take len).length = len := by
    rw [List.length_take]
    omega
  have hdrop : ∀ c ∈ id.drop pfx.length, c.toNat ≠ 0 :=
    fun c hc => hid c (List.mem_of_mem_drop hc)
  constructor
  · rintro ⟨h1, h2, h3⟩
    have g1 := (strncasecmp_take pfx.length pfx id hpfx hid).1 h1
    rw [List.take_of_length_le (Nat.le_refl _)] at g1
    have g2 := (strncasecmp_take len (id.drop pfx.length) token hdrop htok).1 h2
    rw [List.take_of_length_le (by rw [List.length_drop]; omega)] at g2
    exact ci_eq_take_drop.2 ⟨ci_eq_symm g1, g2⟩
  · intro h
    have h3 : id.length = pfx.length + len := by
      rw [ci_eq_length h, List.length_append, hl]
    obtain ⟨g1, g2⟩ := ci_eq_take_drop.1 h
    refine ⟨(strncasecmp_take pfx.length pfx id hpfx hid).2 ?_,
      (strncasecmp_take len (id.drop pfx.length) token hdrop htok).2 ?_, h3⟩
    · rw [List.take_of_length_le (Nat.le_refl _)]
      exact ci_eq_symm g1
    · rw [List.take_of_length_le (by rw [List.length_drop]; omega)]
      exact g2

/-- C31. For C strings (no NUL inside) and a token of `len` characters at the start of
`token`: `_is_same_field` returns 1 exactly when, up to the case of the letters, the id is
the token or the name start followed by the token. It returns 0 otherwise, also for an id
shorter than the name start that is not the token. -/
theorem is_same_field_iff (id token pfx : cstr) (len : Nat) (hlen : len ≤ token.length)
    (hid : ∀ c ∈ id, c.toNat ≠ 0) (htok : ∀ c ∈ token, c.toNat ≠ 0)
    (hpfx : ∀ c ∈ pfx, c.toNat ≠ 0) :
    (_is_same_field id token len pfx = true ↔
      (ci_eq id (token.take len) ∨ ci_eq id (pfx ++ token.take len))) ∧
    (_is_same_field id token len pfx = false ↔
      ¬ (ci_eq id (token.take len) ∨ ci_eq id (pfx ++ token.take len))) ∧
    (id.length < pfx.length → ¬ ci_eq id (token.take len) →
      _is_same_field id token len pfx = false) := by
  have hA := same_field_exact id token len hlen hid htok
  have hB := same_field_prefixed id token pfx len hlen hid htok hpfx
  have hiff : _is_same_field id token len pfx = true ↔
      (ci_eq id (token.take len) ∨ ci_eq id (pfx ++ token.take len)) := by
    unfold _is_same_field
    constructor
    · intro h
      split at h
      · rename_i hx
        simp only [Bool.and_eq_true, beq_iff_eq] at hx
        exact Or.inl (hA.1 hx)
      · simp only [Bool.and_eq_true, beq_iff_eq] at h
        exact Or.inr (hB.1 ⟨h.1.1, h.1.2, h.2⟩)
    · intro h
      split
      · rfl
      · rename_i hx
        simp only [Bool.and_eq_true, beq_iff_eq] at hx ⊢
        rcases h with h | h
        · exact absurd (hA.2 h) hx
        · have g := hB.2 h
          exact ⟨⟨g.1, g.2.1⟩, g.2.2⟩
  have hfalse : _is_same_field id token len pfx = false ↔
      ¬ (ci_eq id (token.take len) ∨ ci_eq id (pfx ++ token.take len)) := by
    rw [← hiff]
    cases _is_same_field id token len pfx <;> simp
  refine ⟨hiff, hfalse, ?_⟩
  intro hshort hne
  rw [hfalse]
  rintro (h | h)
  · exact hne h
  · have := ci_eq_length h
    rw [List.length_append] at this
    omega

/-- C31 at the id `lv_name`: the token `name` of the list `name,size` matches under the
name start `lv_`, the token `LV_NAME` matches by itself, `size` and `lv_` do not match, and
the id `lv` is no match for `name` under `lv_`. -/
theorem is_same_field_iff_witness :
    _is_same_field "lv_name".toList "name,size".toList 4 "lv_".toList = true ∧
      _is_same_field "lv_name".toList "LV_NAME".toList 7 "lv_".toList = true ∧
      _is_same_field "lv_name".toList "size".toList 4 "lv_".toList = false ∧
      _is_same_field "lv".toList "name".toList 4 "lv_".toList = false :=
  ⟨(is_same_field_iff "lv_name".toList "name,size".toList "lv_".toList 4 (by decide)
      (by decide) (by decide) (by decide)).1.2 (Or.inr (by decide)),
    (is_same_field_iff "lv_name".toList "LV_NAME".toList "lv_".toList 7 (by decide)
      (by decide) (by decide) (by decide)).1.2 (Or.inl (by decide)),
    (is_same_field_iff "lv_name".toList "size".toList "lv_".toList 4 (by decide)
      (by decide) (by decide) (by decide)).2.1.2 (by decide),
    (is_same_field_iff "lv".toList "name".toList "lv_".toList 4 (by decide)
      (by decide) (by decide) (by decide)).2.2 (by decide) (by decide)⟩

/-! ## Selection parsing: numbers -/

theorem number_loop_spec :
    ∀ (s : cstr) (fl : Bool),
      ∃ tk, s = tk ++ _tok_value_number_loop fl s ∧
        (∀ c ∈ tk, c_isdigit c = true ∨ c = '.') ∧
        tk.count '.' ≤ (if fl then 0 else 1) ∧
        (tk = [] ↔ (s = [] ∨ ∃ c r, s = c :: r ∧ c_isdigit c = false ∧ (fl = true ∨ c ≠ '.'))) := by
  intro s
  induction s with
  | nil =>
    intro fl
    exact ⟨[], rfl, fun c hc => absurd hc (List.not_mem_nil _), by simp, by simp⟩
  | cons c s ih =>
    intro fl
    by_cases hdot : (!fl && c == '.') = true
    · have e : _tok_value_number_loop fl (c :: s) = _tok_value_number_loop true s := by
        simp only [_tok_value_number_loop]
        rw [if_pos hdot]
      simp only [Bool.and_eq_true, Bool.not_eq_true', beq_iff_eq] at hdot
      obtain ⟨tk, h1, h2, h3, _⟩ := ih true
      refine ⟨c :: tk, ?_, ?_, ?_, ?_⟩
      · rw [e, List.cons_append, ← h1]
      · intro x hx
        rcases List.mem_cons.1 hx with h | h
        · exact Or.inr (by rw [h, hdot.2])
        · exact h2 x h
      · rw [hdot.1, hdot.2]
        simp only [List.count_cons_self, Bool.false_eq_true, if_false]
        simp only [if_true] at h3
        omega
      · constructor
        · intro h
          exact absurd h (by simp)
        · rintro (h | ⟨c1, r, h, _, h5⟩)
          · exact absurd h (by simp)
          · simp only [List.cons.injEq] at h
            rcases h5 with h5 | h5
            · rw [hdot.1] at h5
              exact absurd h5 (by simp)
            · exact absurd (h.1 ▸ hdot.2) h5
    · by_cases hdig : c_isdigit c = true
      · have e : _tok_value_number_loop fl (c :: s) = _tok_value_number_loop fl s := by
          simp only [_tok_value_number_loop]
          rw [if_neg hdot, if_pos hdig]
        obtain ⟨tk, h1, h2, h3, _⟩ := ih fl
        have hcd : c ≠ '.' := by
          intro h
          rw [h] at hdig
          exact absurd hdig (by decide)
        refine ⟨c :: tk, ?_, ?_, ?_, ?_⟩
        · rw [e, List.cons_append, ← h1]
        · intro x hx
          rcases List.mem_cons.1 hx with h | h
          · exact Or.inl (by rw [h]; exact hdig)
          · exact h2 x h
        · rw [List.count_cons_of_ne (fun h => hcd h.symm)]
          exact h3
        · constructor
          · intro h
            exact absurd h (by simp)
          · rintro (h | ⟨c1, r, h, h4, _⟩)
            · exact absurd h (by simp)
            · simp only [List.cons.injEq] at h
              rw [← h.1, hdig] at h4
              exact absurd h4 (by simp)
      · have e : _tok_value_number_loop fl (c :: s) = c :: s := by
          simp only [_tok_value_number_loop]
          rw [if_neg hdot, if_neg hdig]
        refine ⟨[], by rw [e]; rfl, fun x hx => absurd hx (List.not_mem_nil _), by simp, ?_⟩
        constructor
        · intro _
          right
          refine ⟨c, s, rfl, by simpa using hdig, ?_⟩
          by_cases hf : fl = true
          · exact Or.inl hf
          · right
            intro hc
            apply hdot
            simp only [Bool.and_eq_true, Bool.not_eq_true', beq_iff_eq]
            exact ⟨by simpa using hf, hc⟩
        · intro _
          rfl

/-- C32. The grammar in the comment block of the tokenizers says
`NUMBER := <strings of [0-9]>`, but `_tok_value_number` takes one dot for part of the number:
the input `.5`, which does not start with a digit, is not refused and yields the token `.5`,
the input `1.5g` yields the token `1.5`, and `.` alone is a token, though the dot is no
digit. -/
theorem number_token_accepts_dot :
    (_tok_value_number ['.', '5']).map (fun t => (t.text, t.next)) = some (['.', '5'], []) ∧
      (_tok_value_number ['1', '.', '5', 'g']).map (fun t => (t.text, t.next)) =
        some (['1', '.', '5'], ['g']) ∧
      (_tok_value_number ['.']).map (fun t => (t.text, t.next)) = some (['.'], []) ∧
      c_isdigit '.' = false := by
  decide

/-- What `_tok_value_number` accepts as the code stands: every token is a non-empty string of
the digits 0-9 and at most one dot, followed by the rest of the input, where parsing resumes;
and the function fails exactly when the input is empty or starts with a character that is
neither a digit nor a dot. -/
theorem number_token_digits_and_dot (s : cstr) :
    (∀ t, _tok_value_number s = some t →
      t.tbegin = s ∧ t.tend = t.next ∧ s = t.text ++ t.next ∧ t.text ≠ [] ∧
      (∀ c ∈ t.text, c_isdigit c = true ∨ c = '.') ∧ t.text.count '.' ≤ 1) ∧
    (_tok_value_number s = none ↔
      (s = [] ∨ ∃ c r, s = c :: r ∧ c_isdigit c = false ∧ c ≠ '.')) := by
  obtain ⟨tk, h1, h2, h3, h4⟩ := number_loop_spec s false
  have hlen : s.length = tk.length + (_tok_value_number_loop false s).length := by
    rw [← List.length_append, ← h1]
  have htext : s.take (s.length - (_tok_value_number_loop false s).length) = tk := by
    have e : s.length - (_tok_value_number_loop false s).length = tk.length := by omega
    rw [e]
    have e2 : s.take tk.length = (tk ++ _tok_value_number_loop false s).take tk.length := by
      rw [← h1]
    rw [e2]
    exact List.take_left _ _
  have h4' : tk = [] ↔ (s = [] ∨ ∃ c r, s = c :: r ∧ c_isdigit c = false ∧ c ≠ '.') := by
    rw [h4]
    constructor
    · rintro (h | ⟨c, r, h, h5, h6⟩)
      · exact Or.inl h
      · rcases h6 with h6 | h6
        · exact absurd h6 (by simp)
        · exact Or.inr ⟨c, r, h, h5, h6⟩
    · rintro (h | ⟨c, r, h, h5, h6⟩)
      · exact Or.inl h
      · exact Or.inr ⟨c, r, h, h5, Or.inr h6⟩
  constructor
  · intro t ht
    unfold _tok_value_number at ht
    simp only at ht
    split at ht
    · exact absurd ht (by simp)
    · rename_i hne
      simp only [Option.some.injEq] at ht
      rw [← ht]
      have htx : tok.text ⟨s, _tok_value_number_loop false s,
          _tok_value_number_loop false s⟩ = tk := htext
      refine ⟨rfl, rfl, ?_, ?_, ?_, ?_⟩
      · rw [htx]
        exact h1
      · rw [htx]
        intro e
        rw [e] at hlen
        simp only [List.length_nil, Nat.zero_add] at hlen
        exact hne hlen
      · rw [htx]
        exact h2
      · rw [htx]
        simpa using h3
  · rw [← h4']
    unfold _tok_value_number
    simp only
    constructor
    · intro h
      split at h
      · rename_i he
        exact List.length_eq_zero.1 (by omega)
      · exact absurd h (by simp)
    · intro h
      rw [if_pos]
      rw [h] at hlen
      simpa using hlen

/-! ## Lists that end in a comma -/

/-- C38. On a registry whose fields all belong to a registered type, a field list or a sort
key list that ends in a comma, the list `,` among them, is refused by `_parse_fields`, by
`_parse_keys` and by `dm_report_init`, which return 0 and `NULL` after the catalog of the
fields is displayed: the last round of the loop hands an empty word to `_field_match` or
`_key_match`, which return 0 for the length 0. The empty field list and the absent sort key
list are accepted on every registry and leave the handle as it is, so that `dm_report_init`
returns a handle with no selection and no key. -/
theorem trailing_comma_refused (H : libdevmapper_h) :
    (∀ (rh : dm_report) (s : cstr) (b : Bool), registry_ok rh.types rh.fields →
      s.getLast? = some ',' →
      _parse_fields H rh s b = some none ∧ _parse_keys H rh (some s) b = some none) ∧
    (∀ (rh : dm_report) (b : Bool),
      _field_match H rh [] 0 b = none ∧ _key_match H rh [] 0 b = none ∧
      (registry_ok rh.types rh.fields →
        _parse_fields H rh [','] b = some none ∧
        _parse_keys H rh (some [',']) b = some none) ∧
      _parse_fields H rh [] b = some (some rh) ∧ _parse_keys H rh none b = some (some rh) ∧
      _parse_keys H rh (some []) b = some (some rh)) ∧
    (∀ (report_types : Option Nat) (types : List dm_report_object_type)
      (fields : List dm_report_field_type) (output_fields output_separator : cstr)
      (output_flags : Nat) (sort_keys : Option cstr) (private_data : Nat),
      registry_ok types fields →
      (output_fields.getLast? = some ',' ∨ ∃ k, sort_keys = some k ∧ k.getLast? = some ',') →
      dm_report_init H report_types types fields output_fields output_separator output_flags
        sort_keys private_data = some none) ∧
    (∀ (report_types : Option Nat) (types : List dm_report_object_type)
      (fields : List dm_report_field_type) (output_separator : cstr)
      (output_flags : Nat) (private_data : Nat),
      dm_report_init H report_types types fields [] output_separator output_flags none
          private_data =
        some (some (init_handle H report_types types fields output_separator output_flags
          private_data)) ∧
      (init_handle H report_types types fields output_separator output_flags
        private_data).field_props = [] ∧
      (init_handle H report_types types fields output_separator output_flags
        private_data).keys_count = 0) := by
  have hcomma : ∀ (rh : dm_report) (s : cstr) (b : Bool), registry_ok rh.types rh.fields →
      s.getLast? = some ',' →
      _parse_fields H rh s b = some none ∧ _parse_keys H rh (some s) b = some none := by
    intro rh s b hreg h
    constructor
    · rw [parse_fields_words, if_pos h, after_display_fails hreg]
    · rw [parse_keys_words, if_pos h, after_display_fails hreg]
  refine ⟨hcomma, ?_, ?_, ?_⟩
  · intro rh b
    refine ⟨?_, ?_, fun hreg => hcomma rh [','] b hreg rfl, ?_, rfl, ?_⟩
    · unfold _field_match
      rw [if_pos rfl]
    · unfold _key_match
      rw [if_pos rfl]
    · rfl
    · rfl
  · intro report_types types fields output_fields output_separator output_flags sort_keys
      private_data hreg h
    have h0 := init_handle_on_registry H report_types types fields output_separator
      output_flags private_data
    rcases h with h | ⟨k, hk, h⟩
    · unfold dm_report_init
      simp only [(hcomma _ output_fields true (on_registry_ok h0 hreg) h).1]
    · subst hk
      cases h1 : _parse_fields H (init_handle H report_types types fields output_separator
          output_flags private_data) output_fields true with
      | none =>
        rw [parse_fields_words] at h1
        exact absurd h1 (after_display_defined (on_registry_ok h0 hreg) _)
      | some o =>
        cases o with
        | none =>
          unfold dm_report_init
          simp only [h1]
        | some rh1 =>
          have hi := parse_fields_on_registry h1 h0
          unfold dm_report_init
          simp only [h1, (hcomma rh1 k true (on_registry_ok hi hreg) h).2]
  · intro report_types types fields output_separator output_flags private_data
    refine ⟨rfl, init_handle_no_selection H report_types types fields output_separator
      output_flags private_data, ?_⟩
    unfold init_handle
    simp only
    split <;> rfl

/-- The lists `name,` and `,` on the sample registry, and the empty list. -/
theorem trailing_comma_refused_witness :
    dm_report_init sample_h (some 1) sample_types sample_fields "name,".toList " ".toList 2
        none 0 = some none ∧
      dm_report_init sample_h (some 1) sample_types sample_fields "name".toList " ".toList 2
        (some ",".toList) 0 = some none ∧
      sample_empty.field_props = [] ∧ sample_empty.keys_count = 0 :=
  ⟨(trailing_comma_refused sample_h).2.2.1 (some 1) sample_types sample_fields
      "name,".toList " ".toList 2 none 0 (by unfold registry_ok; decide)
      (Or.inl (by decide)),
    (trailing_comma_refused sample_h).2.2.1 (some 1) sample_types sample_fields
      "name".toList " ".toList 2 (some ",".toList) 0 (by unfold registry_ok; decide)
      (Or.inr ⟨",".toList, rfl, by decide⟩),
    rfl, by decide⟩

/-! ## The render buffers of the number functions -/

theorem fmt_d_length (v : Int) (h0 : -2147483648 ≤ v) (h1 : v < 2147483648) :
    (fmt_d v).length ≤ 11 := by
  unfold fmt_d
  split
  · have hb : v.natAbs < 10 ^ 10 := by omega
    have := fmt_u_length v.natAbs 10 hb (by decide)
    unfold fmt_u at this
    simp only [List.length_cons]
    omega
  · have hb : v.toNat < 10 ^ 10 := by omega
    have := fmt_u_length v.toNat 10 hb (by decide)
    unfold fmt_u at this
    omega

theorem snprintf_fits (bufsize : Nat) (text : cstr) (h : text.length < bufsize) :
    ¬ dm_snprintf bufsize text < 0 := by
  unfold dm_snprintf
  rw [if_neg (by omega)]
  omega

/-- C39. With `dm_snprintf` failing when the text and its NUL do not fit the buffer: the
text of every `int` and `int32_t` value (32 bits) has at most 11 characters, under the limit
12; of every `uint32_t` value at most 10, under the limit 11; of every `uint64_t` value at
most 20, under the limit 21. So `dm_snprintf` does not fail in `dm_report_field_int`,
`_int32`, `_uint32` and `_uint64`, and each of them returns 1. -/
theorem render_buffers_fit :
    (∀ v : Int, -2147483648 ≤ v → v < 2147483648 →
      (fmt_d v).length ≤ 11 ∧ ¬ dm_snprintf 12 (fmt_d v) < 0 ∧
      dm_report_field_int v = some (fmt_d v, sort_value_t.num (uint64_of_int v)) ∧
      dm_report_field_int32 v = some (fmt_d v, sort_value_t.num (uint64_of_int v))) ∧
    (∀ n : Nat, n < 4294967296 →
      (fmt_u n).length ≤ 10 ∧ ¬ dm_snprintf 11 (fmt_u n) < 0 ∧
      dm_report_field_uint32 n = some (fmt_u n, sort_value_t.num n)) ∧
    (∀ n : Nat, n < 18446744073709551616 →
      (fmt_u n).length ≤ 20 ∧ ¬ dm_snprintf 21 (fmt_u n) < 0 ∧
      dm_report_field_uint64 n = some (fmt_u n, sort_value_t.num n)) := by
  refine ⟨?_, ?_, ?_⟩
  · intro v h0 h1
    have hl := fmt_d_length v h0 h1
    have hs := snprintf_fits 12 (fmt_d v) (by omega)
    refine ⟨hl, hs, ?_, ?_⟩
    · unfold dm_report_field_int
      rw [if_neg hs]
    · unfold dm_report_field_int32
      rw [if_neg hs]
  · intro n h
    have hl := fmt_u_length n 10 (by omega) (by decide)
    have hs := snprintf_fits 11 (fmt_u n) (by omega)
    refine ⟨hl, hs, ?_⟩
    unfold dm_report_field_uint32
    rw [if_neg hs, Nat.mod_eq_of_lt (by omega)]
  · intro n h
    have hl := fmt_u_length n 20 (by omega) (by decide)
    have hs := snprintf_fits 21 (fmt_u n) (by omega)
    refine ⟨hl, hs, ?_⟩
    unfold dm_report_field_uint64
    rw [if_neg hs]

/-- C39 at the longest texts: the smallest `int`, 11 characters, and the largest values of
`uint32_t` and `uint64_t`, 10 and 20 characters. -/
theorem render_buffers_fit_witness :
    (fmt_d (-2147483648)).length = 11 ∧
      (dm_report_field_int (-2147483648)).isSome = true ∧
      (fmt_u 4294967295).length = 10 ∧ (dm_report_field_uint32 4294967295).isSome = true ∧
      (fmt_u 18446744073709551615).length = 20 ∧
      (dm_report_field_uint64 18446744073709551615).isSome = true := by
  have h1 := (render_buffers_fit.1 (-2147483648) (by decide) (by decide)).2.2.1
  have h2 := (render_buffers_fit.2.1 4294967295 (by decide)).2.2
  have h3 := (render_buffers_fit.2.2 18446744073709551615 (by decide)).2.2
  refine ⟨by decide, by rw [h1]; rfl, by decide, by rw [h2]; rfl, by decide, by rw [h3]; rfl⟩

/-! ## The sort value of a signed number -/

theorem uint64_of_int_neg (v : Int) (h0 : -18446744073709551616 ≤ v) (h1 : v < 0) :
    (uint64_of_int v : Int) = 18446744073709551616 + v := by
  unfold uint64_of_int
  have e : v % 18446744073709551616 = 18446744073709551616 + v := by
    have h2 : (18446744073709551616 + v) % 18446744073709551616 =
        18446744073709551616 + v := Int.emod_eq_of_lt (by omega) (by omega)
    rw [← h2, Int.add_emod_self_left]
  rw [e]
  omega

theorem uint64_of_int_mod (v : Int) :
    (uint64_of_int v : Int) = v % 18446744073709551616 := by
  unfold uint64_of_int
  have := Int.emod_nonneg v (by decide : (18446744073709551616 : Int) ≠ 0)
  omega

/-- C40. For every `int` or `int32_t` value `v` (32 bits) the sort value that
`dm_report_field_int` and `dm_report_field_int32` store is `v` modulo 2^64: `v` itself when
`v >= 0` and `2^64 + v` when `v < 0`. The sort values of two values of the same sign are in
the order of the values, the sort value of a negative value is above that of every value
that is not negative, and `_row_compare` under one ascending numeric key returns 1 for a row
of a negative value against a row of a value that is not negative: it sorts after it. -/
theorem signed_sort_value :
    (∀ v : Int, -2147483648 ≤ v → v < 2147483648 →
      dm_report_field_int v = some (fmt_d v, sort_value_t.num (uint64_of_int v)) ∧
      dm_report_field_int32 v = some (fmt_d v, sort_value_t.num (uint64_of_int v)) ∧
      (uint64_of_int v : Int) = v % 18446744073709551616 ∧
      (0 ≤ v → (uint64_of_int v : Int) = v) ∧
      (v < 0 → (uint64_of_int v : Int) = 18446744073709551616 + v)) ∧
    (∀ a b : Int, -2147483648 ≤ a → a < 2147483648 → -2147483648 ≤ b → b < 2147483648 →
      ((0 ≤ a ∧ 0 ≤ b) ∨ (a < 0 ∧ b < 0)) →
      (a < b ↔ uint64_of_int a < uint64_of_int b)) ∧
    (∀ a b : Int, -2147483648 ≤ a → a < 0 → 0 ≤ b → b < 2147483648 →
      uint64_of_int b < uint64_of_int a) ∧
    (∀ (H : libdevmapper_h) (rh : dm_report) (rowa rowb : row) (flags : Nat) (a b : Int),
      rh.keys_count = 1 →
      key_view H rh rowa rowb 0
        (flags, sort_value_t.num (uint64_of_int a), sort_value_t.num (uint64_of_int b)) →
      flags &&& FLD_DESCENDING = 0 →
      -2147483648 ≤ a → a < 0 → 0 ≤ b → b < 2147483648 →
      _row_compare H rh rowa rowb = some 1) := by
  have hneg : ∀ a b : Int, -2147483648 ≤ a → a < 0 → 0 ≤ b → b < 2147483648 →
      uint64_of_int b < uint64_of_int a := by
    intro a b h0 h1 h2 h3
    have ea := uint64_of_int_neg a (by omega) h1
    have eb := uint64_of_int_nonneg b h2 (by omega)
    omega
  refine ⟨?_, ?_, hneg, ?_⟩
  · intro v h0 h1
    obtain ⟨_, _, e1, e2⟩ := render_buffers_fit.1 v h0 h1
    refine ⟨e1, e2, uint64_of_int_mod v, ?_, ?_⟩
    · intro h
      rw [uint64_of_int_nonneg v h (by omega)]
      omega
    · intro h
      exact uint64_of_int_neg v (by omega) h
  · intro a b ha0 ha1 hb0 hb1 hsign
    rcases hsign with ⟨h1, h2⟩ | ⟨h1, h2⟩
    · have ea := uint64_of_int_nonneg a h1 (by omega)
      have eb := uint64_of_int_nonneg b h2 (by omega)
      omega
    · have ea := uint64_of_int_neg a (by omega) h1
      have eb := uint64_of_int_neg b (by omega) h2
      omega
  · intro H rh rowa rowb flags a b hk hv hd ha0 ha1 hb0 hb1
    have hlt := hneg a b ha0 ha1 hb0 hb1
    have hne : sort_value_t.num (uint64_of_int a) ≠ sort_value_t.num (uint64_of_int b) := by
      intro e
      injection e with e
      omega
    have h1 := row_compare_spec H rh rowa rowb
      [(flags, sort_value_t.num (uint64_of_int a), sort_value_t.num (uint64_of_int b))]
      (by rw [hk]; rfl) (by
        intro cnt k hcnt
        cases cnt with
        | zero =>
          simp only [List.getElem?_cons_zero, Option.some.injEq] at hcnt
          rw [← hcnt]
          exact hv
        | succ n => simp at hcnt)
    rw [h1]
    simp only [spec_row_order, if_neg hne, spec_key_order, hd, ne_eq, not_true_eq_false,
      if_false, spec_value_order]
    rw [if_neg (by omega), if_neg (by omega)]

/-- C40 at the values -1 and 1: the sort value of -1 is 2^64 - 1, above the sort value 1. -/
theorem signed_sort_value_witness :
    dm_report_field_int (-1) =
        some (['-', '1'], sort_value_t.num 18446744073709551615) ∧
      dm_report_field_int 1 = some (['1'], sort_value_t.num 1) ∧
      uint64_of_int 1 < uint64_of_int (-1) :=
  ⟨by rw [(signed_sort_value.1 (-1) (by decide) (by decide)).1]; decide,
    by rw [(signed_sort_value.1 1 (by decide) (by decide)).1]; decide,
    signed_sort_value.2.2.1 (-1) 1 (by decide) (by decide) (by decide) (by decide)⟩
/-! ## Sorting is asked for by the caller's buffered flag only -/

theorem init_flags_sort_iff (H : libdevmapper_h) (o : Nat)
    (hr : H.DM_REPORT_OUTPUT_MASK &&& RH_SORT_REQUIRED = 0)
    (hbs : H.DM_REPORT_OUTPUT_BUFFERED &&& RH_SORT_REQUIRED = 0) :
    init_flags H o &&& RH_SORT_REQUIRED ≠ 0 ↔ o &&& H.DM_REPORT_OUTPUT_BUFFERED ≠ 0 := by
  constructor
  · intro h hb
    apply h
    have h0 : (o &&& H.DM_REPORT_OUTPUT_MASK) &&& RH_SORT_REQUIRED = 0 := by
      rw [Nat.and_assoc, hr]
      exact Nat.and_zero _
    unfold init_flags
    simp only
    rw [if_neg (by simpa using hb), if_pos hb]
    split_ifs
    · exact and_and_eq_zero _ _ _ (or_and_eq_zero _ _ _ h0 hbs)
    · exact or_and_eq_zero _ _ _ h0 hbs
    · exact h0
  · exact init_flags_sort H o

theorem session_sort_flag {H : libdevmapper_h}
    {qsort : (row → row → Int) → List row → List row} {rh0 rh : dm_report}
    (h : session H qsort rh0 rh) :
    rh.flags &&& RH_SORT_REQUIRED = rh0.flags &&& RH_SORT_REQUIRED := by
  rcases (session_same h).2.2.2.2.2.2.2 with e | e
  · rw [e]
  · rw [e, Nat.and_distrib_right]
    have z : RH_HEADINGS_PRINTED &&& RH_SORT_REQUIRED = 0 := by decide
    rw [z]
    exact Nat.or_zero _

theorem report_objects_session {H : libdevmapper_h}
    {qsort : (row → row → Int) → List row → List row} {rh0 : dm_report} :
    ∀ (objs : List Nat) (rh rh1 : dm_report), session H qsort rh0 rh →
      report_objects H qsort rh objs = some rh1 → session H qsort rh0 rh1 := by
  intro objs
  induction objs with
  | nil =>
    intro rh rh1 hr h
    simp only [report_objects, Option.some.injEq] at h
    rw [← h]
    exact hr
  | cons o objs ih =>
    intro rh rh1 hr h
    simp only [report_objects] at h
    split at h
    · exact absurd h (by simp)
    · rename_i out ho
      split at h
      · split at h
        · exact absurd h (by simp)
        · rename_i rh2 hrh
          exact ih rh2 rh1 (session.object rh rh2 o out hr ho hrh) h
      · exact absurd h (by simp)

theorem add_cell_unsorted {rh : dm_report} (hf : rh.flags &&& RH_SORT_REQUIRED = 0)
    {fp1 : field_properties} {field : dm_report_field} {r r1 : row}
    (h : add_cell rh fp1 field r = some r1) : r1.sort_fields = r.sort_fields := by
  unfold add_cell at h
  rw [if_neg (fun hc => hc.1 hf)] at h
  simp only [Option.some.injEq] at h
  rw [← h]

theorem object_loop_unsorted (rh : dm_report) (object : Nat)
    (hf : rh.flags &&& RH_SORT_REQUIRED = 0) :
    ∀ (todo done : List field_properties) (r : row)
      (res : List field_properties × row × Bool),
      dm_report_object_loop rh object done todo r = some res →
        res.2.1.sort_fields = r.sort_fields := by
  intro todo
  induction todo with
  | nil =>
    intro done r res h
    rw [object_loop_nil] at h
    simp only [Option.some.injEq] at h
    rw [← h]
  | cons fp todo ih =>
    intro done r res h
    rcases object_loop_cons rh object fp todo done r res h with ⟨_, e⟩ | ⟨s, v, r1, _, ha, hl⟩
    · rw [e]
    · rw [ih _ _ _ hl, add_cell_unsorted hf ha]

/-! ## Rows of a session in which every submission succeeded -/

theorem clean_session_session {H : libdevmapper_h}
    {qsort : (row → row → Int) → List row → List row} {rh0 rh : dm_report}
    (h : clean_session H qsort rh0 rh) : session H qsort rh0 rh := by
  induction h with
  | start => exact session.start
  | object a b o out _ ho _ hr ih => exact session.object a b o out ih ho hr
  | output a b out _ ho hr ih => exact session.output a b out ih ho hr

theorem report_objects_clean {H : libdevmapper_h}
    {qsort : (row → row → Int) → List row → List row} {rh0 : dm_report} :
    ∀ (objs : List Nat) (rh rh1 : dm_report), clean_session H qsort rh0 rh →
      report_objects H qsort rh objs = some rh1 → clean_session H qsort rh0 rh1 := by
  intro objs
  induction objs with
  | nil =>
    intro rh rh1 hr h
    simp only [report_objects, Option.some.injEq] at h
    rw [← h]
    exact hr
  | cons o objs ih =>
    intro rh rh1 hr h
    simp only [report_objects] at h
    split at h
    · exact absurd h (by simp)
    · rename_i out ho
      split at h
      · rename_i hret
        split at h
        · exact absurd h (by simp)
        · rename_i rh2 hrh
          exact ih rh2 rh1 (clean_session.object rh rh2 o out hr ho hret hrh) h
      · exact absurd h (by simp)

theorem forall₂_getElem?_left {α β : Type} {R : α → β → Prop} :
    ∀ {l : List α} {l1 : List β}, List.Forall₂ R l l1 → ∀ (j : Nat) (a : α),
      l[j]? = some a → ∃ b, l1[j]? = some b ∧ R a b := by
  intro l l1 h
  induction h with
  | nil =>
    intro j a ha
    simp at ha
  | cons hab _ ih =>
    intro j a ha
    cases j with
    | zero =>
      simp only [List.getElem?_cons_zero, Option.some.injEq] at ha
      subst ha
      exact ⟨_, by simp, hab⟩
    | succ j =>
      simp only [List.getElem?_cons_succ] at ha ⊢
      exact ih j a ha

theorem dir_bits_one_direction {x d : Nat} (hx : dir_bits x = d)
    (hd : d = FLD_ASCENDING ∨ d = FLD_DESCENDING) : one_direction x := by
  have ea : x &&& FLD_ASCENDING = d &&& FLD_ASCENDING := by
    rw [← hx]
    unfold dir_bits
    exact (and_mask_and x _ _ (by decide)).symm
  have ed : x &&& FLD_DESCENDING = d &&& FLD_DESCENDING := by
    rw [← hx]
    unfold dir_bits
    exact (and_mask_and x _ _ (by decide)).symm
  unfold one_direction
  rw [ea, ed]
  rcases hd with e | e
  · left
    rw [e]
    exact ⟨by decide, by decide⟩
  · right
    rw [e]
    exact ⟨by decide, by decide⟩

theorem init_keys_selected {H : libdevmapper_h}
    (hsk : H.DM_REPORT_FIELD_MASK &&& FLD_SORT_KEY = 0)
    (hdir : H.DM_REPORT_FIELD_MASK &&& (FLD_ASCENDING ||| FLD_DESCENDING) = 0)
    {report_types : Option Nat} {types : List dm_report_object_type}
    {fields : List dm_report_field_type} {output_fields output_separator : cstr}
    {output_flags : Nat} {sort_keys : Option cstr} {private_data : Nat} {rh : dm_report}
    (h : dm_report_init H report_types types fields output_fields output_separator output_flags
      sort_keys private_data = some (some rh)) : keys_selected rh := by
  obtain ⟨hc, k1, _, _⟩ := init_keys_ok hsk hdir h
  have hprops : ((init_keys (init_handle H report_types types fields output_separator
      output_flags private_data) sort_keys).map Prod.fst).Nodup ∧
      ∀ p ∈ init_keys (init_handle H report_types types fields output_separator
        output_flags private_data) sort_keys, p.2 = FLD_ASCENDING ∨ p.2 = FLD_DESCENDING :=
    key_list_props _ _ [] (by simp) (by simp)
  generalize init_keys (init_handle H report_types types fields output_separator output_flags
    private_data) sort_keys = D at hc k1 hprops
  intro cnt hcnt
  rw [hc] at hcnt
  have hi : D[cnt]? = some (D[cnt].1, D[cnt].2) := List.getElem?_eq_getElem hcnt
  obtain ⟨j, fp, hfs, hm, hp, hd⟩ := k1 cnt _ _ hi
  exact ⟨j, fp, hfs.1, hm, hp,
    dir_bits_one_direction hd (hprops.2 _ (List.getElem_mem hcnt))⟩

theorem keys_selected_same {a b : dm_report} (hs : same_session a b) (h : keys_selected a) :
    keys_selected b := by
  intro cnt hcnt
  rw [hs.2.2.1] at hcnt
  obtain ⟨j, fp, hj, hm, hp, hd⟩ := h cnt hcnt
  obtain ⟨fq, hq, hg⟩ := forall₂_getElem?_left hs.2.2.2.2.2.2.1 j fp hj
  refine ⟨j, fq, hq, ?_, ?_, ?_⟩
  · rw [hg.2.2.2.1]
    exact hm
  · rw [hg.2.1]
    exact hp
  · rw [hg.2.2.2.1]
    exact hd

theorem renders_sat_same {P : Nat → sort_value_t → Prop} {a b : dm_report}
    (hs : same_session a b) (h : renders_sat P a) : renders_sat P b := by
  intro fq hfq hm ft hft data s v hv
  obtain ⟨j, hj⟩ := List.getElem?_of_mem hfq
  obtain ⟨fp, hp, hg⟩ := forall₂_getElem? hs.2.2.2.2.2.2.1 j fq hj
  rw [hg.2.2.2.1]
  rw [hg.2.2.2.1] at hm
  rw [hg.1, hs.1] at hft
  rw [hs.2.2.2.2.1] at hv
  exact h fp (List.getElem?_mem hp) hm ft hft data s v hv

theorem row_keyed_same {P : Nat → sort_value_t → Prop} {a b : dm_report} {r : row}
    (hs : same_session a b) (h : row_keyed P a r) : row_keyed P b r := by
  obtain ⟨arr, ha, hl, hk⟩ := h
  refine ⟨arr, ha, by rw [hl, hs.2.2.1], ?_⟩
  intro j fq hj hm
  obtain ⟨fp, hp, hg⟩ := forall₂_getElem? hs.2.2.2.2.2.2.1 j fq hj
  rw [hg.2.2.2.1] at hm ⊢
  rw [hg.2.1]
  exact hk j fp hp hm

theorem row_keyed_left {P : Nat → sort_value_t → Prop} {rh : dm_report} {r r1 : row}
    (hl : row_left r r1) (h : row_keyed P rh r) : row_keyed P rh r1 := by
  obtain ⟨arr, ha, h2⟩ := h
  exact ⟨arr, by rw [hl.1, ha], h2⟩

theorem row_left_refl (r : row) : row_left r r := ⟨rfl, List.suffix_refl _⟩

theorem output_as_rows_line_left (H : libdevmapper_h) (rh : dm_report) :
    ∀ (rows : List row) (l : cstr) (rows1 : List row),
      _output_as_rows_line H rh rows = some (l, rows1) → List.Forall₂ row_left rows rows1 := by
  intro rows
  induction rows with
  | nil =>
    intro l rows1 h
    simp only [_output_as_rows_line, Option.some.injEq, Prod.mk.injEq] at h
    rw [← h.2]
    exact List.Forall₂.nil
  | cons r rest ih =>
    intro l rows1 h
    simp only [_output_as_rows_line] at h
    split at h
    · rename_i c r1 l1 rs hcell hrest
      simp only [Option.some.injEq, Prod.mk.injEq] at h
      rw [← h.2]
      refine List.Forall₂.cons ?_ (ih _ _ hrest)
      split at hcell
      · simp only [Option.some.injEq, Prod.mk.injEq] at hcell
        rw [← hcell.2]
        exact row_left_refl r
      · rename_i field fs hf
        split at hcell
        · exact absurd hcell (by simp)
        · simp only [Option.some.injEq, Prod.mk.injEq] at hcell
          rw [← hcell.2]
          refine ⟨rfl, ?_⟩
          show fs <:+ r.fields
          rw [hf]
          exact List.suffix_cons _ _
    · exact absurd h (by simp)

theorem row_left_trans {a b c : row} (h1 : row_left a b) (h2 : row_left b c) :
    row_left a c :=
  ⟨h2.1.trans h1.1, h2.2.trans h1.2⟩

theorem forall₂_left_trans :
    ∀ {l1 l2 l3 : List row}, List.Forall₂ row_left l1 l2 → List.Forall₂ row_left l2 l3 →
      List.Forall₂ row_left l1 l3 := by
  intro l1 l2 l3 h1
  induction h1 generalizing l3 with
  | nil =>
    intro h2
    cases h2
    exact List.Forall₂.nil
  | cons hab _ ih =>
    intro h2
    cases h2 with
    | cons hbc ht => exact List.Forall₂.cons (row_left_trans hab hbc) (ih ht)

theorem output_as_rows_loop_left (H : libdevmapper_h) (rh : dm_report) :
    ∀ (fps : List field_properties) (rows : List row) (lines : List cstr) (rows1 : List row),
      _output_as_rows_loop H rh fps rows = some (lines, rows1) →
        List.Forall₂ row_left rows rows1 := by
  intro fps
  induction fps with
  | nil =>
    intro rows lines rows1 h
    simp only [_output_as_rows_loop, Option.some.injEq, Prod.mk.injEq] at h
    rw [← h.2]
    exact List.forall₂_same.mpr (fun r _ => row_left_refl r)
  | cons fp fps ih =>
    intro rows lines rows1 h
    simp only [_output_as_rows_loop] at h
    split at h
    · split at h
      · refine forall₂_left_trans ?_ (ih _ _ _ h)
        rw [List.forall₂_map_right_iff]
        exact List.forall₂_same.mpr (fun r _ => ⟨rfl, List.tail_suffix _⟩)
      · exact absurd h (by simp)
    · split at h
      · rename_i hd l rows2 _ hline
        split at h
        · exact absurd h (by simp)
        · rename_i ls rows3 hloop
          simp only [Option.some.injEq, Prod.mk.injEq] at h
          rw [← h.2]
          exact forall₂_left_trans (output_as_rows_line_left H rh _ _ _ hline)
            (ih _ _ _ hloop)
      · exact absurd h (by simp)

theorem forall₂_left_mem {l l1 : List row} (h : List.Forall₂ row_left l l1) :
    ∀ r1 ∈ l1, ∃ r ∈ l, row_left r r1 := by
  intro r1 hr1
  obtain ⟨j, hj⟩ := List.getElem?_of_mem hr1
  obtain ⟨r, hr, hl⟩ := forall₂_getElem? h j r1 hj
  exact ⟨r, List.getElem?_mem hr, hl⟩

/-- The rows a handle holds after `dm_report_output` are rows it held before, with the same
sort array and with their fields or the rest of their fields, when `qsort` returns rows of
the array only. -/
theorem report_output_rows {H : libdevmapper_h}
    {qsort : (row → row → Int) → List row → List row} {rh rh1 : dm_report} {out : outcome}
    (h : dm_report_output H qsort rh = some out) (hr : out.rh = some rh1)
    (hsub : ∀ rh2, _sort_rows H qsort rh = some rh2 → ∀ r ∈ rh2.rows, r ∈ rh.rows) :
    ∀ r1 ∈ rh1.rows, ∃ r ∈ rh.rows, row_left r r1 := by
  unfold dm_report_output at h
  split at h
  · simp only [Option.some.injEq] at h
    rw [← h] at hr
    simp only [Option.some.injEq] at hr
    rw [← hr]
    exact fun r1 h1 => ⟨r1, h1, row_left_refl r1⟩
  · split at h
    · exact absurd h (by simp)
    · rename_i rh2 hs
      have h2 : ∀ r ∈ rh2.rows, r ∈ rh.rows := by
        split at hs
        · exact hsub rh2 hs
        · simp only [Option.some.injEq] at hs
          rw [← hs]
          exact fun r h => h
      split at h
      · unfold _output_as_rows at h
        split at h
        · exact absurd h (by simp)
        · rename_i lines rows hloop
          simp only [Option.some.injEq] at h
          rw [← h] at hr
          simp only [Option.some.injEq] at hr
          rw [← hr]
          intro r1 hr1
          obtain ⟨r, hrm, hl⟩ :=
            forall₂_left_mem (output_as_rows_loop_left H rh2 _ _ _ _ hloop) r1 hr1
          exact ⟨r, h2 r hrm, hl⟩
      · unfold _output_as_columns at h
        split at h
        · exact absurd h (by simp)
        · split at h
          · exact absurd h (by simp)
          · simp only [Option.some.injEq] at h
            rw [← h] at hr
            simp only [Option.some.injEq] at hr
            rw [← hr]
            intro r1 hr1
            exact absurd hr1 (List.not_mem_nil _)
theorem built_row_keyed {P : Nat → sort_value_t → Prop} {rh : dm_report} {object : Nat}
    {props : List field_properties} {r : row} (hf : rh.flags &&& RH_SORT_REQUIRED ≠ 0)
    (hb : row_built rh object props r)
    (hP : ∀ fp ∈ props, fp.flags &&& FLD_SORT_KEY ≠ 0 →
      ∀ ft, rh.fields[fp.field_num]? = some ft →
        ∀ data s v, ft.report_fn data rh.private_data = some (s, v) → P fp.flags v)
    (rows : List row) :
    row_keyed P { rh with field_props := props, rows := rows } r := by
  obtain ⟨_, hfields, hsort⟩ := hb
  obtain ⟨arr, ha, hl, hk⟩ := hsort hf
  refine ⟨arr, ha, hl, ?_⟩
  intro j fp hj hm
  obtain ⟨s, v, hfj, data, ft, _, _, hft, hv⟩ := hfields j fp hj
  refine ⟨⟨j, s, v⟩, ?_, rfl, hP fp (List.getElem?_mem hj) hm ft hft data s v hv⟩
  rw [hk j fp hj hm, hfj]

theorem keyed_object_row {P : Nat → sort_value_t → Prop} {rh : dm_report} {object : Nat}
    {props : List field_properties} {r : row} (hk : keyed P rh)
    (hl : dm_report_object_loop rh object [] rh.field_props (new_row rh) =
      some (props, r, true))
    (hb : row_built rh object props r) :
    keyed P { rh with field_props := props, rows := rh.rows ++ [r] } := by
  obtain ⟨todo1, hp, hg⟩ := object_loop_grows rh object _ _ _ _ _ _ hl
  simp only [List.nil_append] at hp
  subst hp
  have hs : same_session rh { rh with field_props := props, rows := rh.rows ++ [r] } :=
    ⟨rfl, rfl, rfl, rfl, rfl, rfl, hg, Or.inl rfl⟩
  obtain ⟨k1, k2, k3, k4, k5⟩ := hk
  refine ⟨k1, posn_inj_grows hg k2, keys_selected_same hs k3, renders_sat_same hs k4, ?_⟩
  intro r1 hr1
  rcases List.mem_append.mp hr1 with h1 | h1
  · exact row_keyed_same hs (k5 r1 h1)
  · simp only [List.mem_singleton] at h1
    subst h1
    exact built_row_keyed k1 hb (fun fp hfp => renders_sat_same hs k4 fp hfp) _

theorem keyed_output {P : Nat → sort_value_t → Prop} {H : libdevmapper_h}
    {qsort : (row → row → Int) → List row → List row} {rh rh1 : dm_report} {out : outcome}
    (hk : keyed P rh) (h : dm_report_output H qsort rh = some out) (hr : out.rh = some rh1)
    (hsub : ∀ rh2, _sort_rows H qsort rh = some rh2 → ∀ r ∈ rh2.rows, r ∈ rh.rows) :
    keyed P rh1 := by
  obtain ⟨rh2, h2, hs⟩ := report_output_same h
  rw [hr] at h2
  simp only [Option.some.injEq] at h2
  subst h2
  obtain ⟨rh3, h3, hfr⟩ := report_output_frame h
  rw [hr] at h3
  simp only [Option.some.injEq] at h3
  subst h3
  have hp : rh1.field_props = rh.field_props := by
    unfold frame_out at hfr
    rw [hfr]
  obtain ⟨k1, k2, k3, k4, k5⟩ := hk
  refine ⟨same_session_flag hs _ k1, by rw [hp]; exact k2, keys_selected_same hs k3,
    renders_sat_same hs k4, ?_⟩
  intro r1 hr1
  obtain ⟨r, hrm, hl⟩ := report_output_rows h hr hsub r1 hr1
  exact row_keyed_left hl (row_keyed_same hs (k5 r hrm))

theorem keyed_object {P : Nat → sort_value_t → Prop} {H : libdevmapper_h}
    {qsort : (row → row → Int) → List row → List row} {rh rh1 : dm_report} {object : Nat}
    {out : outcome} (hk : keyed P rh)
    (h : dm_report_object H qsort (some rh) object = some out) (h1 : out.ret = 1)
    (hr : out.rh = some rh1)
    (hsub : ∀ rhm rh2, keyed P rhm → _sort_rows H qsort rhm = some rh2 →
      ∀ r ∈ rh2.rows, r ∈ rhm.rows) :
    keyed P rh1 := by
  obtain ⟨props, r, hl, hb, hbuf⟩ := report_object_built hk.2.1 h h1
  have hm := keyed_object_row hk hl hb
  by_cases hB : rh.flags &&& H.DM_REPORT_OUTPUT_BUFFERED = 0
  · rw [report_object_eq, hl] at h
    simp only [Bool.true_eq_false, if_false] at h
    rw [if_pos hB] at h
    exact keyed_output hm h hr (fun rh2 => hsub _ rh2 hm)
  · have e := hbuf hB
    rw [hr] at e
    simp only [Option.some.injEq] at e
    rw [e]
    exact hm

theorem clean_session_keyed {P : Nat → sort_value_t → Prop} {H : libdevmapper_h}
    {qsort : (row → row → Int) → List row → List row} {rh0 rh : dm_report}
    (hsub : ∀ rhm rh2, keyed P rhm → _sort_rows H qsort rhm = some rh2 →
      ∀ r ∈ rh2.rows, r ∈ rhm.rows)
    (h0 : keyed P rh0) (hs : clean_session H qsort rh0 rh) : keyed P rh := by
  induction hs with
  | start => exact h0
  | object a b o out _ ho hret hr ih => exact keyed_object ih ho hret hr hsub
  | output a b out _ ho hr ih => exact keyed_output ih ho hr (fun rh2 => hsub a rh2 ih)

theorem init_keyed {P : Nat → sort_value_t → Prop} {H : libdevmapper_h}
    (hsk : H.DM_REPORT_FIELD_MASK &&& FLD_SORT_KEY = 0)
    (hdir : H.DM_REPORT_FIELD_MASK &&& (FLD_ASCENDING ||| FLD_DESCENDING) = 0)
    {report_types : Option Nat} {types : List dm_report_object_type}
    {fields : List dm_report_field_type} {output_fields output_separator : cstr}
    {output_flags : Nat} {sort_keys : Option cstr} {private_data : Nat} {rh : dm_report}
    (hb : output_flags &&& H.DM_REPORT_OUTPUT_BUFFERED ≠ 0)
    (h : dm_report_init H report_types types fields output_fields output_separator output_flags
      sort_keys private_data = some (some rh))
    (hP : renders_sat P rh) : keyed P rh := by
  obtain ⟨hf, hrows, _⟩ := init_frame h
  refine ⟨by rw [hf]; exact init_flags_sort H output_flags hb, (init_posn hsk hdir h).1,
    init_keys_selected hsk hdir h, hP, ?_⟩
  rw [hrows]
  intro r hr
  exact absurd hr (List.not_mem_nil _)

theorem keyed_rows_keyed {H : libdevmapper_h} {rh : dm_report}
    (hk : keyed (value_typed H) rh) : rows_keyed H rh rh.rows := by
  intro cnt hcnt
  obtain ⟨j, fp, hj, hm, hp, hd⟩ := hk.2.2.1 cnt hcnt
  refine ⟨fp.flags, hd, ?_⟩
  intro r hr
  obtain ⟨arr, ha, _, hk2⟩ := hk.2.2.2.2 r hr
  obtain ⟨sf, hsf, hprops, hv⟩ := hk2 j fp hj hm
  rw [hp] at hsf
  refine ⟨?_, sf.sort_value, ?_, hv⟩
  · unfold row_flags
    rw [ha]
    simp only
    rw [hsf]
    simp only
    rw [hprops, hj]
    rfl
  · unfold row_value
    rw [ha]
    simp only
    rw [hsf]

theorem keyed_sort_sub {H : libdevmapper_h}
    {qsort : (row → row → Int) → List row → List row} (hq : qsort_conforms qsort)
    (rhm rh2 : dm_report) (hk : keyed (value_typed H) rhm)
    (hs : _sort_rows H qsort rhm = some rh2) : ∀ r ∈ rh2.rows, r ∈ rhm.rows := by
  intro r hr
  rw [sort_rows_some hs] at hr
  exact ((hq _ _ (row_compare_consistent H rhm rhm.rows (keyed_rows_keyed hk))).1.mem_iff).1 hr

theorem rearranged_sort_sub {H : libdevmapper_h}
    {qsort : (row → row → Int) → List row → List row} (hq : qsort_rearranges qsort)
    (rhm rh2 : dm_report) (hs : _sort_rows H qsort rhm = some rh2) :
    ∀ r ∈ rh2.rows, r ∈ rhm.rows := by
  intro r hr
  rw [sort_rows_some hs] at hr
  exact ((hq _ _).mem_iff).1 hr
/-! ## The sort array of a row has no empty slot -/

theorem stable_qsort_rearranges : qsort_rearranges stable_qsort :=
  fun _ l => List.perm_insertionSort _ l

theorem sample_session_clean :
    clean_session sample_h stable_qsort (sample_init.get (by decide)) sample_session :=
  report_objects_clean [16, 32, 48] _ _ clean_session.start rfl

/-- C35. In a session made by `dm_report_init` with `DM_REPORT_OUTPUT_BUFFERED` among the
output flags, a call of `dm_report_object` that returns 1 builds a row with a sort array of
`keys_count` slots, every one of which holds a field of this row. When every submission of
the session so far returned 1 and `qsort` rearranges the array only, every row the handle
holds has a sort array of `keys_count` slots none of which is empty, so that `_row_compare`
finds a field in every slot it reads. The header is taken to keep the field flags apart from
the internal flags of a sort key. -/
theorem sort_array_fully_filled (H : libdevmapper_h)
    (qsort : (row → row → Int) → List row → List row) (report_types : Option Nat)
    (types : List dm_report_object_type) (fields : List dm_report_field_type)
    (output_fields output_separator : cstr) (output_flags : Nat) (sort_keys : Option cstr)
    (private_data : Nat) (rh0 rh : dm_report)
    (hsk : H.DM_REPORT_FIELD_MASK &&& FLD_SORT_KEY = 0)
    (hdir : H.DM_REPORT_FIELD_MASK &&& (FLD_ASCENDING ||| FLD_DESCENDING) = 0)
    (hb : output_flags &&& H.DM_REPORT_OUTPUT_BUFFERED ≠ 0)
    (hinit : dm_report_init H report_types types fields output_fields output_separator
      output_flags sort_keys private_data = some (some rh0))
    (hs : session H qsort rh0 rh) :
    (∀ (object : Nat) (out : outcome),
      dm_report_object H qsort (some rh) object = some out → out.ret = 1 →
      ∃ props r arr,
        dm_report_object_loop rh object [] rh.field_props (new_row rh) =
          some (props, r, true) ∧
        r.sort_fields = some arr ∧ arr.length = rh.keys_count ∧
        ∀ cnt, cnt < rh.keys_count → ∃ f, arr[cnt]? = some (some f) ∧ f ∈ r.fields) ∧
    (qsort_rearranges qsort → clean_session H qsort rh0 rh →
      ∀ r ∈ rh.rows, ∃ arr, r.sort_fields = some arr ∧ arr.length = rh.keys_count ∧
        ∀ cnt, cnt < rh.keys_count → ∃ f, arr[cnt]? = some (some f) ∧
          row_value r cnt = some f.sort_value) := by
  have hsame := session_same hs
  have hflag : rh.flags &&& RH_SORT_REQUIRED ≠ 0 := by
    apply same_session_flag hsame
    rw [(init_frame hinit).1]
    exact init_flags_sort H output_flags hb
  have hinj : posn_inj rh.field_props :=
    posn_inj_grows hsame.2.2.2.2.2.2.1 (init_posn hsk hdir hinit).1
  have hsel : keys_selected rh := keys_selected_same hsame (init_keys_selected hsk hdir hinit)
  refine ⟨?_, ?_⟩
  · intro object out hcall hret
    obtain ⟨props, r, hl, hbuilt, _⟩ := report_object_built hinj hcall hret
    obtain ⟨todo1, hp, hg⟩ := object_loop_grows rh object _ _ _ _ _ _ hl
    simp only [List.nil_append] at hp
    subst hp
    have hs1 : same_session rh { rh with field_props := props, rows := rh.rows ++ [r] } :=
      ⟨rfl, rfl, rfl, rfl, rfl, rfl, hg, Or.inl rfl⟩
    have hsel1 := keys_selected_same hs1 hsel
    obtain ⟨_, hfields, hsort⟩ := hbuilt
    obtain ⟨arr, ha, hlen, hk⟩ := hsort hflag
    refine ⟨props, r, arr, hl, ha, hlen, ?_⟩
    intro cnt hcnt
    obtain ⟨j, fp, hj, hm, hpos, _⟩ := hsel1 cnt hcnt
    obtain ⟨s, v, hfj, _⟩ := hfields j fp hj
    refine ⟨⟨j, s, v⟩, ?_, List.getElem?_mem hfj⟩
    rw [← hpos, hk j fp hj hm, hfj]
  · intro hq hclean r hr
    have hk : keyed (fun _ _ => True) rh :=
      clean_session_keyed (fun rhm rh2 _ h2 => rearranged_sort_sub hq rhm rh2 h2)
        (init_keyed hsk hdir hb hinit (fun _ _ _ _ _ _ _ _ _ => trivial)) hclean
    obtain ⟨arr, ha, hlen, hslots⟩ := hk.2.2.2.2 r hr
    refine ⟨arr, ha, hlen, ?_⟩
    intro cnt hcnt
    obtain ⟨j, fp, hj, hm, hpos, _⟩ := hk.2.2.1 cnt hcnt
    obtain ⟨sf, hsf, _, _⟩ := hslots j fp hj hm
    rw [hpos] at hsf
    refine ⟨sf, hsf, ?_⟩
    unfold row_value
    rw [ha]
    simp only
    rw [hsf]

/-- C35 at the session `sample_session` of the fields `name,size` sorted by `-size`: the
three rows hold their size in the one slot of their sort array, and so does the row of a
fourth object. -/
theorem sort_array_fully_filled_witness :
    sample_session.keys_count = 1 ∧
      (∀ r ∈ sample_session.rows, ∃ arr, r.sort_fields = some arr ∧
        arr.length = sample_session.keys_count ∧
        ∀ cnt, cnt < sample_session.keys_count → ∃ f, arr[cnt]? = some (some f) ∧
          row_value r cnt = some f.sort_value) ∧
      ∃ props r arr,
        dm_report_object_loop sample_session 64 [] sample_session.field_props
          (new_row sample_session) = some (props, r, true) ∧
        r.sort_fields = some arr ∧ arr.length = sample_session.keys_count ∧
        ∀ cnt, cnt < sample_session.keys_count →
          ∃ f, arr[cnt]? = some (some f) ∧ f ∈ r.fields := by
  have h := sort_array_fully_filled sample_h stable_qsort (some 1) sample_types sample_fields
    "name,size".toList " ".toList 2 (some "-size".toList) 0 (sample_init.get (by decide))
    sample_session (by decide) (by decide) (by decide) (join_some_get _)
    (clean_session_session sample_session_clean)
  exact ⟨by decide, h.2 stable_qsort_rearranges sample_session_clean,
    h.1 64 ((dm_report_object sample_h stable_qsort (some sample_session) 64).get (by decide))
      (Option.some_get _).symm (by decide)⟩
/-! ## The comparator on the rows of a session -/

theorem sample_renders_typed :
    renders_sat (value_typed sample_h) (sample_init.get (by decide)) := by
  intro fp hfp hm ft hft data s v hv
  have hprops : (sample_init.get (by decide)).field_props.map
      (fun p => (p.field_num, p.flags)) = [(0, 0x10), (1, 0xA20)] := by decide
  have hmem : (fp.field_num, fp.flags) ∈ [(0, 0x10), (1, 0xA20)] := by
    rw [← hprops]
    exact List.mem_map.mpr ⟨fp, hfp, rfl⟩
  simp only [List.mem_cons, Prod.mk.injEq, List.mem_singleton, List.not_mem_nil,
    or_false] at hmem
  rcases hmem with ⟨_, e2⟩ | ⟨e1, e2⟩
  · rw [e2] at hm
    exact absurd hm (by decide)
  · have hf : (sample_init.get (by decide)).fields = sample_fields := rfl
    rw [hf, e1] at hft
    simp only [sample_fields, List.getElem?_cons_succ, List.getElem?_cons_zero,
      Option.some.injEq] at hft
    rw [← hft] at hv
    simp only [Option.some.injEq, Prod.mk.injEq] at hv
    rw [← hv.2, e2]
    show is_numeric sample_h 0xA20
    unfold is_numeric
    decide

theorem clean_session_rows_keyed {H : libdevmapper_h}
    {qsort : (row → row → Int) → List row → List row}
    (hsk : H.DM_REPORT_FIELD_MASK &&& FLD_SORT_KEY = 0)
    (hdir : H.DM_REPORT_FIELD_MASK &&& (FLD_ASCENDING ||| FLD_DESCENDING) = 0)
    {report_types : Option Nat} {types : List dm_report_object_type}
    {fields : List dm_report_field_type} {output_fields output_separator : cstr}
    {output_flags : Nat} {sort_keys : Option cstr} {private_data : Nat} {rh0 rh : dm_report}
    (hq : qsort_conforms qsort)
    (hb : output_flags &&& H.DM_REPORT_OUTPUT_BUFFERED ≠ 0)
    (hinit : dm_report_init H report_types types fields output_fields output_separator
      output_flags sort_keys private_data = some (some rh0))
    (htyped : renders_sat (value_typed H) rh0)
    (hs : clean_session H qsort rh0 rh) :
    keyed (value_typed H) rh ∧ rows_keyed H rh rh.rows := by
  have hk : keyed (value_typed H) rh :=
    clean_session_keyed (fun rhm rh2 h1 h2 => keyed_sort_sub hq rhm rh2 h1 h2)
      (init_keyed hsk hdir hb hinit htyped) hs
  exact ⟨hk, keyed_rows_keyed hk⟩

/-- C34. Take a session made by `dm_report_init` with `DM_REPORT_OUTPUT_BUFFERED`, in which
every submission returned 1, the render function of every sort key gives a number for a
field of the type number or size and a string otherwise, and `qsort` sorts as the C standard
asks. On the rows the handle holds, whatever the directions and the types of the keys,
`_row_compare` returns a result for every pair, it returns 0 for a row and itself, the
result for `(b, a)` is the negation of the result for `(a, b)`, so that one of the two is at
most 0, and two results at most 0 for `(a, b)` and `(b, c)` give a result at most 0 for
`(a, c)`. The header is taken to keep the field flags apart from the internal flags of a
sort key. -/
theorem row_compare_total_preorder (H : libdevmapper_h)
    (qsort : (row → row → Int) → List row → List row) (report_types : Option Nat)
    (types : List dm_report_object_type) (fields : List dm_report_field_type)
    (output_fields output_separator : cstr) (output_flags : Nat) (sort_keys : Option cstr)
    (private_data : Nat) (rh0 rh : dm_report)
    (hsk : H.DM_REPORT_FIELD_MASK &&& FLD_SORT_KEY = 0)
    (hdir : H.DM_REPORT_FIELD_MASK &&& (FLD_ASCENDING ||| FLD_DESCENDING) = 0)
    (hq : qsort_conforms qsort)
    (hb : output_flags &&& H.DM_REPORT_OUTPUT_BUFFERED ≠ 0)
    (hinit : dm_report_init H report_types types fields output_fields output_separator
      output_flags sort_keys private_data = some (some rh0))
    (htyped : renders_sat (value_typed H) rh0)
    (hs : clean_session H qsort rh0 rh) :
    ∀ a ∈ rh.rows, ∀ b ∈ rh.rows, ∀ c ∈ rh.rows,
      _row_compare H rh a a = some 0 ∧
      (∃ x, _row_compare H rh a b = some x ∧ _row_compare H rh b a = some (- x) ∧
        (x ≤ 0 ∨ - x ≤ 0)) ∧
      (∃ x y z, _row_compare H rh a b = some x ∧ _row_compare H rh b c = some y ∧
        _row_compare H rh a c = some z ∧ (x ≤ 0 → y ≤ 0 → z ≤ 0)) := by
  have hk := (clean_session_rows_keyed hsk hdir hq hb hinit htyped hs).2
  have hcs : ∀ cnt ∈ List.range rh.keys_count, cnt < rh.keys_count :=
    fun cnt h => List.mem_range.mp h
  intro a ha b hb1 c hc
  refine ⟨?_, ?_, ?_⟩
  · obtain ⟨x, h1, h2⟩ := row_compare_loop_swap H rh rh.rows hk a a ha ha _ hcs
    have e : x = 0 := by
      rw [h1] at h2
      simp only [Option.some.injEq] at h2
      omega
    unfold _row_compare
    rw [h1, e]
  · obtain ⟨x, h1, h2⟩ := row_compare_loop_swap H rh rh.rows hk a b ha hb1 _ hcs
    exact ⟨x, h1, h2, by omega⟩
  · exact row_compare_loop_trans H rh rh.rows hk a b c ha hb1 hc _ hcs

/-- C34 at the rows `x:10`, `y:30` and `z:10` of the session sorted by `-size`: `y` is before
`x`, and `x` and `z` compare equal. -/
theorem row_compare_total_preorder_witness :
    _row_compare sample_h sample_session sample_x sample_x = some 0 ∧
      _row_compare sample_h sample_session sample_y sample_x = some (-1) ∧
      _row_compare sample_h sample_session sample_x sample_y = some 1 ∧
      _row_compare sample_h sample_session sample_x sample_z = some 0 ∧
      ∃ x y z, _row_compare sample_h sample_session sample_y sample_x = some x ∧
        _row_compare sample_h sample_session sample_x sample_z = some y ∧
        _row_compare sample_h sample_session sample_y sample_z = some z ∧
        (x ≤ 0 → y ≤ 0 → z ≤ 0) := by
  have h := row_compare_total_preorder sample_h stable_qsort (some 1) sample_types
    sample_fields "name,size".toList " ".toList 2 (some "-size".toList) 0
    (sample_init.get (by decide)) sample_session (by decide) (by decide)
    stable_qsort_conforms (by decide) (join_some_get _) sample_renders_typed
    sample_session_clean sample_y (by decide) sample_x (by decide) sample_z (by decide)
  exact ⟨by decide, by decide, by decide, by decide, h.2.2⟩
/-! ## The rows after the sort step -/

theorem single_key_order (H : libdevmapper_h) (rh : dm_report) (a b : row) (flags x y : Nat)
    (c : Int) (hk : rh.keys_count = 1)
    (hv : key_view H rh a b 0 (flags, sort_value_t.num x, sort_value_t.num y))
    (hd : flags &&& FLD_DESCENDING ≠ 0)
    (hc : _row_compare H rh a b = some c) (hle : c ≤ 0) : y ≤ x := by
  have h1 := row_compare_spec H rh a b [(flags, sort_value_t.num x, sort_value_t.num y)]
    (by rw [hk]; rfl) (by
      intro cnt k hcnt
      cases cnt with
      | zero =>
        simp only [List.getElem?_cons_zero, Option.some.injEq] at hcnt
        rw [← hcnt]
        exact hv
      | succ n => simp at hcnt)
  rw [h1] at hc
  simp only [Option.some.injEq] at hc
  by_contra hlt
  have hxy : x < y := by omega
  have hne : sort_value_t.num x ≠ sort_value_t.num y := by
    intro e
    injection e with e
    omega
  simp only [spec_row_order, if_neg hne, spec_key_order, if_pos hd, spec_value_order,
    if_pos hxy] at hc
  omega

/-- C33. Take a session made by `dm_report_init` with `DM_REPORT_OUTPUT_BUFFERED`, in which
every submission returned 1, the render function of every sort key gives a number for a
field of the type number or size and a string otherwise, and `qsort` sorts as the C standard
asks. Then `_sort_rows` returns a handle that differs in its rows only, `dm_report_output`
on a handle with rows prints from this handle, its row list is a permutation of the rows
held before, and `_row_compare` is at most 0 on every adjacent pair of it, and on every
pair of an earlier and a later row. With one sort key, numeric and descending, the rows
carry numbers as the values of the key and these do not increase along the list. The header
is taken to keep the field flags apart from the internal flags of a sort key. -/
theorem sort_step_permutes_and_orders (H : libdevmapper_h)
    (qsort : (row → row → Int) → List row → List row) (report_types : Option Nat)
    (types : List dm_report_object_type) (fields : List dm_report_field_type)
    (output_fields output_separator : cstr) (output_flags : Nat) (sort_keys : Option cstr)
    (private_data : Nat) (rh0 rh : dm_report)
    (hsk : H.DM_REPORT_FIELD_MASK &&& FLD_SORT_KEY = 0)
    (hdir : H.DM_REPORT_FIELD_MASK &&& (FLD_ASCENDING ||| FLD_DESCENDING) = 0)
    (hq : qsort_conforms qsort)
    (hb : output_flags &&& H.DM_REPORT_OUTPUT_BUFFERED ≠ 0)
    (hinit : dm_report_init H report_types types fields output_fields output_separator
      output_flags sort_keys private_data = some (some rh0))
    (htyped : renders_sat (value_typed H) rh0)
    (hs : clean_session H qsort rh0 rh) :
    ∃ rh1, _sort_rows H qsort rh = some rh1 ∧
      rh1 = { rh with rows := rh1.rows } ∧
      (rh.rows ≠ [] → dm_report_output H qsort rh =
        (if rh.flags &&& H.DM_REPORT_OUTPUT_COLUMNS_AS_ROWS ≠ 0 then _output_as_rows H rh1
          else _output_as_columns H rh1)) ∧
      rh1.rows.Perm rh.rows ∧
      rh1.rows.Chain' (fun a b => ∃ c, _row_compare H rh a b = some c ∧ c ≤ 0) ∧
      rh1.rows.Pairwise (fun a b => ∃ c, _row_compare H rh a b = some c ∧ c ≤ 0) ∧
      (rh.keys_count = 1 →
        ∀ (j : Nat) (fp : field_properties), rh.field_props[j]? = some fp →
          fp.flags &&& FLD_SORT_KEY ≠ 0 → is_numeric H fp.flags →
          fp.flags &&& FLD_DESCENDING ≠ 0 →
          ∃ vals : List Nat,
            rh1.rows.map (fun r => row_value r 0) =
              vals.map (fun v => some (sort_value_t.num v)) ∧
            vals.Chain' (fun x y => y ≤ x) ∧ vals.Pairwise (fun x y => y ≤ x)) := by
  obtain ⟨hkd, hk⟩ := clean_session_rows_keyed hsk hdir hq hb hinit htyped hs
  have hsort := sort_rows_eq H qsort rh hk
  obtain ⟨hperm, hpair0⟩ := hq _ _ (row_compare_consistent H rh rh.rows hk)
  have hpair : (qsort (fun a b => (_row_compare H rh a b).getD 0) rh.rows).Pairwise
      (fun a b => ∃ c, _row_compare H rh a b = some c ∧ c ≤ 0) := by
    refine List.Pairwise.imp_of_mem ?_ hpair0
    intro a b ha hb1 hab
    obtain ⟨x, hx⟩ := row_compare_defined H rh rh.rows hk a b (hperm.mem_iff.1 ha)
      (hperm.mem_iff.1 hb1)
    rw [hx] at hab
    exact ⟨x, hx, hab⟩
  refine ⟨_, hsort, rfl, ?_, hperm, hpair.chain', hpair, ?_⟩
  · intro hne
    have he : rh.rows.isEmpty = false := by
      cases hx : rh.rows with
      | nil => exact absurd hx hne
      | cons a t => rfl
    unfold dm_report_output
    rw [he, if_pos hkd.1, hsort]
    rfl
  · intro hcount j fp hj hm hnum hdesc
    have hp0 : fp.sort_posn = 0 := by
      have hsame := session_same (clean_session_session hs)
      obtain ⟨fp0, hfp0, hg⟩ := forall₂_getElem? hsame.2.2.2.2.2.2.1 j fp hj
      have h1 := (init_posn hsk hdir hinit).2 fp0 (List.getElem?_mem hfp0)
        (by rw [← hg.2.2.2.1]; exact hm)
      have h2 := hg.2.1
      have h3 := hsame.2.2.1
      omega
    have hslot : ∀ r ∈ rh.rows, ∃ v, row_value r 0 = some (sort_value_t.num v) ∧
        row_flags rh r 0 = some fp.flags := by
      intro r hr
      obtain ⟨arr, ha, hlen, hslots⟩ := hkd.2.2.2.2 r hr
      obtain ⟨sf, hsf, hprops, hv⟩ := hslots j fp hj hm
      rw [hp0] at hsf
      have hrv : row_value r 0 = some sf.sort_value := by
        unfold row_value
        rw [ha]
        simp only
        rw [hsf]
      have hrf : row_flags rh r 0 = some fp.flags := by
        unfold row_flags
        rw [ha]
        simp only
        rw [hsf]
        simp only
        rw [hprops, hj]
        rfl
      cases hsv : sf.sort_value with
      | num v => exact ⟨v, by rw [hrv, hsv], hrf⟩
      | str s =>
        rw [hsv] at hv
        exact absurd hnum hv.1
    have hdir1 : one_direction fp.flags := by
      obtain ⟨j1, fq, hj1, hm1, hp1, hd1⟩ := hkd.2.2.1 0 (by omega)
      have e : j1 = j := hkd.2.1 j1 j fq fp hj1 hj hm1 hm (by rw [hp1, hp0])
      subst e
      rw [hj] at hj1
      simp only [Option.some.injEq] at hj1
      rw [hj1]
      exact hd1
    let val : row → Nat := fun r =>
      match row_value r 0 with
      | some (sort_value_t.num v) => v
      | _ => 0
    have hval : ∀ r ∈ rh.rows, row_value r 0 = some (sort_value_t.num (val r)) := by
      intro r hr
      obtain ⟨v, hv, _⟩ := hslot r hr
      show row_value r 0 = some (sort_value_t.num
        (match row_value r 0 with
          | some (sort_value_t.num v) => v
          | _ => 0))
      rw [hv]
    have hvp : ((qsort (fun a b => (_row_compare H rh a b).getD 0) rh.rows).map val).Pairwise
        (fun x y => y ≤ x) := by
      rw [List.pairwise_map]
      refine List.Pairwise.imp_of_mem ?_ hpair
      intro a b ha hb1 hab
      obtain ⟨c, hc, hle⟩ := hab
      have ha1 := hperm.mem_iff.1 ha
      have hb2 := hperm.mem_iff.1 hb1
      obtain ⟨va, hva, hfa⟩ := hslot a ha1
      have hvb := hval b hb2
      have hva1 := hval a ha1
      exact single_key_order H rh a b fp.flags (val a) (val b) c hcount
        ⟨hfa, hva1, hvb, hnum, hnum, hdir1⟩ hdesc hc hle
    refine ⟨(qsort (fun a b => (_row_compare H rh a b).getD 0) rh.rows).map val, ?_,
      hvp.chain', hvp⟩
    rw [List.map_map]
    apply List.map_congr_left
    intro r hr
    exact hval r (hperm.mem_iff.1 hr)

/-- C33 at the session `sample_session` of the rows `x:10`, `y:30` and `z:10` sorted by
`-size`: the sort step gives the rows in the order `y`, `x`, `z`, with the sizes 30, 10
and 10. -/
theorem sort_step_permutes_and_orders_witness :
    ∃ rh1, _sort_rows sample_h stable_qsort sample_session = some rh1 ∧
      rh1.rows = [sample_y, sample_x, sample_z] ∧
      rh1.rows.Perm sample_session.rows ∧
      rh1.rows.Chain' (fun a b =>
        ∃ c, _row_compare sample_h sample_session a b = some c ∧ c ≤ 0) ∧
      rh1.rows.map (fun r => row_value r 0) =
        [some (sort_value_t.num 30), some (sort_value_t.num 10),
          some (sort_value_t.num 10)] := by
  obtain ⟨rh1, h1, _, _, h4, h5, _, _⟩ := sort_step_permutes_and_orders sample_h stable_qsort
    (some 1) sample_types sample_fields "name,size".toList " ".toList 2
    (some "-size".toList) 0 (sample_init.get (by decide)) sample_session (by decide)
    (by decide) stable_qsort_conforms (by decide) (join_some_get _)
    sample_renders_typed sample_session_clean
  have hrows : (_sort_rows sample_h stable_qsort sample_session).map (fun r => r.rows) =
      some [sample_y, sample_x, sample_z] := by decide
  rw [h1] at hrows
  simp only [Option.map_some', Option.some.injEq] at hrows
  refine ⟨rh1, h1, hrows, h4, h5, ?_⟩
  rw [hrows]
  decide
/-! ## The width of a selection covers the report strings of its fields -/

theorem int_of_size_small (n : Nat) (h : n < 2147483648) : int_of_size n = n := by
  unfold int_of_size
  rw [Nat.mod_eq_of_lt (by omega), if_pos h]

theorem fold_width_covers (fp : field_properties) (s : cstr) (h : s.length < 2147483648) :
    (s.length : Int) ≤ (fold_width fp s).width := by
  unfold fold_width
  rw [int_of_size_small _ h]
  split
  · exact le_refl _
  · rename_i hgt
    show (s.length : Int) ≤ fp.width
    omega

theorem getElem?_append_some {α : Type} {l : List α} {j : Nat} {a : α} (h : l[j]? = some a)
    (l1 : List α) : (l ++ l1)[j]? = some a := by
  have hlt : j < l.length := by
    by_contra hx
    rw [List.getElem?_eq_none (by omega)] at h
    exact absurd h (by simp)
  rw [List.getElem?_append_left hlt]
  exact h

theorem object_loop_widths (rh : dm_report) (object : Nat) (hshort : renders_short rh) :
    ∀ (todo done : List field_properties) (r : row)
      (res : List field_properties × row × Bool),
      (∀ f ∈ r.fields, ∃ fq, done[f.props]? = some fq ∧
        (f.report_string.length : Int) ≤ fq.width) →
      dm_report_object_loop rh object done todo r = some res →
        ∀ f ∈ res.2.1.fields, ∃ fq, res.1[f.props]? = some fq ∧
          (f.report_string.length : Int) ≤ fq.width := by
  intro todo
  induction todo with
  | nil =>
    intro done r res hr h
    rw [object_loop_nil] at h
    simp only [Option.some.injEq] at h
    rw [← h]
    exact hr
  | cons fp todo ih =>
    intro done r res hr h
    rcases object_loop_cons rh object fp todo done r res h with
      ⟨_, e⟩ | ⟨s, v, r1, hren, ha, hl⟩
    · rw [e]
      intro f hf
      obtain ⟨fq, hq, hle⟩ := hr f hf
      exact ⟨fq, getElem?_append_some hq _, hle⟩
    · refine ih _ _ _ ?_ hl
      obtain ⟨data, ft, _, _, hft, hv⟩ := hren
      have hs : s.length < 2147483648 := hshort ft (List.getElem?_mem hft) data s v hv
      rw [add_cell_fields ha]
      intro f hf
      rcases List.mem_append.mp hf with h1 | h1
      · obtain ⟨fq, hq, hle⟩ := hr f h1
        exact ⟨fq, getElem?_append_some hq _, hle⟩
      · simp only [List.mem_singleton] at h1
        rw [h1]
        refine ⟨fold_width fp s, ?_, fold_width_covers fp s hs⟩
        show (done ++ [fold_width fp s])[done.length]? = some (fold_width fp s)
        simp

theorem widths_output {H : libdevmapper_h}
    {qsort : (row → row → Int) → List row → List row} {rh rh1 : dm_report} {out : outcome}
    (hq : qsort_rearranges qsort) (hw : widths_cover rh)
    (h : dm_report_output H qsort rh = some out) (hr : out.rh = some rh1) :
    widths_cover rh1 := by
  obtain ⟨rh3, h3, hfr⟩ := report_output_frame h
  rw [hr] at h3
  simp only [Option.some.injEq] at h3
  subst h3
  have hp : rh1.field_props = rh.field_props := by
    unfold frame_out at hfr
    rw [hfr]
  intro r1 hr1 f hf
  obtain ⟨r, hrm, hl⟩ := report_output_rows h hr
    (fun rh2 h2 => rearranged_sort_sub hq rh rh2 h2) r1 hr1
  rw [hp]
  exact hw r hrm f (hl.2.subset hf)

theorem widths_object {H : libdevmapper_h}
    {qsort : (row → row → Int) → List row → List row} {rh rh1 : dm_report} {object : Nat}
    {out : outcome} (hq : qsort_rearranges qsort) (hshort : renders_short rh)
    (hw : widths_cover rh) (h : dm_report_object H qsort (some rh) object = some out)
    (hr : out.rh = some rh1) : widths_cover rh1 := by
  rw [report_object_eq] at h
  cases hl : dm_report_object_loop rh object [] rh.field_props (new_row rh) with
  | none =>
    rw [hl] at h
    exact absurd h (by simp)
  | some res =>
    obtain ⟨props, r, ok⟩ := res
    rw [hl] at h
    simp only at h
    obtain ⟨todo1, hp, hg⟩ := object_loop_grows rh object _ _ _ _ _ _ hl
    simp only [List.nil_append] at hp
    subst hp
    have hm : widths_cover { rh with field_props := props, rows := rh.rows ++ [r] } := by
      intro r1 hr1 f hf
      rcases List.mem_append.mp hr1 with h1 | h1
      · obtain ⟨fp, hfp, hle⟩ := hw r1 h1 f hf
        obtain ⟨fq, hfq, hgr⟩ := forall₂_getElem?_left hg _ fp hfp
        exact ⟨fq, hfq, le_trans hle hgr.2.2.2.2⟩
      · simp only [List.mem_singleton] at h1
        rw [h1] at hf
        exact object_loop_widths rh object hshort _ _ _ _
          (fun f hf => absurd hf (List.not_mem_nil _)) hl f hf
    split at h
    · simp only [Option.some.injEq] at h
      rw [← h] at hr
      simp only [Option.some.injEq] at hr
      rw [← hr]
      exact hm
    · split at h
      · exact widths_output hq hm h hr
      · simp only [Option.some.injEq] at h
        rw [← h] at hr
        simp only [Option.some.injEq] at hr
        rw [← hr]
        exact hm

theorem renders_short_same {a b : dm_report} (hs : same_session a b) (h : renders_short a) :
    renders_short b := by
  intro ft hft data s v hv
  rw [hs.1] at hft
  rw [hs.2.2.2.2.1] at hv
  exact h ft hft data s v hv

theorem session_widths {H : libdevmapper_h}
    {qsort : (row → row → Int) → List row → List row} {rh0 rh : dm_report}
    (hq : qsort_rearranges qsort) (hshort : renders_short rh0) (h0 : widths_cover rh0)
    (hs : session H qsort rh0 rh) : widths_cover rh := by
  induction hs with
  | start => exact h0
  | object a b o out hsa ho hr ih =>
    exact widths_object hq (renders_short_same (session_same hsa) hshort) ih ho hr
  | output a b out _ ho hr ih => exact widths_output hq ih ho hr

/-- C36. In every state of a session made by `dm_report_init`, so after every call of
`dm_report_object`, every field of every row the handle holds, built by a successful
submission or left by a failed one, belongs to a selection whose width is at least the
length of the report string of the field. So the width is not negative, the precision
`width` of the aligned formats keeps the whole report string, and `snprintf` gives the
report string with spaces after it (left) or before it (right); this is the text
`_output_field` emits in an aligned handle without field name prefixes, for a selection
aligned to one of the two sides. The render
functions are taken to give report strings shorter than 2^31 characters, the length being
kept as an `int`, and `qsort` to rearrange the array only. -/
theorem width_covers_report_strings (H : libdevmapper_h)
    (qsort : (row → row → Int) → List row → List row) (report_types : Option Nat)
    (types : List dm_report_object_type) (fields : List dm_report_field_type)
    (output_fields output_separator : cstr) (output_flags : Nat) (sort_keys : Option cstr)
    (private_data : Nat) (rh0 rh : dm_report)
    (hq : qsort_rearranges qsort) (hshort : renders_short rh0)
    (hinit : dm_report_init H report_types types fields output_fields output_separator
      output_flags sort_keys private_data = some (some rh0))
    (hs : session H qsort rh0 rh) :
    ∀ r ∈ rh.rows, ∀ f ∈ r.fields, ∃ fp, rh.field_props[f.props]? = some fp ∧
      (f.report_string.length : Int) ≤ fp.width ∧
      f.report_string.take fp.width.toNat = f.report_string ∧
      snprintf_left fp.width.toNat f.report_string =
        f.report_string ++ List.replicate (fp.width.toNat - f.report_string.length) ' ' ∧
      snprintf_right fp.width.toNat f.report_string =
        List.replicate (fp.width.toNat - f.report_string.length) ' ' ++ f.report_string ∧
      (rh.flags &&& H.DM_REPORT_OUTPUT_FIELD_NAME_PREFIX = 0 →
        rh.flags &&& H.DM_REPORT_OUTPUT_ALIGNED ≠ 0 →
        _output_field H rh f =
          if (if fp.flags &&& H.DM_REPORT_FIELD_ALIGN_MASK = 0 then
                (if fp.flags &&& H.DM_REPORT_FIELD_TYPE_NUMBER ≠ 0 ∨
                    fp.flags &&& H.DM_REPORT_FIELD_TYPE_SIZE ≠ 0 then
                  H.DM_REPORT_FIELD_ALIGN_RIGHT else H.DM_REPORT_FIELD_ALIGN_LEFT)
              else fp.flags &&& H.DM_REPORT_FIELD_ALIGN_MASK) &&&
              H.DM_REPORT_FIELD_ALIGN_LEFT ≠ 0 then
            some (f.report_string ++
              List.replicate (fp.width.toNat - f.report_string.length) ' ')
          else if (if fp.flags &&& H.DM_REPORT_FIELD_ALIGN_MASK = 0 then
                (if fp.flags &&& H.DM_REPORT_FIELD_TYPE_NUMBER ≠ 0 ∨
                    fp.flags &&& H.DM_REPORT_FIELD_TYPE_SIZE ≠ 0 then
                  H.DM_REPORT_FIELD_ALIGN_RIGHT else H.DM_REPORT_FIELD_ALIGN_LEFT)
              else fp.flags &&& H.DM_REPORT_FIELD_ALIGN_MASK) &&&
              H.DM_REPORT_FIELD_ALIGN_RIGHT ≠ 0 then
            some (List.replicate (fp.width.toNat - f.report_string.length) ' ' ++
              f.report_string)
          else some []) := by
  have h0 : widths_cover rh0 := by
    intro r hr
    rw [(init_frame hinit).2.1] at hr
    exact absurd hr (List.not_mem_nil _)
  intro r hr f hf
  obtain ⟨fp, hfp, hle⟩ := session_widths hq hshort h0 hs r hr f hf
  have hw : 0 ≤ fp.width := le_trans (Int.ofNat_nonneg _) hle
  have hn : f.report_string.length ≤ fp.width.toNat := by omega
  refine ⟨fp, hfp, hle, List.take_of_length_le hn, snprintf_left_fits _ _ hn,
    snprintf_right_fits _ _ hn, ?_⟩
  intro hpre hal
  rw [output_field_aligned hfp hpre hal hw, snprintf_left_fits _ _ hn,
    snprintf_right_fits _ _ hn]

theorem sample_renders_short : renders_short (sample_init.get (by decide)) := by
  intro ft hft data s v hv
  have hf : (sample_init.get (by decide)).fields = sample_fields := rfl
  rw [hf] at hft
  simp only [sample_fields, List.mem_cons, List.mem_singleton, List.not_mem_nil,
    or_false] at hft
  rcases hft with rfl | rfl | rfl | rfl <;>
    simp only [Option.some.injEq, Prod.mk.injEq] at hv <;> rw [← hv.1]
  · unfold sample_name
    split_ifs <;> decide
  · unfold sample_size
    split_ifs <;> decide
  · unfold sample_size
    split_ifs <;> decide
  · unfold sample_name
    split_ifs <;> decide

/-- C36 at the session `sample_session` of the fields `name,size`: the selections have the
widths 4 and 2, and every field of the three rows has a report string that fits. -/
theorem width_covers_report_strings_witness :
    sample_session.field_props.map (fun p => p.width) = [4, 2] ∧
      sample_session.rows.map (fun r => r.fields.map (fun f => f.report_string.length)) =
        [[1, 2], [1, 2], [1, 2]] ∧
      ∀ r ∈ sample_session.rows, ∀ f ∈ r.fields, ∃ fp,
        sample_session.field_props[f.props]? = some fp ∧
        (f.report_string.length : Int) ≤ fp.width ∧
        snprintf_left fp.width.toNat f.report_string =
          f.report_string ++ List.replicate (fp.width.toNat - f.report_string.length) ' ' := by
  refine ⟨by decide, by decide, ?_⟩
  intro r hr f hf
  obtain ⟨fp, h1, h2, _, h4, _⟩ := width_covers_report_strings sample_h stable_qsort (some 1)
    sample_types sample_fields "name,size".toList " ".toList 2 (some "-size".toList) 0
    (sample_init.get (by decide)) sample_session stable_qsort_rearranges sample_renders_short
    (join_some_get _) (clean_session_session sample_session_clean) r hr f hf
  exact ⟨fp, h1, h2, h4⟩
/-! ## Rows that compare equal keep their submission order -/

theorem report_output_sorts {H : libdevmapper_h}
    {qsort : (row → row → Int) → List row → List row} {rh rh1 : dm_report}
    (hne : rh.rows.isEmpty = false) (hf : rh.flags &&& RH_SORT_REQUIRED ≠ 0)
    (hs : _sort_rows H qsort rh = some rh1) :
    dm_report_output H qsort rh =
      (if rh1.flags &&& H.DM_REPORT_OUTPUT_COLUMNS_AS_ROWS ≠ 0 then _output_as_rows H rh1
        else _output_as_columns H rh1) := by
  unfold dm_report_output
  rw [hne, if_pos hf, hs]
  rfl
theorem session_built_row_filled {H : libdevmapper_h}
    {qsort : (row → row → Int) → List row → List row} {rh : dm_report} {object : Nat}
    {out : outcome} (hflag : rh.flags &&& RH_SORT_REQUIRED ≠ 0)
    (hinj : posn_inj rh.field_props) (hsel : keys_selected rh)
    (hcall : dm_report_object H qsort (some rh) object = some out) (hret : out.ret = 1) :
    ∃ props r arr,
      dm_report_object_loop rh object [] rh.field_props (new_row rh) =
        some (props, r, true) ∧
      r.sort_fields = some arr ∧ arr.length = rh.keys_count ∧
      (∀ (j : Nat) (fp : field_properties), props[j]? = some fp →
        fp.flags &&& FLD_SORT_KEY ≠ 0 →
        ∃ f, r.fields[j]? = some f ∧ arr[fp.sort_posn]? = some (some f)) ∧
      ∀ cnt, cnt < rh.keys_count → ∃ f, arr[cnt]? = some (some f) ∧ f ∈ r.fields := by
  obtain ⟨props, r, hl, hbuilt, _⟩ := report_object_built hinj hcall hret
  obtain ⟨todo1, hp, hg⟩ := object_loop_grows rh object _ _ _ _ _ _ hl
  simp only [List.nil_append] at hp
  subst hp
  have hs1 : same_session rh { rh with field_props := props, rows := rh.rows ++ [r] } :=
    ⟨rfl, rfl, rfl, rfl, rfl, rfl, hg, Or.inl rfl⟩
  have hsel1 := keys_selected_same hs1 hsel
  obtain ⟨_, hfields, hsort⟩ := hbuilt
  obtain ⟨arr, ha, hlen, hk⟩ := hsort hflag
  refine ⟨props, r, arr, hl, ha, hlen, ?_, ?_⟩
  · intro j fp hj hm
    obtain ⟨s, v, hfj, _⟩ := hfields j fp hj
    exact ⟨⟨j, s, v⟩, hfj, by rw [hk j fp hj hm, hfj]⟩
  · intro cnt hcnt
    obtain ⟨j, fp, hj, hm, hpos, _⟩ := hsel1 cnt hcnt
    obtain ⟨s, v, hfj, _⟩ := hfields j fp hj
    refine ⟨⟨j, s, v⟩, ?_, List.getElem?_mem hfj⟩
    rw [← hpos, hk j fp hj hm, hfj]

theorem sort_rows_comparable {H : libdevmapper_h}
    {qsort : (row → row → Int) → List row → List row} {rh rh1 : dm_report}
    (h : _sort_rows H qsort rh = some rh1) :
    ∀ a ∈ rh.rows, ∀ b ∈ rh.rows, ∃ c, _row_compare H rh a b = some c := by
  unfold _sort_rows at h
  split at h
  · rename_i hall
    intro a ha b hb
    rw [List.all_eq_true] at hall
    have h1 := hall a ha
    rw [List.all_eq_true] at h1
    exact Option.isSome_iff_exists.mp (h1 b hb)
  · exact absurd h (by simp)

/-- C37. In every state of a session made by `dm_report_init`, the flag `RH_SORT_REQUIRED` is
set exactly when the output flags the caller passed had `DM_REPORT_OUTPUT_BUFFERED`.
With the flag passed, the session fills the sort arrays and sorts: a call of
`dm_report_object` that returns 1 builds a row whose sort array has `keys_count` slots, the
field of every selection marked as a sort key stands at the position of the key, and no
slot is left empty; a flush of a handle with rows that returns has handed the rows to
`qsort` with `_row_compare`, which had to give a result for every pair of rows, and prints
from the rows `qsort` gave back; and when every submission returned 1, the render functions
of the keys give values of the type of their field and `qsort` sorts as the C standard asks,
these are the rows held, in ascending order by `_row_compare`.
Without the flag, `dm_report_output` prints the rows as they are held, in the same way
whatever `qsort` is, and no row gets a sort array: this holds also when
`DM_REPORT_OUTPUT_COLUMNS_AS_ROWS` was passed, which makes the handle buffered all the same.
The header is taken to put the buffered and the aligned flag inside the output mask, apart
from each other, the mask inside 32 bits and apart from `RH_SORT_REQUIRED`, and the field
flags apart from the internal flags of a sort key. -/
theorem sort_iff_caller_buffered (H : libdevmapper_h)
    (qsort : (row → row → Int) → List row → List row)
    (report_types : Option Nat) (types : List dm_report_object_type)
    (fields : List dm_report_field_type) (output_fields output_separator : cstr)
    (output_flags : Nat) (sort_keys : Option cstr) (private_data : Nat) (rh0 rh : dm_report)
    (hm : H.DM_REPORT_OUTPUT_MASK < 4294967296)
    (hr : H.DM_REPORT_OUTPUT_MASK &&& RH_SORT_REQUIRED = 0)
    (hbm : H.DM_REPORT_OUTPUT_BUFFERED &&& H.DM_REPORT_OUTPUT_MASK = H.DM_REPORT_OUTPUT_BUFFERED)
    (ham : H.DM_REPORT_OUTPUT_ALIGNED &&& H.DM_REPORT_OUTPUT_MASK = H.DM_REPORT_OUTPUT_ALIGNED)
    (hb0 : H.DM_REPORT_OUTPUT_BUFFERED ≠ 0)
    (hba : H.DM_REPORT_OUTPUT_BUFFERED &&& H.DM_REPORT_OUTPUT_ALIGNED = 0)
    (hsk : H.DM_REPORT_FIELD_MASK &&& FLD_SORT_KEY = 0)
    (hdir : H.DM_REPORT_FIELD_MASK &&& (FLD_ASCENDING ||| FLD_DESCENDING) = 0)
    (hinit : dm_report_init H report_types types fields output_fields output_separator
      output_flags sort_keys private_data = some (some rh0))
    (hs : session H qsort rh0 rh) :
    (rh.flags &&& RH_SORT_REQUIRED ≠ 0 ↔
      output_flags &&& H.DM_REPORT_OUTPUT_BUFFERED ≠ 0) ∧
    (output_flags &&& H.DM_REPORT_OUTPUT_BUFFERED ≠ 0 →
      (new_row rh).sort_fields = some (List.replicate rh.keys_count none) ∧
      (∀ (object : Nat) (out : outcome),
        dm_report_object H qsort (some rh) object = some out → out.ret = 1 →
        ∃ props r arr,
          dm_report_object_loop rh object [] rh.field_props (new_row rh) =
            some (props, r, true) ∧
          r.sort_fields = some arr ∧ arr.length = rh.keys_count ∧
          (∀ (j : Nat) (fp : field_properties), props[j]? = some fp →
            fp.flags &&& FLD_SORT_KEY ≠ 0 →
            ∃ f, r.fields[j]? = some f ∧ arr[fp.sort_posn]? = some (some f)) ∧
          ∀ cnt, cnt < rh.keys_count → ∃ f, arr[cnt]? = some (some f) ∧ f ∈ r.fields) ∧
      (rh.rows ≠ [] → ∀ out, dm_report_output H qsort rh = some out →
        ∃ rh1, _sort_rows H qsort rh = some rh1 ∧
          rh1 = { rh with
            rows := qsort (fun a b => (_row_compare H rh a b).getD 0) rh.rows } ∧
          (∀ a ∈ rh.rows, ∀ b ∈ rh.rows, ∃ c, _row_compare H rh a b = some c) ∧
          some out =
            (if rh1.flags &&& H.DM_REPORT_OUTPUT_COLUMNS_AS_ROWS ≠ 0 then
              _output_as_rows H rh1 else _output_as_columns H rh1)) ∧
      (qsort_conforms qsort → renders_sat (value_typed H) rh0 →
        clean_session H qsort rh0 rh →
        ∃ rh1, _sort_rows H qsort rh = some rh1 ∧
          (rh.rows ≠ [] → dm_report_output H qsort rh =
            (if rh1.flags &&& H.DM_REPORT_OUTPUT_COLUMNS_AS_ROWS ≠ 0 then
              _output_as_rows H rh1 else _output_as_columns H rh1)) ∧
          rh1.rows.Perm rh.rows ∧
          rh1.rows.Pairwise (fun a b => ∃ c, _row_compare H rh a b = some c ∧ c ≤ 0))) ∧
    (output_flags &&& H.DM_REPORT_OUTPUT_BUFFERED = 0 →
      dm_report_output H qsort rh =
        (if rh.rows.isEmpty then some ⟨1, [], some rh⟩
         else if rh.flags &&& H.DM_REPORT_OUTPUT_COLUMNS_AS_ROWS ≠ 0 then _output_as_rows H rh
         else _output_as_columns H rh) ∧
      (∀ q2 : (row → row → Int) → List row → List row,
        dm_report_output H q2 rh = dm_report_output H qsort rh) ∧
      (new_row rh).sort_fields = none ∧
      (∀ object res, dm_report_object_loop rh object [] rh.field_props (new_row rh) =
        some res → res.2.1.sort_fields = none) ∧
      (output_flags &&& H.DM_REPORT_OUTPUT_COLUMNS_AS_ROWS ≠ 0 →
        rh0.flags &&& H.DM_REPORT_OUTPUT_BUFFERED ≠ 0)) := by
  have hbs : H.DM_REPORT_OUTPUT_BUFFERED &&& RH_SORT_REQUIRED = 0 := by
    rw [← hbm, Nat.and_assoc, hr]
    exact Nat.and_zero _
  have hflag : rh.flags &&& RH_SORT_REQUIRED ≠ 0 ↔
      output_flags &&& H.DM_REPORT_OUTPUT_BUFFERED ≠ 0 := by
    rw [session_sort_flag hs, (init_frame hinit).1]
    exact init_flags_sort_iff H output_flags hr hbs
  have hsame := session_same hs
  refine ⟨hflag, ?_, ?_⟩
  · intro hb
    have hf := hflag.2 hb
    have hinj : posn_inj rh.field_props :=
      posn_inj_grows hsame.2.2.2.2.2.2.1 (init_posn hsk hdir hinit).1
    have hsel : keys_selected rh :=
      keys_selected_same hsame (init_keys_selected hsk hdir hinit)
    refine ⟨?_, ?_, ?_, ?_⟩
    · unfold new_row
      simp only
      rw [if_pos hf]
    · intro object out hcall hret
      exact session_built_row_filled hf hinj hsel hcall hret
    · intro hrows out hout
      have he : rh.rows.isEmpty = false := by
        cases hx : rh.rows with
        | nil => exact absurd hx hrows
        | cons a t => rfl
      cases hsr : _sort_rows H qsort rh with
      | none =>
        unfold dm_report_output at hout
        rw [he, if_pos hf, hsr] at hout
        exact absurd hout (by simp)
      | some rh1 =>
        refine ⟨rh1, rfl, sort_rows_some hsr, sort_rows_comparable hsr, ?_⟩
        rw [← hout]
        exact report_output_sorts he hf hsr
    · intro hq htyped hclean
      obtain ⟨_, hk⟩ := clean_session_rows_keyed hsk hdir hq hb hinit htyped hclean
      have hsort := sort_rows_eq H qsort rh hk
      obtain ⟨hperm, hpair0⟩ := hq _ _ (row_compare_consistent H rh rh.rows hk)
      refine ⟨_, hsort, ?_, hperm, ?_⟩
      · intro hne
        have he : rh.rows.isEmpty = false := by
          cases hx : rh.rows with
          | nil => exact absurd hx hne
          | cons a t => rfl
        exact report_output_sorts he hf hsort
      · refine List.Pairwise.imp_of_mem ?_ hpair0
        intro a b ha hb1 hab
        obtain ⟨x, hx⟩ := row_compare_defined H rh rh.rows hk a b (hperm.mem_iff.1 ha)
          (hperm.mem_iff.1 hb1)
        rw [hx] at hab
        exact ⟨x, hx, hab⟩
  · intro hb
    have hf : rh.flags &&& RH_SORT_REQUIRED = 0 := by
      by_contra hc
      exact hflag.1 hc hb
    have hout : ∀ q2 : (row → row → Int) → List row → List row,
        dm_report_output H q2 rh =
          (if rh.rows.isEmpty then some ⟨1, [], some rh⟩
           else if rh.flags &&& H.DM_REPORT_OUTPUT_COLUMNS_AS_ROWS ≠ 0 then
             _output_as_rows H rh
           else _output_as_columns H rh) := by
      intro q2
      have hn : ¬ (rh.flags &&& RH_SORT_REQUIRED ≠ 0) := by simpa using hf
      unfold dm_report_output
      simp only [if_neg hn]
    have hnew : (new_row rh).sort_fields = none := by
      unfold new_row
      simp only
      rw [if_neg (by simpa using hf)]
    refine ⟨hout qsort, fun q2 => (hout q2).trans (hout qsort).symm, hnew, ?_, ?_⟩
    · intro object res h
      rw [object_loop_unsorted rh object hf _ _ _ _ h, hnew]
    · intro hcar
      rw [(init_frame hinit).1]
      exact (init_flags_columns_as_rows H output_flags hm hr hbm ham hb0 hba hcar).1

/-- C37 at the sample registry, for the fields `name,size` with the key `-size` and the
objects `x:10`, `y:30`, `z:10` in the layout `DM_REPORT_OUTPUT_COLUMNS_AS_ROWS`: passed
alone, the flag gives the lines in submission order; passed with
`DM_REPORT_OUTPUT_BUFFERED`, it gives them sorted, `y` first. The session of the field `name`
with the key `-size` and the layout flag alone is buffered, and its rows get no sort
array. -/
theorem sort_iff_caller_buffered_witness :
    sample_flag_lines 0x20 = some ["x y z".toList, "10 30 10".toList] ∧
      sample_flag_lines 0x22 = some ["y x z".toList, "30 10 10".toList] ∧
      sample_by_rows.flags &&& sample_h.DM_REPORT_OUTPUT_BUFFERED ≠ 0 ∧
      sample_by_rows.keys_count = 1 ∧
      (sample_by_rows.flags &&& RH_SORT_REQUIRED ≠ 0 ↔
        0x20 &&& sample_h.DM_REPORT_OUTPUT_BUFFERED ≠ 0) ∧
      (new_row sample_by_rows).sort_fields = none := by
  have hinit : dm_report_init sample_h (some 1) sample_types sample_fields "name".toList
      " ".toList 0x20 (some "-size".toList) 0 = some (some sample_rows_start) :=
    join_some_get _
  have hsess : session sample_h stable_qsort sample_rows_start sample_by_rows :=
    report_objects_session [16] _ _ session.start rfl
  have h := sort_iff_caller_buffered sample_h stable_qsort (some 1) sample_types sample_fields
    "name".toList " ".toList 0x20 (some "-size".toList) 0 sample_rows_start sample_by_rows
    (by decide) (by decide) (by decide) (by decide) (by decide) (by decide) (by decide)
    (by decide) hinit hsess
  exact ⟨by decide, by decide, by decide, by decide, h.1, (h.2.2 (by decide)).2.2.1⟩

end DmReport
